import Mathlib

/-!
# Neutron engine: shallow embedding and verified properties

Two engines of the repository are embedded here.

* `neutron_rl` embeds `src/native/rl/src/game_state.cpp` (the RL game state:
  action encoding, slide generator, action application, terminal rules, tensor
  encoding), `src/native/rl/src/mcts.cpp` (the Monte Carlo tree search) and
  `src/native/rl/src/agent.cpp` (difficulty presets and the guards of
  `get_move`).
* `classic` embeds `src/native/src/Board.cpp`, `gameutils.cpp` and
  `minimax.cpp` (the classic board, full-move generator and alpha-beta search).

Conventions of the embedding.

* C++ `int` values are `Int`; `/` and `%` on `int` are `Int.tdiv` and
  `Int.tmod` (truncation towards zero).  On the inputs the properties are
  about, no arithmetic leaves the 32-bit range, so no wrap-around is modelled.
* `std::array<T, 25>` is `Fin 25 → T`.  Reading or writing at an index outside
  `[0, 25)` is undefined behaviour in C++; the accessors below read `0` and
  write nothing there, and every property proved is about in-range accesses.
* A thrown exception, a null-pointer dereference and an exhausted loop budget
  are `none`; in `NeutronAgent.get_move` a thrown `std::runtime_error` is
  `Except.error` with its message.
* `float` values are an abstract type with the operations of `FloatOps`; the
  nodes of a search tree live in a list and are addressed by index.  Visit
  counts never exceed the number of simulations, itself an `int`.
* A `std::unordered_map` is the list of its entries in iteration order; the
  properties about it hold for every order.
-/

set_option autoImplicit false

namespace neutron_rl

/-- Enum `Phase` of `game_state.hpp`. -/
inductive Phase where
  | MoveNeutron
  | MovePawn
  deriving DecidableEq

/-- Enum `Piece` of `game_state.hpp`, as the `int8_t` values stored in the board. -/
abbrev Piece := Int

/-- Value `Piece::Empty`. -/
abbrev Piece.Empty : Piece := 0

/-- Value `Piece::Player1Pawn`. -/
abbrev Piece.Player1Pawn : Piece := 1

/-- Value `Piece::Player2Pawn`. -/
abbrev Piece.Player2Pawn : Piece := 2

/-- Value `Piece::Neutron`. -/
abbrev Piece.Neutron : Piece := 3

/-- Read of a `std::array<int8_t, 25>` at a C++ `int` index. -/
def arrGet (board : Fin 25 → Int) (i : Int) : Int :=
  if h : 0 ≤ i ∧ i < 25 then board ⟨i.toNat, by omega⟩ else 0

/-- Write of a `std::array<int8_t, 25>` at a C++ `int` index. -/
def arrSet (board : Fin 25 → Int) (i : Int) (v : Int) : Fin 25 → Int :=
  fun j => if (j.val : Int) = i then v else board j

/-- Board literal from a list of 25 values (missing cells read `0`). -/
def boardOfList (l : List Int) : Fin 25 → Int :=
  fun i => l.getD i.val 0

/-- Class `GameState` of `game_state.hpp`: the three private members. -/
structure GameState where
  board_ : Fin 25 → Int
  current_player_ : Int
  phase_ : Phase

namespace GameState

/-- Constant `kBoardSize`. -/
abbrev kBoardSize : Int := 5

/-- Constant `kNumCells`. -/
abbrev kNumCells : Int := 25

/-- Constant `kNumDirections`. -/
abbrev kNumDirections : Int := 8

/-- Constant `kActionSize`. -/
abbrev kActionSize : Int := 800

/-- Table `kDirectionDeltas` (row, col) indexed by direction; an index outside
`[0, 8)` is an out-of-range read in C++ and yields `(0, 0)` here. -/
def kDirectionDeltas : Int → Int × Int
  | 0 => (-1, 0)
  | 1 => (-1, 1)
  | 2 => (0, 1)
  | 3 => (1, 1)
  | 4 => (1, 0)
  | 5 => (1, -1)
  | 6 => (0, -1)
  | 7 => (-1, -1)
  | _ => (0, 0)

/-- Initial state built by `GameState::GameState()`. -/
def initial : GameState :=
  { board_ := fun i =>
      if i.val < 5 then Piece.Player2Pawn
      else if i.val = 12 then Piece.Neutron
      else if 20 ≤ i.val then Piece.Player1Pawn
      else Piece.Empty
    current_player_ := 1
    phase_ := Phase.MoveNeutron }

/-- Function `GameState::cell_to_rowcol`. -/
def cell_to_rowcol (cell : Int) : Int × Int :=
  (cell.tdiv kBoardSize, cell.tmod kBoardSize)

/-- Function `GameState::rowcol_to_cell`. -/
def rowcol_to_cell (row col : Int) : Int :=
  row * kBoardSize + col

/-- Function `GameState::decode_action`. -/
def decode_action (action : Int) : Int × Int × Int :=
  let cell := action.tdiv 32
  let remainder := action.tmod 32
  let direction := remainder.tdiv 4
  let distance := remainder.tmod 4 + 1
  (cell, direction, distance)

/-- Function `GameState::encode_action`. -/
def encode_action (cell direction distance : Int) : Int :=
  cell * 32 + direction * 4 + (distance - 1)

/-- Function `GameState::get_piece`. -/
def get_piece (s : GameState) (cell : Int) : Piece :=
  arrGet s.board_ cell

/-- Function `GameState::find_neutron`: first cell holding the neutron, `-1` if none. -/
def find_neutron (s : GameState) : Int :=
  match (List.finRange 25).find? (fun i => decide (s.board_ i = Piece.Neutron)) with
  | some i => (i.val : Int)
  | none => -1

/-- The `while` loop of `GameState::max_slide_distance`, with a budget of loop
tests; `none` when the budget is exhausted before the loop exits. -/
def slide_loop (board : Fin 25 → Int) (dr dc : Int) : Nat → Int → Int → Int → Option Int
  | 0, _, _, _ => none
  | fuel + 1, new_row, new_col, distance =>
    if new_row ≥ 0 ∧ new_row < kBoardSize ∧ new_col ≥ 0 ∧ new_col < kBoardSize then
      if arrGet board (rowcol_to_cell new_row new_col) ≠ Piece.Empty then
        some distance
      else
        slide_loop board dr dc fuel (new_row + dr) (new_col + dc) (distance + 1)
    else
      some distance

/-- Number of loop tests granted to `slide_loop`: a slide crosses at most five
on-board cells, so the sixth test always fails (`slide_loop_terminates`). -/
abbrev slideFuel : Nat := 6

/-- Function `GameState::max_slide_distance`, with the loop budget explicit. -/
def max_slide_distance_fuel (s : GameState) (fuel : Nat) (cell direction : Int) : Option Int :=
  let rc := cell_to_rowcol cell
  let d := kDirectionDeltas direction
  slide_loop s.board_ d.1 d.2 fuel (rc.1 + d.1) (rc.2 + d.2) 0

/-- Function `GameState::max_slide_distance`. -/
def max_slide_distance (s : GameState) (cell direction : Int) : Int :=
  (max_slide_distance_fuel s slideFuel cell direction).getD 0

/-- The direction loop `for (dir = 0; dir < kNumDirections; ++dir)`. -/
def directionRange : List Int := [0, 1, 2, 3, 4, 5, 6, 7]

/-- The inner loop shared by both branches of `get_legal_actions`: for each
direction, push the full-slide action when the slide is non-empty. -/
def slide_actions (s : GameState) (cell : Int) : List Int :=
  directionRange.filterMap fun dir =>
    let max_dist := s.max_slide_distance cell dir
    if max_dist > 0 then some (encode_action cell dir max_dist) else none

/-- Function `GameState::get_legal_actions`. -/
def get_legal_actions (s : GameState) : List Int :=
  if s.phase_ = Phase.MoveNeutron then
    let neutron_cell := s.find_neutron
    s.slide_actions neutron_cell
  else
    let my_pawn : Piece := if s.current_player_ = 1 then Piece.Player1Pawn else Piece.Player2Pawn
    (List.finRange 25).flatMap fun cell =>
      if s.board_ cell = my_pawn then s.slide_actions (cell.val : Int) else []

/-- Function `GameState::apply_action`; `none` is the thrown `std::invalid_argument`. -/
def apply_action (s : GameState) (action : Int) : Option GameState :=
  let (cell, direction, distance) := decode_action action
  let (row, col) := cell_to_rowcol cell
  let (dr, dc) := kDirectionDeltas direction
  let new_row := row + dr * distance
  let new_col := col + dc * distance
  if new_row < 0 ∨ new_row ≥ kBoardSize ∨ new_col < 0 ∨ new_col ≥ kBoardSize then
    none
  else
    let new_cell := rowcol_to_cell new_row new_col
    let board1 := arrSet s.board_ new_cell (arrGet s.board_ cell)
    let board2 := arrSet board1 cell Piece.Empty
    if s.phase_ = Phase.MoveNeutron then
      some { board_ := board2, current_player_ := s.current_player_, phase_ := Phase.MovePawn }
    else
      some { board_ := board2
             current_player_ := if s.current_player_ = 1 then 2 else 1
             phase_ := Phase.MoveNeutron }

/-- Origin cell of an action, as decoded on the first line of `apply_action`. -/
def action_origin (action : Int) : Int :=
  (decode_action action).1

/-- Destination `(new_row, new_col)` of an action, as computed by `apply_action`
before its bounds test. -/
def action_destination (action : Int) : Int × Int :=
  let (cell, direction, distance) := decode_action action
  let (row, col) := cell_to_rowcol cell
  let (dr, dc) := kDirectionDeltas direction
  (row + dr * distance, col + dc * distance)

/-- Function `GameState::is_terminal`. -/
def is_terminal (s : GameState) : Bool :=
  let neutron_cell := s.find_neutron
  if neutron_cell < 0 then true
  else
    let row := neutron_cell.tdiv kBoardSize
    if row = kBoardSize - 1 then true
    else if row = 0 then true
    else s.get_legal_actions.isEmpty

/-- Function `GameState::get_winner`; `none` is `std::nullopt`. -/
def get_winner (s : GameState) : Option Int :=
  if !s.is_terminal then none
  else
    let neutron_cell := s.find_neutron
    if neutron_cell < 0 then none
    else
      let row := neutron_cell.tdiv kBoardSize
      if row = 0 then some 2
      else if row = kBoardSize - 1 then some 1
      else some (if s.current_player_ = 1 then 2 else 1)

/-- Table `kDirectionFlip` of `flip_action`; `0` outside `[0, 8)`. -/
def kDirectionFlip : Int → Int
  | 0 => 4
  | 1 => 3
  | 2 => 2
  | 3 => 1
  | 4 => 0
  | 5 => 7
  | 6 => 6
  | 7 => 5
  | _ => 0

/-- Function `GameState::flip_action`. -/
def flip_action (action : Int) : Int :=
  let (cell, direction, distance) := decode_action action
  let (row, col) := cell_to_rowcol cell
  let flipped_cell := rowcol_to_cell (kBoardSize - 1 - row) col
  let flipped_direction := kDirectionFlip direction
  encode_action flipped_cell flipped_direction distance

/-- State used as C4 and C6 witness: the neutron stands on cell 2 (row 0), the
pawn of player 2 that started there stands on cell 7; pawn phase, player 1. -/
def neutronOnRow0 : GameState :=
  { board_ := boardOfList [2, 2, 3, 2, 2, 0, 0, 2, 0, 0, 0, 0, 0, 0, 0, 0, 0, 0, 0, 0, 1, 1, 1, 1, 1]
    current_player_ := 1
    phase_ := Phase.MovePawn }

/-- Second state used as C4 witness: the neutron stands on cell 22 (row 4). -/
def neutronOnRow4 : GameState :=
  { board_ := boardOfList [2, 2, 2, 2, 2, 0, 0, 0, 0, 0, 0, 0, 0, 0, 0, 0, 0, 1, 0, 0, 1, 1, 3, 1, 1]
    current_player_ := 2
    phase_ := Phase.MoveNeutron }

/-- State used as C5 witness: the neutron on the centre cell with all eight
neighbours occupied, neutron phase. -/
def neutronBlocked : GameState :=
  { board_ := boardOfList [0, 0, 0, 0, 0, 0, 1, 2, 1, 0, 0, 2, 3, 2, 0, 0, 1, 2, 1, 0, 0, 0, 0, 0, 0]
    current_player_ := 1
    phase_ := Phase.MoveNeutron }

end GameState

/-! ## Monte Carlo tree search (`src/native/rl/src/mcts.cpp`) -/

/-- The `float` operations used by `GameState::encode` and `mcts.cpp`, kept
abstract: `negInf` is `-std::numeric_limits<float>::infinity()`, `ofInt` is
`static_cast<float>` of an `int`, `gt` is `operator>`, `max` is `std::max`. -/
structure FloatOps (V : Type) where
  zero : V
  one : V
  negInf : V
  neg : V → V
  add : V → V → V
  sub : V → V → V
  mul : V → V → V
  div : V → V → V
  sqrt : V → V
  exp : V → V
  max : V → V → V
  ofInt : Int → V
  gt : V → V → Bool

namespace GameState

/-- Function `GameState::encode`: the tensor starts as 100 zeros, the loop over
the cells writes `1.0f` into the first three planes, the last loop fills the
phase plane. -/
def encode {V : Type} (F : FloatOps V) (s : GameState) : List V :=
  let my_pawn : Piece := if s.current_player_ = 1 then Piece.Player1Pawn else Piece.Player2Pawn
  let opp_pawn : Piece := if s.current_player_ = 1 then Piece.Player2Pawn else Piece.Player1Pawn
  let tensor1 := (List.range 25).foldl (fun (tensor : List V) (c : Nat) =>
    let cell : Int := c
    let row := cell.tdiv kBoardSize
    let col := cell.tmod kBoardSize
    let piece := s.get_piece cell
    let encoded_row := if s.current_player_ = 1 then row else kBoardSize - 1 - row
    let encoded_cell := encoded_row * kBoardSize + col
    let t1 := if piece = my_pawn then tensor.set encoded_cell.toNat F.one else tensor
    let t2 := if piece = opp_pawn then t1.set (kNumCells + encoded_cell).toNat F.one else t1
    if piece = Piece.Neutron then t2.set (2 * kNumCells + encoded_cell).toNat F.one else t2)
    (List.replicate 100 F.zero)
  if s.phase_ = Phase.MoveNeutron then
    (List.range 25).foldl (fun (tensor : List V) (i : Nat) =>
      tensor.set (3 * kNumCells + (i : Int)).toNat F.one) tensor1
  else tensor1

/-- Function `GameState::flip_policy`; a read past the end of `policy` gives `zero`. -/
def flip_policy {V : Type} (zero : V) (policy : List V) : List V :=
  (List.range 800).foldl (fun (flipped : List V) (a : Nat) =>
    flipped.set (flip_action (a : Int)).toNat (policy.getD a zero))
    (List.replicate 800 zero)

/-- Iteration `c` of the first loop of `GameState::encode` writes `1.0f` at
index `j` of the tensor. -/
def encode_writes (s : GameState) (c j : Nat) : Prop :=
  let my_pawn : Piece := if s.current_player_ = 1 then Piece.Player1Pawn else Piece.Player2Pawn
  let opp_pawn : Piece := if s.current_player_ = 1 then Piece.Player2Pawn else Piece.Player1Pawn
  let cell : Int := c
  let row := cell.tdiv kBoardSize
  let col := cell.tmod kBoardSize
  let piece := s.get_piece cell
  let encoded_row := if s.current_player_ = 1 then row else kBoardSize - 1 - row
  let encoded_cell := encoded_row * kBoardSize + col
  (piece = my_pawn ∧ j = encoded_cell.toNat) ∨
  (piece = opp_pawn ∧ j = (kNumCells + encoded_cell).toNat) ∨
  (piece = Piece.Neutron ∧ j = (2 * kNumCells + encoded_cell).toNat)

/-- Exchange of the two pawn values; the neutron and the empty cell are kept. -/
def swap_pawn (piece : Piece) : Piece :=
  if piece = Piece.Player1Pawn then Piece.Player2Pawn
  else if piece = Piece.Player2Pawn then Piece.Player1Pawn
  else piece

/-- The mirrored state of the perspective symmetry: rows reversed (row `r`
becomes `4 - r`), the pawns of the two players exchanged, the other player to
move, the same phase. -/
def mirror (s : GameState) : GameState :=
  { board_ := fun i =>
      swap_pawn (s.board_ ⟨(4 - i.val / 5) * 5 + i.val % 5, by omega⟩)
    current_player_ := 3 - s.current_player_
    phase_ := s.phase_ }

/-- Spec wording of "the cell `k` steps from the origin `cell` in direction
`dir` is on the board and empty"; the origin is on row `cell / 5`, column
`cell % 5`. -/
def emptyAt (s : GameState) (cell dir : Int) (k : Nat) : Bool :=
  decide (0 ≤ cell / 5 + k * (kDirectionDeltas dir).1 ∧
    cell / 5 + k * (kDirectionDeltas dir).1 < 5 ∧
    0 ≤ cell % 5 + k * (kDirectionDeltas dir).2 ∧
    cell % 5 + k * (kDirectionDeltas dir).2 < 5) &&
  s.get_piece ((cell / 5 + k * (kDirectionDeltas dir).1) * 5 +
    (cell % 5 + k * (kDirectionDeltas dir).2)) == Piece.Empty

/-- Spec wording of "the number of consecutive empty cells from the origin in
direction `dir` before the board edge or an occupied cell": the cells 1, 2, 3,
4 steps away are taken while they are on the board and empty. -/
def emptyRun (s : GameState) (cell dir : Int) : Int :=
  (((List.range 4).takeWhile fun n => emptyAt s cell dir (n + 1)).length : Nat)

/-- Spec wording of "the piece that must move": the neutron in phase
`MoveNeutron`, a pawn of the current player in phase `MovePawn`. -/
def mustMove (s : GameState) : Piece :=
  match s.phase_ with
  | Phase.MoveNeutron => Piece.Neutron
  | Phase.MovePawn => if s.current_player_ = 1 then Piece.Player1Pawn else Piece.Player2Pawn

/-- Number of board cells holding `piece`. -/
def countPiece (s : GameState) (piece : Piece) : Nat :=
  (List.finRange 25).countP fun i => decide (s.board_ i = piece)

/-- States reachable from the initial state by legal actions. -/
inductive Reachable : GameState → Prop
  | initial : Reachable GameState.initial
  | step (s s' : GameState) (a : Int) : Reachable s → a ∈ s.get_legal_actions →
      s.apply_action a = some s' → Reachable s'

end GameState

/-- Struct `MCTSConfig` of `mcts.hpp`. -/
structure MCTSConfig (V : Type) where
  num_simulations : Int
  c_puct : V
  temperature : V
  dirichlet_alpha : V
  dirichlet_epsilon : V

/-- Struct `InferenceResult` of `model_loader.hpp`. -/
structure InferenceResult (V : Type) where
  policy_logits : List V
  value : V

/-- Class `MCTSNode` of `mcts.hpp`. The nodes of one search tree live in a list
(in order of creation, the root first); a node pointer is an index into that
list, `none` is `nullptr`, and `children_` holds the indices of the owned
children. -/
structure MCTSNode (V : Type) where
  state_ : GameState
  prior_ : V
  parent_ : Option Nat
  action_ : Int
  children_ : List Nat
  visit_count_ : Int
  value_sum_ : V

namespace MCTSNode

/-- Method `MCTSNode::is_leaf`. -/
def is_leaf {V : Type} (n : MCTSNode V) : Bool :=
  n.children_.isEmpty && !n.state_.is_terminal

/-- Method `MCTSNode::is_terminal`. -/
def is_terminal {V : Type} (n : MCTSNode V) : Bool :=
  n.state_.is_terminal

/-- Method `MCTSNode::q_value`. -/
def q_value {V : Type} (F : FloatOps V) (n : MCTSNode V) : V :=
  if n.visit_count_ = 0 then F.zero else F.div n.value_sum_ (F.ofInt n.visit_count_)

/-- The `for` loop of `MCTSNode::select_child` over the remaining children, with
the locals `best_score` and `best_child`. An index that names no node of the
list is skipped. -/
def select_child_loop {V : Type} (F : FloatOps V) (arena : List (MCTSNode V))
    (node : MCTSNode V) (c_puct sqrt_parent_visits : V) : List Nat → V → Option Nat → Option Nat
  | [], _, best_child => best_child
  | c :: rest, best_score, best_child =>
    match arena[c]? with
    | none => select_child_loop F arena node c_puct sqrt_parent_visits rest best_score best_child
    | some child =>
      let q := if child.state_.current_player_ ≠ node.state_.current_player_
        then F.neg (q_value F child) else q_value F child
      let u := F.div (F.mul (F.mul c_puct child.prior_) sqrt_parent_visits)
        (F.add F.one (F.ofInt child.visit_count_))
      let score := F.add q u
      if F.gt score best_score then
        select_child_loop F arena node c_puct sqrt_parent_visits rest score (some c)
      else
        select_child_loop F arena node c_puct sqrt_parent_visits rest best_score best_child

/-- Method `MCTSNode::select_child`; `none` is the returned `nullptr`. -/
def select_child {V : Type} (F : FloatOps V) (arena : List (MCTSNode V))
    (node : MCTSNode V) (c_puct : V) : Option Nat :=
  select_child_loop F arena node c_puct (F.sqrt (F.ofInt node.visit_count_))
    node.children_ F.negInf none

/-- The last loop of `MCTSNode::expand`: one child per legal action, in order;
`none` is the exception of `apply_action`. -/
def expand_children {V : Type} (F : FloatOps V) (state : GameState) (this : Nat) (sum_exp : V) :
    List Int → List V → Option (List (MCTSNode V))
  | action :: actions, p :: probs =>
    match state.apply_action action with
    | none => none
    | some child_state =>
      match expand_children F state this sum_exp actions probs with
      | none => none
      | some rest =>
        some ({ state_ := child_state, prior_ := F.div p sum_exp, parent_ := some this,
                action_ := action, children_ := [], visit_count_ := 0,
                value_sum_ := F.zero } :: rest)
  | _, _ => some []

/-- Method `MCTSNode::expand` on the node at index `this`: the new children are
appended to the list of nodes and their indices to `children_`. A logit read
past the end of `policy_logits` gives `zero`. -/
def expand {V : Type} (F : FloatOps V) (arena : List (MCTSNode V)) (this : Nat)
    (policy_logits : List V) : Option (List (MCTSNode V)) :=
  match arena[this]? with
  | none => none
  | some node =>
    let legal_actions := node.state_.get_legal_actions
    if legal_actions.isEmpty then some arena
    else
      let logit := fun (action : Int) => policy_logits.getD action.toNat F.zero
      let max_logit := legal_actions.foldl (fun m action => F.max m (logit action)) F.negInf
      let probs := legal_actions.map fun action => F.exp (F.sub (logit action) max_logit)
      let sum_exp := probs.foldl F.add F.zero
      match expand_children F node.state_ this sum_exp legal_actions probs with
      | none => none
      | some children =>
        some ((arena ++ children).set this
          { node with children_ := node.children_ ++
              (List.range children.length).map fun k => arena.length + k })

/-- The `while (node != nullptr)` loop of `MCTSNode::backpropagate`, with a
budget of iterations (`none` when it runs out or a pointer names no node). -/
def backpropagate_loop {V : Type} (F : FloatOps V) :
    Nat → List (MCTSNode V) → Option Nat → V → Option (List (MCTSNode V))
  | _, arena, none, _ => some arena
  | 0, _, some _, _ => none
  | fuel + 1, arena, some i, current_value =>
    match arena[i]? with
    | none => none
    | some node =>
      let arena1 := arena.set i
        { node with visit_count_ := node.visit_count_ + 1
                    value_sum_ := F.add node.value_sum_ current_value }
      match node.parent_ with
      | none => backpropagate_loop F fuel arena1 none current_value
      | some p =>
        match arena1[p]? with
        | none => none
        | some parent =>
          backpropagate_loop F fuel arena1 (some p)
            (if node.state_.current_player_ ≠ parent.state_.current_player_
              then F.neg current_value else current_value)

/-- Method `MCTSNode::backpropagate` on the node at index `this`. The budget is
one iteration per node of the list. -/
def backpropagate {V : Type} (F : FloatOps V) (arena : List (MCTSNode V)) (this : Nat)
    (value : V) : Option (List (MCTSNode V)) :=
  backpropagate_loop F arena.length arena (some this) value

end MCTSNode

namespace MCTS

/-- The selection loop of `MCTS::simulate`: the index of the node on which it
stops; `none` when `select_child` gave `nullptr` or the budget ran out. -/
def select_loop {V : Type} (F : FloatOps V) (c_puct : V) (arena : List (MCTSNode V)) :
    Nat → Nat → Option Nat
  | 0, _ => none
  | fuel + 1, i =>
    match arena[i]? with
    | none => none
    | some node =>
      if !node.is_leaf && !node.is_terminal then
        match node.select_child F arena c_puct with
        | none => none
        | some c => select_loop F c_puct arena fuel c
      else some i

/-- Method `MCTS::simulate`; `infer` is `ModelLoader::infer`. -/
def simulate {V : Type} (F : FloatOps V) (infer : List V → InferenceResult V)
    (config : MCTSConfig V) (arena : List (MCTSNode V)) (root : Nat) :
    Option (List (MCTSNode V)) :=
  match select_loop F config.c_puct arena arena.length root with
  | none => none
  | some i =>
    match arena[i]? with
    | none => none
    | some node =>
      if node.is_terminal then
        let value := match node.state_.get_winner with
          | some winner => if winner = node.state_.current_player_ then F.one else F.neg F.one
          | none => F.zero
        MCTSNode.backpropagate F arena i value
      else
        let tensor := node.state_.encode F
        let result := infer tensor
        let policy := if node.state_.current_player_ = 2
          then GameState.flip_policy F.zero result.policy_logits else result.policy_logits
        match MCTSNode.expand F arena i policy with
        | none => none
        | some arena1 => MCTSNode.backpropagate F arena1 i result.value

/-- The loop `for (int i = 0; i < config_.num_simulations; ++i) simulate(&root)`. -/
def run_simulations {V : Type} (F : FloatOps V) (infer : List V → InferenceResult V)
    (config : MCTSConfig V) : Nat → List (MCTSNode V) → Option (List (MCTSNode V))
  | 0, arena => some arena
  | k + 1, arena =>
    match simulate F infer config arena 0 with
    | none => none
    | some arena1 => run_simulations F infer config k arena1

/-- The common part of `MCTS::search` and `MCTS::search_with_probs`, up to the
call of `root.get_visit_counts()`: the tree after the initial expansion of the
root (index 0) and the simulations. `add_dirichlet_noise` changes nothing. -/
def search_tree {V : Type} (F : FloatOps V) (infer : List V → InferenceResult V)
    (config : MCTSConfig V) (state : GameState) : Option (List (MCTSNode V)) :=
  let root : MCTSNode V :=
    { state_ := state, prior_ := F.one, parent_ := none, action_ := -1, children_ := [],
      visit_count_ := 0, value_sum_ := F.zero }
  let tensor := state.encode F
  let result := infer tensor
  let policy := if state.current_player_ = 2
    then GameState.flip_policy F.zero result.policy_logits else result.policy_logits
  match MCTSNode.expand F [root] 0 policy with
  | none => none
  | some arena => run_simulations F infer config config.num_simulations.toNat arena

end MCTS

/-- Visit count of the node at index `c` (`0` when `c` names no node). -/
def visit_of {V : Type} (arena : List (MCTSNode V)) (c : Nat) : Int :=
  match arena[c]? with
  | some child => child.visit_count_
  | none => 0

/-- Sum of the visit counts of the children of a node, the `total_visits` of
`MCTS::visit_counts_to_probs`. -/
def child_visits {V : Type} (arena : List (MCTSNode V)) (node : MCTSNode V) : Int :=
  (node.children_.map (visit_of arena)).sum

/-- The parent links of a node list lead to earlier nodes. -/
def ParentsFirst {V : Type} (arena : List (MCTSNode V)) : Prop :=
  ∀ (i : Nat) (n : MCTSNode V), arena[i]? = some n → ∀ p, n.parent_ = some p → p < i

/-- Relation between a node list and a later version of it in which only the
visit counts and accumulated values may differ. -/
def SameShape {V : Type} (arena arena1 : List (MCTSNode V)) : Prop :=
  arena1.length = arena.length ∧
  ∀ (i : Nat) (n : MCTSNode V), arena[i]? = some n →
    ∃ n1, arena1[i]? = some n1 ∧ n1.state_ = n.state_ ∧ n1.parent_ = n.parent_ ∧
      n1.children_ = n.children_

/-- Relation `OnPath arena l a`: node `a` is on the path from node `l` to the
root, following the parent links. -/
inductive OnPath {V : Type} (arena : List (MCTSNode V)) : Nat → Nat → Prop
  | self (i : Nat) : OnPath arena i i
  | step (i p a : Nat) (n : MCTSNode V) :
      arena[i]? = some n → n.parent_ = some p → OnPath arena p a → OnPath arena i a

/-- Integer stand-in for the `float` operations, used to run the search on
concrete inputs: exact integer arithmetic, `exp` constant. -/
def intOps : FloatOps Int :=
  { zero := 0
    one := 1
    negInf := -1000000
    neg := fun x => -x
    add := fun x y => x + y
    sub := fun x y => x - y
    mul := fun x y => x * y
    div := fun x y => x / y
    sqrt := fun x => (Nat.sqrt x.toNat : Int)
    exp := fun _ => 1
    max := fun x y => if x < y then y else x
    ofInt := fun n => n
    gt := fun x y => decide (x > y) }

/-- Inference function used on concrete inputs: all logits `0`, value `1`. -/
def constInfer : List Int → InferenceResult Int :=
  fun _ => { policy_logits := List.replicate 800 0, value := 1 }

/-- Configuration used on concrete inputs: two simulations. -/
def twoSimulations : MCTSConfig Int :=
  { num_simulations := 2, c_puct := 2, temperature := 0, dirichlet_alpha := 0,
    dirichlet_epsilon := 0 }

/-- Tree used as C18 witness: the root (player 1 to move the neutron), its
child (player 1 to move a pawn) and a grandchild (player 2 to move). -/
def threeNodes : List (MCTSNode Int) :=
  [ { state_ := GameState.initial, prior_ := 1, parent_ := none, action_ := -1,
      children_ := [1], visit_count_ := 1, value_sum_ := 0 },
    { state_ := { GameState.initial with phase_ := Phase.MovePawn }, prior_ := 1,
      parent_ := some 0, action_ := 384, children_ := [2], visit_count_ := 1, value_sum_ := 0 },
    { state_ := { GameState.initial with current_player_ := 2 }, prior_ := 1,
      parent_ := some 1, action_ := 0, children_ := [], visit_count_ := 0, value_sum_ := 0 } ]

namespace MCTS

/-- Method `MCTS::select_action`. The `std::unordered_map` is given as the list
of its entries `(action, visits)` in iteration order; `temperature_is_zero` is
the outcome of the test `config_.temperature == 0.0f`, and `sampled` is the
action drawn by the temperature sampling of the other branch. -/
def select_action (temperature_is_zero : Bool) (sampled : Int)
    (visit_counts : List (Int × Int)) : Int :=
  if temperature_is_zero then
    (visit_counts.foldl (fun (best : Int × Int) (entry : Int × Int) =>
      if entry.2 > best.2 then (entry.1, entry.2) else best) ((-1 : Int), (-1 : Int))).1
  else sampled

/-- The `operator<` of `std::pair<int, float>` (`a < b` on floats is `b > a`). -/
def pair_lt {V : Type} (F : FloatOps V) (a b : Int × V) : Bool :=
  decide (a.1 < b.1) || (!decide (b.1 < a.1) && F.gt b.2 a.2)

/-- The call `std::sort(probs.begin(), probs.end())`, as an insertion sort with
`pair_lt`: an element goes before the first one that is not less than it. The
actions are the keys of a map, hence pairwise distinct, and on such pairs the
result of a sort does not depend on the algorithm. -/
def sort_pairs {V : Type} (F : FloatOps V) (probs : List (Int × V)) : List (Int × V) :=
  probs.insertionSort (fun a b => pair_lt F b a = false)

/-- Method `MCTS::visit_counts_to_probs`; the map is given as the list of its
entries in iteration order. -/
def visit_counts_to_probs {V : Type} (F : FloatOps V) (visit_counts : List (Int × Int)) :
    List (Int × V) :=
  let total_visits := visit_counts.foldl (fun (total : Int) (entry : Int × Int) =>
    total + entry.2) 0
  let probs := visit_counts.map fun (entry : Int × Int) =>
    (entry.1, F.div (F.ofInt entry.2) (F.ofInt total_visits))
  sort_pairs F probs

end MCTS

/-- Enum `Difficulty` of `agent.hpp`. -/
inductive Difficulty where
  | Easy
  | Medium
  | Hard
  deriving DecidableEq

/-- Struct `DifficultyConfig` of `agent.hpp`. -/
structure DifficultyConfig (V : Type) where
  simulations : Int
  temperature : V

/-- Function `DifficultyConfig::from_preset`; `lit q` is the `float` written as
the decimal literal `q` in the source. -/
def DifficultyConfig.from_preset {V : Type} (lit : Rat → V) :
    Difficulty → DifficultyConfig V
  | Difficulty.Easy => { simulations := 100, temperature := lit 0.5 }
  | Difficulty.Medium => { simulations := 300, temperature := lit 0.2 }
  | Difficulty.Hard => { simulations := 800, temperature := lit 0.0 }

/-- Function `DifficultyConfig::from_simulations`. -/
def DifficultyConfig.from_simulations {V : Type} (simulations : Int) (temperature : V) :
    DifficultyConfig V :=
  { simulations := simulations, temperature := temperature }

/-- Class `ModelLoader` of `model_loader.hpp`: the member read by `is_loaded`. -/
structure ModelLoader where
  loaded_ : Bool

/-- Class `NeutronAgent` of `agent.hpp`. A `std::unique_ptr` is an `Option`;
of the `MCTS` object behind `mcts_` only its `config_` is kept. -/
structure NeutronAgent (V : Type) where
  model_loader_ : Option ModelLoader
  mcts_ : Option (MCTSConfig V)
  difficulty_config_ : DifficultyConfig V
  error_message_ : String

namespace NeutronAgent

/-- Method `NeutronAgent::is_ready`. -/
def is_ready {V : Type} (agent : NeutronAgent V) : Bool :=
  match agent.model_loader_ with
  | none => false
  | some model_loader => model_loader.loaded_ && agent.mcts_.isSome

/-- The two setter calls `mcts_->set_num_simulations` and
`mcts_->set_temperature`, made when `mcts_` is not null. -/
def update_mcts {V : Type} (agent : NeutronAgent V) : NeutronAgent V :=
  match agent.mcts_ with
  | none => agent
  | some config =>
    { agent with mcts_ := some { config with
        num_simulations := agent.difficulty_config_.simulations
        temperature := agent.difficulty_config_.temperature } }

/-- Method `NeutronAgent::set_difficulty(Difficulty)`. -/
def set_difficulty {V : Type} (lit : Rat → V) (agent : NeutronAgent V)
    (difficulty : Difficulty) : NeutronAgent V :=
  update_mcts { agent with difficulty_config_ := DifficultyConfig.from_preset lit difficulty }

/-- Method `NeutronAgent::set_difficulty(int, float)`. -/
def set_difficulty_simulations {V : Type} (agent : NeutronAgent V) (simulations : Int)
    (temperature : V) : NeutronAgent V :=
  update_mcts { agent with
    difficulty_config_ := DifficultyConfig.from_simulations simulations temperature }

/-- The call `std::transform(..., std::tolower)` of `set_difficulty`, character
by character; `std::tolower` is taken in the "C" locale, where it changes the
letters `A`..`Z` only. -/
def lower_case (name : String) : String :=
  String.mk (name.data.map Char.toLower)

/-- Method `NeutronAgent::set_difficulty(const std::string&)`: the returned
`bool` and the agent after the call. -/
def set_difficulty_name {V : Type} (lit : Rat → V) (agent : NeutronAgent V)
    (difficulty_name : String) : Bool × NeutronAgent V :=
  let lower_name := lower_case difficulty_name
  if lower_name = "easy" then
    (true, set_difficulty lit agent Difficulty.Easy)
  else if lower_name = "medium" then
    (true, set_difficulty lit agent Difficulty.Medium)
  else if lower_name = "hard" then
    (true, set_difficulty lit agent Difficulty.Hard)
  else
    (false, { agent with error_message_ := "Unknown difficulty: " ++ difficulty_name })

/-- Method `NeutronAgent::get_difficulty_config`. -/
def get_difficulty_config {V : Type} (agent : NeutronAgent V) : DifficultyConfig V :=
  agent.difficulty_config_

/-- Method `NeutronAgent::get_move(const GameState&)`. A thrown
`std::runtime_error` is `Except.error` with its message; `search config state`
is `mcts_->search(state)` on the MCTS object whose configuration is `config`.
The last case, a null `mcts_`, is excluded by `is_ready`. -/
def get_move {V : Type} (search : MCTSConfig V → GameState → Except String Int)
    (agent : NeutronAgent V) (state : GameState) : Except String Int :=
  if !agent.is_ready then
    Except.error "Agent not ready - load a model first"
  else if state.is_terminal then
    Except.error "Cannot get move for terminal state"
  else
    match agent.mcts_ with
    | some config => search config state
    | none => Except.error "null pointer"

end NeutronAgent

/-- Exact rational arithmetic as an instance of the `float` operations, used
to state what holds "over exact arithmetic": `sqrt` and `exp`, which have no
rational value in general, are the identity and are not used with it. -/
def ratOps : FloatOps Rat :=
  { zero := 0
    one := 1
    negInf := -1000000
    neg := fun x => -x
    add := fun x y => x + y
    sub := fun x y => x - y
    mul := fun x y => x * y
    div := fun x y => x / y
    sqrt := fun x => x
    exp := fun x => x
    max := fun x y => if x < y then y else x
    ofInt := fun n => (n : Rat)
    gt := fun x y => decide (x > y) }

/-- Agent used on concrete inputs: model loaded, MCTS created with the
configuration `twoSimulations`, difficulty (2 simulations, temperature 0). -/
def readyAgent : NeutronAgent Int :=
  { model_loader_ := some { loaded_ := true }
    mcts_ := some twoSimulations
    difficulty_config_ := { simulations := 2, temperature := 0 }
    error_message_ := "" }

end neutron_rl

namespace classic

/-- Enum `PieceKind` of `PieceKind.h`, as its underlying `uint8_t` value (the
board bytes are cast to it unchecked, so every byte value can occur). -/
abbrev PieceKind := Nat

/-- Value `PieceKind::BLACK`. -/
abbrev PieceKind.BLACK : PieceKind := 1

/-- Value `PieceKind::WHITE`. -/
abbrev PieceKind.WHITE : PieceKind := 2

/-- Value `PieceKind::NEUTRON`. -/
abbrev PieceKind.NEUTRON : PieceKind := 3

/-- Value `PieceKind::CELL` (an empty square). -/
abbrev PieceKind.CELL : PieceKind := 4

/-- Enum `Direction` of `Direction.h`. -/
inductive Direction where
  | NORTH
  | SOUTH
  | EAST
  | WEST
  | NORTHEAST
  | NORTHWEST
  | SOUTHEAST
  | SOUTHWEST
  deriving DecidableEq

/-- Class `Move` of `Move.h`. -/
structure Move where
  row : Int
  col : Int
  kind : PieceKind
  deriving DecidableEq

/-- Class `FullMove` of `FullMove.h`. -/
structure FullMove where
  moves : List Move
  score : Int
  deriving DecidableEq

/-- Method `FullMove::empty`. -/
def FullMove.empty (fm : FullMove) : Bool :=
  fm.moves.isEmpty

/-- Read of a `std::array<uint8_t, 25>` at a C++ `int` index. -/
def tabGet (table : Fin 25 → Nat) (i : Int) : Nat :=
  if h : 0 ≤ i ∧ i < 25 then table ⟨i.toNat, by omega⟩ else 0

/-- Write of a `std::array<uint8_t, 25>` at a C++ `int` index. -/
def tabSet (table : Fin 25 → Nat) (i : Int) (v : Nat) : Fin 25 → Nat :=
  fun j => if (j.val : Int) = i then v else table j

/-- Class `Board` of `Board.h`: the 25-byte table, column-major. -/
structure Board where
  table : Fin 25 → Nat

/-- Board literal from a list of 25 bytes (missing cells read `0`). -/
def Board.ofList (l : List Nat) : Board :=
  ⟨fun i => l.getD i.val 0⟩

namespace Board

/-- A move whose square is on the 5x5 board. -/
abbrev onBoard (m : Move) : Prop :=
  0 ≤ m.row ∧ m.row < 5 ∧ 0 ≤ m.col ∧ m.col < 5

/-- Table index `col * 5 + row` of the square of a move (column-major). -/
abbrev index (m : Move) : Int :=
  m.col * 5 + m.row

/-- Method `Board::findNeutron`; `none` is `nullptr`. -/
def findNeutron (b : Board) : Option Move :=
  match (List.finRange 25).find? (fun i => decide (b.table i = PieceKind.NEUTRON)) with
  | some index => some ⟨((index.val % 5 : Nat) : Int), ((index.val / 5 : Nat) : Int), PieceKind.NEUTRON⟩
  | none => none

/-- Method `Board::findPieces`. -/
def findPieces (b : Board) (pieceKind : PieceKind) : List Move :=
  (List.finRange 25).filterMap fun index =>
    if b.table index = pieceKind then
      some ⟨((index.val % 5 : Nat) : Int), ((index.val / 5 : Nat) : Int), pieceKind⟩
    else none

/-- Method `Board::getRowMove`. -/
def getRowMove : Direction → Int
  | .NORTH | .NORTHEAST | .NORTHWEST => -1
  | .SOUTH | .SOUTHEAST | .SOUTHWEST => 1
  | _ => 0

/-- Method `Board::getColMove`. -/
def getColMove : Direction → Int
  | .WEST | .NORTHWEST | .SOUTHWEST => -1
  | .EAST | .NORTHEAST | .SOUTHEAST => 1
  | _ => 0

/-- Method `Board::elementAt`. -/
def elementAt (b : Board) (row col : Int) : PieceKind :=
  tabGet b.table (col * 5 + row)

/-- Method `Board::setElementAt`. -/
def setElementAt (b : Board) (row col : Int) (pieceKind : PieceKind) : Board :=
  ⟨tabSet b.table (col * 5 + row) pieceKind⟩

/-- Method `Board::inBounds`. -/
def inBounds (value inc : Int) : Bool :=
  decide (value + inc ≥ 0) && decide (value + inc < 5)

/-- Method `Board::_check`, with a budget of calls; `none` when the budget is
exhausted before the recursion stops. -/
def _check_fuel (b : Board) (incR incC : Int) : Nat → Int → Int → Option Move
  | 0, _, _ => none
  | fuel + 1, row, col =>
    if !inBounds row incR || !inBounds col incC ||
        elementAt b (row + incR) (col + incC) != PieceKind.CELL then
      some ⟨row, col, elementAt b row col⟩
    else
      _check_fuel b incR incC fuel (row + incR) (col + incC)

/-- Number of calls granted to `_check_fuel`: a scan crosses at most five
on-board cells, so the sixth call always stops (`_check_terminates`). -/
abbrev checkFuel : Nat := 6

/-- Method `Board::_check`. -/
def _check (b : Board) (row col incR incC : Int) : Move :=
  (_check_fuel b incR incC checkFuel row col).getD ⟨row, col, elementAt b row col⟩

/-- Method `Board::checkMove`; `none` is `nullptr`. -/
def checkMove (b : Board) (move : Move) (direction : Direction) : Option Move :=
  let tip := b._check move.row move.col (getRowMove direction) (getColMove direction)
  if move.row = tip.row ∧ move.col = tip.col then none
  else some ⟨tip.row, tip.col, move.kind⟩

/-- The array `directions` of `Board::moves`. -/
def directions : List Direction :=
  [.NORTH, .SOUTH, .EAST, .WEST, .NORTHEAST, .NORTHWEST, .SOUTHEAST, .SOUTHWEST]

/-- Method `Board::moves`. -/
def moves (b : Board) (startPoint : Move) : List Move :=
  directions.filterMap fun d => b.checkMove startPoint d

/-- Method `Board::applyMove`. -/
def applyMove (b : Board) (src dst : Move) : Board :=
  let b1 := b.setElementAt dst.row dst.col dst.kind
  if src.col * 5 + src.row ≠ dst.col * 5 + dst.row then
    b1.setElementAt src.row src.col PieceKind.CELL
  else b1

/-- Method `Board::applyFullMove`; `none` is the `std::out_of_range` thrown by
`moves.at`. -/
def applyFullMove (b : Board) (fullMove : FullMove) (apply : Bool) : Option Board := do
  let m1 ← fullMove.moves.get? (if apply then 0 else 3)
  let m2 ← fullMove.moves.get? (if apply then 1 else 2)
  let b1 := b.applyMove m1 m2
  let m3 ← fullMove.moves.get? (if apply then 2 else 1)
  let m4 ← fullMove.moves.get? (if apply then 3 else 0)
  pure (b1.applyMove m3 m4)

/-- The statements of `Board::allMoves` that prune the neutron destinations:
`erase_if` of the opponent-home destinations, then, if a destination on the
player's home row exists, only the first such one is kept. -/
def pruneNeutronMoves (neutronMoves : List Move) (pieceKind : PieceKind) : List Move :=
  let playerHome : Int := if pieceKind = PieceKind.BLACK then 0 else 4
  let opponentHome : Int := if pieceKind = PieceKind.BLACK then 4 else 0
  let kept := neutronMoves.filter fun m => !decide (m.row = opponentHome)
  match kept.find? (fun m => decide (m.row = playerHome)) with
  | some win => [win]
  | none => kept

/-- Body of the inner loops of `Board::allMoves`: one full move per piece and
piece destination, on the board where the neutron has been relocated. -/
def fullMovesFor (b : Board) (neutron neutronMove : Move) (pieces : List Move) : List FullMove :=
  pieces.flatMap fun piece =>
    (b.moves piece).map fun pieceMove =>
      { moves := [⟨neutron.row, neutron.col, neutron.kind⟩,
                  ⟨neutronMove.row, neutronMove.col, neutronMove.kind⟩,
                  ⟨piece.row, piece.col, piece.kind⟩,
                  ⟨pieceMove.row, pieceMove.col, pieceMove.kind⟩]
        score := 0 }

/-- The loop over `neutronMoves` of `Board::allMoves`, threading the board, the
variable `lastNeutron` and the vector `allFullMoves`. -/
def allMoves_loop (neutron : Move) (pieces : List Move) :
    List Move → Board → Move → List FullMove → Board × Move × List FullMove
  | [], b, lastNeutron, allFullMoves => (b, lastNeutron, allFullMoves)
  | neutronMove :: rest, b, lastNeutron, allFullMoves =>
    let b1 := b.applyMove lastNeutron neutron
    let b2 := b1.applyMove neutron neutronMove
    allMoves_loop neutron pieces rest b2 neutronMove
      (allFullMoves ++ fullMovesFor b2 neutron neutronMove pieces)

/-- Method `Board::allMoves`: the generated full moves and the board as the
call leaves it; `none` is the dereference of a null `findNeutron` result. -/
def allMoves (b : Board) (pieceKind : PieceKind) : Option (List FullMove × Board) :=
  match b.findNeutron with
  | none => none
  | some neutron =>
    let neutronMoves := pruneNeutronMoves (b.moves neutron) pieceKind
    let pieces := b.findPieces pieceKind
    let (b', lastNeutron, allFullMoves) := allMoves_loop neutron pieces neutronMoves b neutron []
    some (allFullMoves, b'.applyMove lastNeutron neutron)

end Board

/-- Function `heuristic` of `gameutils.cpp`; `none` is the dereference of a
null `findNeutron` result. -/
def heuristic (board : Board) : Option Int :=
  match board.findNeutron with
  | none => none
  | some neutron =>
    if neutron.row = 4 then some (-32768)
    else if neutron.row = 0 then some 32767
    else
      some ((board.moves neutron).foldl (fun count neutronMove =>
        let count1 := if neutronMove.row = 4 then count + -5000 else count
        if neutronMove.row = 0 then count1 + 1000 else count1) 0)

/-- Constant `std::numeric_limits<int>::min()`. -/
abbrev INT_MIN : Int := -2147483648

/-- Constant `std::numeric_limits<int>::max()`. -/
abbrev INT_MAX : Int := 2147483647

/-- The expression `player == BLACK ? WHITE : BLACK` of `minimax.cpp`. -/
def otherPlayer (player : PieceKind) : PieceKind :=
  if player = PieceKind.BLACK then PieceKind.WHITE else PieceKind.BLACK

/-- Outcome of a search loop: it either left the function through the `return`
inside the loop body, or ran to the end of the move list. -/
inductive LoopResult where
  | returned (fullMove : FullMove) (board : Board)
  | finished (best : FullMove) (board : Board)

/-- The full move carried by a loop outcome. -/
def LoopResult.fullMove : LoopResult → FullMove
  | .returned fullMove _ => fullMove
  | .finished best _ => best

/-- The board carried by a loop outcome. -/
def LoopResult.board : LoopResult → Board
  | .returned _ board => board
  | .finished _ board => board

/-- The first `for` loop of `maxValue`.  `child board alpha beta` is the
recursive call `minValue(board, depth - 1, alpha, beta, other player)`. -/
def maxValue_loop (child : Board → Int → Int → Option (FullMove × Board)) (beta : Int) :
    List FullMove → Board → FullMove → Option LoopResult
  | [], board, maxFullMove => some (.finished maxFullMove board)
  | fullMove :: rest, board, maxFullMove => do
    let board1 ← board.applyFullMove fullMove true
    let (minFullMove, board2) ← child board1 maxFullMove.score beta
    let maxFullMove1 : FullMove :=
      if minFullMove.score > maxFullMove.score then
        { moves := fullMove.moves, score := minFullMove.score }
      else maxFullMove
    let board3 ← board2.applyFullMove fullMove false
    if maxFullMove1.score ≥ beta then
      pure (.returned { moves := fullMove.moves, score := beta } board3)
    else
      maxValue_loop child beta rest board3 maxFullMove1

/-- The first `for` loop of `minValue`.  `child board alpha beta` is the
recursive call `maxValue(board, depth - 1, alpha, beta, other player)`. -/
def minValue_loop (child : Board → Int → Int → Option (FullMove × Board)) (alpha : Int) :
    List FullMove → Board → FullMove → Option LoopResult
  | [], board, minFullMove => some (.finished minFullMove board)
  | fullMove :: rest, board, minFullMove => do
    let board1 ← board.applyFullMove fullMove true
    let (maxFullMove, board2) ← child board1 alpha minFullMove.score
    let minFullMove1 : FullMove :=
      if maxFullMove.score < minFullMove.score then
        { moves := fullMove.moves, score := maxFullMove.score }
      else minFullMove
    let board3 ← board2.applyFullMove fullMove false
    if alpha ≥ minFullMove1.score then
      pure (.returned { moves := fullMove.moves, score := alpha } board3)
    else
      minValue_loop child alpha rest board3 minFullMove1

/-- The second `for` loop of `maxValue` (one-ply fallback), threading `tmp`. -/
def maxValue_fallback : List FullMove → Board → FullMove → Option (FullMove × Board)
  | [], board, tmp => some (tmp, board)
  | fullMove :: rest, board, tmp => do
    let board1 ← board.applyFullMove fullMove true
    let h ← heuristic board1
    let board2 ← board1.applyFullMove fullMove false
    let tmp1 : FullMove := if h > tmp.score then { moves := fullMove.moves, score := h } else tmp
    maxValue_fallback rest board2 tmp1

/-- The second `for` loop of `minValue` (one-ply fallback), threading `tmp`. -/
def minValue_fallback : List FullMove → Board → FullMove → Option (FullMove × Board)
  | [], board, tmp => some (tmp, board)
  | fullMove :: rest, board, tmp => do
    let board1 ← board.applyFullMove fullMove true
    let h ← heuristic board1
    let board2 ← board1.applyFullMove fullMove false
    let tmp1 : FullMove := if h < tmp.score then { moves := fullMove.moves, score := h } else tmp
    minValue_fallback rest board2 tmp1

mutual

/-- Function `maxValue` of `minimax.cpp`, with a budget of nested calls: the
returned full move and the board as the call leaves it.  `none` is an
exhausted budget, a null `findNeutron` result or a thrown `out_of_range`. -/
def maxValue : Nat → Board → Int → Int → Int → PieceKind → Option (FullMove × Board)
  | 0, _, _, _, _, _ => none
  | fuel + 1, board, depth, alpha, beta, player =>
    match board.findNeutron with
    | none => none
    | some neutron =>
      if depth = 0 ∨ neutron.row = 0 ∨ neutron.row = 4 then
        (heuristic board).map fun h => ({ moves := [], score := h }, board)
      else
        match board.allMoves player with
        | none => none
        | some (fullMoves, board0) =>
          match maxValue_loop (fun b a be => minValue fuel b (depth - 1) a be (otherPlayer player))
              beta fullMoves board0 { moves := [], score := alpha } with
          | none => none
          | some (.returned fullMove board1) => some (fullMove, board1)
          | some (.finished maxFullMove board1) =>
            if maxFullMove.empty && !fullMoves.isEmpty then
              maxValue_fallback fullMoves board1 { moves := [], score := INT_MIN }
            else some (maxFullMove, board1)

/-- Function `minValue` of `minimax.cpp`, with a budget of nested calls. -/
def minValue : Nat → Board → Int → Int → Int → PieceKind → Option (FullMove × Board)
  | 0, _, _, _, _, _ => none
  | fuel + 1, board, depth, alpha, beta, player =>
    match board.findNeutron with
    | none => none
    | some neutron =>
      if depth = 0 ∨ neutron.row = 0 ∨ neutron.row = 4 then
        (heuristic board).map fun h => ({ moves := [], score := h }, board)
      else
        match board.allMoves player with
        | none => none
        | some (fullMoves, board0) =>
          match minValue_loop (fun b a be => maxValue fuel b (depth - 1) a be (otherPlayer player))
              alpha fullMoves board0 { moves := [], score := beta } with
          | none => none
          | some (.returned fullMove board1) => some (fullMove, board1)
          | some (.finished minFullMove board1) =>
            if minFullMove.empty && !fullMoves.isEmpty then
              minValue_fallback fullMoves board1 { moves := [], score := INT_MIN }
            else some (minFullMove, board1)

end

/-- One-ply score of a full move, as the fallback loops of `minimax.cpp` compute
it: apply the full move, take `heuristic` of the board. -/
def oneply (b : Board) (fm : FullMove) : Option Int :=
  (b.applyFullMove fm true).bind heuristic

/-- The first loop of `maxValue` as a function of the board value: each child
is searched on the board with the full move applied and the loop goes on from
the same board (what apply-then-undo amounts to, `maxValue_loop_eq_pure`).
The flag tells whether the loop left through its `return`. -/
def maxValue_loop_pure (child : Board → Int → Int → Option FullMove) (beta : Int) (b : Board) :
    List FullMove → FullMove → Option (Bool × FullMove)
  | [], maxFullMove => some (false, maxFullMove)
  | fullMove :: rest, maxFullMove => do
    let board1 ← b.applyFullMove fullMove true
    let minFullMove ← child board1 maxFullMove.score beta
    let maxFullMove1 : FullMove :=
      if minFullMove.score > maxFullMove.score then
        { moves := fullMove.moves, score := minFullMove.score }
      else maxFullMove
    if maxFullMove1.score ≥ beta then
      pure (true, { moves := fullMove.moves, score := beta })
    else
      maxValue_loop_pure child beta b rest maxFullMove1

/-- The first loop of `minValue` as a function of the board value. -/
def minValue_loop_pure (child : Board → Int → Int → Option FullMove) (alpha : Int) (b : Board) :
    List FullMove → FullMove → Option (Bool × FullMove)
  | [], minFullMove => some (false, minFullMove)
  | fullMove :: rest, minFullMove => do
    let board1 ← b.applyFullMove fullMove true
    let maxFullMove ← child board1 alpha minFullMove.score
    let minFullMove1 : FullMove :=
      if maxFullMove.score < minFullMove.score then
        { moves := fullMove.moves, score := maxFullMove.score }
      else minFullMove
    if alpha ≥ minFullMove1.score then
      pure (true, { moves := fullMove.moves, score := alpha })
    else
      minValue_loop_pure child alpha b rest minFullMove1

/-- The fallback loop of `maxValue` as a function of the board value. -/
def maxValue_fallback_pure (b : Board) : List FullMove → FullMove → Option FullMove
  | [], tmp => some tmp
  | fullMove :: rest, tmp => do
    let h ← oneply b fullMove
    maxValue_fallback_pure b rest (if h > tmp.score then { moves := fullMove.moves, score := h } else tmp)

/-- The fallback loop of `minValue` as a function of the board value. -/
def minValue_fallback_pure (b : Board) : List FullMove → FullMove → Option FullMove
  | [], tmp => some tmp
  | fullMove :: rest, tmp => do
    let h ← oneply b fullMove
    minValue_fallback_pure b rest (if h < tmp.score then { moves := fullMove.moves, score := h } else tmp)

mutual

/-- The full move returned by `maxValue`, computed without threading the board
(equal to the first component of `maxValue` by `minimax_eq_pure`). -/
def maxValue_pure : Nat → Board → Int → Int → Int → PieceKind → Option FullMove
  | 0, _, _, _, _, _ => none
  | fuel + 1, board, depth, alpha, beta, player =>
    match board.findNeutron with
    | none => none
    | some neutron =>
      if depth = 0 ∨ neutron.row = 0 ∨ neutron.row = 4 then
        (heuristic board).map fun h => { moves := [], score := h }
      else
        match board.allMoves player with
        | none => none
        | some (fullMoves, _) =>
          match maxValue_loop_pure (fun b a be => minValue_pure fuel b (depth - 1) a be (otherPlayer player))
              beta board fullMoves { moves := [], score := alpha } with
          | none => none
          | some (true, fullMove) => some fullMove
          | some (false, maxFullMove) =>
            if maxFullMove.empty && !fullMoves.isEmpty then
              maxValue_fallback_pure board fullMoves { moves := [], score := INT_MIN }
            else some maxFullMove

/-- The full move returned by `minValue`, computed without threading the board. -/
def minValue_pure : Nat → Board → Int → Int → Int → PieceKind → Option FullMove
  | 0, _, _, _, _, _ => none
  | fuel + 1, board, depth, alpha, beta, player =>
    match board.findNeutron with
    | none => none
    | some neutron =>
      if depth = 0 ∨ neutron.row = 0 ∨ neutron.row = 4 then
        (heuristic board).map fun h => { moves := [], score := h }
      else
        match board.allMoves player with
        | none => none
        | some (fullMoves, _) =>
          match minValue_loop_pure (fun b a be => maxValue_pure fuel b (depth - 1) a be (otherPlayer player))
              alpha board fullMoves { moves := [], score := beta } with
          | none => none
          | some (true, fullMove) => some fullMove
          | some (false, minFullMove) =>
            if minFullMove.empty && !fullMoves.isEmpty then
              minValue_fallback_pure board fullMoves { moves := [], score := INT_MIN }
            else some minFullMove

end

/-- Unpruned search over the children of a node, following the words of the
spec ("every child searched with the full window, no cutoff"): the running
maximum (`isMax`) or minimum of the values of all children, from the seed. -/
def fullWidth_fold (value : Board → Option Int) (isMax : Bool) (b : Board) :
    List FullMove → Int → Option Int
  | [], best => some best
  | fullMove :: rest, best => do
    let b1 ← b.applyFullMove fullMove true
    let v ← value b1
    fullWidth_fold value isMax b rest (if isMax then max best v else min best v)

mutual

/-- Unpruned full-width minimax, maximizing node, following the words of the
spec: the heuristic at a terminal node (depth exhausted or neutron on a home
row), otherwise the maximum over all generated full moves of the value of the
child, from the seed `INT_MIN`. -/
def fullWidthMax : Nat → Board → Int → PieceKind → Option Int
  | 0, _, _, _ => none
  | fuel + 1, board, depth, player =>
    match board.findNeutron with
    | none => none
    | some neutron =>
      if depth = 0 ∨ neutron.row = 0 ∨ neutron.row = 4 then heuristic board
      else
        match board.allMoves player with
        | none => none
        | some (fullMoves, _) =>
          fullWidth_fold (fun b => fullWidthMin fuel b (depth - 1) (otherPlayer player)) true
            board fullMoves INT_MIN

/-- Unpruned full-width minimax, minimizing node: the minimum over all generated
full moves of the value of the child, from the seed `INT_MAX`. -/
def fullWidthMin : Nat → Board → Int → PieceKind → Option Int
  | 0, _, _, _ => none
  | fuel + 1, board, depth, player =>
    match board.findNeutron with
    | none => none
    | some neutron =>
      if depth = 0 ∨ neutron.row = 0 ∨ neutron.row = 4 then heuristic board
      else
        match board.allMoves player with
        | none => none
        | some (fullMoves, _) =>
          fullWidth_fold (fun b => fullWidthMax fuel b (depth - 1) (otherPlayer player)) false
            board fullMoves INT_MAX

end

/-- A full move that can be applied to `b`, leaves a neutron on the board, and
whose undoing gives `b` back. -/
def Undoable (b : Board) (fm : FullMove) : Prop :=
  ∃ b1, b.applyFullMove fm true = some b1 ∧ (∃ i, b1.table i = PieceKind.NEUTRON) ∧
    b1.applyFullMove fm false = some b

/-- Standard opening board of the classic engine (column-major): Black on row 0,
White on row 4, the neutron on the centre square. -/
def openingBoard : Board :=
  Board.ofList [1, 4, 4, 4, 2, 1, 4, 4, 4, 2, 1, 4, 3, 4, 2, 1, 4, 4, 4, 2, 1, 4, 4, 4, 2]

/-- Board (column-major) on which the neutron, on the centre square, can slide
north onto row 0: the Black piece of column 2 stands on row 1 of column 0. -/
def winningBoard : Board :=
  Board.ofList [1, 1, 4, 4, 2, 1, 4, 4, 4, 2, 4, 4, 3, 4, 2, 1, 4, 4, 4, 2, 1, 4, 4, 4, 2]

/-- Board (column-major) with five pieces a side and the neutron on row 3 of
column 2, on which the pruned and the unpruned search of depth 4 return
different scores. -/
def divergingBoard : Board :=
  Board.ofList [4, 2, 4, 4, 4, 1, 2, 2, 4, 4, 4, 1, 1, 3, 4, 1, 4, 4, 2, 2, 4, 4, 4, 4, 1]

namespace Board

/-- Spec wording of "the cell `k` steps from the start square in direction
`d` is on the board and empty (CELL)". -/
def clearAt (b : Board) (start : Move) (d : Direction) (k : Nat) : Bool :=
  decide (0 ≤ start.row + k * getRowMove d ∧ start.row + k * getRowMove d < 5 ∧
    0 ≤ start.col + k * getColMove d ∧ start.col + k * getColMove d < 5) &&
  b.elementAt (start.row + k * getRowMove d) (start.col + k * getColMove d) == PieceKind.CELL

/-- Spec wording of "the number of empty cells passed before the board edge or
a non-empty cell": the cells 1, 2, 3, 4 steps away are taken while they are on
the board and empty. -/
def slideLength (b : Board) (start : Move) (d : Direction) : Nat :=
  ((List.range 4).takeWhile fun n => clearAt b start d (n + 1)).length

/-- Spec wording of `Board::moves`: the 8 directions are visited in the order
N, S, E, W, NE, NW, SE, SW; a direction whose adjacent cell is on the board and
empty emits the last empty cell passed, with the kind of the moving piece. -/
def moves_spec (b : Board) (start : Move) : List Move :=
  [Direction.NORTH, Direction.SOUTH, Direction.EAST, Direction.WEST, Direction.NORTHEAST,
    Direction.NORTHWEST, Direction.SOUTHEAST, Direction.SOUTHWEST].filterMap fun d =>
    if clearAt b start d 1 then
      some ⟨start.row + slideLength b start d * getRowMove d,
        start.col + slideLength b start d * getColMove d, start.kind⟩
    else none

/-- Spec wording of "the surviving neutron destinations" of a player: the
slide destinations of the neutron that are not on the opponent's home row and,
if one of them is on the player's own home row, only the first such one. -/
def survivingDestinations (b : Board) (neutron : Move) (player : PieceKind) : List Move :=
  let ownHome : Int := if player = PieceKind.BLACK then 0 else 4
  let opponentHome : Int := if player = PieceKind.BLACK then 4 else 0
  let safe := (b.moves neutron).filter fun d => decide (d.row ≠ opponentHome)
  if safe.any (fun d => decide (d.row = ownHome)) then
    (safe.filter fun d => decide (d.row = ownHome)).take 1
  else safe

/-- Spec wording of "the player's pieces in column-major board order": column
by column, and row by row inside a column. -/
def piecesOf (b : Board) (player : PieceKind) : List Move :=
  (List.finRange 5).flatMap fun col =>
    (List.finRange 5).filterMap fun row =>
      if b.elementAt (row.val : Int) (col.val : Int) = player then
        some ⟨(row.val : Int), (col.val : Int), player⟩
      else none

/-- Spec wording of "the board in which the neutron has been relocated to
`d`": the square `d` holds the neutron, the square it left is empty, every
other square is as before. -/
def relocateNeutron (b : Board) (neutron d : Move) : Board :=
  ⟨fun i =>
    if (i.val : Int) = d.col * 5 + d.row then PieceKind.NEUTRON
    else if (i.val : Int) = neutron.col * 5 + neutron.row then PieceKind.CELL
    else b.table i⟩

/-- Spec wording of the enumeration of `Board::allMoves`: one full move per
(neutron destination, piece, piece destination), in that nesting order. -/
def allMoves_spec (b : Board) (neutron : Move) (player : PieceKind) : List FullMove :=
  (survivingDestinations b neutron player).flatMap fun d =>
    (piecesOf b player).flatMap fun piece =>
      ((relocateNeutron b neutron d).moves piece).map fun dest =>
        { moves := [neutron, d, piece, dest], score := 0 }

end Board

end classic

/-! ## Board conversion of the RL worker (`src/native/rl/RlAsyncWorker.cpp`) -/

namespace rl_worker

/-- Constant `kCellValue` of `RlAsyncWorker.cpp`. -/
abbrev kCellValue : Int := 4

/-- Constant `kBlackValue` of `RlAsyncWorker.cpp`. -/
abbrev kBlackValue : Int := 1

/-- Constant `kWhiteValue` of `RlAsyncWorker.cpp`. -/
abbrev kWhiteValue : Int := 2

/-- The conversion `static_cast<int8_t>` of a byte of the classic table. -/
def to_int8 (byte : Nat) : Int :=
  if byte % 256 < 128 then ((byte % 256 : Nat) : Int) else ((byte % 256 : Nat) : Int) - 256

/-- Function `to_rl_piece` of `RlAsyncWorker.cpp`. -/
def to_rl_piece (backend_piece : Int) : Int :=
  if backend_piece = kCellValue then 0
  else if backend_piece = kBlackValue then 2
  else if backend_piece = kWhiteValue then 1
  else backend_piece

/-- Function `to_rl_board` of `RlAsyncWorker.cpp`: the two nested loops over
`r` and `c` write `rl_board[r * 5 + c]` from `js_board[c * 5 + r]`. -/
def to_rl_board (js_board : Fin 25 → Nat) : Fin 25 → Int :=
  (List.range 5).foldl (fun (rl_board : Fin 25 → Int) (r : Nat) =>
    (List.range 5).foldl (fun (rl_board : Fin 25 → Int) (c : Nat) =>
      let val := to_int8 (classic.tabGet js_board ((c : Int) * 5 + (r : Int)))
      neutron_rl.arrSet rl_board ((r : Int) * 5 + (c : Int)) (to_rl_piece val)) rl_board)
    (fun _ => 0)

end rl_worker

/-! ## Theorems: RL action encoding -/

namespace neutron_rl

namespace GameState

theorem decode_action_of_nonneg (a : Int) (h : 0 ≤ a) :
    decode_action a = (a / 32, a % 32 / 4, a % 32 % 4 + 1) := by
  have h1 : a.tdiv 32 = a / 32 := Int.tdiv_eq_ediv h (by norm_num)
  have h2 : a.tmod 32 = a % 32 := Int.tmod_eq_emod h (by norm_num)
  have h3 : (a % 32).tdiv 4 = a % 32 / 4 := Int.tdiv_eq_ediv (by omega) (by norm_num)
  have h4 : (a % 32).tmod 4 = a % 32 % 4 := Int.tmod_eq_emod (by omega) (by norm_num)
  simp only [decode_action, h1, h2, h3, h4]

theorem decode_encode_action (cell direction distance : Int)
    (hc : 0 ≤ cell) (hd : 0 ≤ direction ∧ direction < 8)
    (hk : 1 ≤ distance ∧ distance ≤ 4) :
    decode_action (encode_action cell direction distance) = (cell, direction, distance) := by
  have h0 : 0 ≤ encode_action cell direction distance := by
    unfold encode_action; omega
  rw [decode_action_of_nonneg _ h0]
  unfold encode_action
  refine Prod.ext ?_ (Prod.ext ?_ ?_) <;> simp only <;> omega

theorem cell_to_rowcol_of_nonneg (cell : Int) (h : 0 ≤ cell) :
    cell_to_rowcol cell = (cell / 5, cell % 5) := by
  simp only [cell_to_rowcol, kBoardSize, Int.tdiv_eq_ediv h (by norm_num : (0 : Int) ≤ 5),
    Int.tmod_eq_emod h (by norm_num : (0 : Int) ≤ 5)]

theorem kDirectionFlip_range (d : Int) (hd : 0 ≤ d ∧ d < 8) :
    0 ≤ kDirectionFlip d ∧ kDirectionFlip d < 8 ∧ kDirectionFlip (kDirectionFlip d) = d := by
  obtain ⟨h0, h8⟩ := hd
  interval_cases d <;> decide

theorem flip_action_encode (cell direction distance : Int)
    (hc : 0 ≤ cell) (hd : 0 ≤ direction ∧ direction < 8)
    (hk : 1 ≤ distance ∧ distance ≤ 4) :
    flip_action (encode_action cell direction distance) =
      encode_action ((4 - cell / 5) * 5 + cell % 5) (kDirectionFlip direction) distance := by
  simp only [flip_action, decode_encode_action cell direction distance hc hd hk,
    cell_to_rowcol_of_nonneg cell hc, rowcol_to_cell, kBoardSize]
  norm_num

/-- C1: `encode_action` on valid triples is a bijection onto `[0, 800)` whose
inverse is `decode_action`: a valid triple is encoded as
`cell*32 + direction*4 + (distance-1)`, which lies in `[0, 800)` and decodes
back to the triple; and every action in `[0, 800)` decodes to a valid triple
that encodes back to the action. -/
theorem C1_encode_decode_bijection :
    (∀ cell direction distance : Int,
      0 ≤ cell ∧ cell < 25 → 0 ≤ direction ∧ direction < 8 → 1 ≤ distance ∧ distance ≤ 4 →
        encode_action cell direction distance = cell * 32 + direction * 4 + (distance - 1) ∧
        0 ≤ encode_action cell direction distance ∧
        encode_action cell direction distance < 800 ∧
        decode_action (encode_action cell direction distance) = (cell, direction, distance)) ∧
    (∀ a : Int, 0 ≤ a ∧ a < 800 →
        (0 ≤ (decode_action a).1 ∧ (decode_action a).1 < 25) ∧
        (0 ≤ (decode_action a).2.1 ∧ (decode_action a).2.1 < 8) ∧
        (1 ≤ (decode_action a).2.2 ∧ (decode_action a).2.2 ≤ 4) ∧
        encode_action (decode_action a).1 (decode_action a).2.1 (decode_action a).2.2 = a) := by
  constructor
  · intro cell direction distance hc hd hk
    refine ⟨rfl, ?_, ?_, decode_encode_action cell direction distance hc.1 hd hk⟩
    · unfold encode_action; omega
    · unfold encode_action; omega
  · intro a ha
    rw [decode_action_of_nonneg a ha.1]
    simp only [encode_action]
    omega

/-- C1 witness: the valid triple (12, 3, 2) and the action 799. -/
theorem C1_encode_decode_bijection_witness :
    decode_action (encode_action 12 3 2) = (12, 3, 2) ∧
    encode_action (decode_action 799).1 (decode_action 799).2.1 (decode_action 799).2.2 = 799 :=
  ⟨(C1_encode_decode_bijection.1 12 3 2 (by decide) (by decide) (by decide)).2.2.2,
    (C1_encode_decode_bijection.2 799 (by decide)).2.2.2⟩

/-- C2: `flip_action` maps `[0, 800)` into itself and is an involution there. -/
theorem C2_flip_action_involution (a : Int) (h0 : 0 ≤ a) (h800 : a < 800) :
    (0 ≤ flip_action a ∧ flip_action a < 800) ∧ flip_action (flip_action a) = a := by
  have he : a = encode_action (a / 32) (a % 32 / 4) (a % 32 % 4 + 1) := by
    unfold encode_action; omega
  have hc : 0 ≤ a / 32 ∧ a / 32 < 25 := by omega
  have hd : 0 ≤ a % 32 / 4 ∧ a % 32 / 4 < 8 := by omega
  have hk : 1 ≤ a % 32 % 4 + 1 ∧ a % 32 % 4 + 1 ≤ 4 := by omega
  obtain ⟨hf0, hf8, hff⟩ := kDirectionFlip_range (a % 32 / 4) hd
  have hfc : 0 ≤ (4 - a / 32 / 5) * 5 + a / 32 % 5 ∧ (4 - a / 32 / 5) * 5 + a / 32 % 5 < 25 := by
    omega
  have hfa : flip_action a =
      encode_action ((4 - a / 32 / 5) * 5 + a / 32 % 5) (kDirectionFlip (a % 32 / 4))
        (a % 32 % 4 + 1) := by
    conv_lhs => rw [he]
    exact flip_action_encode _ _ _ hc.1 hd hk
  refine ⟨?_, ?_⟩
  · rw [hfa]; unfold encode_action; omega
  · rw [hfa, flip_action_encode _ _ _ hfc.1 ⟨hf0, hf8⟩ hk, hff]
    unfold encode_action; omega

/-- C2 witness: action 397 (cell 12, south-east, distance 2). -/
theorem C2_flip_action_involution_witness :
    (0 ≤ flip_action 397 ∧ flip_action 397 < 800) ∧ flip_action (flip_action 397) = 397 :=
  C2_flip_action_involution 397 (by decide) (by decide)

/-! ## Theorems: RL slide generator and action application -/

theorem arrGet_of_fin (board : Fin 25 → Int) (i : Fin 25) :
    arrGet board (i.val : Int) = board i := by
  have h : 0 ≤ (i.val : Int) ∧ (i.val : Int) < 25 := ⟨by omega, by omega⟩
  simp [arrGet, h]

theorem arrGet_arrSet (board : Fin 25 → Int) (i j v : Int) :
    arrGet (arrSet board i v) j =
      if j = i ∧ 0 ≤ j ∧ j < 25 then v else arrGet board j := by
  unfold arrGet arrSet
  by_cases hj : 0 ≤ j ∧ j < 25
  · have hcast : ((j.toNat : Nat) : Int) = j := Int.toNat_of_nonneg hj.1
    by_cases hji : j = i
    · subst hji; simp [hj, hcast]
    · have : ¬ ((j.toNat : Nat) : Int) = i := by rw [hcast]; exact hji
      simp [hj, hji, this]
  · have : ¬ (j = i ∧ 0 ≤ j ∧ j < 25) := fun h => hj h.2
    simp [hj, this]

theorem find_neutron_of_mem (s : GameState) (h : ∃ i, s.board_ i = Piece.Neutron) :
    ∃ i : Fin 25, s.find_neutron = (i.val : Int) ∧ s.board_ i = Piece.Neutron := by
  unfold find_neutron
  cases hf : (List.finRange 25).find? (fun i => decide (s.board_ i = Piece.Neutron)) with
  | some i =>
    have := List.find?_some hf
    exact ⟨i, rfl, by simpa using this⟩
  | none =>
    exfalso
    obtain ⟨i, hi⟩ := h
    have := List.find?_eq_none.mp hf i (List.mem_finRange i)
    simp [hi] at this

/-- Result of the slide loop: every cell passed is on the board and empty, and
the cell after the last one passed is off the board or occupied. -/
theorem slide_loop_spec (board : Fin 25 → Int) (dr dc : Int) :
    ∀ (n : Nat) (r c d k : Int), slide_loop board dr dc n r c d = some k →
      d ≤ k ∧
      (∀ j : Int, 0 ≤ j → j < k - d →
        0 ≤ r + j * dr ∧ r + j * dr < 5 ∧ 0 ≤ c + j * dc ∧ c + j * dc < 5 ∧
          arrGet board (rowcol_to_cell (r + j * dr) (c + j * dc)) = Piece.Empty) ∧
      ¬ (0 ≤ r + (k - d) * dr ∧ r + (k - d) * dr < 5 ∧
          0 ≤ c + (k - d) * dc ∧ c + (k - d) * dc < 5 ∧
          arrGet board (rowcol_to_cell (r + (k - d) * dr) (c + (k - d) * dc)) = Piece.Empty) := by
  intro n
  induction n with
  | zero => intro r c d k h; simp [slide_loop] at h
  | succ n ih =>
    intro r c d k h
    unfold slide_loop at h
    by_cases hb : r ≥ 0 ∧ r < (5 : Int) ∧ c ≥ 0 ∧ c < (5 : Int)
    · rw [if_pos hb] at h
      by_cases he : arrGet board (rowcol_to_cell r c) ≠ Piece.Empty
      · rw [if_pos he] at h
        have hk : d = k := by simpa using h
        subst hk
        refine ⟨le_refl _, fun j h0 h1 => by omega, ?_⟩
        simp only [sub_self, zero_mul, add_zero]
        exact fun hh => he hh.2.2.2.2
      · rw [if_neg he] at h
        have he0 : arrGet board (rowcol_to_cell r c) = Piece.Empty := not_not.mp he
        obtain ⟨h1, h2, h3⟩ := ih (r + dr) (c + dc) (d + 1) k h
        refine ⟨by omega, ?_, ?_⟩
        · intro j hj0 hj1
          by_cases hj : j = 0
          · subst hj
            simp only [zero_mul, add_zero]
            exact ⟨hb.1, hb.2.1, hb.2.2.1, hb.2.2.2, he0⟩
          · have e1 : r + dr + (j - 1) * dr = r + j * dr := by ring
            have e2 : c + dc + (j - 1) * dc = c + j * dc := by ring
            have := h2 (j - 1) (by omega) (by omega)
            rwa [e1, e2] at this
        · have e1 : r + dr + (k - (d + 1)) * dr = r + (k - d) * dr := by ring
          have e2 : c + dc + (k - (d + 1)) * dc = c + (k - d) * dc := by ring
          rwa [e1, e2] at h3
    · rw [if_neg hb] at h
      have hk : d = k := by simpa using h
      subst hk
      refine ⟨le_refl _, fun j h0 h1 => by omega, ?_⟩
      simp only [sub_self, zero_mul, add_zero]
      exact fun hh => hb ⟨hh.1, hh.2.1, hh.2.2.1, hh.2.2.2.1⟩

/-- The slide loop exits by its own test within `n` tests as soon as `n`
exceeds the number of on-board cells left along a row-changing direction. -/
theorem slide_loop_some_row (board : Fin 25 → Int) (dr dc : Int) (hdr : dr = 1 ∨ dr = -1) :
    ∀ (n : Nat) (r c d : Int), 0 < n →
      (0 ≤ r → r < 5 → (if dr = 1 then 4 - r else r) + 1 < (n : Int)) →
      ∃ k, slide_loop board dr dc n r c d = some k := by
  intro n
  induction n with
  | zero => intro r c d h; omega
  | succ n ih =>
    intro r c d _ hr
    unfold slide_loop
    by_cases hb : r ≥ 0 ∧ r < (5 : Int) ∧ c ≥ 0 ∧ c < (5 : Int)
    · rw [if_pos hb]
      by_cases he : arrGet board (rowcol_to_cell r c) ≠ Piece.Empty
      · rw [if_pos he]; exact ⟨d, rfl⟩
      · rw [if_neg he]
        have hr1 := hr hb.1 hb.2.1
        apply ih
        · rcases hdr with h | h <;> simp [h] at hr1 <;> omega
        · intro h0 h5
          rcases hdr with h | h <;> simp [h] at hr1 ⊢ <;> omega
    · rw [if_neg hb]; exact ⟨d, rfl⟩

/-- Same as `slide_loop_some_row`, for a column-changing direction. -/
theorem slide_loop_some_col (board : Fin 25 → Int) (dr dc : Int) (hdc : dc = 1 ∨ dc = -1) :
    ∀ (n : Nat) (r c d : Int), 0 < n →
      (0 ≤ c → c < 5 → (if dc = 1 then 4 - c else c) + 1 < (n : Int)) →
      ∃ k, slide_loop board dr dc n r c d = some k := by
  intro n
  induction n with
  | zero => intro r c d h; omega
  | succ n ih =>
    intro r c d _ hc
    unfold slide_loop
    by_cases hb : r ≥ 0 ∧ r < (5 : Int) ∧ c ≥ 0 ∧ c < (5 : Int)
    · rw [if_pos hb]
      by_cases he : arrGet board (rowcol_to_cell r c) ≠ Piece.Empty
      · rw [if_pos he]; exact ⟨d, rfl⟩
      · rw [if_neg he]
        have hc1 := hc hb.2.2.1 hb.2.2.2
        apply ih
        · rcases hdc with h | h <;> simp [h] at hc1 <;> omega
        · intro h0 h5
          rcases hdc with h | h <;> simp [h] at hc1 ⊢ <;> omega
    · rw [if_neg hb]; exact ⟨d, rfl⟩

/-- Values of the direction table: each delta is in `{-1, 0, 1}` and the two
are not both zero. -/
theorem kDirectionDeltas_cases (dir : Int) (hd : 0 ≤ dir ∧ dir < 8) :
    ((kDirectionDeltas dir).1 = 1 ∨ (kDirectionDeltas dir).1 = -1) ∨
    ((kDirectionDeltas dir).1 = 0 ∧
      ((kDirectionDeltas dir).2 = 1 ∨ (kDirectionDeltas dir).2 = -1)) := by
  obtain ⟨h0, h8⟩ := hd
  interval_cases dir <;> decide

theorem kDirectionDeltas_bound (dir : Int) :
    -1 ≤ (kDirectionDeltas dir).1 ∧ (kDirectionDeltas dir).1 ≤ 1 ∧
    -1 ≤ (kDirectionDeltas dir).2 ∧ (kDirectionDeltas dir).2 ≤ 1 := by
  unfold kDirectionDeltas
  split <;> decide

/-- The loop of `max_slide_distance` always exits by its own test within the
budget `slideFuel`, from every cell and in each of the 8 directions. -/
theorem slide_loop_terminates (s : GameState) (cell dir : Int) (hd : 0 ≤ dir ∧ dir < 8) :
    ∃ k, max_slide_distance_fuel s slideFuel cell dir = some k := by
  unfold max_slide_distance_fuel
  rcases kDirectionDeltas_cases dir hd with h | ⟨_, h⟩
  · apply slide_loop_some_row _ _ _ h _ _ _ _ (by decide)
    intro h0 h5
    rcases h with h | h <;> simp [h] <;> omega
  · apply slide_loop_some_col _ _ _ h _ _ _ _ (by decide)
    intro h0 h5
    rcases h with h | h <;> simp [h] <;> omega

/-- A positive slide distance from an on-board cell is at most 4, and every
cell at distance `1..k` along the direction is on the board and empty. -/
theorem max_slide_distance_pos (s : GameState) (cell dir : Int)
    (hc : 0 ≤ cell ∧ cell < 25) (hd : 0 ≤ dir ∧ dir < 8)
    (hk : 0 < s.max_slide_distance cell dir) :
    s.max_slide_distance cell dir ≤ 4 ∧
    ∀ j : Int, 1 ≤ j → j ≤ s.max_slide_distance cell dir →
      0 ≤ cell / 5 + (kDirectionDeltas dir).1 * j ∧ cell / 5 + (kDirectionDeltas dir).1 * j < 5 ∧
      0 ≤ cell % 5 + (kDirectionDeltas dir).2 * j ∧ cell % 5 + (kDirectionDeltas dir).2 * j < 5 ∧
      arrGet s.board_ (rowcol_to_cell (cell / 5 + (kDirectionDeltas dir).1 * j)
        (cell % 5 + (kDirectionDeltas dir).2 * j)) = Piece.Empty := by
  obtain ⟨k, hk'⟩ := slide_loop_terminates s cell dir hd
  have hm : s.max_slide_distance cell dir = k := by
    simp [max_slide_distance, hk']
  rw [hm] at hk ⊢
  unfold max_slide_distance_fuel at hk'
  rw [cell_to_rowcol_of_nonneg cell hc.1] at hk'
  obtain ⟨_, h2, _⟩ := slide_loop_spec _ _ _ _ _ _ _ _ hk'
  have key : ∀ j : Int, 1 ≤ j → j ≤ k →
      0 ≤ cell / 5 + (kDirectionDeltas dir).1 * j ∧ cell / 5 + (kDirectionDeltas dir).1 * j < 5 ∧
      0 ≤ cell % 5 + (kDirectionDeltas dir).2 * j ∧ cell % 5 + (kDirectionDeltas dir).2 * j < 5 ∧
      arrGet s.board_ (rowcol_to_cell (cell / 5 + (kDirectionDeltas dir).1 * j)
        (cell % 5 + (kDirectionDeltas dir).2 * j)) = Piece.Empty := by
    intro j h1 hj
    have e1 : cell / 5 + (kDirectionDeltas dir).1 + (j - 1) * (kDirectionDeltas dir).1 =
        cell / 5 + (kDirectionDeltas dir).1 * j := by ring
    have e2 : cell % 5 + (kDirectionDeltas dir).2 + (j - 1) * (kDirectionDeltas dir).2 =
        cell % 5 + (kDirectionDeltas dir).2 * j := by ring
    have := h2 (j - 1) (by omega) (by omega)
    simp only [e1, e2] at this
    exact this
  refine ⟨?_, key⟩
  have hkk := key k (by omega) (le_refl _)
  rcases kDirectionDeltas_cases dir hd with h | ⟨_, h⟩ <;> rcases h with h | h <;>
    rw [h] at hkk <;> omega

theorem mem_slide_actions (s : GameState) (cell a : Int) :
    a ∈ s.slide_actions cell ↔
      ∃ dir : Int, (0 ≤ dir ∧ dir < 8) ∧ 0 < s.max_slide_distance cell dir ∧
        a = encode_action cell dir (s.max_slide_distance cell dir) := by
  unfold slide_actions
  rw [List.mem_filterMap]
  constructor
  · rintro ⟨dir, hdir, h⟩
    refine ⟨dir, ?_, ?_⟩
    · simp only [directionRange, List.mem_cons, List.mem_singleton, List.not_mem_nil,
        or_false] at hdir
      omega
    · by_cases hp : s.max_slide_distance cell dir > 0
      · simp only [hp, if_true, Option.some.injEq] at h
        exact ⟨hp, h.symm⟩
      · simp [hp] at h
  · rintro ⟨dir, hdir, hp, ha⟩
    refine ⟨dir, ?_, ?_⟩
    · obtain ⟨h0, h8⟩ := hdir
      interval_cases dir <;> simp [directionRange]
    · have hp' : s.max_slide_distance cell dir > 0 := hp
      simp only [hp', if_true, ha]

/-- Shape of a legal action: it encodes an on-board origin holding the piece
to move, one of the 8 directions and the full (positive) slide distance. -/
theorem legal_action_shape (s : GameState) (a : Int)
    (hn : ∃ i, s.board_ i = Piece.Neutron) (ha : a ∈ s.get_legal_actions) :
    ∃ (cell : Fin 25) (dir : Int), (0 ≤ dir ∧ dir < 8) ∧
      0 < s.max_slide_distance cell.val dir ∧
      a = encode_action cell.val dir (s.max_slide_distance cell.val dir) ∧
      (s.phase_ = Phase.MoveNeutron → s.board_ cell = Piece.Neutron) ∧
      (s.phase_ = Phase.MovePawn →
        s.board_ cell = if s.current_player_ = 1 then Piece.Player1Pawn else Piece.Player2Pawn) := by
  unfold get_legal_actions at ha
  by_cases hp : s.phase_ = Phase.MoveNeutron
  · rw [if_pos hp] at ha
    obtain ⟨i, hi, hb⟩ := find_neutron_of_mem s hn
    simp only [hi] at ha
    obtain ⟨dir, hd, hk, he⟩ := (mem_slide_actions s _ a).mp ha
    exact ⟨i, dir, hd, hk, he, fun _ => hb, fun h => by rw [hp] at h; cases h⟩
  · rw [if_neg hp] at ha
    simp only [List.mem_flatMap] at ha
    obtain ⟨cell, _, hcell⟩ := ha
    by_cases hb : s.board_ cell =
        if s.current_player_ = 1 then Piece.Player1Pawn else Piece.Player2Pawn
    · rw [if_pos hb] at hcell
      obtain ⟨dir, hd, hk, he⟩ := (mem_slide_actions s _ a).mp hcell
      exact ⟨cell, dir, hd, hk, he, fun h => absurd h hp, fun _ => hb⟩
    · rw [if_neg hb] at hcell
      simp at hcell

theorem apply_action_eq (s : GameState) (a : Int) :
    s.apply_action a =
      if (action_destination a).1 < 0 ∨ (action_destination a).1 ≥ 5 ∨
          (action_destination a).2 < 0 ∨ (action_destination a).2 ≥ 5 then none
      else some
        { board_ := arrSet (arrSet s.board_
              (rowcol_to_cell (action_destination a).1 (action_destination a).2)
              (arrGet s.board_ (action_origin a))) (action_origin a) Piece.Empty
          current_player_ :=
            if s.phase_ = Phase.MoveNeutron then s.current_player_
            else if s.current_player_ = 1 then 2 else 1
          phase_ := if s.phase_ = Phase.MoveNeutron then Phase.MovePawn else Phase.MoveNeutron } := by
  simp only [apply_action, action_destination, action_origin, kBoardSize]
  split_ifs <;> rfl

theorem action_of_encode (cell dir k : Int) (hc : 0 ≤ cell ∧ cell < 25)
    (hd : 0 ≤ dir ∧ dir < 8) (hk : 1 ≤ k ∧ k ≤ 4) :
    action_origin (encode_action cell dir k) = cell ∧
    action_destination (encode_action cell dir k) =
      (cell / 5 + (kDirectionDeltas dir).1 * k, cell % 5 + (kDirectionDeltas dir).2 * k) := by
  simp only [action_origin, action_destination, decode_encode_action cell dir k hc.1 hd hk,
    cell_to_rowcol_of_nonneg cell hc.1]
  exact ⟨trivial, trivial⟩

/-- C3: on a state containing the neutron, applying an action returned by
`get_legal_actions` does not raise; the origin is a board cell, the destination
is on the 5x5 board and was empty before the move; afterwards the destination
holds the piece that stood on the origin, and the origin is empty. -/
theorem C3_legal_action_applies (s : GameState) (a : Int)
    (hn : ∃ i, s.board_ i = Piece.Neutron) (ha : a ∈ s.get_legal_actions) :
    ∃ s', s.apply_action a = some s' ∧
      (0 ≤ action_origin a ∧ action_origin a < 25) ∧
      (0 ≤ (action_destination a).1 ∧ (action_destination a).1 < 5 ∧
        0 ≤ (action_destination a).2 ∧ (action_destination a).2 < 5) ∧
      arrGet s.board_ (rowcol_to_cell (action_destination a).1 (action_destination a).2) =
        Piece.Empty ∧
      arrGet s'.board_ (rowcol_to_cell (action_destination a).1 (action_destination a).2) =
        arrGet s.board_ (action_origin a) ∧
      arrGet s'.board_ (action_origin a) = Piece.Empty := by
  obtain ⟨cell, dir, hd, hk, he, _, _⟩ := legal_action_shape s a hn ha
  have hc : 0 ≤ (cell.val : Int) ∧ (cell.val : Int) < 25 := ⟨by omega, by omega⟩
  obtain ⟨h4, hcells⟩ := max_slide_distance_pos s cell.val dir hc hd hk
  obtain ⟨ho, hdst⟩ := action_of_encode cell.val dir (s.max_slide_distance cell.val dir) hc hd
    ⟨by omega, h4⟩
  rw [← he] at ho hdst
  obtain ⟨b1, b2, b3, b4, b5⟩ := hcells (s.max_slide_distance cell.val dir) (by omega) (le_refl _)
  have hne : rowcol_to_cell (action_destination a).1 (action_destination a).2 ≠
      action_origin a := by
    rw [ho, hdst]
    simp only [rowcol_to_cell, kBoardSize]
    rcases kDirectionDeltas_cases dir hd with h | ⟨h0, h⟩ <;> rcases h with h | h
    · have := (kDirectionDeltas_bound dir).2.2; rw [h]; omega
    · have := (kDirectionDeltas_bound dir).2.2; rw [h]; omega
    · rw [h0, h]; omega
    · rw [h0, h]; omega
  have hin : 0 ≤ rowcol_to_cell (action_destination a).1 (action_destination a).2 ∧
      rowcol_to_cell (action_destination a).1 (action_destination a).2 < 25 := by
    rw [hdst]; simp only [rowcol_to_cell, kBoardSize]; omega
  rw [apply_action_eq]
  have hnb : ¬ ((action_destination a).1 < 0 ∨ (action_destination a).1 ≥ 5 ∨
      (action_destination a).2 < 0 ∨ (action_destination a).2 ≥ 5) := by
    rw [hdst]; simp only; omega
  rw [if_neg hnb]
  refine ⟨_, rfl, by rw [ho]; exact hc, by rw [hdst]; exact ⟨b1, b2, b3, b4⟩,
    by rw [hdst]; exact b5, ?_, ?_⟩
  · rw [arrGet_arrSet, if_neg (fun h => hne h.1), arrGet_arrSet, if_pos ⟨rfl, hin⟩]
  · rw [arrGet_arrSet, if_pos ⟨rfl, by rw [ho]; exact hc⟩]

/-- C3 witness: the opening position and its first legal action (neutron, north). -/
theorem C3_legal_action_applies_witness :
    ∃ s', initial.apply_action 384 = some s' ∧
      (0 ≤ action_origin 384 ∧ action_origin 384 < 25) ∧
      (0 ≤ (action_destination 384).1 ∧ (action_destination 384).1 < 5 ∧
        0 ≤ (action_destination 384).2 ∧ (action_destination 384).2 < 5) ∧
      arrGet initial.board_
        (rowcol_to_cell (action_destination 384).1 (action_destination 384).2) = Piece.Empty ∧
      arrGet s'.board_ (rowcol_to_cell (action_destination 384).1 (action_destination 384).2) =
        arrGet initial.board_ (action_origin 384) ∧
      arrGet s'.board_ (action_origin 384) = Piece.Empty :=
  C3_legal_action_applies initial 384 ⟨⟨12, by decide⟩, by decide⟩ (by decide)

theorem find_neutron_row (s : GameState) (r : Nat)
    (hn : ∃ i, s.board_ i = Piece.Neutron)
    (hrow : ∀ i : Fin 25, s.board_ i = Piece.Neutron → i.val / 5 = r) :
    0 ≤ s.find_neutron ∧ s.find_neutron.tdiv kBoardSize = (r : Int) := by
  obtain ⟨i, hi, hb⟩ := find_neutron_of_mem s hn
  have h0 : (0 : Int) ≤ (i.val : Int) := by omega
  have := hrow i hb
  rw [hi, Int.tdiv_eq_ediv h0 (by norm_num)]
  simp only [kBoardSize]
  omega

/-- C4: a state whose neutron is on row 0 or on row 4 is terminal, whatever
the player to move and the phase; `get_winner` returns 2 for row 0 and 1 for
row 4. -/
theorem C4_home_row_terminal (s : GameState) (hn : ∃ i, s.board_ i = Piece.Neutron) :
    ((∀ i : Fin 25, s.board_ i = Piece.Neutron → i.val / 5 = 0) →
      s.is_terminal = true ∧ s.get_winner = some 2) ∧
    ((∀ i : Fin 25, s.board_ i = Piece.Neutron → i.val / 5 = 4) →
      s.is_terminal = true ∧ s.get_winner = some 1) := by
  constructor
  · intro hrow
    obtain ⟨h0, hr⟩ := find_neutron_row s 0 hn hrow
    have hnn : ¬ s.find_neutron < 0 := by omega
    have ht : s.is_terminal = true := by
      simp [is_terminal, hnn, hr]
    refine ⟨ht, ?_⟩
    simp [get_winner, ht, hnn, hr]
  · intro hrow
    obtain ⟨h0, hr⟩ := find_neutron_row s 4 hn hrow
    have hnn : ¬ s.find_neutron < 0 := by omega
    have ht : s.is_terminal = true := by
      simp [is_terminal, hnn, hr, kBoardSize]
    refine ⟨ht, ?_⟩
    simp [get_winner, ht, hnn, hr, kBoardSize]

/-- C4 witness: the neutron on cell 2 (row 0) and on cell 22 (row 4). -/
theorem C4_home_row_terminal_witness :
    (neutronOnRow0.is_terminal = true ∧ neutronOnRow0.get_winner = some 2) ∧
    (neutronOnRow4.is_terminal = true ∧ neutronOnRow4.get_winner = some 1) :=
  ⟨(C4_home_row_terminal neutronOnRow0 ⟨⟨2, by decide⟩, by decide⟩).1 (by decide),
    (C4_home_row_terminal neutronOnRow4 ⟨⟨22, by decide⟩, by decide⟩).2 (by decide)⟩

/-- C5: when the player to move is 1 or 2, the neutron is on rows 1-3 and
`get_legal_actions` is empty, the state is terminal and the winner is the other
player. -/
theorem C5_stuck_player_loses (s : GameState)
    (hp : s.current_player_ = 1 ∨ s.current_player_ = 2)
    (hn : ∃ i, s.board_ i = Piece.Neutron)
    (hrow : ∀ i : Fin 25, s.board_ i = Piece.Neutron → 1 ≤ i.val / 5 ∧ i.val / 5 ≤ 3)
    (hl : s.get_legal_actions = []) :
    s.is_terminal = true ∧ s.get_winner = some (3 - s.current_player_) := by
  obtain ⟨i, hi, hb⟩ := find_neutron_of_mem s hn
  have h0 : (0 : Int) ≤ (i.val : Int) := by omega
  have hr := hrow i hb
  have hdiv : s.find_neutron.tdiv kBoardSize = (i.val : Int) / 5 := by
    rw [hi, Int.tdiv_eq_ediv h0 (by norm_num)]
  have hnn : ¬ s.find_neutron < 0 := by omega
  have h1 : ¬ ((i.val : Int) / 5 = 5 - 1) := by omega
  have h2 : ¬ ((i.val : Int) / 5 = 0) := by omega
  have ht : s.is_terminal = true := by
    simp only [is_terminal, hnn, hdiv, kBoardSize, if_false, h1, h2, hl]
    rfl
  refine ⟨ht, ?_⟩
  simp only [get_winner, ht, hnn, hdiv, kBoardSize, if_false, h1, h2, Bool.not_true]
  rcases hp with h | h <;> rw [h] <;> rfl

/-- C5 witness: player 1 cannot move the neutron, player 2 wins. -/
theorem C5_stuck_player_loses_witness :
    neutronBlocked.is_terminal = true ∧ neutronBlocked.get_winner = some (3 - 1) :=
  C5_stuck_player_loses neutronBlocked (Or.inl rfl) ⟨⟨12, by decide⟩, by decide⟩
    (by decide) (by decide)

/-- C6: whenever `apply_action` does not raise, a neutron-phase state yields a
pawn-phase state with the same player to move, and a pawn-phase state yields a
neutron-phase state with the other player to move (1 becomes 2, 2 becomes 1). -/
theorem C6_phase_bookkeeping (s s' : GameState) (a : Int) (h : s.apply_action a = some s') :
    (s.phase_ = Phase.MoveNeutron →
      s'.phase_ = Phase.MovePawn ∧ s'.current_player_ = s.current_player_) ∧
    (s.phase_ = Phase.MovePawn →
      s'.phase_ = Phase.MoveNeutron ∧
      (s.current_player_ = 1 → s'.current_player_ = 2) ∧
      (s.current_player_ = 2 → s'.current_player_ = 1)) := by
  rw [apply_action_eq] at h
  split at h
  · cases h
  · cases h
    constructor
    · intro hp; simp [hp]
    · intro hp
      simp only [hp]
      refine ⟨by simp, fun h1 => by simp [h1], fun h2 => by simp [h2]⟩

/-- C6 witness: the first legal action of the opening position (neutron phase),
and a pawn move of player 1 (pawn phase). -/
theorem C6_phase_bookkeeping_witness :
    (∃ s', initial.apply_action 384 = some s' ∧
      s'.phase_ = Phase.MovePawn ∧ s'.current_player_ = initial.current_player_) ∧
    (∃ s', neutronOnRow0.apply_action 640 = some s' ∧
      s'.phase_ = Phase.MoveNeutron ∧ s'.current_player_ = 2) := by
  have hs : (initial.apply_action 384).isSome = true := by decide
  obtain ⟨s1, h1⟩ := Option.isSome_iff_exists.mp hs
  have hs2 : (neutronOnRow0.apply_action 640).isSome = true := by decide
  obtain ⟨s2, h2⟩ := Option.isSome_iff_exists.mp hs2
  exact ⟨⟨s1, h1, (C6_phase_bookkeeping initial s1 384 h1).1 rfl⟩,
    ⟨s2, h2, ((C6_phase_bookkeeping neutronOnRow0 s2 640 h2).2 rfl).1,
      ((C6_phase_bookkeeping neutronOnRow0 s2 640 h2).2 rfl).2.1 rfl⟩⟩

end GameState

namespace GameState

/-- C19: for every state and every action in `[0, 800)` whose decoded
destination `(row + dr*distance, col + dc*distance)` lies outside the 5x5
board, `apply_action` raises (returns no state). -/
theorem C19_off_board_rejected (s : GameState) (a : Int) (h0 : 0 ≤ a) (h800 : a < 800)
    (hoff : (action_destination a).1 < 0 ∨ (action_destination a).1 ≥ 5 ∨
      (action_destination a).2 < 0 ∨ (action_destination a).2 ≥ 5) :
    s.apply_action a = none := by
  have _ := h0
  have _ := h800
  rw [apply_action_eq, if_pos hoff]

/-- C19 witness: action 0 (cell 0, north, distance 1) in the opening position. -/
theorem C19_off_board_rejected_witness : initial.apply_action 0 = none :=
  C19_off_board_rejected initial 0 (by decide) (by decide) (by decide)

/-- C20 (code defect): in the opening position (neutron phase) the action 640
(cell 20, north, distance 1: a pawn of player 1, moved one step although rows
3, 2 and 1 are free) is in `[0, 800)` and is not among `get_legal_actions`, yet
`apply_action` returns a state, in which the pawn stands on cell 15. -/
theorem C20_illegal_action_applied :
    (0 : Int) ≤ 640 ∧ (640 : Int) < 800 ∧ (640 : Int) ∉ initial.get_legal_actions ∧
    (initial.apply_action 640).map
        (fun s' => (arrGet s'.board_ 15, arrGet s'.board_ 20, s'.phase_)) =
      some (Piece.Player1Pawn, Piece.Empty, Phase.MovePawn) := by
  decide

end GameState

open MCTSNode MCTS

theorem onPath_iff {V : Type} (arena : List (MCTSNode V)) (j i : Nat) :
    OnPath arena j i ↔
      i = j ∨ ∃ n p, arena[j]? = some n ∧ n.parent_ = some p ∧ OnPath arena p i := by
  constructor
  · intro h
    cases h with
    | self => exact Or.inl rfl
    | step _ p _ n h1 h2 h3 => exact Or.inr ⟨n, p, h1, h2, h3⟩
  · rintro (rfl | ⟨n, p, h1, h2, h3⟩)
    · exact OnPath.self _
    · exact OnPath.step _ p _ n h1 h2 h3

theorem onPath_le {V : Type} (arena : List (MCTSNode V)) (hpf : ParentsFirst arena)
    (j i : Nat) (h : OnPath arena j i) : i ≤ j := by
  induction h with
  | self => exact le_refl _
  | step i p a n h1 h2 _ ih => have := hpf i n h1 p h2; omega

theorem onPath_mono {V : Type} (arena arena1 : List (MCTSNode V))
    (hpar : ∀ (i : Nat) (n : MCTSNode V), arena[i]? = some n →
      ∃ n1, arena1[i]? = some n1 ∧ n1.parent_ = n.parent_)
    (j i : Nat) (h : OnPath arena j i) : OnPath arena1 j i := by
  induction h with
  | self => exact OnPath.self _
  | step i p a n h1 h2 _ ih =>
    obtain ⟨n1, hn1, hp1⟩ := hpar i n h1
    exact OnPath.step i p a n1 hn1 (hp1.trans h2) ih

theorem lookup_set_cases {V : Type} (arena : List (MCTSNode V)) (j i : Nat)
    (n1 n : MCTSNode V) (h : (arena.set j n1)[i]? = some n) :
    (i = j ∧ n = n1) ∨ (i ≠ j ∧ arena[i]? = some n) := by
  rw [List.getElem?_set] at h
  by_cases hij : j = i
  · rw [if_pos hij] at h
    split_ifs at h
    · exact Or.inl ⟨hij.symm, (Option.some.inj h).symm⟩
  · rw [if_neg hij] at h
    exact Or.inr ⟨fun e => hij e.symm, h⟩

theorem lt_length_of_lookup {V : Type} (arena : List (MCTSNode V)) (i : Nat) (n : MCTSNode V)
    (h : arena[i]? = some n) : i < arena.length := by
  obtain ⟨hlt, _⟩ := List.getElem?_eq_some.mp h
  exact hlt

theorem backpropagate_loop_spec {V : Type} (F : FloatOps V)
    (hneg : ∀ x, F.neg (F.neg x) = x) (pl : Int) (v : V) (j : Nat) :
    ∀ (arena : List (MCTSNode V)) (fuel : Nat), ParentsFirst arena →
      (∀ (i : Nat) (n : MCTSNode V), arena[i]? = some n →
        n.state_.current_player_ = 1 ∨ n.state_.current_player_ = 2) →
      (pl = 1 ∨ pl = 2) →
      ∀ nj : MCTSNode V, arena[j]? = some nj → j < fuel →
      ∃ arena1, backpropagate_loop F fuel arena (some j)
          (if nj.state_.current_player_ = pl then v else F.neg v) = some arena1 ∧
        arena1.length = arena.length ∧
        ∀ (i : Nat) (n : MCTSNode V), arena[i]? = some n →
          (OnPath arena j i → arena1[i]? = some
            { n with visit_count_ := n.visit_count_ + 1
                     value_sum_ := F.add n.value_sum_
                       (if n.state_.current_player_ = pl then v else F.neg v) }) ∧
          (¬ OnPath arena j i → arena1[i]? = some n) := by
  induction j using Nat.strong_induction_on with
  | _ j ih =>
    intro arena fuel hpf hplay hpl nj hj hfuel
    obtain ⟨fuel1, rfl⟩ : ∃ f, fuel = f + 1 := ⟨fuel - 1, by omega⟩
    have hjlt := lt_length_of_lookup arena j nj hj
    rw [backpropagate_loop]
    simp only [hj]
    have hnbp : ({ nj with visit_count_ := nj.visit_count_ + 1
                           value_sum_ := F.add nj.value_sum_
                             (if nj.state_.current_player_ = pl then v else F.neg v) } :
        MCTSNode V).parent_ = nj.parent_ := rfl
    have hnbs : ({ nj with visit_count_ := nj.visit_count_ + 1
                           value_sum_ := F.add nj.value_sum_
                             (if nj.state_.current_player_ = pl then v else F.neg v) } :
        MCTSNode V).state_ = nj.state_ := rfl
    generalize hnb : ({ nj with visit_count_ := nj.visit_count_ + 1
                                value_sum_ := F.add nj.value_sum_
                                  (if nj.state_.current_player_ = pl then v else F.neg v) } :
        MCTSNode V) = nb at hnbp hnbs ⊢
    cases hpar : nj.parent_ with
    | none =>
      simp only
      rw [backpropagate_loop]
      refine ⟨_, rfl, List.length_set _ _ _, ?_⟩
      intro i n hi
      constructor
      · intro hon
        rcases (onPath_iff arena j i).mp hon with rfl | ⟨n1, p, h1, h2, _⟩
        · rw [hj] at hi
          cases hi
          rw [List.getElem?_set_self hjlt, hnb]
        · rw [hj] at h1
          cases h1
          rw [hpar] at h2
          cases h2
      · intro hnot
        have hne : j ≠ i := fun e => hnot (e ▸ OnPath.self _)
        rw [List.getElem?_set_ne hne]
        exact hi
    | some p =>
      have hpj : p < j := hpf j nj hj p hpar
      have hplt : p < arena.length := by omega
      obtain ⟨np, hnp⟩ : ∃ np, arena[p]? = some np := ⟨_, List.getElem?_eq_getElem hplt⟩
      have hnp1 : (arena.set j nb)[p]? = some np := by
        rw [List.getElem?_set_ne (by omega)]
        exact hnp
      simp only [hnp1]
      have hval : (if nj.state_.current_player_ ≠ np.state_.current_player_ then
            F.neg (if nj.state_.current_player_ = pl then v else F.neg v)
          else (if nj.state_.current_player_ = pl then v else F.neg v)) =
          (if np.state_.current_player_ = pl then v else F.neg v) := by
        rcases hplay j nj hj with h1 | h1 <;> rcases hplay p np hnp with h2 | h2 <;>
          rcases hpl with h3 | h3 <;> simp [h1, h2, h3, hneg]
      rw [hval]
      have hpf1 : ParentsFirst (arena.set j nb) := by
        intro i n hi q hq
        rcases lookup_set_cases _ _ _ _ _ hi with ⟨rfl, rfl⟩ | ⟨_, h⟩
        · exact hpf _ nj hj q (hnbp ▸ hq)
        · exact hpf i n h q hq
      have hplay1 : ∀ (i : Nat) (n : MCTSNode V), (arena.set j nb)[i]? = some n →
          n.state_.current_player_ = 1 ∨ n.state_.current_player_ = 2 := by
        intro i n hi
        rcases lookup_set_cases _ _ _ _ _ hi with ⟨rfl, rfl⟩ | ⟨_, h⟩
        · rw [hnbs]
          exact hplay _ nj hj
        · exact hplay i n h
      obtain ⟨arena2, hrun, hlen, hspec⟩ := ih p hpj _ fuel1 hpf1 hplay1 hpl np hnp1 (by omega)
      refine ⟨arena2, hrun, by rw [hlen, List.length_set], ?_⟩
      intro i n hi
      have hto : ∀ a, OnPath arena p a → OnPath (arena.set j nb) p a := by
        intro a
        apply onPath_mono
        intro i n hi
        by_cases hij : j = i
        · subst hij
          rw [hj] at hi
          cases hi
          exact ⟨_, List.getElem?_set_self hjlt, hnbp⟩
        · exact ⟨n, by rw [List.getElem?_set_ne hij]; exact hi, rfl⟩
      have hfrom : ∀ a, OnPath (arena.set j nb) p a → OnPath arena p a := by
        intro a
        apply onPath_mono
        intro i n hi
        rcases lookup_set_cases _ _ _ _ _ hi with ⟨rfl, rfl⟩ | ⟨_, h⟩
        · exact ⟨nj, hj, hnbp.symm⟩
        · exact ⟨n, h, rfl⟩
      by_cases hij : i = j
      · subst hij
        rw [hj] at hi
        cases hi
        have hnot : ¬ OnPath (arena.set i nb) p i := by
          intro h
          have := onPath_le _ hpf1 p i h
          omega
        have h2 := (hspec i _ (List.getElem?_set_self hjlt)).2 hnot
        rw [← hnb] at h2
        exact ⟨fun _ => h2, fun h => absurd (OnPath.self i) h⟩
      · have hi1 : (arena.set j nb)[i]? = some n := by
          rw [List.getElem?_set_ne (fun e => hij e.symm)]
          exact hi
        obtain ⟨h1, h2⟩ := hspec i n hi1
        constructor
        · intro hon
          apply h1
          apply hto
          rcases (onPath_iff arena j i).mp hon with e | ⟨n1, q, e1, e2, e3⟩
          · exact absurd e hij
          · rw [hj] at e1
            cases e1
            rw [hpar] at e2
            cases e2
            exact e3
        · intro hnot
          apply h2
          intro h
          exact hnot (OnPath.step j p i nj hj hpar (hfrom i h))

/-- C18: `MCTSNode::backpropagate(v)` called on a node `l` of a tree whose
states all have player to move 1 or 2 returns; every node `a` on the path from
`l` to the root gets its visit count incremented by one and its accumulated
value increased by `v` when the player to move of `a` is the one of `l`, and
by `-v` otherwise; every other node is unchanged. The negation of the value
type is assumed to be an involution, as it is for `float`. -/
theorem C18_backpropagate_sign_rule {V : Type} (F : FloatOps V)
    (hneg : ∀ x, F.neg (F.neg x) = x) (arena : List (MCTSNode V))
    (hpf : ParentsFirst arena)
    (hplay : ∀ (i : Nat) (n : MCTSNode V), arena[i]? = some n →
      n.state_.current_player_ = 1 ∨ n.state_.current_player_ = 2)
    (l : Nat) (nl : MCTSNode V) (hl : arena[l]? = some nl) (v : V) :
    ∃ arena1, MCTSNode.backpropagate F arena l v = some arena1 ∧
      arena1.length = arena.length ∧
      ∀ (a : Nat) (na : MCTSNode V), arena[a]? = some na →
        (OnPath arena l a → arena1[a]? = some
          { na with visit_count_ := na.visit_count_ + 1
                    value_sum_ := F.add na.value_sum_
                      (if na.state_.current_player_ = nl.state_.current_player_
                        then v else F.neg v) }) ∧
        (¬ OnPath arena l a → arena1[a]? = some na) := by
  have h := backpropagate_loop_spec F hneg nl.state_.current_player_ v l arena arena.length
    hpf hplay (hplay l nl hl) nl hl (lt_length_of_lookup arena l nl hl)
  rw [if_pos rfl] at h
  exact h

theorem threeNodes_parentsFirst : ParentsFirst threeNodes := by
  intro i n hi p hp
  match i, hi with
  | 0, hi => cases hi; cases hp
  | 1, hi => cases hi; cases hp; decide
  | 2, hi => cases hi; cases hp; decide
  | _ + 3, hi => cases hi

theorem threeNodes_players (i : Nat) (n : MCTSNode Int) (hi : threeNodes[i]? = some n) :
    n.state_.current_player_ = 1 ∨ n.state_.current_player_ = 2 := by
  match i, hi with
  | 0, hi => cases hi; exact Or.inl rfl
  | 1, hi => cases hi; exact Or.inl rfl
  | 2, hi => cases hi; exact Or.inr rfl
  | _ + 3, hi => cases hi

/-- C18 witness: backpropagation of the value 5 from the grandchild of
`threeNodes`, whose player to move is 2 while the two nodes above it have
player 1. -/
theorem C18_backpropagate_sign_rule_witness :
    ∃ arena1, MCTSNode.backpropagate intOps threeNodes 2 5 = some arena1 ∧
      arena1.length = threeNodes.length ∧
      ∀ (a : Nat) (na : MCTSNode Int), threeNodes[a]? = some na →
        (OnPath threeNodes 2 a → arena1[a]? = some
          { na with visit_count_ := na.visit_count_ + 1
                    value_sum_ := intOps.add na.value_sum_
                      (if na.state_.current_player_ = 2 then 5 else intOps.neg 5) }) ∧
        (¬ OnPath threeNodes 2 a → arena1[a]? = some na) :=
  C18_backpropagate_sign_rule intOps (fun x => Int.neg_neg x) threeNodes
    threeNodes_parentsFirst threeNodes_players 2 _ rfl 5

theorem threeNodes_backpropagate :
    (MCTSNode.backpropagate intOps threeNodes 2 5).map
        (fun arena1 => arena1.map fun n => (n.visit_count_, n.value_sum_)) =
      some [(2, -5), (2, -5), (1, 5)] := by
  decide

open MCTSNode MCTS

theorem sameShape_refl {V : Type} (arena : List (MCTSNode V)) : SameShape arena arena :=
  ⟨rfl, fun _ n h => ⟨n, h, rfl, rfl, rfl⟩⟩

open MCTSNode MCTS

open MCTSNode MCTS

open MCTSNode MCTS GameState

open MCTSNode MCTS GameState

theorem search_tree_opening :
    (search_tree intOps constInfer twoSimulations initial).map
        (fun arena => (arena.length, visit_of arena 0,
          (arena[0]?).map (child_visits arena))) = some (27, 2, some 2) := by
  decide

namespace GameState

theorem getElem?_cond_set {V : Type} (one : V) (t : List V) (p : Prop) [Decidable p]
    (a j : Nat) (hj : j < t.length) :
    (if p then t.set a one else t)[j]? = if p ∧ j = a then some one else t[j]? := by
  by_cases hp : p
  · rw [if_pos hp, List.getElem?_set]
    by_cases ha : a = j
    · subst ha
      rw [if_pos rfl, if_pos hj, if_pos ⟨hp, rfl⟩]
    · rw [if_neg ha, if_neg (fun h => ha h.2.symm)]
  · rw [if_neg hp, if_neg (fun h => hp h.1)]

theorem length_cond_set {V : Type} (one : V) (t : List V) (p : Prop) [Decidable p] (a : Nat) :
    (if p then t.set a one else t).length = t.length := by
  split_ifs
  · exact List.length_set _ _ _
  · rfl

/-- Three guarded writes of `one`, as in one iteration of the loop of `encode`. -/
theorem cond_set3 {V : Type} (one : V) (t : List V) (p1 p2 p3 : Prop) [Decidable p1]
    [Decidable p2] [Decidable p3] (a b c : Nat) :
    (if p3 then (if p2 then (if p1 then t.set a one else t).set b one
        else (if p1 then t.set a one else t)).set c one
      else (if p2 then (if p1 then t.set a one else t).set b one
        else (if p1 then t.set a one else t))).length = t.length ∧
    ∀ j, j < t.length →
      (((p1 ∧ j = a) ∨ (p2 ∧ j = b) ∨ (p3 ∧ j = c)) →
        (if p3 then (if p2 then (if p1 then t.set a one else t).set b one
            else (if p1 then t.set a one else t)).set c one
          else (if p2 then (if p1 then t.set a one else t).set b one
            else (if p1 then t.set a one else t)))[j]? = some one) ∧
      (¬ ((p1 ∧ j = a) ∨ (p2 ∧ j = b) ∨ (p3 ∧ j = c)) →
        (if p3 then (if p2 then (if p1 then t.set a one else t).set b one
            else (if p1 then t.set a one else t)).set c one
          else (if p2 then (if p1 then t.set a one else t).set b one
            else (if p1 then t.set a one else t)))[j]? = t[j]?) := by
  have l1 := length_cond_set one t p1 a
  have l2 := length_cond_set one (if p1 then t.set a one else t) p2 b
  have l3 := length_cond_set one
    (if p2 then (if p1 then t.set a one else t).set b one else (if p1 then t.set a one else t))
    p3 c
  refine ⟨by rw [l3, l2, l1], fun j hj => ?_⟩
  have g1 := getElem?_cond_set one t p1 a j hj
  have g2 := getElem?_cond_set one (if p1 then t.set a one else t) p2 b j (by rw [l1]; exact hj)
  have g3 := getElem?_cond_set one
    (if p2 then (if p1 then t.set a one else t).set b one else (if p1 then t.set a one else t))
    p3 c j (by rw [l2, l1]; exact hj)
  rw [g3, g2, g1]
  constructor
  · intro h
    by_cases h3 : p3 ∧ j = c
    · rw [if_pos h3]
    · rw [if_neg h3]
      by_cases h2 : p2 ∧ j = b
      · rw [if_pos h2]
      · rw [if_neg h2]
        by_cases h1 : p1 ∧ j = a
        · rw [if_pos h1]
        · exact absurd h (by tauto)
  · intro h
    rw [if_neg (fun h3 => h (Or.inr (Or.inr h3))), if_neg (fun h2 => h (Or.inr (Or.inl h2))),
      if_neg (fun h1 => h (Or.inl h1))]

/-- The first loop of `encode` after `n` iterations: entry `j` is `one` when
one of the iterations wrote it, `zero` otherwise. -/
theorem encode_loop {V : Type} (F : FloatOps V) (s : GameState) (n : Nat) :
    let step := fun (tensor : List V) (c : Nat) =>
      let my_pawn : Piece :=
        if s.current_player_ = 1 then Piece.Player1Pawn else Piece.Player2Pawn
      let opp_pawn : Piece :=
        if s.current_player_ = 1 then Piece.Player2Pawn else Piece.Player1Pawn
      let cell : Int := c
      let row := cell.tdiv kBoardSize
      let col := cell.tmod kBoardSize
      let piece := s.get_piece cell
      let encoded_row := if s.current_player_ = 1 then row else kBoardSize - 1 - row
      let encoded_cell := encoded_row * kBoardSize + col
      let t1 := if piece = my_pawn then tensor.set encoded_cell.toNat F.one else tensor
      let t2 := if piece = opp_pawn then t1.set (kNumCells + encoded_cell).toNat F.one else t1
      if piece = Piece.Neutron then t2.set (2 * kNumCells + encoded_cell).toNat F.one else t2
    ((List.range n).foldl step (List.replicate 100 F.zero)).length = 100 ∧
    ∀ j, j < 100 →
      ((∃ c, c < n ∧ s.encode_writes c j) →
        ((List.range n).foldl step (List.replicate 100 F.zero))[j]? = some F.one) ∧
      ((¬ ∃ c, c < n ∧ s.encode_writes c j) →
        ((List.range n).foldl step (List.replicate 100 F.zero))[j]? = some F.zero) := by
  intro step
  induction n with
  | zero =>
    refine ⟨by simp, fun j hj => ⟨fun ⟨c, hc, _⟩ => absurd hc (Nat.not_lt_zero c), fun _ => ?_⟩⟩
    show (List.replicate 100 F.zero)[j]? = some F.zero
    rw [List.getElem?_replicate, if_pos hj]
  | succ n ih =>
    obtain ⟨hlen, hval⟩ := ih
    rw [List.range_succ, List.foldl_append, List.foldl_cons, List.foldl_nil]
    obtain ⟨h1, h2⟩ := cond_set3 F.one ((List.range n).foldl step (List.replicate 100 F.zero))
      (s.get_piece (n : Int) =
        if s.current_player_ = 1 then Piece.Player1Pawn else Piece.Player2Pawn)
      (s.get_piece (n : Int) =
        if s.current_player_ = 1 then Piece.Player2Pawn else Piece.Player1Pawn)
      (s.get_piece (n : Int) = Piece.Neutron)
      ((if s.current_player_ = 1 then (n : Int).tdiv kBoardSize
        else kBoardSize - 1 - (n : Int).tdiv kBoardSize) * kBoardSize +
        (n : Int).tmod kBoardSize).toNat
      (kNumCells + ((if s.current_player_ = 1 then (n : Int).tdiv kBoardSize
        else kBoardSize - 1 - (n : Int).tdiv kBoardSize) * kBoardSize +
        (n : Int).tmod kBoardSize)).toNat
      (2 * kNumCells + ((if s.current_player_ = 1 then (n : Int).tdiv kBoardSize
        else kBoardSize - 1 - (n : Int).tdiv kBoardSize) * kBoardSize +
        (n : Int).tmod kBoardSize)).toNat
    refine ⟨h1.trans hlen, fun j hj => ?_⟩
    obtain ⟨w1, w2⟩ := h2 j (by rw [hlen]; exact hj)
    obtain ⟨v1, v2⟩ := hval j hj
    by_cases hw : s.encode_writes n j
    · exact ⟨fun _ => w1 hw, fun hno => absurd ⟨n, Nat.lt_succ_self n, hw⟩ hno⟩
    · constructor
      · rintro ⟨c, hc, hcw⟩
        have hcn : c < n := by
          rcases Nat.lt_succ_iff_lt_or_eq.mp hc with h | h
          · exact h
          · subst h; exact absurd hcw hw
        exact (w2 hw).trans (v1 ⟨c, hcn, hcw⟩)
      · intro hno
        exact (w2 hw).trans (v2 (fun ⟨c, hc, hcw⟩ => hno ⟨c, Nat.lt_succ_of_lt hc, hcw⟩))


/-- The second loop of `encode` after `n ≤ 25` iterations. -/
theorem encode_phase_loop {V : Type} (one : V) (t : List V) (ht : t.length = 100) (n : Nat)
    (hn : n ≤ 25) :
    ((List.range n).foldl (fun (tensor : List V) (i : Nat) =>
      tensor.set (3 * kNumCells + (i : Int)).toNat one) t).length = 100 ∧
    ∀ j, j < 100 →
      ((List.range n).foldl (fun (tensor : List V) (i : Nat) =>
        tensor.set (3 * kNumCells + (i : Int)).toNat one) t)[j]? =
        if 75 ≤ j ∧ j < 75 + n then some one else t[j]? := by
  induction n with
  | zero =>
    refine ⟨ht, fun j _ => ?_⟩
    rw [if_neg (by omega)]
    rfl
  | succ n ih =>
    obtain ⟨hlen, hval⟩ := ih (by omega)
    rw [List.range_succ, List.foldl_append, List.foldl_cons, List.foldl_nil]
    refine ⟨by rw [List.length_set, hlen], fun j hj => ?_⟩
    have hidx : (3 * kNumCells + (n : Int)).toNat = 75 + n := by
      show (3 * 25 + (n : Int)).toNat = 75 + n
      omega
    rw [hidx, List.getElem?_set, hval j hj, hlen]
    by_cases hjn : 75 + n = j
    · rw [if_pos hjn, if_pos (by omega), if_pos (by omega)]
    · rw [if_neg hjn]
      by_cases hc : 75 ≤ j ∧ j < 75 + n
      · rw [if_pos hc, if_pos (by omega)]
      · rw [if_neg hc, if_neg (by omega)]

/-- Closed form of `encode`: 100 entries; entry `j` is `one` when an iteration
of the first loop wrote it or when it lies in the phase plane of a neutron
phase, and `zero` otherwise. -/
theorem encode_spec {V : Type} (F : FloatOps V) (s : GameState) :
    (s.encode F).length = 100 ∧
    ∀ j, j < 100 →
      (((∃ c, c < 25 ∧ s.encode_writes c j) ∨ (s.phase_ = Phase.MoveNeutron ∧ 75 ≤ j)) →
        (s.encode F)[j]? = some F.one) ∧
      (¬ ((∃ c, c < 25 ∧ s.encode_writes c j) ∨ (s.phase_ = Phase.MoveNeutron ∧ 75 ≤ j)) →
        (s.encode F)[j]? = some F.zero) := by
  obtain ⟨hlen, hval⟩ := encode_loop F s 25
  unfold encode
  simp only
  by_cases hph : s.phase_ = Phase.MoveNeutron
  · rw [if_pos hph]
    obtain ⟨plen, pval⟩ := encode_phase_loop F.one _ hlen 25 (le_refl _)
    refine ⟨plen, fun j hj => ?_⟩
    rw [pval j hj]
    by_cases hj75 : 75 ≤ j
    · rw [if_pos ⟨hj75, by omega⟩]
      exact ⟨fun _ => rfl, fun h => absurd (Or.inr ⟨hph, hj75⟩) h⟩
    · rw [if_neg (fun h => hj75 h.1)]
      constructor
      · rintro (h | h)
        · exact (hval j hj).1 h
        · exact absurd h.2 hj75
      · intro h
        exact (hval j hj).2 (fun hw => h (Or.inl hw))
  · rw [if_neg hph]
    refine ⟨hlen, fun j hj => ?_⟩
    constructor
    · rintro (h | h)
      · exact (hval j hj).1 h
      · exact absurd h.1 hph
    · intro h
      exact (hval j hj).2 (fun hw => h (Or.inl hw))

/-- Index arithmetic of `encode`: what iteration `c < 25` writes, with the
index as a natural number. -/
theorem encode_writes_iff (s : GameState) (c j : Nat) (hc : c < 25) :
    s.encode_writes c j ↔
      (s.get_piece (c : Int) =
          (if s.current_player_ = 1 then Piece.Player1Pawn else Piece.Player2Pawn) ∧
        j = if s.current_player_ = 1 then c else (4 - c / 5) * 5 + c % 5) ∨
      (s.get_piece (c : Int) =
          (if s.current_player_ = 1 then Piece.Player2Pawn else Piece.Player1Pawn) ∧
        j = 25 + if s.current_player_ = 1 then c else (4 - c / 5) * 5 + c % 5) ∨
      (s.get_piece (c : Int) = Piece.Neutron ∧
        j = 50 + if s.current_player_ = 1 then c else (4 - c / 5) * 5 + c % 5) := by
  have hd : (c : Int).tdiv 5 = (c : Int) / 5 := Int.tdiv_eq_ediv (by omega) (by omega)
  have hm : (c : Int).tmod 5 = (c : Int) % 5 := Int.tmod_eq_emod (by omega) (by omega)
  have e0 : ((if s.current_player_ = 1 then (c : Int).tdiv kBoardSize
      else kBoardSize - 1 - (c : Int).tdiv kBoardSize) * kBoardSize +
      (c : Int).tmod kBoardSize).toNat =
      if s.current_player_ = 1 then c else (4 - c / 5) * 5 + c % 5 := by
    show ((if s.current_player_ = 1 then (c : Int).tdiv 5
      else 5 - 1 - (c : Int).tdiv 5) * 5 + (c : Int).tmod 5).toNat = _
    rw [hd, hm]
    split_ifs <;> omega
  have e1 : (kNumCells + ((if s.current_player_ = 1 then (c : Int).tdiv kBoardSize
      else kBoardSize - 1 - (c : Int).tdiv kBoardSize) * kBoardSize +
      (c : Int).tmod kBoardSize)).toNat =
      25 + if s.current_player_ = 1 then c else (4 - c / 5) * 5 + c % 5 := by
    show (25 + ((if s.current_player_ = 1 then (c : Int).tdiv 5
      else 5 - 1 - (c : Int).tdiv 5) * 5 + (c : Int).tmod 5)).toNat = _
    rw [hd, hm]
    split_ifs <;> omega
  have e2 : (2 * kNumCells + ((if s.current_player_ = 1 then (c : Int).tdiv kBoardSize
      else kBoardSize - 1 - (c : Int).tdiv kBoardSize) * kBoardSize +
      (c : Int).tmod kBoardSize)).toNat =
      50 + if s.current_player_ = 1 then c else (4 - c / 5) * 5 + c % 5 := by
    show (2 * 25 + ((if s.current_player_ = 1 then (c : Int).tdiv 5
      else 5 - 1 - (c : Int).tdiv 5) * 5 + (c : Int).tmod 5)).toNat = _
    rw [hd, hm]
    split_ifs <;> omega
  unfold encode_writes
  simp only
  rw [e0, e1, e2]


/-- The three entries of the tensor that belong to cell `c0`. -/
theorem encode_entry {V : Type} (F : FloatOps V) (hne : F.one ≠ F.zero) (s : GameState)
    (c0 e0 : Nat) (hc0 : c0 < 25)
    (h0 : e0 = if s.current_player_ = 1 then c0 else (4 - c0 / 5) * 5 + c0 % 5) :
    ((s.encode F)[e0]? = some F.one ↔
      s.get_piece (c0 : Int) =
        if s.current_player_ = 1 then Piece.Player1Pawn else Piece.Player2Pawn) ∧
    ((s.encode F)[25 + e0]? = some F.one ↔
      s.get_piece (c0 : Int) =
        if s.current_player_ = 1 then Piece.Player2Pawn else Piece.Player1Pawn) ∧
    ((s.encode F)[50 + e0]? = some F.one ↔
      s.get_piece (c0 : Int) = Piece.Neutron) := by
  obtain ⟨_, hval⟩ := encode_spec F s
  have he : e0 < 25 := by
    rw [h0]
    split_ifs <;> omega
  have hinj : ∀ c, c < 25 →
      (if s.current_player_ = 1 then c else (4 - c / 5) * 5 + c % 5) = e0 → c = c0 := by
    intro c hc h
    rw [h0] at h
    split_ifs at h <;> omega
  have hlt : ∀ c, c < 25 →
      (if s.current_player_ = 1 then c else (4 - c / 5) * 5 + c % 5) < 25 := by
    intro c hc
    split_ifs <;> omega
  have hzero : ∀ j : Nat,
      (s.encode F)[j]? = some F.zero → (s.encode F)[j]? = some F.one → False :=
    fun j h0 h1 => hne (Option.some.inj (h1.symm.trans h0))
  refine ⟨?_, ?_, ?_⟩ <;> constructor <;> intro h
  · by_contra hno
    refine hzero _ ((hval e0 (by omega)).2 ?_) h
    rintro (⟨c, hc, hw⟩ | ⟨_, h75⟩)
    · have := hlt c hc
      rcases (encode_writes_iff s c e0 hc).mp hw with ⟨hp, hj⟩ | ⟨_, hj⟩ | ⟨_, hj⟩
      · rw [hinj c hc hj.symm] at hp
        exact hno hp
      · omega
      · omega
    · omega
  · exact (hval e0 (by omega)).1
      (Or.inl ⟨c0, hc0, (encode_writes_iff s c0 e0 hc0).mpr (Or.inl ⟨h, h0⟩)⟩)
  · by_contra hno
    refine hzero _ ((hval (25 + e0) (by omega)).2 ?_) h
    rintro (⟨c, hc, hw⟩ | ⟨_, h75⟩)
    · have := hlt c hc
      rcases (encode_writes_iff s c (25 + e0) hc).mp hw with ⟨_, hj⟩ | ⟨hp, hj⟩ | ⟨_, hj⟩
      · omega
      · rw [hinj c hc (by omega)] at hp
        exact hno hp
      · omega
    · omega
  · exact (hval (25 + e0) (by omega)).1
      (Or.inl ⟨c0, hc0, (encode_writes_iff s c0 (25 + e0) hc0).mpr
        (Or.inr (Or.inl ⟨h, by rw [h0]⟩))⟩)
  · by_contra hno
    refine hzero _ ((hval (50 + e0) (by omega)).2 ?_) h
    rintro (⟨c, hc, hw⟩ | ⟨_, h75⟩)
    · have := hlt c hc
      rcases (encode_writes_iff s c (50 + e0) hc).mp hw with ⟨_, hj⟩ | ⟨_, hj⟩ | ⟨hp, hj⟩
      · omega
      · omega
      · rw [hinj c hc (by omega)] at hp
        exact hno hp
    · omega
  · exact (hval (50 + e0) (by omega)).1
      (Or.inl ⟨c0, hc0, (encode_writes_iff s c0 (50 + e0) hc0).mpr
        (Or.inr (Or.inr ⟨h, by rw [h0]⟩))⟩)

/-- C21: for a state whose player to move `p` is 1 or 2, `encode` returns 100
entries, each `0` or `1`; with `m(row) = row` for `p = 1` and `4 - row` for
`p = 2`, entry `m(row)*5+col` is `1` iff the cell `(row, col)` holds a pawn of
`p`, entry `25 + m(row)*5+col` iff it holds a pawn of the opponent, entry
`50 + m(row)*5+col` iff it holds the neutron; the entries 75..99 are all `1`
in the neutron phase and all `0` in the pawn phase. The value `1.0f` is
assumed to differ from `0.0f`. -/
theorem C21_encode_layout {V : Type} (F : FloatOps V) (hne : F.one ≠ F.zero) (s : GameState)
    (hp : s.current_player_ = 1 ∨ s.current_player_ = 2) :
    (s.encode F).length = 100 ∧
    (∀ x ∈ s.encode F, x = F.zero ∨ x = F.one) ∧
    (∀ row col : Nat, row < 5 → col < 5 →
      ((s.encode F)[(if s.current_player_ = 1 then row else 4 - row) * 5 + col]? = some F.one ↔
        s.get_piece (rowcol_to_cell row col) = s.current_player_) ∧
      ((s.encode F)[25 + ((if s.current_player_ = 1 then row else 4 - row) * 5 + col)]? =
          some F.one ↔
        s.get_piece (rowcol_to_cell row col) = 3 - s.current_player_) ∧
      ((s.encode F)[50 + ((if s.current_player_ = 1 then row else 4 - row) * 5 + col)]? =
          some F.one ↔
        s.get_piece (rowcol_to_cell row col) = Piece.Neutron)) ∧
    (∀ i, 75 ≤ i → i < 100 →
      (s.encode F)[i]? = some (if s.phase_ = Phase.MoveNeutron then F.one else F.zero)) := by
  obtain ⟨hlen, hval⟩ := encode_spec F s
  refine ⟨hlen, fun x hx => ?_, fun row col hrow hcol => ?_, fun i h75 h100 => ?_⟩
  · obtain ⟨j, hj⟩ := List.mem_iff_getElem?.mp hx
    have hjlt : j < 100 := by
      rw [← hlen]
      exact (List.getElem?_eq_some.mp hj).1
    by_cases hc : (∃ c, c < 25 ∧ s.encode_writes c j) ∨ (s.phase_ = Phase.MoveNeutron ∧ 75 ≤ j)
    · exact Or.inr (Option.some.inj (hj.symm.trans ((hval j hjlt).1 hc)))
    · exact Or.inl (Option.some.inj (hj.symm.trans ((hval j hjlt).2 hc)))
  · have hcell : rowcol_to_cell (row : Int) (col : Int) = ((row * 5 + col : Nat) : Int) := by
      simp [rowcol_to_cell]
    have hidx : (if s.current_player_ = 1 then row else 4 - row) * 5 + col =
        if s.current_player_ = 1 then row * 5 + col
        else (4 - (row * 5 + col) / 5) * 5 + (row * 5 + col) % 5 := by
      split_ifs <;> omega
    have hmy : (if s.current_player_ = 1 then Piece.Player1Pawn else Piece.Player2Pawn) =
        s.current_player_ := by
      rcases hp with h | h <;> rw [h] <;> rfl
    have hopp : (if s.current_player_ = 1 then Piece.Player2Pawn else Piece.Player1Pawn) =
        3 - s.current_player_ := by
      rcases hp with h | h <;> rw [h] <;> rfl
    have := encode_entry F hne s (row * 5 + col) _ (by omega) hidx
    rw [hmy, hopp] at this
    rw [hcell]
    exact this
  · by_cases hph : s.phase_ = Phase.MoveNeutron
    · rw [if_pos hph]
      exact (hval i h100).1 (Or.inr ⟨hph, h75⟩)
    · rw [if_neg hph]
      refine (hval i h100).2 ?_
      rintro (⟨c, hc, hw⟩ | ⟨h, _⟩)
      · have hlt : (if s.current_player_ = 1 then c else (4 - c / 5) * 5 + c % 5) < 25 := by
          split_ifs <;> omega
        rcases (encode_writes_iff s c i hc).mp hw with ⟨_, hj⟩ | ⟨_, hj⟩ | ⟨_, hj⟩ <;> omega
      · exact hph h

/-- C21 witness: the opening position with the integer stand-in values. -/
theorem C21_encode_layout_witness :
    (initial.encode intOps).length = 100 ∧
    (∀ x ∈ initial.encode intOps, x = intOps.zero ∨ x = intOps.one) ∧
    (∀ row col : Nat, row < 5 → col < 5 →
      ((initial.encode intOps)[(if initial.current_player_ = 1 then row else 4 - row) * 5 +
          col]? = some intOps.one ↔
        initial.get_piece (rowcol_to_cell row col) = initial.current_player_) ∧
      ((initial.encode intOps)[25 + ((if initial.current_player_ = 1 then row else 4 - row) * 5 +
          col)]? = some intOps.one ↔
        initial.get_piece (rowcol_to_cell row col) = 3 - initial.current_player_) ∧
      ((initial.encode intOps)[50 + ((if initial.current_player_ = 1 then row else 4 - row) * 5 +
          col)]? = some intOps.one ↔
        initial.get_piece (rowcol_to_cell row col) = Piece.Neutron)) ∧
    (∀ i, 75 ≤ i → i < 100 →
      (initial.encode intOps)[i]? =
        some (if initial.phase_ = Phase.MoveNeutron then intOps.one else intOps.zero)) :=
  C21_encode_layout intOps (by decide) initial (Or.inl rfl)

end GameState

namespace GameState

theorem swap_pawn_eq_player2 (x : Piece) :
    swap_pawn x = Piece.Player2Pawn ↔ x = Piece.Player1Pawn := by
  unfold swap_pawn
  split_ifs with h1 h2
  · simp [h1]
  · simp [h2]
  · exact ⟨fun h => absurd h h2, fun h => absurd h h1⟩

theorem swap_pawn_eq_player1 (x : Piece) :
    swap_pawn x = Piece.Player1Pawn ↔ x = Piece.Player2Pawn := by
  unfold swap_pawn
  split_ifs with h1 h2
  · simp [h1]
  · simp [h2]
  · exact ⟨fun h => absurd h h1, fun h => absurd h h2⟩

theorem swap_pawn_eq_neutron (x : Piece) :
    swap_pawn x = Piece.Neutron ↔ x = Piece.Neutron := by
  unfold swap_pawn
  split_ifs with h1 h2
  · simp [h1]
  · simp [h2]
  · exact Iff.rfl

theorem get_piece_mirror (s : GameState) (c : Nat) (hc : c < 25) :
    (mirror s).get_piece (c : Int) =
      swap_pawn (s.get_piece (((4 - c / 5) * 5 + c % 5 : Nat) : Int)) := by
  have h1 := arrGet_of_fin (mirror s).board_ ⟨c, hc⟩
  have h2 := arrGet_of_fin s.board_ ⟨(4 - c / 5) * 5 + c % 5, by omega⟩
  unfold get_piece
  simp only at h1 h2
  rw [h1, h2]
  rfl

theorem encode_writes_mirror (s : GameState)
    (hp : s.current_player_ = 1 ∨ s.current_player_ = 2) (c j : Nat) (hc : c < 25) :
    (mirror s).encode_writes c j ↔ s.encode_writes ((4 - c / 5) * 5 + c % 5) j := by
  have hf : (4 - c / 5) * 5 + c % 5 < 25 := by omega
  rw [encode_writes_iff _ c j hc, encode_writes_iff s _ j hf, get_piece_mirror s c hc]
  have hpm : (mirror s).current_player_ = 3 - s.current_player_ := rfl
  rw [hpm]
  have hff : (4 - ((4 - c / 5) * 5 + c % 5) / 5) * 5 + ((4 - c / 5) * 5 + c % 5) % 5 = c := by
    omega
  rw [hff]
  have h3 : swap_pawn Piece.Neutron = Piece.Neutron := rfl
  rcases hp with h | h
  · rw [h]
    simp only [show (3 : Int) - 1 = 2 from rfl, show ¬ ((2 : Int) = 1) by decide, if_false,
      if_true, swap_pawn_eq_player2, swap_pawn_eq_player1, swap_pawn_eq_neutron]
  · rw [h]
    simp only [show (3 : Int) - 2 = 1 from rfl, show ¬ ((2 : Int) = 1) by decide, if_false,
      if_true, swap_pawn_eq_player2, swap_pawn_eq_player1, swap_pawn_eq_neutron]

/-- C22: for a state `s` whose player to move is 1 or 2, the mirrored state
(rows reversed, the pawns of the two players exchanged, the other player to
move, the same phase) has the same tensor: `encode(mirror(s)) = encode(s)`. -/
theorem C22_encode_perspective_symmetry {V : Type} (F : FloatOps V) (s : GameState)
    (hp : s.current_player_ = 1 ∨ s.current_player_ = 2) :
    (mirror s).encode F = s.encode F := by
  obtain ⟨hlen, hval⟩ := encode_spec F s
  obtain ⟨mlen, mval⟩ := encode_spec F (mirror s)
  apply List.ext_getElem?
  intro j
  by_cases hj : j < 100
  · have hiff : ((∃ c, c < 25 ∧ (mirror s).encode_writes c j) ∨
        ((mirror s).phase_ = Phase.MoveNeutron ∧ 75 ≤ j)) ↔
        ((∃ c, c < 25 ∧ s.encode_writes c j) ∨ (s.phase_ = Phase.MoveNeutron ∧ 75 ≤ j)) := by
      have hex : (∃ c, c < 25 ∧ (mirror s).encode_writes c j) ↔
          (∃ c, c < 25 ∧ s.encode_writes c j) := by
        constructor
        · rintro ⟨c, hc, hw⟩
          exact ⟨(4 - c / 5) * 5 + c % 5, by omega, (encode_writes_mirror s hp c j hc).mp hw⟩
        · rintro ⟨c, hc, hw⟩
          refine ⟨(4 - c / 5) * 5 + c % 5, by omega,
            (encode_writes_mirror s hp _ j (by omega)).mpr ?_⟩
          have hff : (4 - ((4 - c / 5) * 5 + c % 5) / 5) * 5 + ((4 - c / 5) * 5 + c % 5) % 5 =
              c := by omega
          rw [hff]
          exact hw
      rw [hex]
      exact Iff.rfl
    by_cases hd : (∃ c, c < 25 ∧ s.encode_writes c j) ∨ (s.phase_ = Phase.MoveNeutron ∧ 75 ≤ j)
    · rw [(hval j hj).1 hd, (mval j hj).1 (hiff.mpr hd)]
    · rw [(hval j hj).2 hd, (mval j hj).2 (fun h => hd (hiff.mp h))]
  · rw [List.getElem?_eq_none (by omega), List.getElem?_eq_none (by omega)]

/-- C22 witness: the state `neutronOnRow0` (player 1 to move). -/
theorem C22_encode_perspective_symmetry_witness :
    (mirror neutronOnRow0).encode intOps = neutronOnRow0.encode intOps :=
  C22_encode_perspective_symmetry intOps neutronOnRow0 (Or.inl rfl)

end GameState

namespace GameState

/-- On `[0, 800)`, as natural numbers: `flip_action` stays in range and is its
own inverse. -/
theorem flip_action_nat (a : Nat) (ha : a < 800) :
    (flip_action (a : Int)).toNat < 800 ∧
    flip_action (((flip_action (a : Int)).toNat : Nat) : Int) = (a : Int) := by
  have h0 : (0 : Int) ≤ (a : Int) := by omega
  have h800 : (a : Int) < 800 := by omega
  generalize (a : Int) = x at h0 h800 ⊢
  have he : x = encode_action (x / 32) (x % 32 / 4) (x % 32 % 4 + 1) := by
    unfold encode_action; omega
  have hc : 0 ≤ x / 32 ∧ x / 32 < 25 := by omega
  have hd : 0 ≤ x % 32 / 4 ∧ x % 32 / 4 < 8 := by omega
  have hk : 1 ≤ x % 32 % 4 + 1 ∧ x % 32 % 4 + 1 ≤ 4 := by omega
  obtain ⟨hf0, hf8, hff⟩ := kDirectionFlip_range (x % 32 / 4) hd
  have hfc : 0 ≤ (4 - x / 32 / 5) * 5 + x / 32 % 5 ∧ (4 - x / 32 / 5) * 5 + x / 32 % 5 < 25 := by
    omega
  have hfa : flip_action x =
      encode_action ((4 - x / 32 / 5) * 5 + x / 32 % 5) (kDirectionFlip (x % 32 / 4))
        (x % 32 % 4 + 1) := by
    conv_lhs => rw [he]
    exact flip_action_encode _ _ _ hc.1 hd hk
  have hr : 0 ≤ flip_action x ∧ flip_action x < 800 := by
    rw [hfa]; unfold encode_action; omega
  have hi : flip_action (flip_action x) = x := by
    rw [hfa, flip_action_encode _ _ _ hfc.1 ⟨hf0, hf8⟩ hk, hff]
    unfold encode_action; omega
  refine ⟨by omega, ?_⟩
  rw [Int.toNat_of_nonneg hr.1]
  exact hi

/-- The loop of `flip_policy` after `n ≤ 800` iterations. -/
theorem flip_policy_loop {V : Type} (zero : V) (policy : List V) (n : Nat) (hn : n ≤ 800) :
    ((List.range n).foldl (fun (flipped : List V) (a : Nat) =>
      flipped.set (flip_action (a : Int)).toNat (policy.getD a zero))
      (List.replicate 800 zero)).length = 800 ∧
    ∀ j : Nat, j < 800 →
      ((List.range n).foldl (fun (flipped : List V) (a : Nat) =>
        flipped.set (flip_action (a : Int)).toNat (policy.getD a zero))
        (List.replicate 800 zero))[j]? =
        some (if (flip_action (j : Int)).toNat < n
          then policy.getD (flip_action (j : Int)).toNat zero else zero) := by
  induction n with
  | zero =>
    refine ⟨List.length_replicate _ _, fun j hj => ?_⟩
    rw [if_neg (Nat.not_lt_zero _)]
    show (List.replicate 800 zero)[j]? = some zero
    rw [List.getElem?_replicate, if_pos hj]
  | succ n ih =>
    obtain ⟨hlen, hval⟩ := ih (by omega)
    rw [List.range_succ, List.foldl_append, List.foldl_cons, List.foldl_nil]
    refine ⟨by rw [List.length_set, hlen], fun j hj => ?_⟩
    obtain ⟨hn1, hn2⟩ := flip_action_nat n (by omega)
    obtain ⟨hj1, hj2⟩ := flip_action_nat j hj
    rw [List.getElem?_set, hlen, hval j hj]
    by_cases hjn : (flip_action (n : Int)).toNat = j
    · have hfj : (flip_action (j : Int)).toNat = n := by
        rw [← hjn, hn2]
        omega
      rw [if_pos hjn, if_pos hn1, hfj, if_pos (Nat.lt_succ_self n)]
    · have hfj : (flip_action (j : Int)).toNat ≠ n := by
        intro h
        apply hjn
        rw [← h, hj2]
        omega
      rw [if_neg hjn]
      by_cases hlt : (flip_action (j : Int)).toNat < n
      · rw [if_pos hlt, if_pos (by omega)]
      · rw [if_neg hlt, if_neg (by omega)]

/-- Closed form of `flip_policy`. -/
theorem flip_policy_spec {V : Type} (zero : V) (policy : List V) :
    (flip_policy zero policy).length = 800 ∧
    ∀ j : Nat, j < 800 → (flip_policy zero policy)[j]? =
      some (policy.getD (flip_action (j : Int)).toNat zero) := by
  obtain ⟨hlen, hval⟩ := flip_policy_loop zero policy 800 (le_refl _)
  refine ⟨hlen, fun j hj => ?_⟩
  unfold flip_policy
  rw [hval j hj, if_pos (flip_action_nat j hj).1]

/-- C23: for a policy vector `p` of length 800, `flip_policy(p)` has length
800, `flip_policy(p)[flip_action(a)] = p[a]` for every `a` in `[0, 800)`, and
`flip_policy(flip_policy(p)) = p`. -/
theorem C23_flip_policy_involution {V : Type} (zero : V) (p : List V) (hp : p.length = 800) :
    (flip_policy zero p).length = 800 ∧
    (∀ a : Nat, a < 800 → (flip_policy zero p)[(flip_action (a : Int)).toNat]? = p[a]?) ∧
    flip_policy zero (flip_policy zero p) = p := by
  obtain ⟨hlen, hval⟩ := flip_policy_spec zero p
  have hget : ∀ a : Nat, a < 800 → some (p.getD a zero) = p[a]? := by
    intro a ha
    rw [List.getD_eq_getElem?_getD, List.getElem?_eq_getElem (by omega)]
    rfl
  refine ⟨hlen, fun a ha => ?_, ?_⟩
  · obtain ⟨h1, h2⟩ := flip_action_nat a ha
    rw [hval _ h1, h2, Int.toNat_ofNat]
    exact hget a ha
  · obtain ⟨hlen2, hval2⟩ := flip_policy_spec zero (flip_policy zero p)
    apply List.ext_getElem?
    intro j
    by_cases hj : j < 800
    · obtain ⟨h1, h2⟩ := flip_action_nat j hj
      rw [hval2 j hj, List.getD_eq_getElem?_getD, hval _ h1, h2, Int.toNat_ofNat]
      exact hget j hj
    · rw [List.getElem?_eq_none (by omega), List.getElem?_eq_none (by omega)]

/-- C23 witness: the vector `0, 1, ..., 799`. -/
theorem C23_flip_policy_involution_witness :
    (flip_policy (0 : Int) ((List.range 800).map Int.ofNat)).length = 800 ∧
    (∀ a : Nat, a < 800 →
      (flip_policy (0 : Int) ((List.range 800).map Int.ofNat))[(flip_action (a : Int)).toNat]? =
        ((List.range 800).map Int.ofNat)[a]?) ∧
    flip_policy (0 : Int) (flip_policy (0 : Int) ((List.range 800).map Int.ofNat)) =
      (List.range 800).map Int.ofNat :=
  C23_flip_policy_involution 0 ((List.range 800).map Int.ofNat) (by rw [List.length_map, List.length_range])

end GameState

namespace GameState

/-- C24 counterexample: in the opening position built by `GameState()`,
`get_legal_actions` does not return 4 actions. -/
theorem C24_counterexample : ¬ (initial.get_legal_actions.length = 4) := by
  decide

/-- C24 (amended): in the opening position built by `GameState()` (pawns on
rows 0 and 4, neutron on cell 12, neutron phase), `get_legal_actions` returns
exactly 8 actions, one per direction, all moving the neutron from cell 12, to
8 distinct destinations: distance 1 in the six directions that lead towards a
home row, distance 2 to the east and to the west. -/
theorem C24_opening_legal_actions :
    initial.get_legal_actions = [384, 388, 393, 396, 400, 404, 409, 412] ∧
    initial.get_legal_actions.length = 8 ∧
    initial.get_legal_actions.map decode_action =
      [(12, 0, 1), (12, 1, 1), (12, 2, 2), (12, 3, 1), (12, 4, 1), (12, 5, 1), (12, 6, 2),
        (12, 7, 1)] ∧
    initial.get_legal_actions.map action_destination =
      [(1, 2), (1, 3), (2, 4), (3, 3), (3, 2), (3, 1), (2, 0), (1, 1)] := by
  decide

end GameState

namespace MCTS

/-- The greedy loop of `select_action` from the locals `best`: the result has
at least the visits of `best` and of every entry, and is `best` or an entry. -/
theorem select_action_loop (visit_counts : List (Int × Int)) :
    ∀ best : Int × Int,
      best.2 ≤ (visit_counts.foldl (fun (best : Int × Int) (entry : Int × Int) =>
        if entry.2 > best.2 then (entry.1, entry.2) else best) best).2 ∧
      (∀ e ∈ visit_counts, e.2 ≤ (visit_counts.foldl
        (fun (best : Int × Int) (entry : Int × Int) =>
          if entry.2 > best.2 then (entry.1, entry.2) else best) best).2) ∧
      ((visit_counts.foldl (fun (best : Int × Int) (entry : Int × Int) =>
          if entry.2 > best.2 then (entry.1, entry.2) else best) best) = best ∨
        (visit_counts.foldl (fun (best : Int × Int) (entry : Int × Int) =>
          if entry.2 > best.2 then (entry.1, entry.2) else best) best) ∈ visit_counts) := by
  induction visit_counts with
  | nil =>
    intro best
    exact ⟨le_refl _, fun e he => (by cases he), Or.inl rfl⟩
  | cons x l ih =>
    intro best
    rw [List.foldl_cons]
    by_cases hx : x.2 > best.2
    · rw [if_pos hx]
      obtain ⟨h1, h2, h3⟩ := ih (x.1, x.2)
      refine ⟨by simp only at h1; omega, fun e he => ?_, Or.inr ?_⟩
      · rcases List.mem_cons.mp he with rfl | he
        · exact h1
        · exact h2 e he
      · rcases h3 with h | h
        · rw [h]
          exact List.mem_cons_self _ _
        · exact List.mem_cons_of_mem _ h
    · rw [if_neg hx]
      obtain ⟨h1, h2, h3⟩ := ih best
      refine ⟨h1, fun e he => ?_, ?_⟩
      · rcases List.mem_cons.mp he with rfl | he
        · omega
        · exact h2 e he
      · rcases h3 with h | h
        · exact Or.inl h
        · exact Or.inr (List.mem_cons_of_mem _ h)

/-- C25: with temperature 0, for every non-empty map of visit counts (counts
are non-negative) `select_action` returns an action that is a key of the map
and whose visit count is at least the visit count of every entry, whatever the
iteration order of the map. -/
theorem C25_select_action_most_visited (sampled : Int) (visit_counts : List (Int × Int))
    (hne : visit_counts ≠ []) (hcount : ∀ e ∈ visit_counts, 0 ≤ e.2) :
    ∃ visits, (select_action true sampled visit_counts, visits) ∈ visit_counts ∧
      ∀ e ∈ visit_counts, e.2 ≤ visits := by
  obtain ⟨_, h2, h3⟩ := select_action_loop visit_counts ((-1 : Int), (-1 : Int))
  unfold select_action
  rw [if_pos rfl]
  refine ⟨_, ?_, h2⟩
  rcases h3 with h | h
  · exfalso
    obtain ⟨e, he⟩ := List.exists_mem_of_ne_nil visit_counts hne
    have h0 := hcount e he
    have hle := h2 e he
    rw [h] at hle
    simp only at hle
    omega
  · exact h

/-- C25 witness: three children, the second and the third tied at 5 visits. -/
theorem C25_select_action_most_visited_witness :
    ∃ visits, (select_action true 0 [(384, 2), (396, 5), (412, 5)], visits) ∈
        [((384 : Int), (2 : Int)), (396, 5), (412, 5)] ∧
      ∀ e ∈ [((384 : Int), (2 : Int)), (396, 5), (412, 5)], e.2 ≤ visits :=
  C25_select_action_most_visited 0 [(384, 2), (396, 5), (412, 5)] (by decide) (by decide)

end MCTS

namespace MCTS

/-- On pairs with different actions `pair_lt` compares the actions. -/
theorem pair_lt_of_ne {V : Type} (F : FloatOps V) (a b : Int × V) (h : a.1 ≠ b.1) :
    pair_lt F a b = true ↔ a.1 < b.1 := by
  unfold pair_lt
  constructor
  · intro hlt
    by_contra hno
    have hba : b.1 < a.1 := by omega
    simp [hno, hba] at hlt
  · intro hlt
    simp [hlt]

/-- Insertion of a pair with a new action into a list sorted by action. -/
theorem orderedInsert_sorted {V : Type} (F : FloatOps V) (b : Int × V) :
    ∀ l : List (Int × V), l.Pairwise (fun x y => x.1 < y.1) → (∀ x ∈ l, x.1 ≠ b.1) →
      (l.orderedInsert (fun a b => pair_lt F b a = false) b).Pairwise
        (fun x y => x.1 < y.1) := by
  intro l
  induction l with
  | nil =>
    intro _ _
    exact List.pairwise_singleton _ _
  | cons x l ih =>
    intro hs hne
    obtain ⟨hx, hl⟩ := List.pairwise_cons.mp hs
    have hxb : x.1 ≠ b.1 := hne x (List.mem_cons_self _ _)
    show (if pair_lt F x b = false then b :: x :: l
      else x :: l.orderedInsert (fun a b => pair_lt F b a = false) b).Pairwise _
    by_cases hr : pair_lt F x b = false
    · rw [if_pos hr]
      have hbx : b.1 < x.1 := by
        have : ¬ x.1 < b.1 := fun h => by
          rw [(pair_lt_of_ne F x b hxb).mpr h] at hr
          cases hr
        omega
      refine List.pairwise_cons.mpr ⟨fun y hy => ?_, hs⟩
      rcases List.mem_cons.mp hy with rfl | hy
      · exact hbx
      · exact lt_trans hbx (hx y hy)
    · rw [if_neg hr]
      have hlt : x.1 < b.1 :=
        (pair_lt_of_ne F x b hxb).mp (by simpa using hr)
      refine List.pairwise_cons.mpr ⟨fun y hy => ?_,
        ih hl (fun y hy => hne y (List.mem_cons_of_mem _ hy))⟩
      rcases (List.mem_orderedInsert _).mp hy with rfl | hy
      · exact hlt
      · exact hx y hy

/-- The sort puts pairs with pairwise distinct actions in strictly ascending
order of action. -/
theorem sort_pairs_sorted {V : Type} (F : FloatOps V) :
    ∀ l : List (Int × V), (l.map Prod.fst).Nodup →
      (sort_pairs F l).Pairwise (fun x y => x.1 < y.1) := by
  intro l
  induction l with
  | nil =>
    intro _
    exact List.Pairwise.nil
  | cons b l ih =>
    intro hnd
    rw [List.map_cons, List.nodup_cons] at hnd
    show ((l.insertionSort (fun a b => pair_lt F b a = false)).orderedInsert
      (fun a b => pair_lt F b a = false) b).Pairwise _
    apply orderedInsert_sorted F b _ (ih hnd.2)
    intro x hx hxb
    have hxl : x ∈ l := (List.perm_insertionSort _ l).mem_iff.mp hx
    exact hnd.1 (hxb ▸ List.mem_map_of_mem Prod.fst hxl)

theorem foldl_total (l : List (Int × Int)) :
    ∀ init : Int, l.foldl (fun (total : Int) (entry : Int × Int) => total + entry.2) init =
      init + (l.map Prod.snd).sum := by
  induction l with
  | nil =>
    intro init
    simp
  | cons x l ih =>
    intro init
    rw [List.foldl_cons, ih, List.map_cons, List.sum_cons]
    omega

theorem sum_div_total (l : List (Int × Int)) (t : Rat) :
    (l.map (fun e => ((e.2 : Int) : Rat) / t)).sum = (((l.map Prod.snd).sum : Int) : Rat) / t := by
  induction l with
  | nil => simp
  | cons x l ih =>
    rw [List.map_cons, List.sum_cons, ih, List.map_cons, List.sum_cons]
    push_cast
    ring

/-- C26: for a visit-count map (entries with pairwise distinct actions, in any
iteration order) `visit_counts_to_probs` returns a rearrangement of the pairs
`(action, visits / total)`, one per entry, in strictly ascending order of
action; and when the division of the value type is exact, the total positive
and the counts non-negative, the probabilities are non-negative and sum to 1. -/
theorem C26_visit_counts_to_probs {V : Type} (F : FloatOps V)
    (visit_counts : List (Int × Int)) (hkeys : (visit_counts.map Prod.fst).Nodup) :
    (visit_counts_to_probs F visit_counts).Perm
      (visit_counts.map fun e =>
        (e.1, F.div (F.ofInt e.2) (F.ofInt (visit_counts.map Prod.snd).sum))) ∧
    (visit_counts_to_probs F visit_counts).length = visit_counts.length ∧
    (visit_counts_to_probs F visit_counts).Pairwise (fun x y => x.1 < y.1) ∧
    (∀ val : V → Rat,
      (∀ a b : Int, val (F.div (F.ofInt a) (F.ofInt b)) = (a : Rat) / (b : Rat)) →
      0 < (visit_counts.map Prod.snd).sum → (∀ e ∈ visit_counts, 0 ≤ e.2) →
      (∀ p ∈ visit_counts_to_probs F visit_counts, 0 ≤ val p.2) ∧
      ((visit_counts_to_probs F visit_counts).map fun p => val p.2).sum = 1) := by
  have htot : visit_counts.foldl (fun (total : Int) (entry : Int × Int) => total + entry.2) 0 =
      (visit_counts.map Prod.snd).sum := by
    rw [foldl_total, zero_add]
  have hperm : (visit_counts_to_probs F visit_counts).Perm
      (visit_counts.map fun e =>
        (e.1, F.div (F.ofInt e.2) (F.ofInt (visit_counts.map Prod.snd).sum))) := by
    unfold visit_counts_to_probs sort_pairs
    simp only [htot]
    exact List.perm_insertionSort _ _
  refine ⟨hperm, ?_, ?_, ?_⟩
  · rw [hperm.length_eq, List.length_map]
  · unfold visit_counts_to_probs
    simp only [htot]
    apply sort_pairs_sorted
    rw [List.map_map]
    exact hkeys
  · intro val hexact hpos hcount
    constructor
    · intro p hp
      obtain ⟨e, he, rfl⟩ := List.mem_map.mp (hperm.mem_iff.mp hp)
      rw [hexact]
      have h1 : (0 : Rat) ≤ ((e.2 : Int) : Rat) := by exact_mod_cast hcount e he
      have h2 : (0 : Rat) ≤ (((visit_counts.map Prod.snd).sum : Int) : Rat) := by
        exact_mod_cast le_of_lt hpos
      exact div_nonneg h1 h2
    · rw [(hperm.map (fun p => val p.2)).sum_eq, List.map_map]
      have hfun : ((fun p : Int × V => val p.2) ∘ fun e : Int × Int =>
          (e.1, F.div (F.ofInt e.2) (F.ofInt (visit_counts.map Prod.snd).sum))) =
          fun e => ((e.2 : Int) : Rat) / (((visit_counts.map Prod.snd).sum : Int) : Rat) := by
        funext e
        exact hexact _ _
      rw [hfun, sum_div_total]
      have hne : ((((visit_counts.map Prod.snd).sum : Int) : Rat)) ≠ 0 := by
        exact_mod_cast ne_of_gt hpos
      exact div_self hne

/-- C26 witness: three actions with 2, 5 and 1 visits, over the rationals. -/
theorem C26_visit_counts_to_probs_witness :
    visit_counts_to_probs ratOps [(396, 5), (384, 2), (412, 1)] =
      [(384, 2 / 8), (396, 5 / 8), (412, 1 / 8)] ∧
    (visit_counts_to_probs ratOps [(396, 5), (384, 2), (412, 1)]).Pairwise
      (fun x y => x.1 < y.1) ∧
    ((visit_counts_to_probs ratOps [(396, 5), (384, 2), (412, 1)]).map
      fun p => (fun x : Rat => x) p.2).sum = 1 :=
  ⟨by
    simp only [visit_counts_to_probs, sort_pairs, List.foldl, List.map, List.insertionSort,
      List.orderedInsert, pair_lt, ratOps]
    simp,
    (C26_visit_counts_to_probs ratOps [(396, 5), (384, 2), (412, 1)] (by decide)).2.2.1,
    ((C26_visit_counts_to_probs ratOps [(396, 5), (384, 2), (412, 1)] (by decide)).2.2.2
      (fun x => x) (fun _ _ => rfl) (by decide) (by decide)).2⟩

end MCTS

namespace NeutronAgent

/-- C27: for every name that, after lower-casing, is none of "easy", "medium",
"hard", `set_difficulty(name)` returns `false` and leaves the difficulty
configuration, the configuration held by the MCTS object and the model loader
as they were; only the error message is set. -/
theorem C27_unknown_difficulty_rejected {V : Type} (lit : Rat → V) (agent : NeutronAgent V)
    (difficulty_name : String)
    (heasy : lower_case difficulty_name ≠ "easy")
    (hmedium : lower_case difficulty_name ≠ "medium")
    (hhard : lower_case difficulty_name ≠ "hard") :
    (set_difficulty_name lit agent difficulty_name).1 = false ∧
    (set_difficulty_name lit agent difficulty_name).2.difficulty_config_ =
      agent.difficulty_config_ ∧
    (set_difficulty_name lit agent difficulty_name).2.get_difficulty_config =
      agent.get_difficulty_config ∧
    (set_difficulty_name lit agent difficulty_name).2.mcts_ = agent.mcts_ ∧
    (set_difficulty_name lit agent difficulty_name).2.model_loader_ = agent.model_loader_ ∧
    (set_difficulty_name lit agent difficulty_name).2.error_message_ =
      "Unknown difficulty: " ++ difficulty_name := by
  unfold set_difficulty_name
  simp only [if_neg heasy, if_neg hmedium, if_neg hhard]
  simp [get_difficulty_config]

/-- C27 witness: the name "Expert" on the agent `readyAgent`. -/
theorem C27_unknown_difficulty_rejected_witness :
    (set_difficulty_name (fun _ => (0 : Int)) readyAgent "Expert").1 = false ∧
    (set_difficulty_name (fun _ => (0 : Int)) readyAgent "Expert").2.difficulty_config_ =
      readyAgent.difficulty_config_ ∧
    (set_difficulty_name (fun _ => (0 : Int)) readyAgent "Expert").2.get_difficulty_config =
      readyAgent.get_difficulty_config ∧
    (set_difficulty_name (fun _ => (0 : Int)) readyAgent "Expert").2.mcts_ = readyAgent.mcts_ ∧
    (set_difficulty_name (fun _ => (0 : Int)) readyAgent "Expert").2.model_loader_ =
      readyAgent.model_loader_ ∧
    (set_difficulty_name (fun _ => (0 : Int)) readyAgent "Expert").2.error_message_ =
      "Unknown difficulty: " ++ "Expert" :=
  C27_unknown_difficulty_rejected (fun _ => (0 : Int)) readyAgent "Expert"
    (by decide) (by decide) (by decide)

/-- C28: `get_move` returns an action only if the agent is ready and the state
is not terminal; an agent that is not ready gives the runtime error "Agent not
ready - load a model first", a ready agent with a terminal state gives the
runtime error "Cannot get move for terminal state", in both cases whatever the
search function is (it is not called); and a ready agent with a non-terminal
state returns what `mcts_->search(state)` returns. -/
theorem C28_get_move_preconditions {V : Type} (agent : NeutronAgent V) (state : GameState) :
    (∀ (search : MCTSConfig V → GameState → Except String Int) (action : Int),
      get_move search agent state = Except.ok action →
        agent.is_ready = true ∧ state.is_terminal = false) ∧
    (agent.is_ready = false →
      ∀ search : MCTSConfig V → GameState → Except String Int,
        get_move search agent state = Except.error "Agent not ready - load a model first") ∧
    (agent.is_ready = true → state.is_terminal = true →
      ∀ search : MCTSConfig V → GameState → Except String Int,
        get_move search agent state = Except.error "Cannot get move for terminal state") ∧
    (agent.is_ready = true → state.is_terminal = false →
      ∃ config, agent.mcts_ = some config ∧
        ∀ search : MCTSConfig V → GameState → Except String Int,
          get_move search agent state = search config state) := by
  refine ⟨fun search action h => ?_, fun hr search => ?_, fun hr ht search => ?_,
    fun hr ht => ?_⟩
  · unfold get_move at h
    cases hr : agent.is_ready with
    | false => simp [hr] at h
    | true =>
      cases ht : state.is_terminal with
      | false => exact ⟨rfl, rfl⟩
      | true => simp [hr, ht] at h
  · unfold get_move
    simp [hr]
  · unfold get_move
    simp [hr, ht]
  · cases hm : agent.mcts_ with
    | none =>
      unfold is_ready at hr
      rw [hm] at hr
      cases hl : agent.model_loader_ with
      | none => simp [hl] at hr
      | some ml => simp [hl] at hr
    | some config =>
      refine ⟨config, rfl, fun search => ?_⟩
      unfold get_move
      simp [hr, ht, hm]

/-- Facts about the presets and the three names, on any agent. -/
theorem set_difficulty_spec {V : Type} (lit : Rat → V) (agent : NeutronAgent V)
    (difficulty : Difficulty) :
    (set_difficulty lit agent difficulty).difficulty_config_ =
      DifficultyConfig.from_preset lit difficulty ∧
    (set_difficulty lit agent difficulty).model_loader_ = agent.model_loader_ ∧
    (set_difficulty lit agent difficulty).mcts_ = agent.mcts_.map (fun config =>
      { config with
        num_simulations := (DifficultyConfig.from_preset lit difficulty).simulations
        temperature := (DifficultyConfig.from_preset lit difficulty).temperature }) := by
  unfold set_difficulty update_mcts
  cases hm : agent.mcts_ <;> exact ⟨rfl, rfl, rfl⟩

/-- C29: `from_preset` maps Easy to (100, 0.5), Medium to (300, 0.2) and Hard
to (800, 0.0); `set_difficulty` with the names "easy", "medium", "hard" returns
`true` and installs exactly these pairs as the difficulty configuration of the
agent, and as simulation count and temperature of its MCTS object when there
is one. -/
theorem C29_difficulty_presets {V : Type} (lit : Rat → V) (agent : NeutronAgent V) :
    DifficultyConfig.from_preset lit Difficulty.Easy =
      { simulations := 100, temperature := lit 0.5 } ∧
    DifficultyConfig.from_preset lit Difficulty.Medium =
      { simulations := 300, temperature := lit 0.2 } ∧
    DifficultyConfig.from_preset lit Difficulty.Hard =
      { simulations := 800, temperature := lit 0.0 } ∧
    (set_difficulty_name lit agent "easy").1 = true ∧
    (set_difficulty_name lit agent "easy").2.get_difficulty_config =
      { simulations := 100, temperature := lit 0.5 } ∧
    (set_difficulty_name lit agent "easy").2.mcts_ = agent.mcts_.map (fun config =>
      { config with num_simulations := 100, temperature := lit 0.5 }) ∧
    (set_difficulty_name lit agent "medium").1 = true ∧
    (set_difficulty_name lit agent "medium").2.get_difficulty_config =
      { simulations := 300, temperature := lit 0.2 } ∧
    (set_difficulty_name lit agent "medium").2.mcts_ = agent.mcts_.map (fun config =>
      { config with num_simulations := 300, temperature := lit 0.2 }) ∧
    (set_difficulty_name lit agent "hard").1 = true ∧
    (set_difficulty_name lit agent "hard").2.get_difficulty_config =
      { simulations := 800, temperature := lit 0.0 } ∧
    (set_difficulty_name lit agent "hard").2.mcts_ = agent.mcts_.map (fun config =>
      { config with num_simulations := 800, temperature := lit 0.0 }) := by
  have he : set_difficulty_name lit agent "easy" =
      (true, set_difficulty lit agent Difficulty.Easy) := by
    unfold set_difficulty_name
    rw [if_pos (by decide)]
  have hm : set_difficulty_name lit agent "medium" =
      (true, set_difficulty lit agent Difficulty.Medium) := by
    unfold set_difficulty_name
    rw [if_neg (by decide), if_pos (by decide)]
  have hh : set_difficulty_name lit agent "hard" =
      (true, set_difficulty lit agent Difficulty.Hard) := by
    unfold set_difficulty_name
    rw [if_neg (by decide), if_neg (by decide), if_pos (by decide)]
  rw [he, hm, hh]
  obtain ⟨e1, _, e3⟩ := set_difficulty_spec lit agent Difficulty.Easy
  obtain ⟨m1, _, m3⟩ := set_difficulty_spec lit agent Difficulty.Medium
  obtain ⟨h1, _, h3⟩ := set_difficulty_spec lit agent Difficulty.Hard
  exact ⟨rfl, rfl, rfl, rfl, e1, e3, rfl, m1, m3, rfl, h1, h3⟩

end NeutronAgent

end neutron_rl

/-! ## Theorems: classic board and move generator -/

namespace classic

theorem tabGet_tabSet (table : Fin 25 → Nat) (i j : Int) (v : Nat) :
    tabGet (tabSet table i v) j =
      if j = i ∧ 0 ≤ j ∧ j < 25 then v else tabGet table j := by
  unfold tabGet tabSet
  by_cases hj : 0 ≤ j ∧ j < 25
  · have hcast : ((j.toNat : Nat) : Int) = j := Int.toNat_of_nonneg hj.1
    by_cases hji : j = i
    · subst hji; simp [hj, hcast]
    · have : ¬ ((j.toNat : Nat) : Int) = i := by rw [hcast]; exact hji
      simp [hj, hji, this]
  · have : ¬ (j = i ∧ 0 ≤ j ∧ j < 25) := fun h => hj h.2
    simp [hj, this]

theorem tabGet_of_fin (table : Fin 25 → Nat) (i : Fin 25) :
    tabGet table (i.val : Int) = table i := by
  have h : 0 ≤ (i.val : Int) ∧ (i.val : Int) < 25 := ⟨by omega, by omega⟩
  simp [tabGet, h]

namespace Board

theorem ext_table (b b' : Board) (h : ∀ i, b.table i = b'.table i) : b = b' := by
  cases b; cases b'; simp only [Board.mk.injEq]; exact funext h

theorem findNeutron_some (b : Board) (n : Move) (h : b.findNeutron = some n) :
    n.kind = PieceKind.NEUTRON ∧ onBoard n ∧ b.elementAt n.row n.col = PieceKind.NEUTRON := by
  unfold findNeutron at h
  cases hf : (List.finRange 25).find? (fun i => decide (b.table i = PieceKind.NEUTRON)) with
  | none => rw [hf] at h; cases h
  | some i =>
    rw [hf] at h
    have hb := List.find?_some hf
    simp only [decide_eq_true_eq] at hb
    simp only [Option.some.injEq] at h
    subst h
    have hi := i.isLt
    refine ⟨rfl, ⟨by simp only; omega, by simp only; omega, by simp only; omega,
      by simp only; omega⟩, ?_⟩
    unfold elementAt
    have : (((i.val / 5 : Nat) : Int) * 5 + ((i.val % 5 : Nat) : Int)) = (i.val : Int) := by
      omega
    simp only [this, tabGet_of_fin, hb]

theorem findNeutron_of_mem (b : Board) (h : ∃ i, b.table i = PieceKind.NEUTRON) :
    ∃ n, b.findNeutron = some n := by
  unfold findNeutron
  cases hf : (List.finRange 25).find? (fun i => decide (b.table i = PieceKind.NEUTRON)) with
  | some i => exact ⟨_, rfl⟩
  | none =>
    exfalso
    obtain ⟨i, hi⟩ := h
    have := List.find?_eq_none.mp hf i (List.mem_finRange i)
    simp [hi] at this

theorem mem_findPieces (b : Board) (pieceKind : PieceKind) (m : Move)
    (h : m ∈ b.findPieces pieceKind) :
    m.kind = pieceKind ∧ onBoard m ∧ b.elementAt m.row m.col = pieceKind := by
  unfold findPieces at h
  rw [List.mem_filterMap] at h
  obtain ⟨i, _, hi⟩ := h
  by_cases hb : b.table i = pieceKind
  · rw [if_pos hb] at hi
    simp only [Option.some.injEq] at hi
    subst hi
    have hlt := i.isLt
    refine ⟨rfl, ⟨by simp only; omega, by simp only; omega, by simp only; omega,
      by simp only; omega⟩, ?_⟩
    unfold elementAt
    have : (((i.val / 5 : Nat) : Int) * 5 + ((i.val % 5 : Nat) : Int)) = (i.val : Int) := by
      omega
    simp only [this, tabGet_of_fin, hb]
  · rw [if_neg hb] at hi; cases hi

/-- The tip returned by the scan is the start square or an empty on-board square. -/
theorem _check_fuel_spec (b : Board) (incR incC : Int) :
    ∀ (n : Nat) (row col : Int) (tip : Move), _check_fuel b incR incC n row col = some tip →
      (tip.row = row ∧ tip.col = col) ∨
      (onBoard tip ∧ b.elementAt tip.row tip.col = PieceKind.CELL) := by
  intro n
  induction n with
  | zero => intro row col tip h; simp [_check_fuel] at h
  | succ n ih =>
    intro row col tip h
    unfold _check_fuel at h
    by_cases hc : (!inBounds row incR || !inBounds col incC ||
        elementAt b (row + incR) (col + incC) != PieceKind.CELL) = true
    · rw [if_pos hc] at h
      simp only [Option.some.injEq] at h
      subst h
      exact Or.inl ⟨rfl, rfl⟩
    · rw [if_neg hc] at h
      simp only [Bool.or_eq_true, Bool.not_eq_true', bne_iff_ne, ne_eq, not_or,
        Bool.not_eq_false, not_not] at hc
      obtain ⟨⟨hr, hcol⟩, he⟩ := hc
      simp only [inBounds, Bool.and_eq_true, decide_eq_true_eq] at hr hcol
      rcases ih _ _ tip h with ⟨h1, h2⟩ | h'
      · right
        refine ⟨⟨by omega, by omega, by omega, by omega⟩, ?_⟩
        rw [h1, h2]; exact he
      · exact Or.inr h'

theorem _check_spec (b : Board) (row col incR incC : Int) :
    ((b._check row col incR incC).row = row ∧ (b._check row col incR incC).col = col) ∨
    (onBoard (b._check row col incR incC) ∧
      b.elementAt (b._check row col incR incC).row (b._check row col incR incC).col =
        PieceKind.CELL) := by
  unfold _check
  cases h : _check_fuel b incR incC checkFuel row col with
  | none => exact Or.inl ⟨rfl, rfl⟩
  | some tip => exact _check_fuel_spec b incR incC _ _ _ _ h

/-- Every destination returned by `moves` is an empty on-board square other
than the start square, and carries the kind of the start move. -/
theorem mem_moves (b : Board) (start m : Move) (h : m ∈ b.moves start) :
    m.kind = start.kind ∧ onBoard m ∧ b.elementAt m.row m.col = PieceKind.CELL ∧
      ¬ (m.row = start.row ∧ m.col = start.col) := by
  unfold moves at h
  rw [List.mem_filterMap] at h
  obtain ⟨d, _, hd⟩ := h
  unfold checkMove at hd
  simp only at hd
  split at hd
  · cases hd
  · rename_i hne
    simp only [Option.some.injEq] at hd
    subst hd
    rcases _check_spec b start.row start.col (getRowMove d) (getColMove d) with h1 | h1
    · exact absurd ⟨h1.1.symm, h1.2.symm⟩ hne
    · exact ⟨rfl, h1.1, h1.2, fun hh => hne ⟨hh.1.symm, hh.2.symm⟩⟩

/-- The scan stops by its own test within `n` calls as soon as `n` exceeds
the number of on-board squares left along a row-changing direction. -/
theorem _check_fuel_some_row (b : Board) (incR incC : Int) (hR : incR = 1 ∨ incR = -1) :
    ∀ (n : Nat) (row col : Int), 0 < n →
      (0 ≤ row + incR → row + incR < 5 → (if incR = 1 then 4 - row else row) < (n : Int)) →
      ∃ tip, _check_fuel b incR incC n row col = some tip := by
  intro n
  induction n with
  | zero => intro row col h; omega
  | succ n ih =>
    intro row col _ hr
    unfold _check_fuel
    by_cases hc : (!inBounds row incR || !inBounds col incC ||
        elementAt b (row + incR) (col + incC) != PieceKind.CELL) = true
    · rw [if_pos hc]; exact ⟨_, rfl⟩
    · rw [if_neg hc]
      simp only [Bool.or_eq_true, Bool.not_eq_true', bne_iff_ne, ne_eq, not_or,
        Bool.not_eq_false, not_not] at hc
      obtain ⟨⟨hr1, _⟩, _⟩ := hc
      simp only [inBounds, Bool.and_eq_true, decide_eq_true_eq] at hr1
      have hr2 := hr hr1.1 hr1.2
      apply ih
      · rcases hR with h | h <;> simp [h] at hr2 hr1 <;> omega
      · intro h0 h5
        rcases hR with h | h <;> simp [h] at hr2 hr1 h0 h5 ⊢ <;> omega

/-- Same as `_check_fuel_some_row`, for a column-changing direction. -/
theorem _check_fuel_some_col (b : Board) (incR incC : Int) (hC : incC = 1 ∨ incC = -1) :
    ∀ (n : Nat) (row col : Int), 0 < n →
      (0 ≤ col + incC → col + incC < 5 → (if incC = 1 then 4 - col else col) < (n : Int)) →
      ∃ tip, _check_fuel b incR incC n row col = some tip := by
  intro n
  induction n with
  | zero => intro row col h; omega
  | succ n ih =>
    intro row col _ hr
    unfold _check_fuel
    by_cases hc : (!inBounds row incR || !inBounds col incC ||
        elementAt b (row + incR) (col + incC) != PieceKind.CELL) = true
    · rw [if_pos hc]; exact ⟨_, rfl⟩
    · rw [if_neg hc]
      simp only [Bool.or_eq_true, Bool.not_eq_true', bne_iff_ne, ne_eq, not_or,
        Bool.not_eq_false, not_not] at hc
      obtain ⟨⟨_, hc1⟩, _⟩ := hc
      simp only [inBounds, Bool.and_eq_true, decide_eq_true_eq] at hc1
      have hr2 := hr hc1.1 hc1.2
      apply ih
      · rcases hC with h | h <;> simp [h] at hr2 hc1 <;> omega
      · intro h0 h5
        rcases hC with h | h <;> simp [h] at hr2 hc1 h0 h5 ⊢ <;> omega

/-- The recursion of `_check` always stops by its own test within the budget
`checkFuel`, from every square and in each of the 8 directions. -/
theorem _check_terminates (b : Board) (row col : Int) (d : Direction) :
    ∃ tip, _check_fuel b (getRowMove d) (getColMove d) checkFuel row col = some tip ∧
      b._check row col (getRowMove d) (getColMove d) = tip := by
  have key : ∃ tip, _check_fuel b (getRowMove d) (getColMove d) checkFuel row col = some tip := by
    have hcases : (getRowMove d = 1 ∨ getRowMove d = -1) ∨
        (getColMove d = 1 ∨ getColMove d = -1) := by
      cases d <;> simp [getRowMove, getColMove]
    rcases hcases with h | h
    · apply _check_fuel_some_row b _ _ h _ _ _ (by decide)
      intro h0 h5
      rcases h with h | h <;> simp [h] at h0 h5 ⊢ <;> omega
    · apply _check_fuel_some_col b _ _ h _ _ _ (by decide)
      intro h0 h5
      rcases h with h | h <;> simp [h] at h0 h5 ⊢ <;> omega
  obtain ⟨tip, ht⟩ := key
  exact ⟨tip, ht, by simp [_check, ht]⟩

theorem index_range (m : Move) (h : onBoard m) : 0 ≤ index m ∧ index m < 25 := by
  obtain ⟨h1, h2, h3, h4⟩ := h
  simp only [index]
  constructor <;> omega

theorem index_inj (m m' : Move) (h : onBoard m) (h' : onBoard m') :
    index m = index m' ↔ (m.row = m'.row ∧ m.col = m'.col) := by
  obtain ⟨h1, h2, h3, h4⟩ := h
  obtain ⟨h1', h2', h3', h4'⟩ := h'
  constructor
  · intro e; simp only [index] at e; constructor <;> omega
  · rintro ⟨e1, e2⟩; simp only [index, e1, e2]

/-- Cell-wise effect of `applyMove`. -/
theorem tabGet_applyMove (b : Board) (src dst : Move) (j : Int) (hj : 0 ≤ j ∧ j < 25) :
    tabGet (b.applyMove src dst).table j =
      if j = index src ∧ index src ≠ index dst then PieceKind.CELL
      else if j = index dst then dst.kind
      else tabGet b.table j := by
  unfold applyMove
  simp only [index, setElementAt]
  have a1 := hj.1
  have a2 := hj.2
  by_cases hne : src.col * 5 + src.row ≠ dst.col * 5 + dst.row
  · rw [if_pos hne]
    simp only [tabGet_tabSet, a1, a2, hne, and_true, and_self, ne_eq, not_false_eq_true]
  · rw [if_neg hne]
    simp only [tabGet_tabSet, a1, a2, hne, and_true, and_self, and_false, if_false]

theorem eq_of_tabGet (b b' : Board)
    (h : ∀ j : Int, 0 ≤ j ∧ j < 25 → tabGet b.table j = tabGet b'.table j) : b = b' := by
  apply ext_table
  intro i
  have := h (i.val : Int) ⟨by omega, by omega⟩
  rwa [tabGet_of_fin, tabGet_of_fin] at this

theorem applyMove_self (b : Board) (n : Move) (hn : b.elementAt n.row n.col = n.kind) :
    b.applyMove n n = b := by
  apply eq_of_tabGet
  intro j hj
  rw [tabGet_applyMove b n n j hj]
  have hne : ¬ (j = index n ∧ index n ≠ index n) := fun h => h.2 rfl
  rw [if_neg hne]
  split
  · rename_i h; rw [h]; exact hn.symm
  · rfl

/-- Moving a piece to an empty square and back restores the board. -/
theorem applyMove_undo (b : Board) (src dst : Move)
    (hs : b.elementAt src.row src.col = src.kind)
    (hd : b.elementAt dst.row dst.col = PieceKind.CELL)
    (hne : index src ≠ index dst) :
    (b.applyMove src dst).applyMove dst src = b := by
  apply eq_of_tabGet
  intro j hj
  rw [tabGet_applyMove _ dst src j hj, tabGet_applyMove b src dst j hj]
  by_cases h1 : j = index dst
  · have h2 : ¬ j = index src := fun h => hne (h ▸ h1)
    rw [if_pos ⟨h1, fun h => hne h.symm⟩, h1]; exact hd.symm
  · by_cases h2 : j = index src
    · rw [if_neg (fun h => h1 h.1), if_pos h2, h2]; exact hs.symm
    · rw [if_neg (fun h => h1 h.1), if_neg h2, if_neg (fun h => h2 h.1), if_neg h1]

/-- Invariant of the loop of `allMoves`: undoing the last neutron relocation
gives back the board the call started from, and the moves emitted are those of
each neutron destination on the board with the neutron relocated there. -/
theorem allMoves_loop_spec (b : Board) (n : Move) (pieces : List Move)
    (hn : b.elementAt n.row n.col = n.kind) :
    ∀ (nms : List Move) (bcur : Board) (last : Move) (acc : List FullMove),
      (∀ nm ∈ nms, b.elementAt nm.row nm.col = PieceKind.CELL ∧ index n ≠ index nm) →
      bcur.applyMove last n = b →
      (allMoves_loop n pieces nms bcur last acc).2.2 =
        acc ++ nms.flatMap (fun nm => fullMovesFor (b.applyMove n nm) n nm pieces) ∧
      (allMoves_loop n pieces nms bcur last acc).1.applyMove
        (allMoves_loop n pieces nms bcur last acc).2.1 n = b := by
  intro nms
  induction nms with
  | nil =>
    intro bcur last acc _ hinv
    simp only [allMoves_loop, List.flatMap_nil, List.append_nil, true_and]
    exact hinv
  | cons nm rest ih =>
    intro bcur last acc hgood hinv
    have hnm := hgood nm (List.mem_cons_self _ _)
    simp only [allMoves_loop, hinv]
    have hrest := ih (b.applyMove n nm) nm
      (acc ++ fullMovesFor (b.applyMove n nm) n nm pieces)
      (fun m hm => hgood m (List.mem_cons_of_mem _ hm))
      (applyMove_undo b n nm hn hnm.1 hnm.2)
    refine ⟨?_, hrest.2⟩
    rw [hrest.1, List.flatMap_cons, List.append_assoc]

theorem mem_pruneNeutronMoves (l : List Move) (pieceKind : PieceKind) (m : Move)
    (h : m ∈ pruneNeutronMoves l pieceKind) :
    m ∈ l ∧ m.row ≠ (if pieceKind = PieceKind.BLACK then 4 else 0) := by
  unfold pruneNeutronMoves at h
  simp only at h
  have hfilter : ∀ x, x ∈ l.filter (fun m => !decide (m.row =
      (if pieceKind = PieceKind.BLACK then (4 : Int) else 0))) →
      x ∈ l ∧ x.row ≠ (if pieceKind = PieceKind.BLACK then 4 else 0) := by
    intro x hx
    rw [List.mem_filter] at hx
    exact ⟨hx.1, by simpa using hx.2⟩
  split at h
  · rename_i win hw
    simp only [List.mem_singleton] at h
    subst h
    exact hfilter _ (List.mem_of_find?_eq_some hw)
  · exact hfilter _ h

/-- When a destination on the player's home row exists, pruning keeps exactly
one destination, and it is on that row. -/
theorem pruneNeutronMoves_win (l : List Move) (pieceKind : PieceKind)
    (h : ∃ m ∈ l, m.row = (if pieceKind = PieceKind.BLACK then 0 else 4)) :
    ∃ win, pruneNeutronMoves l pieceKind = [win] ∧ win ∈ l ∧
      win.row = (if pieceKind = PieceKind.BLACK then 0 else 4) := by
  obtain ⟨m, hm, hrow⟩ := h
  unfold pruneNeutronMoves
  simp only
  cases hf : (l.filter (fun m => !decide (m.row =
      (if pieceKind = PieceKind.BLACK then (4 : Int) else 0)))).find?
      (fun m => decide (m.row = (if pieceKind = PieceKind.BLACK then (0 : Int) else 4))) with
  | some win =>
    refine ⟨win, rfl, ?_, ?_⟩
    · exact (List.mem_filter.mp (List.mem_of_find?_eq_some hf)).1
    · simpa using List.find?_some hf
  | none =>
    exfalso
    have hmem : m ∈ l.filter (fun m => !decide (m.row =
        (if pieceKind = PieceKind.BLACK then (4 : Int) else 0))) := by
      rw [List.mem_filter]
      refine ⟨hm, ?_⟩
      by_cases hp : pieceKind = PieceKind.BLACK <;> simp [hp] at hrow ⊢ <;> omega
    have := List.find?_eq_none.mp hf m hmem
    simp [hrow] at this

/-- Closed form of `allMoves`: the board is left as it was found, and the full
moves are, for each kept neutron destination in order, those generated on the
board with the neutron relocated to that destination. -/
theorem allMoves_eq (b : Board) (pieceKind : PieceKind) (n : Move)
    (hf : b.findNeutron = some n) :
    b.allMoves pieceKind =
      some ((pruneNeutronMoves (b.moves n) pieceKind).flatMap
        (fun nm => fullMovesFor (b.applyMove n nm) n nm (b.findPieces pieceKind)), b) := by
  obtain ⟨hk, hon, he⟩ := findNeutron_some b n hf
  have hn : b.elementAt n.row n.col = n.kind := by rw [he, hk]
  have hgood : ∀ nm ∈ pruneNeutronMoves (b.moves n) pieceKind,
      b.elementAt nm.row nm.col = PieceKind.CELL ∧ index n ≠ index nm := by
    intro nm hnm
    obtain ⟨_, hnb, hcell, hne⟩ := mem_moves b n nm (mem_pruneNeutronMoves _ _ _ hnm).1
    exact ⟨hcell, fun e => hne (((index_inj n nm hon hnb).mp e).1.symm ▸
      ⟨rfl, ((index_inj n nm hon hnb).mp e).2.symm⟩)⟩
  have hloop := allMoves_loop_spec b n (b.findPieces pieceKind) hn
    (pruneNeutronMoves (b.moves n) pieceKind) b n [] hgood (applyMove_self b n hn)
  unfold allMoves
  rw [hf]
  simp only
  rw [hloop.2, hloop.1, List.nil_append]

/-- Members of the list returned by `allMoves`. -/
theorem mem_allMoves (b b' : Board) (pieceKind : PieceKind) (n : Move) (fullMoves : List FullMove)
    (hf : b.findNeutron = some n) (ha : b.allMoves pieceKind = some (fullMoves, b'))
    (fm : FullMove) (hfm : fm ∈ fullMoves) :
    ∃ nm ∈ pruneNeutronMoves (b.moves n) pieceKind, ∃ piece ∈ b.findPieces pieceKind,
      ∃ pm ∈ (b.applyMove n nm).moves piece, fm = { moves := [n, nm, piece, pm], score := 0 } := by
  rw [allMoves_eq b pieceKind n hf] at ha
  simp only [Option.some.injEq, Prod.mk.injEq] at ha
  rw [← ha.1] at hfm
  simp only [fullMovesFor, List.mem_flatMap, List.mem_map] at hfm
  obtain ⟨nm, hnm, piece, hpiece, pm, hpm, he⟩ := hfm
  exact ⟨nm, hnm, piece, hpiece, pm, hpm, he.symm⟩

/-- C7: on a board containing the neutron, for every player, `allMoves`
returns, and no returned full move has its neutron destination `moves[1]` on
the opponent home row (row 4 for BLACK, row 0 for WHITE). -/
theorem C7_no_opponent_home_destination (b : Board) (player : PieceKind)
    (hn : ∃ i, b.table i = PieceKind.NEUTRON) :
    ∃ fullMoves b', b.allMoves player = some (fullMoves, b') ∧
      ∀ fm ∈ fullMoves, ∃ dst, fm.moves.get? 1 = some dst ∧
        (player = PieceKind.BLACK → dst.row ≠ 4) ∧ (player = PieceKind.WHITE → dst.row ≠ 0) := by
  obtain ⟨n, hf⟩ := findNeutron_of_mem b hn
  refine ⟨_, _, allMoves_eq b player n hf, ?_⟩
  intro fm hfm
  obtain ⟨nm, hnm, piece, _, pm, _, he⟩ :=
    mem_allMoves b b player n _ hf (allMoves_eq b player n hf) fm hfm
  subst he
  refine ⟨nm, rfl, ?_, ?_⟩
  · intro hb
    have := (mem_pruneNeutronMoves _ _ _ hnm).2
    rwa [if_pos hb] at this
  · intro hw
    have := (mem_pruneNeutronMoves _ _ _ hnm).2
    have hnb : ¬ player = PieceKind.BLACK := by rw [hw]; decide
    rwa [if_neg hnb] at this

/-- C7 witness: the opening board with BLACK to move. -/
theorem C7_no_opponent_home_destination_witness :
    ∃ fullMoves b', openingBoard.allMoves PieceKind.BLACK = some (fullMoves, b') ∧
      ∀ fm ∈ fullMoves, ∃ dst, fm.moves.get? 1 = some dst ∧
        (PieceKind.BLACK = PieceKind.BLACK → dst.row ≠ 4) ∧
        (PieceKind.BLACK = PieceKind.WHITE → dst.row ≠ 0) :=
  C7_no_opponent_home_destination openingBoard PieceKind.BLACK ⟨⟨12, by decide⟩, by decide⟩

/-- C8: when a slide destination of the neutron lies on the mover's own home
row (row 0 for BLACK, row 4 for WHITE), `allMoves` returns, and all returned
full moves share one neutron destination `moves[1]`, which is a slide
destination of the neutron on that home row. -/
theorem C8_winning_destination_only (b : Board) (player : PieceKind) (n : Move)
    (hf : b.findNeutron = some n)
    (hw : (player = PieceKind.BLACK ∧ ∃ m ∈ b.moves n, m.row = 0) ∨
          (player = PieceKind.WHITE ∧ ∃ m ∈ b.moves n, m.row = 4)) :
    ∃ fullMoves b', b.allMoves player = some (fullMoves, b') ∧
      ∃ win ∈ b.moves n,
        (player = PieceKind.BLACK → win.row = 0) ∧ (player = PieceKind.WHITE → win.row = 4) ∧
        ∀ fm ∈ fullMoves, fm.moves.get? 1 = some win := by
  have hex : ∃ m ∈ b.moves n, m.row = (if player = PieceKind.BLACK then 0 else 4) := by
    rcases hw with ⟨hp, m, hm, hr⟩ | ⟨hp, m, hm, hr⟩
    · exact ⟨m, hm, by rw [if_pos hp]; exact hr⟩
    · have hnb : ¬ player = PieceKind.BLACK := by rw [hp]; decide
      exact ⟨m, hm, by rw [if_neg hnb]; exact hr⟩
  obtain ⟨win, hprune, hmem, hrow⟩ := pruneNeutronMoves_win (b.moves n) player hex
  refine ⟨_, _, allMoves_eq b player n hf, win, hmem, ?_, ?_, ?_⟩
  · intro hb; rwa [if_pos hb] at hrow
  · intro hwh
    have hnb : ¬ player = PieceKind.BLACK := by rw [hwh]; decide
    rwa [if_neg hnb] at hrow
  · intro fm hfm
    obtain ⟨nm, hnm, piece, _, pm, _, he⟩ :=
      mem_allMoves b b player n _ hf (allMoves_eq b player n hf) fm hfm
    rw [hprune, List.mem_singleton] at hnm
    subst he; subst hnm
    rfl

/-- C8 witness: BLACK to move on `winningBoard`; the neutron reaches (0, 2). -/
theorem C8_winning_destination_only_witness :
    ∃ fullMoves b', winningBoard.allMoves PieceKind.BLACK = some (fullMoves, b') ∧
      ∃ win ∈ winningBoard.moves ⟨2, 2, PieceKind.NEUTRON⟩,
        (PieceKind.BLACK = PieceKind.BLACK → win.row = 0) ∧
        (PieceKind.BLACK = PieceKind.WHITE → win.row = 4) ∧
        ∀ fm ∈ fullMoves, fm.moves.get? 1 = some win :=
  C8_winning_destination_only winningBoard PieceKind.BLACK ⟨2, 2, PieceKind.NEUTRON⟩
    (by decide) (Or.inl ⟨rfl, ⟨0, 2, PieceKind.NEUTRON⟩, by decide, rfl⟩)

/-- C9: on a board containing the neutron, for every player, `allMoves`
returns and leaves the 25-cell table equal, cell for cell, to the table before
the call. -/
theorem C9_allMoves_restores_board (b : Board) (player : PieceKind)
    (hn : ∃ i, b.table i = PieceKind.NEUTRON) :
    ∃ fullMoves b', b.allMoves player = some (fullMoves, b') ∧
      ∀ i : Fin 25, b'.table i = b.table i := by
  obtain ⟨n, hf⟩ := findNeutron_of_mem b hn
  exact ⟨_, _, allMoves_eq b player n hf, fun _ => rfl⟩

/-- C9 witness: the opening board with BLACK to move. -/
theorem C9_allMoves_restores_board_witness :
    ∃ fullMoves b', openingBoard.allMoves PieceKind.BLACK = some (fullMoves, b') ∧
      ∀ i : Fin 25, b'.table i = openingBoard.table i :=
  C9_allMoves_restores_board openingBoard PieceKind.BLACK ⟨⟨12, by decide⟩, by decide⟩

end Board

/-! ## Theorems: classic alpha-beta search -/

open Board

theorem allMoves_length (b b' : Board) (player : PieceKind) (fullMoves : List FullMove)
    (ha : b.allMoves player = some (fullMoves, b')) :
    ∀ fm ∈ fullMoves, fm.moves.length = 4 := by
  intro fm hfm
  cases hf : b.findNeutron with
  | none => simp [Board.allMoves, hf] at ha
  | some n =>
    obtain ⟨nm, _, piece, _, pm, _, he⟩ := Board.mem_allMoves b b' player n _ hf ha fm hfm
    rw [he]; rfl

theorem maxValue_loop_shape (child : Board → Int → Int → Option (FullMove × Board)) (beta : Int) :
    ∀ (fms : List FullMove) (b : Board) (best : FullMove) (res : LoopResult),
      (∀ fm ∈ fms, fm.moves.length = 4) →
      (best.moves.length = 0 ∨ best.moves.length = 4) →
      maxValue_loop child beta fms b best = some res →
      (res.fullMove.moves.length = 0 ∨ res.fullMove.moves.length = 4) := by
  intro fms
  induction fms with
  | nil =>
    intro b best res _ hb h
    simp only [maxValue_loop, Option.some.injEq] at h
    subst h; exact hb
  | cons fm rest ih =>
    intro b best res hall hb h
    have h4 := hall fm (List.mem_cons_self _ _)
    simp only [maxValue_loop] at h
    cases h1 : b.applyFullMove fm true with
    | none => simp [h1] at h
    | some b1 =>
      cases h2 : child b1 best.score beta with
      | none => simp [h1, h2] at h
      | some r =>
        obtain ⟨mfm, b2⟩ := r
        cases h3 : b2.applyFullMove fm false with
        | none => simp [h1, h2, h3] at h
        | some b3 =>
          simp only [h1, h2, h3, Option.bind_eq_bind, Option.some_bind, Option.pure_def] at h
          have hb1 : ∀ best1 : FullMove, best1 = (if mfm.score > best.score then
              { moves := fm.moves, score := mfm.score } else best) →
              (best1.moves.length = 0 ∨ best1.moves.length = 4) := by
            intro best1 e
            rw [e]; split
            · exact Or.inr h4
            · exact hb
          generalize (if mfm.score > best.score then
              ({ moves := fm.moves, score := mfm.score } : FullMove) else best) = best1 at h hb1
          have hb1' := hb1 best1 rfl
          by_cases hc : best1.score ≥ beta
          · rw [if_pos hc] at h
            simp only [Option.some.injEq] at h
            subst h; exact Or.inr h4
          · rw [if_neg hc] at h
            exact ih _ _ _ (fun m hm => hall m (List.mem_cons_of_mem _ hm)) hb1' h

theorem maxValue_fallback_shape :
    ∀ (fms : List FullMove) (b : Board) (tmp : FullMove) (r : FullMove × Board),
      (∀ fm ∈ fms, fm.moves.length = 4) →
      (tmp.moves.length = 0 ∨ tmp.moves.length = 4) →
      maxValue_fallback fms b tmp = some r →
      (r.1.moves.length = 0 ∨ r.1.moves.length = 4) := by
  intro fms
  induction fms with
  | nil =>
    intro b tmp r _ hb h
    simp only [maxValue_fallback, Option.some.injEq] at h
    subst h; exact hb
  | cons fm rest ih =>
    intro b tmp r hall hb h
    have h4 := hall fm (List.mem_cons_self _ _)
    simp only [maxValue_fallback] at h
    cases h1 : b.applyFullMove fm true with
    | none => simp [h1] at h
    | some b1 =>
      cases h2 : heuristic b1 with
      | none => simp [h1, h2] at h
      | some hv =>
        cases h3 : b1.applyFullMove fm false with
        | none => simp [h1, h2, h3] at h
        | some b3 =>
          simp only [h1, h2, h3, Option.bind_eq_bind, Option.some_bind] at h
          refine ih _ _ _ (fun m hm => hall m (List.mem_cons_of_mem _ hm)) ?_ h
          split
          · exact Or.inr h4
          · exact hb

theorem maxValue_shape (fuel : Nat) (b : Board) (depth alpha beta : Int) (player : PieceKind)
    (r : FullMove × Board) (h : maxValue fuel b depth alpha beta player = some r) :
    r.1.moves.length = 0 ∨ r.1.moves.length = 4 := by
  cases fuel with
  | zero => simp [maxValue] at h
  | succ fuel =>
    unfold maxValue at h
    cases hf : b.findNeutron with
    | none => simp [hf] at h
    | some n =>
      simp only [hf] at h
      split at h
      · cases hh : heuristic b with
        | none => simp [hh] at h
        | some hv =>
          simp only [hh, Option.map_some', Option.some.injEq] at h
          subst h; exact Or.inl rfl
      · cases ha : b.allMoves player with
        | none => simp [ha] at h
        | some p =>
          obtain ⟨fms, b0⟩ := p
          have hlen := allMoves_length b b0 player fms ha
          simp only [ha] at h
          cases hl : maxValue_loop (fun b a be => minValue fuel b (depth - 1) a be (otherPlayer player))
              beta fms b0 { moves := [], score := alpha } with
          | none => simp [hl] at h
          | some res =>
            have hs := maxValue_loop_shape _ _ fms b0 { moves := [], score := alpha } res hlen
              (Or.inl rfl) hl
            simp only [hl] at h
            cases res with
            | returned fm b1 =>
              simp only [Option.some.injEq] at h
              subst h; exact hs
            | finished best b1 =>
              simp only at h
              split at h
              · exact maxValue_fallback_shape fms b1 { moves := [], score := INT_MIN } r hlen
                  (Or.inl rfl) h
              · simp only [Option.some.injEq] at h
                subst h; exact hs

theorem minValue_loop_shape (child : Board → Int → Int → Option (FullMove × Board)) (alpha : Int) :
    ∀ (fms : List FullMove) (b : Board) (best : FullMove) (res : LoopResult),
      (∀ fm ∈ fms, fm.moves.length = 4) →
      (best.moves.length = 0 ∨ best.moves.length = 4) →
      minValue_loop child alpha fms b best = some res →
      (res.fullMove.moves.length = 0 ∨ res.fullMove.moves.length = 4) := by
  intro fms
  induction fms with
  | nil =>
    intro b best res _ hb h
    simp only [minValue_loop, Option.some.injEq] at h
    subst h; exact hb
  | cons fm rest ih =>
    intro b best res hall hb h
    have h4 := hall fm (List.mem_cons_self _ _)
    simp only [minValue_loop] at h
    cases h1 : b.applyFullMove fm true with
    | none => simp [h1] at h
    | some b1 =>
      cases h2 : child b1 alpha best.score with
      | none => simp [h1, h2] at h
      | some r =>
        obtain ⟨mfm, b2⟩ := r
        cases h3 : b2.applyFullMove fm false with
        | none => simp [h1, h2, h3] at h
        | some b3 =>
          simp only [h1, h2, h3, Option.bind_eq_bind, Option.some_bind, Option.pure_def] at h
          have hb1 : ∀ best1 : FullMove, best1 = (if mfm.score < best.score then
              { moves := fm.moves, score := mfm.score } else best) →
              (best1.moves.length = 0 ∨ best1.moves.length = 4) := by
            intro best1 e
            rw [e]; split
            · exact Or.inr h4
            · exact hb
          generalize (if mfm.score < best.score then
              ({ moves := fm.moves, score := mfm.score } : FullMove) else best) = best1 at h hb1
          have hb1' := hb1 best1 rfl
          by_cases hc : alpha ≥ best1.score
          · rw [if_pos hc] at h
            simp only [Option.some.injEq] at h
            subst h; exact Or.inr h4
          · rw [if_neg hc] at h
            exact ih _ _ _ (fun m hm => hall m (List.mem_cons_of_mem _ hm)) hb1' h

theorem minValue_fallback_shape :
    ∀ (fms : List FullMove) (b : Board) (tmp : FullMove) (r : FullMove × Board),
      (∀ fm ∈ fms, fm.moves.length = 4) →
      (tmp.moves.length = 0 ∨ tmp.moves.length = 4) →
      minValue_fallback fms b tmp = some r →
      (r.1.moves.length = 0 ∨ r.1.moves.length = 4) := by
  intro fms
  induction fms with
  | nil =>
    intro b tmp r _ hb h
    simp only [minValue_fallback, Option.some.injEq] at h
    subst h; exact hb
  | cons fm rest ih =>
    intro b tmp r hall hb h
    have h4 := hall fm (List.mem_cons_self _ _)
    simp only [minValue_fallback] at h
    cases h1 : b.applyFullMove fm true with
    | none => simp [h1] at h
    | some b1 =>
      cases h2 : heuristic b1 with
      | none => simp [h1, h2] at h
      | some hv =>
        cases h3 : b1.applyFullMove fm false with
        | none => simp [h1, h2, h3] at h
        | some b3 =>
          simp only [h1, h2, h3, Option.bind_eq_bind, Option.some_bind] at h
          refine ih _ _ _ (fun m hm => hall m (List.mem_cons_of_mem _ hm)) ?_ h
          split
          · exact Or.inr h4
          · exact hb

theorem minValue_shape (fuel : Nat) (b : Board) (depth alpha beta : Int) (player : PieceKind)
    (r : FullMove × Board) (h : minValue fuel b depth alpha beta player = some r) :
    r.1.moves.length = 0 ∨ r.1.moves.length = 4 := by
  cases fuel with
  | zero => simp [minValue] at h
  | succ fuel =>
    unfold minValue at h
    cases hf : b.findNeutron with
    | none => simp [hf] at h
    | some n =>
      simp only [hf] at h
      split at h
      · cases hh : heuristic b with
        | none => simp [hh] at h
        | some hv =>
          simp only [hh, Option.map_some', Option.some.injEq] at h
          subst h; exact Or.inl rfl
      · cases ha : b.allMoves player with
        | none => simp [ha] at h
        | some p =>
          obtain ⟨fms, b0⟩ := p
          have hlen := allMoves_length b b0 player fms ha
          simp only [ha] at h
          cases hl : minValue_loop (fun b a be => maxValue fuel b (depth - 1) a be (otherPlayer player))
              alpha fms b0 { moves := [], score := beta } with
          | none => simp [hl] at h
          | some res =>
            have hs := minValue_loop_shape _ _ fms b0 { moves := [], score := beta } res hlen
              (Or.inl rfl) hl
            simp only [hl] at h
            cases res with
            | returned fm b1 =>
              simp only [Option.some.injEq] at h
              subst h; exact hs
            | finished best b1 =>
              simp only at h
              split at h
              · exact minValue_fallback_shape fms b1 { moves := [], score := INT_MIN } r hlen
                  (Or.inl rfl) h
              · simp only [Option.some.injEq] at h
                subst h; exact hs

theorem exists_of_tabGet (table : Fin 25 → Nat) (j : Int) (hj : 0 ≤ j ∧ j < 25) (v : Nat)
    (h : tabGet table j = v) : ∃ i, table i = v := by
  unfold tabGet at h
  rw [dif_pos hj] at h
  exact ⟨_, h⟩

/-- Every full move generated for BLACK or WHITE can be applied and undone. -/
theorem allMoves_undoable (b b' : Board) (player : PieceKind) (fullMoves : List FullMove)
    (hp : player = PieceKind.BLACK ∨ player = PieceKind.WHITE)
    (ha : b.allMoves player = some (fullMoves, b')) :
    ∀ fm ∈ fullMoves, Undoable b fm := by
  intro fm hfm
  cases hf : b.findNeutron with
  | none => simp [allMoves, hf] at ha
  | some n =>
    obtain ⟨nm, hnm, piece, hpiece, pm, hpm, he⟩ := mem_allMoves b b' player n _ hf ha fm hfm
    obtain ⟨hk, hon, hbn⟩ := findNeutron_some b n hf
    obtain ⟨hnmk, hnmon, hbnm, hnmne⟩ := mem_moves b n nm (mem_pruneNeutronMoves _ _ _ hnm).1
    obtain ⟨hpk, hpon, hbp⟩ := mem_findPieces b player piece hpiece
    obtain ⟨hpmk, hpmon, hbpm, hpmne⟩ := mem_moves _ piece pm hpm
    have hbn' : tabGet b.table (index n) = 3 := hbn
    have hbnm' : tabGet b.table (index nm) = 4 := hbnm
    have hbp' : tabGet b.table (index piece) = player := hbp
    have hbpm' : tabGet (b.applyMove n nm).table (index pm) = 4 := hbpm
    have hplayer : player ≠ 3 ∧ player ≠ 4 := by
      rcases hp with h | h <;> rw [h] <;> decide
    have i1 : index n ≠ index nm := fun e =>
      hnmne ⟨((index_inj n nm hon hnmon).mp e).1.symm, ((index_inj n nm hon hnmon).mp e).2.symm⟩
    have i2 : index piece ≠ index n := fun e => by
      rw [e, hbn'] at hbp'; exact hplayer.1 hbp'.symm
    have i3 : index piece ≠ index nm := fun e => by
      rw [e, hbnm'] at hbp'; exact hplayer.2 hbp'.symm
    have i4 : index piece ≠ index pm := fun e =>
      hpmne ⟨((index_inj piece pm hpon hpmon).mp e).1.symm,
        ((index_inj piece pm hpon hpmon).mp e).2.symm⟩
    have hAp : tabGet (b.applyMove n nm).table (index piece) = player := by
      rw [tabGet_applyMove b n nm _ (index_range piece hpon), if_neg (fun h => i2 h.1),
        if_neg i3, hbp']
    have hAnm : tabGet (b.applyMove n nm).table (index nm) = 3 := by
      rw [tabGet_applyMove b n nm _ (index_range nm hnmon), if_neg (fun h => i1 h.1.symm),
        if_pos rfl, hnmk, hk]
    have i5 : index nm ≠ index pm := fun e => by
      rw [e, hbpm'] at hAnm; exact absurd hAnm (by decide)
    have h1nm : tabGet ((b.applyMove n nm).applyMove piece pm).table (index nm) = 3 := by
      rw [tabGet_applyMove _ piece pm _ (index_range nm hnmon), if_neg (fun h => i3 h.1.symm),
        if_neg i5, hAnm]
    refine ⟨(b.applyMove n nm).applyMove piece pm, ?_, ?_, ?_⟩
    · rw [he]; rfl
    · exact exists_of_tabGet _ _ (index_range nm hnmon) _ h1nm
    · have u1 : ((b.applyMove n nm).applyMove piece pm).applyMove pm piece = b.applyMove n nm :=
        applyMove_undo _ piece pm (by rw [hpk]; exact hAp) hbpm i4
      have u2 : (b.applyMove n nm).applyMove nm n = b :=
        applyMove_undo b n nm (by rw [hk]; exact hbn) hbnm i1
      rw [he]
      show some ((((b.applyMove n nm).applyMove piece pm).applyMove pm piece).applyMove nm n) = _
      rw [u1, u2]

theorem heuristic_total (b : Board) (hn : ∃ i, b.table i = PieceKind.NEUTRON) :
    ∃ h, heuristic b = some h := by
  obtain ⟨n, hf⟩ := findNeutron_of_mem b hn
  unfold heuristic
  rw [hf]
  simp only
  split
  · exact ⟨_, rfl⟩
  · split <;> exact ⟨_, rfl⟩

theorem maxValue_loop_total (child : Board → Int → Int → Option (FullMove × Board)) (beta : Int)
    (b : Board)
    (hchild : ∀ b1 : Board, (∃ i, b1.table i = PieceKind.NEUTRON) → ∀ a be : Int,
      ∃ r, child b1 a be = some (r, b1)) :
    ∀ (fms : List FullMove) (best : FullMove), (∀ fm ∈ fms, Undoable b fm) →
      ∃ res, maxValue_loop child beta fms b best = some res ∧ res.board = b := by
  intro fms
  induction fms with
  | nil => intro best _; exact ⟨_, rfl, rfl⟩
  | cons fm rest ih =>
    intro best hall
    obtain ⟨b1, h1, hn1, h3⟩ := hall fm (List.mem_cons_self _ _)
    obtain ⟨r, h2⟩ := hchild b1 hn1 best.score beta
    simp only [maxValue_loop, h1, h2, h3, Option.bind_eq_bind, Option.some_bind, Option.pure_def]
    generalize (if r.score > best.score then
      ({ moves := fm.moves, score := r.score } : FullMove) else best) = best1
    by_cases hc : best1.score ≥ beta
    · rw [if_pos hc]; exact ⟨_, rfl, rfl⟩
    · rw [if_neg hc]; exact ih _ (fun m hm => hall m (List.mem_cons_of_mem _ hm))

theorem minValue_loop_total (child : Board → Int → Int → Option (FullMove × Board)) (alpha : Int)
    (b : Board)
    (hchild : ∀ b1 : Board, (∃ i, b1.table i = PieceKind.NEUTRON) → ∀ a be : Int,
      ∃ r, child b1 a be = some (r, b1)) :
    ∀ (fms : List FullMove) (best : FullMove), (∀ fm ∈ fms, Undoable b fm) →
      ∃ res, minValue_loop child alpha fms b best = some res ∧ res.board = b := by
  intro fms
  induction fms with
  | nil => intro best _; exact ⟨_, rfl, rfl⟩
  | cons fm rest ih =>
    intro best hall
    obtain ⟨b1, h1, hn1, h3⟩ := hall fm (List.mem_cons_self _ _)
    obtain ⟨r, h2⟩ := hchild b1 hn1 alpha best.score
    simp only [minValue_loop, h1, h2, h3, Option.bind_eq_bind, Option.some_bind, Option.pure_def]
    generalize (if r.score < best.score then
      ({ moves := fm.moves, score := r.score } : FullMove) else best) = best1
    by_cases hc : alpha ≥ best1.score
    · rw [if_pos hc]; exact ⟨_, rfl, rfl⟩
    · rw [if_neg hc]; exact ih _ (fun m hm => hall m (List.mem_cons_of_mem _ hm))

theorem maxValue_fallback_total (b : Board) :
    ∀ (fms : List FullMove) (tmp : FullMove), (∀ fm ∈ fms, Undoable b fm) →
      ∃ r, maxValue_fallback fms b tmp = some (r, b) := by
  intro fms
  induction fms with
  | nil => intro tmp _; exact ⟨_, rfl⟩
  | cons fm rest ih =>
    intro tmp hall
    obtain ⟨b1, h1, hn1, h3⟩ := hall fm (List.mem_cons_self _ _)
    obtain ⟨h, h2⟩ := heuristic_total b1 hn1
    simp only [maxValue_fallback, h1, h2, h3, Option.bind_eq_bind, Option.some_bind]
    exact ih _ (fun m hm => hall m (List.mem_cons_of_mem _ hm))

theorem minValue_fallback_total (b : Board) :
    ∀ (fms : List FullMove) (tmp : FullMove), (∀ fm ∈ fms, Undoable b fm) →
      ∃ r, minValue_fallback fms b tmp = some (r, b) := by
  intro fms
  induction fms with
  | nil => intro tmp _; exact ⟨_, rfl⟩
  | cons fm rest ih =>
    intro tmp hall
    obtain ⟨b1, h1, hn1, h3⟩ := hall fm (List.mem_cons_self _ _)
    obtain ⟨h, h2⟩ := heuristic_total b1 hn1
    simp only [minValue_fallback, h1, h2, h3, Option.bind_eq_bind, Option.some_bind]
    exact ih _ (fun m hm => hall m (List.mem_cons_of_mem _ hm))

theorem otherPlayer_cases (player : PieceKind) :
    otherPlayer player = PieceKind.BLACK ∨ otherPlayer player = PieceKind.WHITE := by
  unfold otherPlayer
  split
  · exact Or.inr rfl
  · exact Or.inl rfl

/-- With a budget above the depth, `maxValue` and `minValue` return on every
board containing the neutron, for BLACK and WHITE, and leave the board as
they found it. -/
theorem minimax_total : ∀ (fuel : Nat) (b : Board) (depth alpha beta : Int) (player : PieceKind),
    (∃ i, b.table i = PieceKind.NEUTRON) →
    (player = PieceKind.BLACK ∨ player = PieceKind.WHITE) →
    0 ≤ depth → depth < (fuel : Int) →
    (∃ r, maxValue fuel b depth alpha beta player = some (r, b)) ∧
    (∃ r, minValue fuel b depth alpha beta player = some (r, b)) := by
  intro fuel
  induction fuel with
  | zero => intro b depth alpha beta player _ _ h0 h1; omega
  | succ fuel ih =>
    intro b depth alpha beta player hn hp h0 h1
    obtain ⟨n, hf⟩ := findNeutron_of_mem b hn
    obtain ⟨hv, hh⟩ := heuristic_total b hn
    have ha := allMoves_eq b player n hf
    have hund := allMoves_undoable b b player _ hp ha
    by_cases hterm : depth = 0 ∨ n.row = 0 ∨ n.row = 4
    · constructor
      · unfold maxValue
        simp only [hf, hterm, if_true, hh, Option.map_some']
        exact ⟨_, rfl⟩
      · unfold minValue
        simp only [hf, hterm, if_true, hh, Option.map_some']
        exact ⟨_, rfl⟩
    · have hd : depth ≠ 0 := fun h => hterm (Or.inl h)
      have hchild1 : ∀ b1 : Board, (∃ i, b1.table i = PieceKind.NEUTRON) → ∀ a be : Int,
          ∃ r, minValue fuel b1 (depth - 1) a be (otherPlayer player) = some (r, b1) :=
        fun b1 hn1 a be =>
          (ih b1 (depth - 1) a be _ hn1 (otherPlayer_cases player) (by omega) (by omega)).2
      have hchild2 : ∀ b1 : Board, (∃ i, b1.table i = PieceKind.NEUTRON) → ∀ a be : Int,
          ∃ r, maxValue fuel b1 (depth - 1) a be (otherPlayer player) = some (r, b1) :=
        fun b1 hn1 a be =>
          (ih b1 (depth - 1) a be _ hn1 (otherPlayer_cases player) (by omega) (by omega)).1
      constructor
      · obtain ⟨res, hres, hb⟩ := maxValue_loop_total _ beta b hchild1 _
          { moves := [], score := alpha } hund
        unfold maxValue
        simp only [hf, hterm, if_false, ha, hres]
        cases res with
        | returned fm b1 => exact ⟨fm, by rw [show b1 = b from hb]⟩
        | finished best b1 =>
          have e : b1 = b := hb
          subst e
          simp only
          split
          · exact maxValue_fallback_total _ _ _ hund
          · exact ⟨_, rfl⟩
      · obtain ⟨res, hres, hb⟩ := minValue_loop_total _ alpha b hchild2 _
          { moves := [], score := beta } hund
        unfold minValue
        simp only [hf, hterm, if_false, ha, hres]
        cases res with
        | returned fm b1 => exact ⟨fm, by rw [show b1 = b from hb]⟩
        | finished best b1 =>
          have e : b1 = b := hb
          subst e
          simp only
          split
          · exact minValue_fallback_total _ _ _ hund
          · exact ⟨_, rfl⟩

/-- C10: every full move returned by `allMoves` is the list (neutron-from,
neutron-to, piece-from, piece-to) of exactly four moves, where neutron-from is
the square found by `findNeutron` and holds the neutron, piece-from is a square
holding a piece of the player, and the kinds are (NEUTRON, NEUTRON, player,
player); every full move returned by `maxValue` or `minValue`, for any board,
depth, window and player, has 0 or 4 moves; and on a board containing the
neutron, for BLACK or WHITE and a depth `d ≥ 0`, both functions do return
within `d + 1` nested calls. -/
theorem C10_full_move_shape :
    (∀ (b : Board) (player : PieceKind), (∃ i, b.table i = PieceKind.NEUTRON) →
      ∃ n fullMoves b', b.findNeutron = some n ∧ b.allMoves player = some (fullMoves, b') ∧
        ∀ fm ∈ fullMoves, ∃ nm piece pm, fm.moves = [n, nm, piece, pm] ∧
          n.kind = PieceKind.NEUTRON ∧ nm.kind = PieceKind.NEUTRON ∧
          piece.kind = player ∧ pm.kind = player ∧
          b.elementAt n.row n.col = PieceKind.NEUTRON ∧
          b.elementAt piece.row piece.col = player) ∧
    (∀ (fuel : Nat) (b : Board) (depth alpha beta : Int) (player : PieceKind)
        (r : FullMove × Board), maxValue fuel b depth alpha beta player = some r →
      r.1.moves.length = 0 ∨ r.1.moves.length = 4) ∧
    (∀ (fuel : Nat) (b : Board) (depth alpha beta : Int) (player : PieceKind)
        (r : FullMove × Board), minValue fuel b depth alpha beta player = some r →
      r.1.moves.length = 0 ∨ r.1.moves.length = 4) ∧
    (∀ (b : Board) (depth alpha beta : Int) (player : PieceKind),
      (∃ i, b.table i = PieceKind.NEUTRON) →
      (player = PieceKind.BLACK ∨ player = PieceKind.WHITE) → 0 ≤ depth →
      (∃ r, maxValue (depth.toNat + 1) b depth alpha beta player = some r ∧
        (r.1.moves.length = 0 ∨ r.1.moves.length = 4)) ∧
      (∃ r, minValue (depth.toNat + 1) b depth alpha beta player = some r ∧
        (r.1.moves.length = 0 ∨ r.1.moves.length = 4))) := by
  refine ⟨?_, ?_, ?_, ?_⟩
  · intro b player hn
    obtain ⟨n, hf⟩ := Board.findNeutron_of_mem b hn
    obtain ⟨hk, _, hbn⟩ := Board.findNeutron_some b n hf
    refine ⟨n, _, _, hf, Board.allMoves_eq b player n hf, ?_⟩
    intro fm hfm
    obtain ⟨nm, hnm, piece, hpiece, pm, hpm, he⟩ :=
      Board.mem_allMoves b b player n _ hf (Board.allMoves_eq b player n hf) fm hfm
    obtain ⟨hnmk, _, _, _⟩ := Board.mem_moves b n nm (Board.mem_pruneNeutronMoves _ _ _ hnm).1
    obtain ⟨hpk, _, hbp⟩ := Board.mem_findPieces b player piece hpiece
    obtain ⟨hpmk, _, _, _⟩ := Board.mem_moves _ piece pm hpm
    exact ⟨nm, piece, pm, by rw [he], hk, by rw [hnmk, hk], hpk, by rw [hpmk, hpk], hbn, hbp⟩
  · intro fuel b depth alpha beta player r h
    exact maxValue_shape fuel b depth alpha beta player r h
  · intro fuel b depth alpha beta player r h
    exact minValue_shape fuel b depth alpha beta player r h
  · intro b depth alpha beta player hn hp h0
    obtain ⟨⟨r1, h1⟩, ⟨r2, h2⟩⟩ :=
      minimax_total (depth.toNat + 1) b depth alpha beta player hn hp h0 (by omega)
    exact ⟨⟨_, h1, maxValue_shape _ _ _ _ _ _ _ h1⟩, ⟨_, h2, minValue_shape _ _ _ _ _ _ _ h2⟩⟩

/-- C10 witness: the opening board, BLACK to move, depth 2 and the full window. -/
theorem C10_full_move_shape_witness :
    (∃ n fullMoves b', openingBoard.findNeutron = some n ∧
      openingBoard.allMoves PieceKind.BLACK = some (fullMoves, b') ∧
        ∀ fm ∈ fullMoves, ∃ nm piece pm, fm.moves = [n, nm, piece, pm] ∧
          n.kind = PieceKind.NEUTRON ∧ nm.kind = PieceKind.NEUTRON ∧
          piece.kind = PieceKind.BLACK ∧ pm.kind = PieceKind.BLACK ∧
          openingBoard.elementAt n.row n.col = PieceKind.NEUTRON ∧
          openingBoard.elementAt piece.row piece.col = PieceKind.BLACK) ∧
    (∃ r, maxValue ((2 : Int).toNat + 1) openingBoard 2 INT_MIN INT_MAX PieceKind.BLACK = some r ∧
      (r.1.moves.length = 0 ∨ r.1.moves.length = 4)) :=
  ⟨C10_full_move_shape.1 openingBoard PieceKind.BLACK ⟨⟨12, by decide⟩, by decide⟩,
    (C10_full_move_shape.2.2.2 openingBoard 2 INT_MIN INT_MAX PieceKind.BLACK
      ⟨⟨12, by decide⟩, by decide⟩ (Or.inl rfl) (by decide)).1⟩

theorem oneply_of_apply (b b1 : Board) (fm : FullMove) (h : b.applyFullMove fm true = some b1) :
    oneply b fm = heuristic b1 := by
  simp [oneply, h]

theorem maxValue_loop_eq_pure (childT : Board → Int → Int → Option (FullMove × Board))
    (childP : Board → Int → Int → Option FullMove) (beta : Int) (b : Board)
    (hchild : ∀ b1 : Board, (∃ i, b1.table i = PieceKind.NEUTRON) → ∀ a be : Int,
      childT b1 a be = (childP b1 a be).map (fun r => (r, b1))) :
    ∀ (fms : List FullMove) (best : FullMove), (∀ fm ∈ fms, Undoable b fm) →
      maxValue_loop childT beta fms b best =
        (maxValue_loop_pure childP beta b fms best).map
          (fun p => if p.1 then LoopResult.returned p.2 b else LoopResult.finished p.2 b) := by
  intro fms
  induction fms with
  | nil => intro best _; rfl
  | cons fm rest ih =>
    intro best hall
    obtain ⟨b1, h1, hn1, h3⟩ := hall fm (List.mem_cons_self _ _)
    simp only [maxValue_loop, maxValue_loop_pure, h1, hchild b1 hn1, Option.bind_eq_bind,
      Option.some_bind, Option.pure_def]
    cases hc : childP b1 best.score beta with
    | none => rfl
    | some r =>
      simp only [Option.map_some', Option.some_bind, h3]
      generalize (if r.score > best.score then
        ({ moves := fm.moves, score := r.score } : FullMove) else best) = best1
      by_cases hcut : best1.score ≥ beta
      · rw [if_pos hcut, if_pos hcut]; rfl
      · rw [if_neg hcut, if_neg hcut]
        exact ih _ (fun m hm => hall m (List.mem_cons_of_mem _ hm))

theorem minValue_loop_eq_pure (childT : Board → Int → Int → Option (FullMove × Board))
    (childP : Board → Int → Int → Option FullMove) (alpha : Int) (b : Board)
    (hchild : ∀ b1 : Board, (∃ i, b1.table i = PieceKind.NEUTRON) → ∀ a be : Int,
      childT b1 a be = (childP b1 a be).map (fun r => (r, b1))) :
    ∀ (fms : List FullMove) (best : FullMove), (∀ fm ∈ fms, Undoable b fm) →
      minValue_loop childT alpha fms b best =
        (minValue_loop_pure childP alpha b fms best).map
          (fun p => if p.1 then LoopResult.returned p.2 b else LoopResult.finished p.2 b) := by
  intro fms
  induction fms with
  | nil => intro best _; rfl
  | cons fm rest ih =>
    intro best hall
    obtain ⟨b1, h1, hn1, h3⟩ := hall fm (List.mem_cons_self _ _)
    simp only [minValue_loop, minValue_loop_pure, h1, hchild b1 hn1, Option.bind_eq_bind,
      Option.some_bind, Option.pure_def]
    cases hc : childP b1 alpha best.score with
    | none => rfl
    | some r =>
      simp only [Option.map_some', Option.some_bind, h3]
      generalize (if r.score < best.score then
        ({ moves := fm.moves, score := r.score } : FullMove) else best) = best1
      by_cases hcut : alpha ≥ best1.score
      · rw [if_pos hcut, if_pos hcut]; rfl
      · rw [if_neg hcut, if_neg hcut]
        exact ih _ (fun m hm => hall m (List.mem_cons_of_mem _ hm))

theorem maxValue_fallback_eq_pure (b : Board) :
    ∀ (fms : List FullMove) (tmp : FullMove), (∀ fm ∈ fms, Undoable b fm) →
      maxValue_fallback fms b tmp = (maxValue_fallback_pure b fms tmp).map (fun r => (r, b)) := by
  intro fms
  induction fms with
  | nil => intro tmp _; rfl
  | cons fm rest ih =>
    intro tmp hall
    obtain ⟨b1, h1, hn1, h3⟩ := hall fm (List.mem_cons_self _ _)
    obtain ⟨h, h2⟩ := heuristic_total b1 hn1
    simp only [maxValue_fallback, maxValue_fallback_pure, oneply_of_apply b b1 fm h1, h1, h2, h3,
      Option.bind_eq_bind, Option.some_bind]
    exact ih _ (fun m hm => hall m (List.mem_cons_of_mem _ hm))

theorem minValue_fallback_eq_pure (b : Board) :
    ∀ (fms : List FullMove) (tmp : FullMove), (∀ fm ∈ fms, Undoable b fm) →
      minValue_fallback fms b tmp = (minValue_fallback_pure b fms tmp).map (fun r => (r, b)) := by
  intro fms
  induction fms with
  | nil => intro tmp _; rfl
  | cons fm rest ih =>
    intro tmp hall
    obtain ⟨b1, h1, hn1, h3⟩ := hall fm (List.mem_cons_self _ _)
    obtain ⟨h, h2⟩ := heuristic_total b1 hn1
    simp only [minValue_fallback, minValue_fallback_pure, oneply_of_apply b b1 fm h1, h1, h2, h3,
      Option.bind_eq_bind, Option.some_bind]
    exact ih _ (fun m hm => hall m (List.mem_cons_of_mem _ hm))

/-- On a board containing the neutron, for BLACK and WHITE, `maxValue` and
`minValue` return the full move computed by the board-value versions and give
the board back unchanged (for every budget, exhausted or not). -/
theorem minimax_eq_pure : ∀ (fuel : Nat) (b : Board) (depth alpha beta : Int) (player : PieceKind),
    (∃ i, b.table i = PieceKind.NEUTRON) →
    (player = PieceKind.BLACK ∨ player = PieceKind.WHITE) →
    maxValue fuel b depth alpha beta player =
      (maxValue_pure fuel b depth alpha beta player).map (fun r => (r, b)) ∧
    minValue fuel b depth alpha beta player =
      (minValue_pure fuel b depth alpha beta player).map (fun r => (r, b)) := by
  intro fuel
  induction fuel with
  | zero => intro b depth alpha beta player _ _; exact ⟨rfl, rfl⟩
  | succ fuel ih =>
    intro b depth alpha beta player hn hp
    obtain ⟨n, hf⟩ := findNeutron_of_mem b hn
    obtain ⟨hv, hh⟩ := heuristic_total b hn
    have ha := allMoves_eq b player n hf
    have hund := allMoves_undoable b b player _ hp ha
    by_cases hterm : depth = 0 ∨ n.row = 0 ∨ n.row = 4
    · constructor
      · unfold maxValue maxValue_pure
        simp only [hf, hterm, if_true, hh, Option.map_some']
      · unfold minValue minValue_pure
        simp only [hf, hterm, if_true, hh, Option.map_some']
    · have hchild1 := fun (b1 : Board) (hn1 : ∃ i, b1.table i = PieceKind.NEUTRON) (a be : Int) =>
        (ih b1 (depth - 1) a be _ hn1 (otherPlayer_cases player)).2
      have hchild2 := fun (b1 : Board) (hn1 : ∃ i, b1.table i = PieceKind.NEUTRON) (a be : Int) =>
        (ih b1 (depth - 1) a be _ hn1 (otherPlayer_cases player)).1
      constructor
      · have hl := maxValue_loop_eq_pure _ _ beta b hchild1 _ { moves := [], score := alpha } hund
        unfold maxValue maxValue_pure
        simp only [hf, hterm, if_false, ha, hl]
        cases hr : maxValue_loop_pure
            (fun b a be => minValue_pure fuel b (depth - 1) a be (otherPlayer player)) beta b _
            { moves := [], score := alpha } with
        | none => rfl
        | some p =>
          obtain ⟨flag, fm⟩ := p
          cases flag with
          | true => rfl
          | false =>
            simp only [Option.map_some', Bool.false_eq_true, if_false]
            split
            · exact maxValue_fallback_eq_pure b _ _ hund
            · rfl
      · have hl := minValue_loop_eq_pure _ _ alpha b hchild2 _ { moves := [], score := beta } hund
        unfold minValue minValue_pure
        simp only [hf, hterm, if_false, ha, hl]
        cases hr : minValue_loop_pure
            (fun b a be => maxValue_pure fuel b (depth - 1) a be (otherPlayer player)) alpha b _
            { moves := [], score := beta } with
        | none => rfl
        | some p =>
          obtain ⟨flag, fm⟩ := p
          cases flag with
          | true => rfl
          | false =>
            simp only [Option.map_some', Bool.false_eq_true, if_false]
            split
            · exact minValue_fallback_eq_pure b _ _ hund
            · rfl

theorem moves_length_le (b : Board) (start : Move) : (b.moves start).length ≤ 8 := by
  unfold Board.moves
  exact le_trans (List.length_filterMap_le _ _) (by decide)

theorem foldl_step_range (f : Int → Move → Int)
    (hf : ∀ (c : Int) (m : Move), c - 5000 ≤ f c m ∧ f c m ≤ c + 1000) (l : List Move) :
    ∀ count : Int, count - 5000 * (l.length : Int) ≤ l.foldl f count ∧
      l.foldl f count ≤ count + 1000 * (l.length : Int) := by
  induction l with
  | nil => intro count; simp
  | cons m rest ih =>
    intro count
    simp only [List.foldl_cons, List.length_cons]
    have h := ih (f count m)
    have hb := hf count m
    push_cast
    constructor
    · have := h.1; omega
    · have := h.2; omega

/-- Every value of the heuristic lies in `[-40000, 32767]`. -/
theorem heuristic_range (b : Board) (h : Int) (hh : heuristic b = some h) :
    -40000 ≤ h ∧ h ≤ 32767 := by
  unfold heuristic at hh
  cases hf : b.findNeutron with
  | none => rw [hf] at hh; cases hh
  | some n =>
    rw [hf] at hh
    simp only at hh
    split at hh
    · simp only [Option.some.injEq] at hh; omega
    · split at hh
      · simp only [Option.some.injEq] at hh; omega
      · simp only [Option.some.injEq] at hh
        have hr := foldl_step_range (fun (count : Int) (neutronMove : Move) =>
            let count1 := if neutronMove.row = 4 then count + -5000 else count
            if neutronMove.row = 0 then count1 + 1000 else count1)
          (fun c m => by dsimp only; split_ifs <;> omega) (b.moves n) 0
        have hl := moves_length_le b n
        rw [hh] at hr
        have : ((b.moves n).length : Int) ≤ 8 := by exact_mod_cast hl
        omega

theorem oneply_range (b : Board) (fm : FullMove) (h : Int) (hh : oneply b fm = some h) :
    -40000 ≤ h ∧ h ≤ 32767 := by
  unfold oneply at hh
  cases ha : b.applyFullMove fm true with
  | none => simp [ha] at hh
  | some b1 =>
    simp only [ha, Option.some_bind] at hh
    exact heuristic_range b1 h hh

theorem oneply_total (b : Board) (fm : FullMove) (hu : Undoable b fm) :
    ∃ h, oneply b fm = some h := by
  obtain ⟨b1, h1, hn1, _⟩ := hu
  obtain ⟨h, hh⟩ := heuristic_total b1 hn1
  exact ⟨h, by rw [oneply_of_apply b b1 fm h1, hh]⟩

/-- A search of depth 0 returns the heuristic of the board. -/
theorem minValue_pure_leaf (fuel : Nat) (b : Board) (alpha beta : Int) (player : PieceKind) :
    minValue_pure (fuel + 1) b 0 alpha beta player =
      (heuristic b).map (fun h => ({ moves := [], score := h } : FullMove)) := by
  unfold minValue_pure
  cases hf : b.findNeutron with
  | none => simp [heuristic, hf]
  | some n => simp

theorem maxValue_pure_leaf (fuel : Nat) (b : Board) (alpha beta : Int) (player : PieceKind) :
    maxValue_pure (fuel + 1) b 0 alpha beta player =
      (heuristic b).map (fun h => ({ moves := [], score := h } : FullMove)) := by
  unfold maxValue_pure
  cases hf : b.findNeutron with
  | none => simp [heuristic, hf]
  | some n => simp

/-- Result of the fallback loop of `maxValue`: either no one-ply score exceeds
the seed, or the result is the first full move with the greatest one-ply score,
scored with it. -/
theorem maxValue_fallback_pure_spec (b : Board) :
    ∀ (fms : List FullMove) (tmp : FullMove), (∀ fm ∈ fms, ∃ h, oneply b fm = some h) →
      ∃ r, maxValue_fallback_pure b fms tmp = some r ∧
        ((r = tmp ∧ ∀ fm ∈ fms, ∀ h, oneply b fm = some h → h ≤ tmp.score) ∨
         (∃ pre fm post h, fms = pre ++ fm :: post ∧ oneply b fm = some h ∧
            r = { moves := fm.moves, score := h } ∧ tmp.score < h ∧
            (∀ fm' ∈ pre, ∀ h', oneply b fm' = some h' → h' < h) ∧
            (∀ fm' ∈ post, ∀ h', oneply b fm' = some h' → h' ≤ h))) := by
  intro fms
  induction fms with
  | nil =>
    intro tmp _
    exact ⟨tmp, rfl, Or.inl ⟨rfl, fun fm hfm => absurd hfm (List.not_mem_nil _)⟩⟩
  | cons fm rest ih =>
    intro tmp hall
    obtain ⟨h, hh⟩ := hall fm (List.mem_cons_self _ _)
    have hrest : ∀ m ∈ rest, ∃ h, oneply b m = some h :=
      fun m hm => hall m (List.mem_cons_of_mem _ hm)
    simp only [maxValue_fallback_pure, hh, Option.bind_eq_bind, Option.some_bind]
    by_cases hgt : h > tmp.score
    · rw [if_pos hgt]
      obtain ⟨r, hr, hcase⟩ := ih { moves := fm.moves, score := h } hrest
      refine ⟨r, hr, Or.inr ?_⟩
      rcases hcase with ⟨hrt, hle⟩ | ⟨pre, fm2, post, h2, hsplit, ho2, hr2, hlt, hpre, hpost⟩
      · exact ⟨[], fm, rest, h, rfl, hh, hrt, hgt,
          fun m hm => absurd hm (List.not_mem_nil _), hle⟩
      · refine ⟨fm :: pre, fm2, post, h2, by rw [hsplit]; rfl, ho2, hr2, ?_, ?_, hpost⟩
        · have : h < h2 := hlt
          omega
        · intro m hm h' ho
          rcases List.mem_cons.mp hm with hm | hm
          · subst hm
            rw [hh] at ho; simp only [Option.some.injEq] at ho
            have : h < h2 := hlt
            omega
          · exact hpre m hm h' ho
    · rw [if_neg hgt]
      obtain ⟨r, hr, hcase⟩ := ih tmp hrest
      refine ⟨r, hr, ?_⟩
      rcases hcase with ⟨hrt, hle⟩ | ⟨pre, fm2, post, h2, hsplit, ho2, hr2, hlt, hpre, hpost⟩
      · left
        refine ⟨hrt, ?_⟩
        intro m hm h' ho
        rcases List.mem_cons.mp hm with hm | hm
        · subst hm
          rw [hh] at ho; simp only [Option.some.injEq] at ho
          omega
        · exact hle m hm h' ho
      · right
        refine ⟨fm :: pre, fm2, post, h2, by rw [hsplit]; rfl, ho2, hr2, hlt, ?_, hpost⟩
        intro m hm h' ho
        rcases List.mem_cons.mp hm with hm | hm
        · subst hm
          rw [hh] at ho; simp only [Option.some.injEq] at ho
          omega
        · exact hpre m hm h' ho

/-- From the seed `INT_MIN` and a non-empty list, the fallback of `maxValue`
returns the first full move with the greatest one-ply score. -/
theorem maxValue_fallback_pure_first_max (b : Board) (fms : List FullMove) (hne : fms ≠ [])
    (hall : ∀ fm ∈ fms, ∃ h, oneply b fm = some h) (tmp : FullMove) (htmp : tmp.score ≤ -40001) :
    ∃ pre fm post h, fms = pre ++ fm :: post ∧ oneply b fm = some h ∧
      maxValue_fallback_pure b fms tmp = some { moves := fm.moves, score := h } ∧
      (∀ fm' ∈ pre, ∀ h', oneply b fm' = some h' → h' < h) ∧
      (∀ fm' ∈ post, ∀ h', oneply b fm' = some h' → h' ≤ h) := by
  obtain ⟨r, hr, hcase⟩ := maxValue_fallback_pure_spec b fms tmp hall
  rcases hcase with ⟨_, hle⟩ | ⟨pre, fm, post, h, hsplit, ho, hrr, _, hpre, hpost⟩
  · exfalso
    cases fms with
    | nil => exact hne rfl
    | cons fm rest =>
      obtain ⟨h, hh⟩ := hall fm (List.mem_cons_self _ _)
      have := hle fm (List.mem_cons_self _ _) h hh
      have := (oneply_range b fm h hh).1
      omega
  · exact ⟨pre, fm, post, h, hsplit, ho, by rw [hr, hrr], hpre, hpost⟩

/-- With leaves as children and every one-ply score below `beta`, the first
loop of `maxValue` never cuts off and computes what the fallback loop computes. -/
theorem maxValue_loop_pure_leaf (child : Board → Int → Int → Option FullMove) (beta : Int)
    (b : Board)
    (hchild : ∀ (b1 : Board) (a be : Int), child b1 a be =
      (heuristic b1).map (fun h => ({ moves := [], score := h } : FullMove))) :
    ∀ (fms : List FullMove) (best : FullMove), best.score < beta →
      (∀ fm ∈ fms, ∀ h, oneply b fm = some h → h < beta) →
      maxValue_loop_pure child beta b fms best =
        (maxValue_fallback_pure b fms best).map (fun r => (false, r)) := by
  intro fms
  induction fms with
  | nil => intro best _ _; rfl
  | cons fm rest ih =>
    intro best hbest hall
    simp only [maxValue_loop_pure, maxValue_fallback_pure, oneply, Option.bind_eq_bind,
      Option.pure_def]
    cases h1 : b.applyFullMove fm true with
    | none => rfl
    | some b1 =>
      simp only [Option.some_bind, hchild]
      cases h2 : heuristic b1 with
      | none => rfl
      | some h =>
        have hlt : h < beta := hall fm (List.mem_cons_self _ _) h (by simp [oneply, h1, h2])
        simp only [Option.map_some', Option.some_bind]
        have hb1 : (if h > best.score then ({ moves := fm.moves, score := h } : FullMove)
            else best).score < beta := by
          split
          · exact hlt
          · exact hbest
        rw [if_neg (by omega)]
        exact ih _ hb1 (fun m hm => hall m (List.mem_cons_of_mem _ hm))

theorem maxValue_loop_pure_no_improve (child : Board → Int → Int → Option FullMove) (beta : Int)
    (b : Board) (best : FullMove) (hbest : best.score < beta) :
    ∀ (fms : List FullMove),
      (∀ fm ∈ fms, ∃ b1 c, b.applyFullMove fm true = some b1 ∧
        child b1 best.score beta = some c ∧ c.score ≤ best.score) →
      maxValue_loop_pure child beta b fms best = some (false, best) := by
  intro fms
  induction fms with
  | nil => intro _; rfl
  | cons fm rest ih =>
    intro hall
    obtain ⟨b1, c, h1, h2, hc⟩ := hall fm (List.mem_cons_self _ _)
    simp only [maxValue_loop_pure, h1, h2, Option.bind_eq_bind, Option.some_bind, Option.pure_def]
    rw [if_neg (by omega : ¬ c.score > best.score), if_neg (by omega)]
    exact ih (fun m hm => hall m (List.mem_cons_of_mem _ hm))

theorem minValue_loop_pure_no_improve (child : Board → Int → Int → Option FullMove) (alpha : Int)
    (b : Board) (best : FullMove) (hbest : alpha < best.score) :
    ∀ (fms : List FullMove),
      (∀ fm ∈ fms, ∃ b1 c, b.applyFullMove fm true = some b1 ∧
        child b1 alpha best.score = some c ∧ best.score ≤ c.score) →
      minValue_loop_pure child alpha b fms best = some (false, best) := by
  intro fms
  induction fms with
  | nil => intro _; rfl
  | cons fm rest ih =>
    intro hall
    obtain ⟨b1, c, h1, h2, hc⟩ := hall fm (List.mem_cons_self _ _)
    simp only [minValue_loop_pure, h1, h2, Option.bind_eq_bind, Option.some_bind, Option.pure_def]
    rw [if_neg (by omega : ¬ c.score < best.score), if_neg (by omega)]
    exact ih (fun m hm => hall m (List.mem_cons_of_mem _ hm))

theorem hasNeutron_of_findNeutron (b : Board) (n : Move) (hf : b.findNeutron = some n) :
    ∃ i, b.table i = PieceKind.NEUTRON := by
  obtain ⟨_, hon, he⟩ := findNeutron_some b n hf
  exact exists_of_tabGet _ _ (index_range n hon) _ he

/-- The full move that the first loop of `maxValue` ends with carries the moves
of the initial best move or those of one of the generated full moves. -/
theorem maxValue_loop_pure_moves (child : Board → Int → Int → Option FullMove) (beta : Int)
    (b : Board) :
    ∀ (fms : List FullMove) (best r : FullMove) (flag : Bool),
      maxValue_loop_pure child beta b fms best = some (flag, r) →
      (flag = false ∧ r.moves = best.moves) ∨ ∃ fm ∈ fms, r.moves = fm.moves := by
  intro fms
  induction fms with
  | nil =>
    intro best r flag h
    simp only [maxValue_loop_pure, Option.some.injEq, Prod.mk.injEq] at h
    exact Or.inl ⟨h.1.symm, by rw [h.2]⟩
  | cons fm rest ih =>
    intro best r flag h
    simp only [maxValue_loop_pure, Option.bind_eq_bind, Option.pure_def] at h
    cases h1 : b.applyFullMove fm true with
    | none => simp [h1] at h
    | some b1 =>
      cases h2 : child b1 best.score beta with
      | none => simp [h1, h2] at h
      | some c =>
        simp only [h1, h2, Option.some_bind] at h
        have hb1 : ∀ best1 : FullMove, best1 = (if c.score > best.score then
            ({ moves := fm.moves, score := c.score } : FullMove) else best) →
            best1.moves = best.moves ∨ best1.moves = fm.moves := by
          intro best1 e
          rw [e]; split
          · exact Or.inr rfl
          · exact Or.inl rfl
        generalize (if c.score > best.score then
          ({ moves := fm.moves, score := c.score } : FullMove) else best) = best1 at h hb1
        have hb1' := hb1 best1 rfl
        by_cases hcut : best1.score ≥ beta
        · rw [if_pos hcut] at h
          simp only [Option.some.injEq, Prod.mk.injEq] at h
          exact Or.inr ⟨fm, List.mem_cons_self _ _, by rw [← h.2]⟩
        · rw [if_neg hcut] at h
          rcases ih _ _ _ h with ⟨hflag, hr⟩ | ⟨m, hm, hr⟩
          · rcases hb1' with hb | hb
            · exact Or.inl ⟨hflag, by rw [hr, hb]⟩
            · exact Or.inr ⟨fm, List.mem_cons_self _ _, by rw [hr, hb]⟩
          · exact Or.inr ⟨m, List.mem_cons_of_mem _ hm, hr⟩

/-- The fallback loop of `minValue` never replaces its seed `INT_MIN`: no one-ply
score is below it. -/
theorem minValue_fallback_pure_seed (b : Board) :
    ∀ (fms : List FullMove) (tmp : FullMove), tmp.score ≤ -40000 →
      (∀ fm ∈ fms, ∃ h, oneply b fm = some h) →
      minValue_fallback_pure b fms tmp = some tmp := by
  intro fms
  induction fms with
  | nil => intro tmp _ _; rfl
  | cons fm rest ih =>
    intro tmp htmp hall
    obtain ⟨h, hh⟩ := hall fm (List.mem_cons_self _ _)
    have hr := (oneply_range b fm h hh).1
    simp only [minValue_fallback_pure, hh, Option.bind_eq_bind, Option.some_bind]
    rw [if_neg (by omega)]
    exact ih tmp htmp (fun m hm => hall m (List.mem_cons_of_mem _ hm))

/-- On a non-terminal board with at least one full move, `maxValue` returns a
full move of exactly four moves. -/
theorem maxValue_pure_four (fuel : Nat) (b b' : Board) (n : Move) (fms : List FullMove)
    (depth alpha beta : Int) (player : PieceKind) (r : FullMove)
    (hf : b.findNeutron = some n) (hterm : ¬ (depth = 0 ∨ n.row = 0 ∨ n.row = 4))
    (hp : player = PieceKind.BLACK ∨ player = PieceKind.WHITE)
    (ha : b.allMoves player = some (fms, b')) (hne : fms ≠ [])
    (hr : maxValue_pure (fuel + 1) b depth alpha beta player = some r) :
    r.moves.length = 4 := by
  have hlen := allMoves_length b b' player fms ha
  have hb' : b' = b := by
    have := allMoves_eq b player n hf
    rw [ha] at this
    simp only [Option.some.injEq, Prod.mk.injEq] at this
    exact this.2
  subst hb'
  have hund := allMoves_undoable b' b' player fms hp ha
  unfold maxValue_pure at hr
  simp only [hf, hterm, if_false, ha] at hr
  cases hl : maxValue_loop_pure
      (fun b a be => minValue_pure fuel b (depth - 1) a be (otherPlayer player)) beta b' fms
      { moves := [], score := alpha } with
  | none => simp [hl] at hr
  | some p =>
    obtain ⟨flag, best⟩ := p
    simp only [hl] at hr
    have hmoves := maxValue_loop_pure_moves _ _ _ _ _ _ _ hl
    cases flag with
    | true =>
      simp only [Option.some.injEq] at hr
      subst hr
      rcases hmoves with ⟨hflag, _⟩ | ⟨fm, hfm, hm⟩
      · cases hflag
      · rw [hm]; exact hlen fm hfm
    | false =>
      simp only at hr
      have hfne : fms.isEmpty = false := by
        cases fms with
        | nil => exact absurd rfl hne
        | cons _ _ => rfl
      by_cases hbe : best.empty = true
      · simp only [hbe, hfne, Bool.not_false, Bool.and_self, if_true] at hr
        obtain ⟨pre, fm, post, h, hsplit, _, hres, _, _⟩ :=
          maxValue_fallback_pure_first_max b' fms hne
            (fun fm hfm => oneply_total b' fm (hund fm hfm))
            { moves := [], score := INT_MIN } (by decide)
        rw [hres] at hr
        simp only [Option.some.injEq] at hr
        subst hr
        exact hlen fm (by rw [hsplit]; simp)
      · simp only [hbe, Bool.false_and, Bool.false_eq_true, if_false, Option.some.injEq] at hr
        subst hr
        rcases hmoves with ⟨_, hm⟩ | ⟨fm, hfm, hm⟩
        · exfalso
          apply hbe
          simp only [FullMove.empty, hm, List.isEmpty_nil]
        · rw [hm]; exact hlen fm hfm

theorem allMoves_board_eq (b b' : Board) (player : PieceKind) (fms : List FullMove)
    (ha : b.allMoves player = some (fms, b')) : b' = b := by
  cases hf : b.findNeutron with
  | none => simp [Board.allMoves, hf] at ha
  | some n =>
    have := allMoves_eq b player n hf
    rw [ha] at this
    simp only [Option.some.injEq, Prod.mk.injEq] at this
    exact this.2

/-- Value of `maxValue_pure` on a non-terminal board, in terms of its two loops. -/
theorem maxValue_pure_unfold (fuel : Nat) (b : Board) (n : Move) (fms : List FullMove)
    (depth alpha beta : Int) (player : PieceKind)
    (hf : b.findNeutron = some n) (hterm : ¬ (depth = 0 ∨ n.row = 0 ∨ n.row = 4))
    (ha : b.allMoves player = some (fms, b)) :
    maxValue_pure (fuel + 1) b depth alpha beta player =
      match maxValue_loop_pure
          (fun b a be => minValue_pure fuel b (depth - 1) a be (otherPlayer player))
          beta b fms { moves := [], score := alpha } with
      | none => none
      | some (true, fullMove) => some fullMove
      | some (false, maxFullMove) =>
        if maxFullMove.empty && !fms.isEmpty then
          maxValue_fallback_pure b fms { moves := [], score := INT_MIN }
        else some maxFullMove := by
  conv_lhs => unfold maxValue_pure
  simp only [hf, hterm, if_false, ha]
  try rfl

theorem minValue_pure_unfold (fuel : Nat) (b : Board) (n : Move) (fms : List FullMove)
    (depth alpha beta : Int) (player : PieceKind)
    (hf : b.findNeutron = some n) (hterm : ¬ (depth = 0 ∨ n.row = 0 ∨ n.row = 4))
    (ha : b.allMoves player = some (fms, b)) :
    minValue_pure (fuel + 1) b depth alpha beta player =
      match minValue_loop_pure
          (fun b a be => maxValue_pure fuel b (depth - 1) a be (otherPlayer player))
          alpha b fms { moves := [], score := beta } with
      | none => none
      | some (true, fullMove) => some fullMove
      | some (false, minFullMove) =>
        if minFullMove.empty && !fms.isEmpty then
          minValue_fallback_pure b fms { moves := [], score := INT_MIN }
        else some minFullMove := by
  conv_lhs => unfold minValue_pure
  simp only [hf, hterm, if_false, ha]
  try rfl

theorem isEmpty_false_of_ne_nil {α : Type} (l : List α) (h : l ≠ []) : l.isEmpty = false := by
  cases l with
  | nil => exact absurd rfl h
  | cons _ _ => rfl

/-- C16: at a terminal node (depth 0, or the neutron on row 0 or row 4)
`maxValue` and `minValue` both return a full move without moves whose score is
`heuristic(board)`, whatever alpha, beta and the player, and leave the board
as it is. -/
theorem C16_terminal_node (b : Board) (n : Move) (depth : Int) (hf : b.findNeutron = some n)
    (ht : depth = 0 ∨ n.row = 0 ∨ n.row = 4) :
    ∃ h, heuristic b = some h ∧ ∀ (fuel : Nat) (alpha beta : Int) (player : PieceKind),
      maxValue (fuel + 1) b depth alpha beta player = some ({ moves := [], score := h }, b) ∧
      minValue (fuel + 1) b depth alpha beta player = some ({ moves := [], score := h }, b) := by
  obtain ⟨h, hh⟩ := heuristic_total b (hasNeutron_of_findNeutron b n hf)
  refine ⟨h, hh, ?_⟩
  intro fuel alpha beta player
  constructor
  · unfold maxValue
    simp only [hf, ht, if_true, hh, Option.map_some']
  · unfold minValue
    simp only [hf, ht, if_true, hh, Option.map_some']

/-- C16 witness: the opening board at depth 0. -/
theorem C16_terminal_node_witness :
    ∃ h, heuristic openingBoard = some h ∧ ∀ (fuel : Nat) (alpha beta : Int) (player : PieceKind),
      maxValue (fuel + 1) openingBoard 0 alpha beta player =
        some ({ moves := [], score := h }, openingBoard) ∧
      minValue (fuel + 1) openingBoard 0 alpha beta player =
        some ({ moves := [], score := h }, openingBoard) :=
  C16_terminal_node openingBoard ⟨2, 2, PieceKind.NEUTRON⟩ 0 (by decide) (Or.inl rfl)

/-- C15: on a board containing the neutron, for BLACK and WHITE, every depth
`d ≥ 0` and every alpha, beta, `maxValue` and `minValue` return within `d + 1`
nested calls and the table they leave equals the table before the call, cell
for cell; and whatever the budget, a call that returns leaves the board
unchanged. -/
theorem C15_search_restores_board (b : Board) (depth alpha beta : Int) (player : PieceKind)
    (hn : ∃ i, b.table i = PieceKind.NEUTRON)
    (hp : player = PieceKind.BLACK ∨ player = PieceKind.WHITE) (h0 : 0 ≤ depth) :
    (∃ r b', maxValue (depth.toNat + 1) b depth alpha beta player = some (r, b') ∧
      ∀ i : Fin 25, b'.table i = b.table i) ∧
    (∃ r b', minValue (depth.toNat + 1) b depth alpha beta player = some (r, b') ∧
      ∀ i : Fin 25, b'.table i = b.table i) ∧
    (∀ (fuel : Nat) (r : FullMove) (b' : Board),
      (maxValue fuel b depth alpha beta player = some (r, b') ∨
        minValue fuel b depth alpha beta player = some (r, b')) →
      ∀ i : Fin 25, b'.table i = b.table i) := by
  obtain ⟨⟨r1, h1⟩, ⟨r2, h2⟩⟩ :=
    minimax_total (depth.toNat + 1) b depth alpha beta player hn hp h0 (by omega)
  refine ⟨⟨r1, b, h1, fun _ => rfl⟩, ⟨r2, b, h2, fun _ => rfl⟩, ?_⟩
  intro fuel r b' h i
  obtain ⟨e1, e2⟩ := minimax_eq_pure fuel b depth alpha beta player hn hp
  rcases h with h | h
  · rw [e1] at h
    cases hm : maxValue_pure fuel b depth alpha beta player with
    | none => simp [hm] at h
    | some x =>
      simp only [hm, Option.map_some', Option.some.injEq, Prod.mk.injEq] at h
      rw [← h.2]
  · rw [e2] at h
    cases hm : minValue_pure fuel b depth alpha beta player with
    | none => simp [hm] at h
    | some x =>
      simp only [hm, Option.map_some', Option.some.injEq, Prod.mk.injEq] at h
      rw [← h.2]

/-- C15 witness: the opening board, BLACK to move, depth 2 and the full window. -/
theorem C15_search_restores_board_witness :
    ∃ r b', maxValue ((2 : Int).toNat + 1) openingBoard 2 INT_MIN INT_MAX PieceKind.BLACK =
        some (r, b') ∧ ∀ i : Fin 25, b'.table i = openingBoard.table i :=
  (C15_search_restores_board openingBoard 2 INT_MIN INT_MAX PieceKind.BLACK
    ⟨⟨12, by decide⟩, by decide⟩ (Or.inl rfl) (by decide)).1

/-- C11: on a board with the neutron on rows 1-3 and at least one full move for
BLACK, `maxValue(board, 1, INT_MIN, INT_MAX, BLACK)` returns the moves of a
generated full move `fm` with, as score, the one-ply heuristic of `fm`; every
generated full move has a one-ply heuristic at most that score, and every full
move generated before `fm` a strictly smaller one.  The board is unchanged. -/
theorem C11_depth1_argmax (b : Board) (n : Move)
    (hf : b.findNeutron = some n) (hrow : 1 ≤ n.row ∧ n.row ≤ 3)
    (hmoves : ∃ fms b', b.allMoves PieceKind.BLACK = some (fms, b') ∧ fms ≠ []) :
    ∃ fms pre fm post h, b.allMoves PieceKind.BLACK = some (fms, b) ∧
      fms = pre ++ fm :: post ∧ oneply b fm = some h ∧
      maxValue 2 b 1 INT_MIN INT_MAX PieceKind.BLACK =
        some ({ moves := fm.moves, score := h }, b) ∧
      (∀ fm' ∈ pre, ∃ h', oneply b fm' = some h' ∧ h' < h) ∧
      (∀ fm' ∈ post, ∃ h', oneply b fm' = some h' ∧ h' ≤ h) := by
  obtain ⟨fms, b', ha, hne⟩ := hmoves
  have hb' := allMoves_board_eq b b' _ fms ha
  subst hb'
  have hn := hasNeutron_of_findNeutron b' n hf
  have hund := allMoves_undoable b' b' _ fms (Or.inl rfl) ha
  have hlen := allMoves_length b' b' _ fms ha
  have htot : ∀ fm ∈ fms, ∃ h, oneply b' fm = some h := fun fm hfm => oneply_total b' fm (hund fm hfm)
  have hterm : ¬ ((1 : Int) = 0 ∨ n.row = 0 ∨ n.row = 4) := by omega
  obtain ⟨pre, fm, post, h, hsplit, ho, hres, hpre, hpost⟩ :=
    maxValue_fallback_pure_first_max b' fms hne htot { moves := [], score := INT_MIN } (by decide)
  refine ⟨fms, pre, fm, post, h, ha, hsplit, ho, ?_, ?_, ?_⟩
  · rw [(minimax_eq_pure 2 b' 1 INT_MIN INT_MAX _ hn (Or.inl rfl)).1,
      maxValue_pure_unfold 1 b' n fms 1 INT_MIN INT_MAX _ hf hterm ha]
    have hloop := maxValue_loop_pure_leaf
      (fun b a be => minValue_pure 1 b (1 - 1) a be (otherPlayer PieceKind.BLACK)) INT_MAX b'
      (fun b1 a be => by
        show minValue_pure 1 b1 (1 - 1) a be (otherPlayer PieceKind.BLACK) = _
        rw [show (1 : Int) - 1 = 0 from rfl]
        exact minValue_pure_leaf 0 b1 a be (otherPlayer PieceKind.BLACK)) fms
      { moves := [], score := INT_MIN } (by decide)
      (fun m _ h' ho' => by
        have := (oneply_range b' m h' ho').2
        show h' < (2147483647 : Int)
        omega)
    rw [hloop, hres]
    have hfm : fm ∈ fms := by rw [hsplit]; simp
    have hemp : ({ moves := fm.moves, score := h } : FullMove).empty = false := by
      have := hlen fm hfm
      simp only [FullMove.empty]
      cases hm : fm.moves with
      | nil => rw [hm] at this; cases this
      | cons _ _ => rfl
    simp only [Option.map_some', hemp, Bool.false_and, Bool.false_eq_true, if_false]
  · intro m hm
    obtain ⟨h', ho'⟩ := htot m (by rw [hsplit]; simp [hm])
    exact ⟨h', ho', hpre m hm h' ho'⟩
  · intro m hm
    obtain ⟨h', ho'⟩ := htot m (by rw [hsplit]; simp [hm])
    exact ⟨h', ho', hpost m hm h' ho'⟩

/-- C11 witness: the opening board. -/
theorem C11_depth1_argmax_witness :
    ∃ fms pre fm post h, openingBoard.allMoves PieceKind.BLACK = some (fms, openingBoard) ∧
      fms = pre ++ fm :: post ∧ oneply openingBoard fm = some h ∧
      maxValue 2 openingBoard 1 INT_MIN INT_MAX PieceKind.BLACK =
        some ({ moves := fm.moves, score := h }, openingBoard) ∧
      (∀ fm' ∈ pre, ∃ h', oneply openingBoard fm' = some h' ∧ h' < h) ∧
      (∀ fm' ∈ post, ∃ h', oneply openingBoard fm' = some h' ∧ h' ≤ h) :=
  C11_depth1_argmax openingBoard ⟨2, 2, PieceKind.NEUTRON⟩ (by decide) (by decide)
    ⟨_, _, allMoves_eq openingBoard PieceKind.BLACK ⟨2, 2, PieceKind.NEUTRON⟩ (by decide),
      by decide⟩

/-- A search of depth 0 returns a full move scored with the heuristic. -/
theorem minValue_leaf_score (fuel : Nat) (b : Board) (alpha beta : Int) (player : PieceKind)
    (c : FullMove × Board) (h : minValue fuel b 0 alpha beta player = some c) :
    heuristic b = some c.1.score := by
  cases fuel with
  | zero => simp [minValue] at h
  | succ fuel =>
    unfold minValue at h
    cases hf : b.findNeutron with
    | none => simp [hf] at h
    | some n =>
      simp only [hf, true_or, if_true] at h
      cases hh : heuristic b with
      | none => simp [hh] at h
      | some hv =>
        simp only [hh, Option.map_some', Option.some.injEq] at h
        rw [← h]

theorem maxValue_leaf_score (fuel : Nat) (b : Board) (alpha beta : Int) (player : PieceKind)
    (c : FullMove × Board) (h : maxValue fuel b 0 alpha beta player = some c) :
    heuristic b = some c.1.score := by
  cases fuel with
  | zero => simp [maxValue] at h
  | succ fuel =>
    unfold maxValue at h
    cases hf : b.findNeutron with
    | none => simp [hf] at h
    | some n =>
      simp only [hf, true_or, if_true] at h
      cases hh : heuristic b with
      | none => simp [hh] at h
      | some hv =>
        simp only [hh, Option.map_some', Option.some.injEq] at h
        rw [← h]

/-- C13 (amended): on a board with the neutron on rows 1-3, for BLACK or WHITE
with at least one full move, every depth `d ≥ 1` and every alpha, beta,
`maxValue` returns a full move of exactly 4 moves; and when `alpha < beta` and
no child's score exceeds alpha, it returns the first generated full move with
the greatest one-ply heuristic, scored with that heuristic. -/
theorem C13_maxValue_never_empty (b : Board) (n : Move) (depth alpha beta : Int)
    (player : PieceKind)
    (hf : b.findNeutron = some n) (hrow : 1 ≤ n.row ∧ n.row ≤ 3) (hd : 1 ≤ depth)
    (hp : player = PieceKind.BLACK ∨ player = PieceKind.WHITE)
    (hmoves : ∃ fms b', b.allMoves player = some (fms, b') ∧ fms ≠ []) :
    ∃ fms r, b.allMoves player = some (fms, b) ∧
      maxValue (depth.toNat + 1) b depth alpha beta player = some (r, b) ∧
      r.moves.length = 4 ∧
      (alpha < beta →
        (∀ fm ∈ fms, ∀ b1 c, b.applyFullMove fm true = some b1 →
          minValue depth.toNat b1 (depth - 1) alpha beta (otherPlayer player) = some c →
          c.1.score ≤ alpha) →
        ∃ pre fm post h, fms = pre ++ fm :: post ∧ oneply b fm = some h ∧
          r = { moves := fm.moves, score := h } ∧
          (∀ fm' ∈ pre, ∃ h', oneply b fm' = some h' ∧ h' < h) ∧
          (∀ fm' ∈ post, ∃ h', oneply b fm' = some h' ∧ h' ≤ h)) := by
  obtain ⟨fms, b', ha, hne⟩ := hmoves
  have hb' := allMoves_board_eq b b' _ fms ha
  subst hb'
  have hn := hasNeutron_of_findNeutron b' n hf
  have hund := allMoves_undoable b' b' _ fms hp ha
  have htot : ∀ fm ∈ fms, ∃ h, oneply b' fm = some h :=
    fun fm hfm => oneply_total b' fm (hund fm hfm)
  have hterm : ¬ (depth = 0 ∨ n.row = 0 ∨ n.row = 4) := by omega
  obtain ⟨⟨r, hr⟩, _⟩ :=
    minimax_total (depth.toNat + 1) b' depth alpha beta player hn hp (by omega) (by omega)
  have hpure := (minimax_eq_pure (depth.toNat + 1) b' depth alpha beta player hn hp).1
  rw [hr] at hpure
  have hrp : maxValue_pure (depth.toNat + 1) b' depth alpha beta player = some r := by
    cases hm : maxValue_pure (depth.toNat + 1) b' depth alpha beta player with
    | none => rw [hm] at hpure; cases hpure
    | some x =>
      rw [hm] at hpure
      simp only [Option.map_some', Option.some.injEq, Prod.mk.injEq] at hpure
      rw [hpure.1]
  refine ⟨fms, r, ha, hr, ?_, ?_⟩
  · exact maxValue_pure_four _ b' b' n fms depth alpha beta player r hf hterm hp ha hne hrp
  · intro hab hchildren
    have hloop : maxValue_loop_pure
        (fun b a be => minValue_pure depth.toNat b (depth - 1) a be (otherPlayer player))
        beta b' fms { moves := [], score := alpha } = some (false, { moves := [], score := alpha }) := by
      apply maxValue_loop_pure_no_improve _ _ _ _ hab
      intro fm hfm
      obtain ⟨b1, h1, hn1, _⟩ := hund fm hfm
      obtain ⟨c, hc⟩ := (minimax_total depth.toNat b1 (depth - 1) alpha beta (otherPlayer player)
        hn1 (otherPlayer_cases player) (by omega) (by omega)).2
      have hle := hchildren fm hfm b1 (c, b1) h1 hc
      have hcp := (minimax_eq_pure depth.toNat b1 (depth - 1) alpha beta (otherPlayer player)
        hn1 (otherPlayer_cases player)).2
      rw [hc] at hcp
      refine ⟨b1, c, h1, ?_, hle⟩
      show minValue_pure depth.toNat b1 (depth - 1) alpha beta (otherPlayer player) = some c
      cases hm : minValue_pure depth.toNat b1 (depth - 1) alpha beta (otherPlayer player) with
      | none => rw [hm] at hcp; cases hcp
      | some x =>
        rw [hm] at hcp
        simp only [Option.map_some', Option.some.injEq, Prod.mk.injEq] at hcp
        rw [hcp.1]
    rw [maxValue_pure_unfold _ b' n fms depth alpha beta player hf hterm ha, hloop] at hrp
    simp only [FullMove.empty, List.isEmpty_nil, isEmpty_false_of_ne_nil fms hne, Bool.not_false,
      Bool.and_self, if_true] at hrp
    obtain ⟨pre, fm, post, h, hsplit, ho, hres, hpre, hpost⟩ :=
      maxValue_fallback_pure_first_max b' fms hne htot { moves := [], score := INT_MIN }
        (by decide)
    rw [hres] at hrp
    simp only [Option.some.injEq] at hrp
    refine ⟨pre, fm, post, h, hsplit, ho, hrp.symm, ?_, ?_⟩
    · intro m hm
      obtain ⟨h', ho'⟩ := htot m (by rw [hsplit]; simp [hm])
      exact ⟨h', ho', hpre m hm h' ho'⟩
    · intro m hm
      obtain ⟨h', ho'⟩ := htot m (by rw [hsplit]; simp [hm])
      exact ⟨h', ho', hpost m hm h' ho'⟩

/-- C13 witness: the opening board, BLACK to move, depth 1, window (40000, 50000):
no one-ply score exceeds alpha. -/
theorem C13_maxValue_never_empty_witness :
    ∃ fms r, openingBoard.allMoves PieceKind.BLACK = some (fms, openingBoard) ∧
      maxValue ((1 : Int).toNat + 1) openingBoard 1 40000 50000 PieceKind.BLACK =
        some (r, openingBoard) ∧
      r.moves.length = 4 ∧
      ∃ pre fm post h, fms = pre ++ fm :: post ∧ oneply openingBoard fm = some h ∧
        r = { moves := fm.moves, score := h } ∧
        (∀ fm' ∈ pre, ∃ h', oneply openingBoard fm' = some h' ∧ h' < h) ∧
        (∀ fm' ∈ post, ∃ h', oneply openingBoard fm' = some h' ∧ h' ≤ h) := by
  obtain ⟨fms, r, ha, hr, hlen, hfirst⟩ :=
    C13_maxValue_never_empty openingBoard ⟨2, 2, PieceKind.NEUTRON⟩ 1 40000 50000
      PieceKind.BLACK (by decide) (by decide) (by decide) (Or.inl rfl)
      ⟨_, _, allMoves_eq openingBoard PieceKind.BLACK ⟨2, 2, PieceKind.NEUTRON⟩ (by decide),
        by decide⟩
  refine ⟨fms, r, ha, hr, hlen, hfirst (by decide) ?_⟩
  intro fm _ b1 c _ hc
  have hs := minValue_leaf_score _ b1 40000 50000 _ c hc
  have := (heuristic_range b1 _ hs).2
  omega

/-- C13 counterexample: on the opening board with BLACK to move, depth 1 and
alpha = beta = 40000, no child's score exceeds alpha, yet `maxValue` returns a
full move scored 40000, which is the one-ply heuristic of no generated full
move. -/
theorem C13_counterexample :
    ∃ fms r, openingBoard.allMoves PieceKind.BLACK = some (fms, openingBoard) ∧ fms ≠ [] ∧
      maxValue 2 openingBoard 1 40000 40000 PieceKind.BLACK = some (r, openingBoard) ∧
      (∀ fm ∈ fms, ∀ b1 c, openingBoard.applyFullMove fm true = some b1 →
        minValue 1 b1 0 40000 40000 PieceKind.WHITE = some c → c.1.score ≤ 40000) ∧
      r.score = 40000 ∧
      ¬ ∃ fm ∈ fms, oneply openingBoard fm = some r.score := by
  have ha := allMoves_eq openingBoard PieceKind.BLACK ⟨2, 2, PieceKind.NEUTRON⟩ (by decide)
  obtain ⟨⟨r, hr⟩, _⟩ := minimax_total 2 openingBoard 1 40000 40000 PieceKind.BLACK
    ⟨⟨12, by decide⟩, by decide⟩ (Or.inl rfl) (by decide) (by decide)
  have hscore : (maxValue 2 openingBoard 1 40000 40000 PieceKind.BLACK).map
      (fun x => x.1.score) = some 40000 := by decide
  rw [hr] at hscore
  simp only [Option.map_some', Option.some.injEq] at hscore
  refine ⟨_, r, ha, by decide, hr, ?_, hscore, ?_⟩
  · intro fm _ b1 c _ hc
    have hs := minValue_leaf_score _ b1 40000 40000 _ c hc
    have := (heuristic_range b1 _ hs).2
    omega
  · rintro ⟨fm, _, ho⟩
    have := (oneply_range openingBoard fm _ ho).2
    omega

/-- The slip in the fallback of `minValue`: on a non-terminal board with at
least one full move, when `alpha < beta` and no child's score is below beta,
`minValue` returns a full move without moves, scored `INT_MIN`. -/
theorem minValue_fallback_returns_seed (b b' : Board) (n : Move) (fms : List FullMove)
    (depth alpha beta : Int) (player : PieceKind)
    (hf : b.findNeutron = some n) (hrow : 1 ≤ n.row ∧ n.row ≤ 3) (hd : 1 ≤ depth)
    (hp : player = PieceKind.BLACK ∨ player = PieceKind.WHITE)
    (ha : b.allMoves player = some (fms, b')) (hne : fms ≠ []) (hab : alpha < beta)
    (hchildren : ∀ fm ∈ fms, ∀ b1 c, b.applyFullMove fm true = some b1 →
      maxValue depth.toNat b1 (depth - 1) alpha beta (otherPlayer player) = some c →
      beta ≤ c.1.score) :
    minValue (depth.toNat + 1) b depth alpha beta player =
      some ({ moves := [], score := INT_MIN }, b) := by
  have hb' := allMoves_board_eq b b' _ fms ha
  subst hb'
  have hn := hasNeutron_of_findNeutron b' n hf
  have hund := allMoves_undoable b' b' _ fms hp ha
  have htot : ∀ fm ∈ fms, ∃ h, oneply b' fm = some h :=
    fun fm hfm => oneply_total b' fm (hund fm hfm)
  have hterm : ¬ (depth = 0 ∨ n.row = 0 ∨ n.row = 4) := by omega
  have hloop : minValue_loop_pure
      (fun b a be => maxValue_pure depth.toNat b (depth - 1) a be (otherPlayer player))
      alpha b' fms { moves := [], score := beta } = some (false, { moves := [], score := beta }) := by
    apply minValue_loop_pure_no_improve _ _ _ _ hab
    intro fm hfm
    obtain ⟨b1, h1, hn1, _⟩ := hund fm hfm
    obtain ⟨c, hc⟩ := (minimax_total depth.toNat b1 (depth - 1) alpha beta (otherPlayer player)
      hn1 (otherPlayer_cases player) (by omega) (by omega)).1
    have hle := hchildren fm hfm b1 (c, b1) h1 hc
    have hcp := (minimax_eq_pure depth.toNat b1 (depth - 1) alpha beta (otherPlayer player)
      hn1 (otherPlayer_cases player)).1
    rw [hc] at hcp
    refine ⟨b1, c, h1, ?_, hle⟩
    show maxValue_pure depth.toNat b1 (depth - 1) alpha beta (otherPlayer player) = some c
    cases hm : maxValue_pure depth.toNat b1 (depth - 1) alpha beta (otherPlayer player) with
    | none => rw [hm] at hcp; cases hcp
    | some x =>
      rw [hm] at hcp
      simp only [Option.map_some', Option.some.injEq, Prod.mk.injEq] at hcp
      rw [hcp.1]
  rw [(minimax_eq_pure (depth.toNat + 1) b' depth alpha beta player hn hp).2,
    minValue_pure_unfold _ b' n fms depth alpha beta player hf hterm ha, hloop]
  simp only [FullMove.empty, List.isEmpty_nil, isEmpty_false_of_ne_nil fms hne, Bool.not_false,
    Bool.and_self, if_true]
  rw [minValue_fallback_pure_seed b' fms { moves := [], score := INT_MIN } (by decide) htot]
  rfl

/-- C14 (code defect): on the opening board, WHITE to move, depth 1 and the window
`alpha = -60000 < beta = -50000`, full moves exist and no child's score is
below beta, yet `minValue` returns a full move without moves, scored `INT_MIN`:
its fallback compares against the seed `INT_MIN` with `<`. -/
theorem C14_minValue_fallback_returns_empty :
    (∃ fms, openingBoard.allMoves PieceKind.WHITE = some (fms, openingBoard) ∧ fms ≠ [] ∧
      ∀ fm ∈ fms, ∀ b1 c, openingBoard.applyFullMove fm true = some b1 →
        maxValue 1 b1 0 (-60000) (-50000) PieceKind.BLACK = some c → -50000 ≤ c.1.score) ∧
    minValue 2 openingBoard 1 (-60000) (-50000) PieceKind.WHITE =
      some ({ moves := [], score := INT_MIN }, openingBoard) := by
  have ha := allMoves_eq openingBoard PieceKind.WHITE ⟨2, 2, PieceKind.NEUTRON⟩ (by decide)
  have hchildren : ∀ fm ∈ (pruneNeutronMoves (openingBoard.moves ⟨2, 2, PieceKind.NEUTRON⟩)
        PieceKind.WHITE).flatMap
        (fun nm => fullMovesFor (openingBoard.applyMove ⟨2, 2, PieceKind.NEUTRON⟩ nm)
          ⟨2, 2, PieceKind.NEUTRON⟩ nm (openingBoard.findPieces PieceKind.WHITE)),
      ∀ b1 c, openingBoard.applyFullMove fm true = some b1 →
        maxValue 1 b1 0 (-60000) (-50000) PieceKind.BLACK = some c → -50000 ≤ c.1.score := by
    intro fm _ b1 c _ hc
    have hs := maxValue_leaf_score _ b1 (-60000) (-50000) _ c hc
    have := (heuristic_range b1 _ hs).1
    omega
  refine ⟨⟨_, ha, by decide, hchildren⟩, ?_⟩
  exact minValue_fallback_returns_seed openingBoard openingBoard ⟨2, 2, PieceKind.NEUTRON⟩ _
    1 (-60000) (-50000) PieceKind.WHITE (by decide) (by decide) (by decide) (Or.inr rfl)
    ha (by decide) (by decide) hchildren

/-- The unpruned fold over children that all have a value in `[lo, hi]`: it
returns, and the result is bracketed by the seed and the bounds. -/
theorem fullWidth_fold_range (value : Board → Option Int) (isMax : Bool) (b : Board)
    (lo hi : Int) :
    ∀ (fms : List FullMove) (seed : Int),
      (∀ fm ∈ fms, ∃ b1 t, b.applyFullMove fm true = some b1 ∧ value b1 = some t ∧
        lo ≤ t ∧ t ≤ hi) →
      ∃ T, fullWidth_fold value isMax b fms seed = some T ∧
        min lo seed ≤ T ∧ T ≤ max hi seed ∧
        (isMax = true → seed ≤ T) ∧ (isMax = false → T ≤ seed) ∧
        (fms ≠ [] → isMax = true → lo ≤ T) ∧ (fms ≠ [] → isMax = false → T ≤ hi) := by
  intro fms
  induction fms with
  | nil =>
    intro seed _
    refine ⟨seed, rfl, min_le_right _ _, le_max_right _ _, fun _ => le_refl _, fun _ => le_refl _,
      fun h => absurd rfl h, fun h => absurd rfl h⟩
  | cons fm rest ih =>
    intro seed hall
    obtain ⟨b1, t, h1, h2, hlo, hhi⟩ := hall fm (List.mem_cons_self _ _)
    simp only [fullWidth_fold, h1, h2, Option.bind_eq_bind, Option.some_bind]
    obtain ⟨T, hT, hmin, hmax, hge, hle, _, _⟩ :=
      ih (if isMax = true then max seed t else min seed t)
        (fun m hm => hall m (List.mem_cons_of_mem _ hm))
    refine ⟨T, hT, ?_, ?_, ?_, ?_, ?_, ?_⟩
    · cases isMax <;> simp only [Bool.false_eq_true, if_false, if_true] at hmin ⊢ <;>
        simp only [min_def, max_def] at hmin ⊢ <;> split_ifs at hmin ⊢ <;> omega
    · cases isMax <;> simp only [Bool.false_eq_true, if_false, if_true] at hmax ⊢ <;>
        simp only [min_def, max_def] at hmax ⊢ <;> split_ifs at hmax ⊢ <;> omega
    · intro hm
      have := hge hm
      simp only [hm, if_true, max_def] at this
      split_ifs at this <;> omega
    · intro hm
      have := hle hm
      simp only [hm, Bool.false_eq_true, if_false, min_def] at this
      split_ifs at this <;> omega
    · intro _ hm
      have := hge hm
      simp only [hm, if_true, max_def] at this
      split_ifs at this <;> omega
    · intro _ hm
      have := hle hm
      simp only [hm, Bool.false_eq_true, if_false, min_def] at this
      split_ifs at this <;> omega

/-- A minimizing node whose children are leaves, searched with the window
`(alpha, best.score)`: the loop either cuts off, returning `alpha` while the
unpruned minimum is at most `alpha`, or ends with the unpruned minimum, which
is then above `alpha`. -/
theorem minValue_loop_pure_leaves (child : Board → Int → Int → Option FullMove)
    (value : Board → Option Int) (alpha : Int) (b : Board)
    (hchild : ∀ (b1 : Board) (a be : Int), child b1 a be =
      (heuristic b1).map (fun h => ({ moves := [], score := h } : FullMove)))
    (hvalue : ∀ b1 : Board, value b1 = heuristic b1) :
    ∀ (fms : List FullMove) (best : FullMove),
      (∀ fm ∈ fms, Undoable b fm ∧ fm.moves ≠ []) → alpha < best.score →
      ∃ flag r T, minValue_loop_pure child alpha b fms best = some (flag, r) ∧
        fullWidth_fold value false b fms best.score = some T ∧
        ((flag = true ∧ r.score = alpha ∧ T ≤ alpha) ∨
         (flag = false ∧ r.score = T ∧ alpha < T ∧
            ((r.moves = best.moves ∧ T = best.score) ∨ r.moves ≠ []))) := by
  intro fms
  induction fms with
  | nil =>
    intro best _ hbest
    exact ⟨false, best, best.score, rfl, rfl, Or.inr ⟨rfl, rfl, hbest, Or.inl ⟨rfl, rfl⟩⟩⟩
  | cons fm rest ih =>
    intro best hall hbest
    obtain ⟨⟨b1, h1, hn1, _⟩, hfm⟩ := hall fm (List.mem_cons_self _ _)
    obtain ⟨h, hh⟩ := heuristic_total b1 hn1
    have hrest : ∀ m ∈ rest, Undoable b m ∧ m.moves ≠ [] :=
      fun m hm => hall m (List.mem_cons_of_mem _ hm)
    have hscore : (if h < best.score then ({ moves := fm.moves, score := h } : FullMove)
        else best).score = min best.score h := by
      by_cases hlt : h < best.score
      · rw [if_pos hlt, min_eq_right (by omega)]
      · rw [if_neg hlt, min_eq_left (by omega)]
    simp only [minValue_loop_pure, fullWidth_fold, h1, hchild, hvalue, hh, Option.bind_eq_bind,
      Option.some_bind, Option.map_some', Option.pure_def, Bool.false_eq_true, if_false]
    by_cases hcut : alpha ≥ (if h < best.score then ({ moves := fm.moves, score := h } : FullMove)
        else best).score
    · rw [if_pos hcut]
      obtain ⟨T, hT, _, _, _, hle, _, _⟩ := fullWidth_fold_range value false b (-40000) 32767 rest
        (min best.score h) (fun m hm => by
          obtain ⟨b2, h2, hn2, _⟩ := (hrest m hm).1
          obtain ⟨h', hh'⟩ := heuristic_total b2 hn2
          have := heuristic_range b2 h' hh'
          exact ⟨b2, h', h2, by rw [hvalue, hh'], this.1, this.2⟩)
      have := hle rfl
      rw [hscore] at hcut
      exact ⟨true, _, T, rfl, hT, Or.inl ⟨rfl, rfl, by omega⟩⟩
    · rw [if_neg hcut]
      obtain ⟨flag, r, T, hl, hT, hcase⟩ := ih (if h < best.score then
        ({ moves := fm.moves, score := h } : FullMove) else best) hrest (by omega)
      rw [hscore] at hT
      refine ⟨flag, r, T, hl, hT, ?_⟩
      rcases hcase with hc | ⟨hf, hr, ha, hm⟩
      · exact Or.inl hc
      · refine Or.inr ⟨hf, hr, ha, ?_⟩
        rcases hm with ⟨hm1, hm2⟩ | hm
        · by_cases hlt : h < best.score
          · rw [if_pos hlt] at hm1
            exact Or.inr (by rw [hm1]; exact hfm)
          · rw [if_neg hlt] at hm1 hm2
            exact Or.inl ⟨hm1, hm2⟩
        · exact Or.inr hm

/-- A maximizing node searched with `beta = INT_MAX` whose children return
either their unpruned value or, when that value is at most the alpha they
were given, that alpha: the loop ends with the unpruned maximum. -/
theorem maxValue_loop_pure_full_window (child : Board → Int → Int → Option FullMove)
    (value : Board → Option Int) (b : Board) :
    ∀ (fms : List FullMove) (best : FullMove),
      (∀ fm ∈ fms, fm.moves ≠ [] ∧ ∃ b1, b.applyFullMove fm true = some b1 ∧
        ∀ a : Int, INT_MIN ≤ a → a < INT_MAX →
          ∃ r t, child b1 a INT_MAX = some r ∧ value b1 = some t ∧
            -40000 ≤ t ∧ t ≤ INT_MAX ∧ (r.score = t ∨ (r.score = a ∧ t ≤ a))) →
      INT_MIN ≤ best.score → best.score < INT_MAX →
      ∃ flag r T, maxValue_loop_pure child INT_MAX b fms best = some (flag, r) ∧
        fullWidth_fold value true b fms best.score = some T ∧ r.score = T ∧
        (flag = false → (r.moves = best.moves ∧ T = best.score) ∨ r.moves ≠ []) := by
  have emax : INT_MAX = 2147483647 := rfl
  have emin : INT_MIN = -2147483648 := rfl
  intro fms
  induction fms with
  | nil =>
    intro best _ _ _
    exact ⟨false, best, best.score, rfl, rfl, rfl, fun _ => Or.inl ⟨rfl, rfl⟩⟩
  | cons fm rest ih =>
    intro best hall hlo hhi
    obtain ⟨hfm, b1, h1, hch⟩ := hall fm (List.mem_cons_self _ _)
    obtain ⟨r1, t, hc, hv, htlo, hthi, hrt⟩ := hch best.score hlo hhi
    have hrest := fun m (hm : m ∈ rest) => hall m (List.mem_cons_of_mem _ hm)
    have hscore : (if r1.score > best.score then
        ({ moves := fm.moves, score := r1.score } : FullMove) else best).score =
        max best.score t := by
      by_cases hgt : r1.score > best.score
      · rw [if_pos hgt, max_eq_right (by omega)]
        show r1.score = t
        omega
      · rw [if_neg hgt, max_eq_left (by omega)]
    simp only [maxValue_loop_pure, fullWidth_fold, h1, hc, hv, Option.bind_eq_bind,
      Option.some_bind, Option.pure_def, if_true]
    by_cases hcut : (if r1.score > best.score then
        ({ moves := fm.moves, score := r1.score } : FullMove) else best).score ≥ INT_MAX
    · rw [if_pos hcut]
      rw [hscore] at hcut
      have hseed : max best.score t = INT_MAX := by
        simp only [max_def] at hcut ⊢
        split_ifs at hcut ⊢ <;> omega
      obtain ⟨T, hT, _, hmax, hge, _, _, _⟩ := fullWidth_fold_range value true b (-40000) INT_MAX
        rest (max best.score t) (fun m hm => by
          obtain ⟨_, b2, h2, hch2⟩ := hrest m hm
          obtain ⟨_, t2, _, hv2, hl2, hh2, _⟩ := hch2 INT_MIN (le_refl _) (by decide)
          exact ⟨b2, t2, h2, hv2, hl2, hh2⟩)
      have h3 := hge rfl
      rw [hseed] at hmax h3
      simp only [max_self] at hmax
      exact ⟨true, _, T, rfl, hT, by simp only; omega, fun h => by cases h⟩
    · rw [if_neg hcut]
      have hb1lo : INT_MIN ≤ (if r1.score > best.score then
          ({ moves := fm.moves, score := r1.score } : FullMove) else best).score := by
        rw [hscore]; simp only [max_def]; split_ifs <;> omega
      obtain ⟨flag, r, T, hl, hT, hrT, hm⟩ := ih (if r1.score > best.score then
        ({ moves := fm.moves, score := r1.score } : FullMove) else best) hrest hb1lo (by omega)
      rw [hscore] at hT
      refine ⟨flag, r, T, hl, hT, hrT, ?_⟩
      intro hflag
      rcases hm hflag with ⟨hm1, hm2⟩ | hm
      · by_cases hgt : r1.score > best.score
        · rw [if_pos hgt] at hm1
          exact Or.inr (by rw [hm1]; exact hfm)
        · rw [if_neg hgt] at hm1 hm2
          exact Or.inl ⟨hm1, hm2⟩
      · exact Or.inr hm

theorem fullWidthMax_leaf (fuel : Nat) (b : Board) (player : PieceKind) :
    fullWidthMax (fuel + 1) b 0 player = heuristic b := by
  unfold fullWidthMax
  cases hf : b.findNeutron with
  | none => simp [heuristic, hf]
  | some n => simp

theorem fullWidthMin_leaf (fuel : Nat) (b : Board) (player : PieceKind) :
    fullWidthMin (fuel + 1) b 0 player = heuristic b := by
  unfold fullWidthMin
  cases hf : b.findNeutron with
  | none => simp [heuristic, hf]
  | some n => simp

theorem fullWidthMax_terminal (fuel : Nat) (b : Board) (n : Move) (depth : Int)
    (player : PieceKind) (hf : b.findNeutron = some n)
    (ht : depth = 0 ∨ n.row = 0 ∨ n.row = 4) :
    fullWidthMax (fuel + 1) b depth player = heuristic b := by
  unfold fullWidthMax
  simp only [hf, ht, if_true]

theorem fullWidthMin_terminal (fuel : Nat) (b : Board) (n : Move) (depth : Int)
    (player : PieceKind) (hf : b.findNeutron = some n)
    (ht : depth = 0 ∨ n.row = 0 ∨ n.row = 4) :
    fullWidthMin (fuel + 1) b depth player = heuristic b := by
  unfold fullWidthMin
  simp only [hf, ht, if_true]

theorem fullWidthMax_unfold (fuel : Nat) (b : Board) (n : Move) (fms : List FullMove)
    (depth : Int) (player : PieceKind)
    (hf : b.findNeutron = some n) (hterm : ¬ (depth = 0 ∨ n.row = 0 ∨ n.row = 4))
    (ha : b.allMoves player = some (fms, b)) :
    fullWidthMax (fuel + 1) b depth player =
      fullWidth_fold (fun b => fullWidthMin fuel b (depth - 1) (otherPlayer player)) true
        b fms INT_MIN := by
  conv_lhs => unfold fullWidthMax
  simp only [hf, hterm, if_false, ha]

theorem fullWidthMin_unfold (fuel : Nat) (b : Board) (n : Move) (fms : List FullMove)
    (depth : Int) (player : PieceKind)
    (hf : b.findNeutron = some n) (hterm : ¬ (depth = 0 ∨ n.row = 0 ∨ n.row = 4))
    (ha : b.allMoves player = some (fms, b)) :
    fullWidthMin (fuel + 1) b depth player =
      fullWidth_fold (fun b => fullWidthMax fuel b (depth - 1) (otherPlayer player)) false
        b fms INT_MAX := by
  conv_lhs => unfold fullWidthMin
  simp only [hf, hterm, if_false, ha]

theorem moves_ne_nil_of_length (fm : FullMove) (h : fm.moves.length = 4) : fm.moves ≠ [] := by
  intro e
  rw [e] at h
  cases h

theorem empty_eq_false_of_ne_nil (fm : FullMove) (h : fm.moves ≠ []) : fm.empty = false := by
  unfold FullMove.empty
  exact isEmpty_false_of_ne_nil _ h

/-- A minimizing node of depth 1 searched with the window `(a, INT_MAX)` returns
its unpruned value, or `a` when that value is at most `a`. -/
theorem minValue_pure_depth1 (b : Board) (player : PieceKind) (a : Int)
    (hn : ∃ i, b.table i = PieceKind.NEUTRON)
    (hp : player = PieceKind.BLACK ∨ player = PieceKind.WHITE) (ha : a < INT_MAX) :
    ∃ r t, minValue_pure 2 b 1 a INT_MAX player = some r ∧ fullWidthMin 2 b 1 player = some t ∧
      -40000 ≤ t ∧ t ≤ INT_MAX ∧ (r.score = t ∨ (r.score = a ∧ t ≤ a)) := by
  have emax : INT_MAX = 2147483647 := rfl
  obtain ⟨n, hf⟩ := findNeutron_of_mem b hn
  by_cases hterm : (1 : Int) = 0 ∨ n.row = 0 ∨ n.row = 4
  · obtain ⟨h, hh⟩ := heuristic_total b hn
    have hr := heuristic_range b h hh
    refine ⟨{ moves := [], score := h }, h, ?_, ?_, hr.1, by omega, Or.inl rfl⟩
    · unfold minValue_pure
      simp only [hf, hterm, if_true, hh, Option.map_some']
    · rw [fullWidthMin_terminal 1 b n 1 player hf hterm, hh]
  · have hall := allMoves_eq b player n hf
    have hund := allMoves_undoable b b player _ hp hall
    have hlen := allMoves_length b b player _ hall
    generalize (pruneNeutronMoves (b.moves n) player).flatMap
      (fun nm => fullMovesFor (b.applyMove n nm) n nm (b.findPieces player)) = fms
      at hall hund hlen
    have hgood : ∀ fm ∈ fms, Undoable b fm ∧ fm.moves ≠ [] :=
      fun fm hfm => ⟨hund fm hfm, moves_ne_nil_of_length fm (hlen fm hfm)⟩
    obtain ⟨flag, r, T, hl, hT, hcase⟩ := minValue_loop_pure_leaves
      (fun b a be => maxValue_pure 1 b (1 - 1) a be (otherPlayer player))
      (fun b => fullWidthMax 1 b (1 - 1) (otherPlayer player)) a b
      (fun b1 a be => by
        show maxValue_pure 1 b1 (1 - 1) a be (otherPlayer player) = _
        rw [show (1 : Int) - 1 = 0 from rfl]
        exact maxValue_pure_leaf 0 b1 a be (otherPlayer player))
      (fun b1 => by
        show fullWidthMax 1 b1 (1 - 1) (otherPlayer player) = _
        rw [show (1 : Int) - 1 = 0 from rfl]
        exact fullWidthMax_leaf 0 b1 (otherPlayer player))
      fms { moves := [], score := INT_MAX } hgood ha
    obtain ⟨T', hT', hmin, _, _, hle, _, hne⟩ := fullWidth_fold_range
      (fun b => fullWidthMax 1 b (1 - 1) (otherPlayer player)) false b (-40000) 32767 fms INT_MAX
      (fun m hm => by
        obtain ⟨b2, h2, hn2, _⟩ := hund m hm
        obtain ⟨h', hh'⟩ := heuristic_total b2 hn2
        have := heuristic_range b2 h' hh'
        refine ⟨b2, h', h2, ?_, this.1, this.2⟩
        show fullWidthMax 1 b2 (1 - 1) (otherPlayer player) = _
        rw [show (1 : Int) - 1 = 0 from rfl, fullWidthMax_leaf 0 b2 (otherPlayer player), hh'])
    have hTT : T' = T := by
      have hT2 : fullWidth_fold (fun b => fullWidthMax 1 b (1 - 1) (otherPlayer player)) false b
          fms INT_MAX = some T := hT
      rw [hT'] at hT2
      exact Option.some.inj hT2
    subst hTT
    have hlo : -40000 ≤ T' := by
      have : min (-40000) INT_MAX = -40000 := by decide
      rw [this] at hmin; exact hmin
    have hhi : T' ≤ INT_MAX := hle rfl
    have hfw : fullWidthMin 2 b 1 player = some T' := by
      rw [fullWidthMin_unfold 1 b n fms 1 player hf hterm hall]; exact hT'
    rw [minValue_pure_unfold 1 b n fms 1 a INT_MAX player hf hterm hall, hl]
    rcases hcase with ⟨hflag, hr, hTa⟩ | ⟨hflag, hr, haT, hm⟩
    · subst hflag
      exact ⟨r, T', rfl, hfw, hlo, hhi, Or.inr ⟨hr, hTa⟩⟩
    · subst hflag
      have hret : (if (r.empty && !fms.isEmpty) = true then
          minValue_fallback_pure b fms { moves := [], score := INT_MIN } else some r) = some r := by
        rcases hm with ⟨_, hTmax⟩ | hm
        · by_cases hfms : fms = []
          · subst hfms
            simp
          · have := hne hfms rfl
            simp only at hTmax
            omega
        · rw [empty_eq_false_of_ne_nil r hm]; simp
      exact ⟨r, T', hret, hfw, hlo, hhi, Or.inl hr⟩

/-- Pruned and unpruned search agree at the root for depth 1 and depth 2, given
children that return their unpruned value or the alpha they were given. -/
theorem maxValue_pure_root_full_window (b : Board) (n : Move) (fuel : Nat) (depth : Int)
    (hf : b.findNeutron = some n) (hterm : ¬ (depth = 0 ∨ n.row = 0 ∨ n.row = 4))
    (hchildren : ∀ b1 : Board, (∃ i, b1.table i = PieceKind.NEUTRON) →
      ∀ a : Int, INT_MIN ≤ a → a < INT_MAX →
        ∃ r t, minValue_pure fuel b1 (depth - 1) a INT_MAX (otherPlayer PieceKind.BLACK) = some r ∧
          fullWidthMin fuel b1 (depth - 1) (otherPlayer PieceKind.BLACK) = some t ∧
          -40000 ≤ t ∧ t ≤ INT_MAX ∧ (r.score = t ∨ (r.score = a ∧ t ≤ a))) :
    ∃ r v, maxValue_pure (fuel + 1) b depth INT_MIN INT_MAX PieceKind.BLACK = some r ∧
      fullWidthMax (fuel + 1) b depth PieceKind.BLACK = some v ∧ r.score = v := by
  have emin : INT_MIN = -2147483648 := rfl
  have hall := allMoves_eq b PieceKind.BLACK n hf
  have hund := allMoves_undoable b b PieceKind.BLACK _ (Or.inl rfl) hall
  have hlen := allMoves_length b b PieceKind.BLACK _ hall
  generalize (pruneNeutronMoves (b.moves n) PieceKind.BLACK).flatMap
    (fun nm => fullMovesFor (b.applyMove n nm) n nm (b.findPieces PieceKind.BLACK)) = fms
    at hall hund hlen
  have hgood : ∀ fm ∈ fms, fm.moves ≠ [] ∧ ∃ b1, b.applyFullMove fm true = some b1 ∧
      ∀ a : Int, INT_MIN ≤ a → a < INT_MAX →
        ∃ r t, (fun b a be => minValue_pure fuel b (depth - 1) a be
            (otherPlayer PieceKind.BLACK)) b1 a INT_MAX = some r ∧
          (fun b => fullWidthMin fuel b (depth - 1) (otherPlayer PieceKind.BLACK)) b1 = some t ∧
          -40000 ≤ t ∧ t ≤ INT_MAX ∧ (r.score = t ∨ (r.score = a ∧ t ≤ a)) := by
    intro fm hfm
    obtain ⟨b1, h1, hn1, _⟩ := hund fm hfm
    exact ⟨moves_ne_nil_of_length fm (hlen fm hfm), b1, h1, hchildren b1 hn1⟩
  obtain ⟨flag, r, T, hl, hT, hrT, hm⟩ := maxValue_loop_pure_full_window
    (fun b a be => minValue_pure fuel b (depth - 1) a be (otherPlayer PieceKind.BLACK))
    (fun b => fullWidthMin fuel b (depth - 1) (otherPlayer PieceKind.BLACK)) b fms
    { moves := [], score := INT_MIN } hgood (le_refl _) (by decide)
  obtain ⟨T', hT', _, _, _, _, hne, _⟩ := fullWidth_fold_range
    (fun b => fullWidthMin fuel b (depth - 1) (otherPlayer PieceKind.BLACK)) true b (-40000)
    INT_MAX fms INT_MIN (fun m hm => by
      obtain ⟨_, b2, h2, hch⟩ := hgood m hm
      obtain ⟨_, t2, _, hv2, hl2, hh2, _⟩ := hch INT_MIN (le_refl _) (by decide)
      exact ⟨b2, t2, h2, hv2, hl2, hh2⟩)
  have hTT : T' = T := by
    have hT2 : fullWidth_fold (fun b => fullWidthMin fuel b (depth - 1)
        (otherPlayer PieceKind.BLACK)) true b fms INT_MIN = some T := hT
    rw [hT'] at hT2
    exact Option.some.inj hT2
  subst hTT
  refine ⟨r, T', ?_, ?_, hrT⟩
  · rw [maxValue_pure_unfold fuel b n fms depth INT_MIN INT_MAX _ hf hterm hall, hl]
    cases flag with
    | true => rfl
    | false =>
      rcases hm rfl with ⟨_, hTmin⟩ | hm
      · by_cases hfms : fms = []
        · subst hfms
          simp
        · have := hne hfms rfl
          simp only at hTmin
          omega
      · simp only [empty_eq_false_of_ne_nil r hm, Bool.false_and, Bool.false_eq_true, if_false]
  · rw [fullWidthMax_unfold fuel b n fms depth _ hf hterm hall]; exact hT'

/-- C12 (amended): on a board containing the neutron and for every depth
`0 ≤ d ≤ 2`, `maxValue(board, d, INT_MIN, INT_MAX, BLACK)` returns, leaves the
board unchanged, and its score equals the score of the unpruned full-width
minimax of the same depth. -/
theorem C12_alpha_beta_equivalence_depth_le_2 (b : Board) (depth : Int)
    (hn : ∃ i, b.table i = PieceKind.NEUTRON) (hd : 0 ≤ depth ∧ depth ≤ 2) :
    ∃ r v, maxValue (depth.toNat + 1) b depth INT_MIN INT_MAX PieceKind.BLACK = some (r, b) ∧
      fullWidthMax (depth.toNat + 1) b depth PieceKind.BLACK = some v ∧ r.score = v := by
  have emax : INT_MAX = 2147483647 := rfl
  obtain ⟨n, hf⟩ := findNeutron_of_mem b hn
  rw [(minimax_eq_pure (depth.toNat + 1) b depth INT_MIN INT_MAX _ hn (Or.inl rfl)).1]
  suffices h : ∃ r v, maxValue_pure (depth.toNat + 1) b depth INT_MIN INT_MAX PieceKind.BLACK =
      some r ∧ fullWidthMax (depth.toNat + 1) b depth PieceKind.BLACK = some v ∧ r.score = v by
    obtain ⟨r, v, h1, h2, h3⟩ := h
    exact ⟨r, v, by rw [h1]; rfl, h2, h3⟩
  by_cases hterm : depth = 0 ∨ n.row = 0 ∨ n.row = 4
  · obtain ⟨h, hh⟩ := heuristic_total b hn
    refine ⟨{ moves := [], score := h }, h, ?_, ?_, rfl⟩
    · unfold maxValue_pure
      simp only [hf, hterm, if_true, hh, Option.map_some']
    · rw [fullWidthMax_terminal _ b n depth _ hf hterm, hh]
  · have hcases : depth = 1 ∨ depth = 2 := by omega
    rcases hcases with h1 | h2
    · subst h1
      apply maxValue_pure_root_full_window b n 1 1 hf hterm
      intro b1 hn1 a _ _
      obtain ⟨h, hh⟩ := heuristic_total b1 hn1
      have hr := heuristic_range b1 h hh
      refine ⟨{ moves := [], score := h }, h, ?_, ?_, hr.1, by omega, Or.inl rfl⟩
      · rw [show (1 : Int) - 1 = 0 from rfl, minValue_pure_leaf 0 b1 a INT_MAX _, hh]; rfl
      · rw [show (1 : Int) - 1 = 0 from rfl, fullWidthMin_leaf 0 b1 _, hh]
    · subst h2
      apply maxValue_pure_root_full_window b n 2 2 hf hterm
      intro b1 hn1 a _ ha
      rw [show (2 : Int) - 1 = 1 from rfl]
      exact minValue_pure_depth1 b1 _ a hn1 (otherPlayer_cases _) ha

/-- C12 witness: the opening board at depth 2. -/
theorem C12_alpha_beta_equivalence_depth_le_2_witness :
    ∃ r v, maxValue ((2 : Int).toNat + 1) openingBoard 2 INT_MIN INT_MAX PieceKind.BLACK =
        some (r, openingBoard) ∧
      fullWidthMax ((2 : Int).toNat + 1) openingBoard 2 PieceKind.BLACK = some v ∧ r.score = v :=
  C12_alpha_beta_equivalence_depth_le_2 openingBoard 2 ⟨⟨12, by decide⟩, by decide⟩
    (by decide)

theorem divergingBoard_pruned :
    (maxValue_pure 5 divergingBoard 4 INT_MIN INT_MAX PieceKind.BLACK).map (fun r => r.score) =
      some (-5000) := by decide!

theorem divergingBoard_unpruned :
    fullWidthMax 5 divergingBoard 4 PieceKind.BLACK = some (-32768) := by decide!

/-- C12 counterexample: on `divergingBoard` at depth 4, with the full window and
BLACK to move, `maxValue` returns the score -5000 while the unpruned full-width
minimax of depth 4 has the score -32768. -/
theorem C12_counterexample :
    (∃ r, maxValue 5 divergingBoard 4 INT_MIN INT_MAX PieceKind.BLACK =
        some (r, divergingBoard) ∧ r.score = -5000) ∧
    fullWidthMax 5 divergingBoard 4 PieceKind.BLACK = some (-32768) := by
  have he := (minimax_eq_pure 5 divergingBoard 4 INT_MIN INT_MAX PieceKind.BLACK
    ⟨⟨13, by decide⟩, by decide⟩ (Or.inl rfl)).1
  have hp := divergingBoard_pruned
  cases hm : maxValue_pure 5 divergingBoard 4 INT_MIN INT_MAX PieceKind.BLACK with
  | none => rw [hm] at hp; cases hp
  | some r =>
    rw [hm] at hp he
    simp only [Option.map_some', Option.some.injEq] at hp
    exact ⟨⟨r, he, hp⟩, divergingBoard_unpruned⟩

open Board

/-- The scan over a clear slide of exactly `n` squares stops on the `n`-th. -/
theorem _check_fuel_slide (b : Board) (incR incC : Int) :
    ∀ (n fuel : Nat) (row col : Int), n < fuel →
      (∀ k : Nat, 1 ≤ k → k ≤ n →
        (0 ≤ row + k * incR ∧ row + k * incR < 5 ∧ 0 ≤ col + k * incC ∧ col + k * incC < 5) ∧
        b.elementAt (row + k * incR) (col + k * incC) = PieceKind.CELL) →
      ¬ ((0 ≤ row + (n + 1 : Nat) * incR ∧ row + (n + 1 : Nat) * incR < 5 ∧
          0 ≤ col + (n + 1 : Nat) * incC ∧ col + (n + 1 : Nat) * incC < 5) ∧
        b.elementAt (row + (n + 1 : Nat) * incR) (col + (n + 1 : Nat) * incC) =
          PieceKind.CELL) →
      _check_fuel b incR incC fuel row col =
        some ⟨row + n * incR, col + n * incC, b.elementAt (row + n * incR) (col + n * incC)⟩ := by
  intro n
  induction n with
  | zero =>
    intro fuel row col hf _ hstop
    obtain ⟨f, rfl⟩ : ∃ f, fuel = f + 1 := ⟨fuel - 1, by omega⟩
    simp only [Nat.zero_add, Nat.cast_one, one_mul] at hstop
    unfold _check_fuel
    have hc : (!inBounds row incR || !inBounds col incC ||
        elementAt b (row + incR) (col + incC) != PieceKind.CELL) = true := by
      by_contra hno
      simp only [Bool.or_eq_true, Bool.not_eq_true', bne_iff_ne, ne_eq, not_or,
        Bool.not_eq_false, not_not] at hno
      obtain ⟨⟨hr, hcol⟩, he⟩ := hno
      simp only [inBounds, Bool.and_eq_true, decide_eq_true_eq] at hr hcol
      exact hstop ⟨⟨hr.1, hr.2, hcol.1, hcol.2⟩, he⟩
    rw [if_pos hc]
    simp
  | succ n ih =>
    intro fuel row col hf hclear hstop
    obtain ⟨f, rfl⟩ : ∃ f, fuel = f + 1 := ⟨fuel - 1, by omega⟩
    have h1 := hclear 1 (le_refl _) (by omega)
    simp only [Nat.cast_one, one_mul] at h1
    unfold _check_fuel
    have hc : ¬ ((!inBounds row incR || !inBounds col incC ||
        elementAt b (row + incR) (col + incC) != PieceKind.CELL) = true) := by
      simp only [Bool.or_eq_true, Bool.not_eq_true', bne_iff_ne, ne_eq, not_or,
        Bool.not_eq_false, not_not, inBounds, Bool.and_eq_true, decide_eq_true_eq]
      exact ⟨⟨⟨h1.1.1, h1.1.2.1⟩, ⟨h1.1.2.2.1, h1.1.2.2.2⟩⟩, h1.2⟩
    rw [if_neg hc]
    have er : ∀ k : Nat, row + incR + (k : Int) * incR = row + ((k + 1 : Nat) : Int) * incR := by
      intro k; push_cast; ring
    have ec : ∀ k : Nat, col + incC + (k : Int) * incC = col + ((k + 1 : Nat) : Int) * incC := by
      intro k; push_cast; ring
    have := ih f (row + incR) (col + incC) (by omega)
      (fun k hk1 hkn => by
        rw [er, ec]
        exact hclear (k + 1) (by omega) (by omega))
      (by
        rw [er, ec]
        exact hstop)
    rw [this, er, ec]

/-- The square on which the scan stops lies on the ray of its direction. -/
theorem _check_fuel_ray (b : Board) (incR incC : Int) :
    ∀ (fuel : Nat) (row col : Int) (tip : Move),
      _check_fuel b incR incC fuel row col = some tip →
      ∃ n : Nat, tip.row = row + n * incR ∧ tip.col = col + n * incC := by
  intro fuel
  induction fuel with
  | zero =>
    intro row col tip h
    simp [_check_fuel] at h
  | succ f ih =>
    intro row col tip h
    unfold _check_fuel at h
    split_ifs at h
    · cases h
      exact ⟨0, by simp, by simp⟩
    · obtain ⟨n, h1, h2⟩ := ih _ _ tip h
      exact ⟨n + 1, by rw [h1]; push_cast; ring, by rw [h2]; push_cast; ring⟩


/-- C30 (amended): on every classic board, for every start square and every
one of the 8 directions, if exactly `n ≥ 1` consecutive squares in that
direction are on the board and empty (the next one is off the board or
occupied), then the square `n` steps away is among the destinations returned
by `Board::moves`, and for every `k` with `1 ≤ k < n` the square `k` steps
away in that direction is not: a piece stops only at the end of a clear
slide. -/
theorem C30_moves_maximal_slide (b : Board) (start : Move) (d : Direction) (n : Nat)
    (hn : 1 ≤ n)
    (hclear : ∀ k : Nat, 1 ≤ k → k ≤ n →
      (0 ≤ start.row + k * getRowMove d ∧ start.row + k * getRowMove d < 5 ∧
        0 ≤ start.col + k * getColMove d ∧ start.col + k * getColMove d < 5) ∧
      b.elementAt (start.row + k * getRowMove d) (start.col + k * getColMove d) =
        PieceKind.CELL)
    (hstop : ¬ ((0 ≤ start.row + (n + 1 : Nat) * getRowMove d ∧
        start.row + (n + 1 : Nat) * getRowMove d < 5 ∧
        0 ≤ start.col + (n + 1 : Nat) * getColMove d ∧
        start.col + (n + 1 : Nat) * getColMove d < 5) ∧
      b.elementAt (start.row + (n + 1 : Nat) * getRowMove d)
        (start.col + (n + 1 : Nat) * getColMove d) = PieceKind.CELL)) :
    (⟨start.row + n * getRowMove d, start.col + n * getColMove d, start.kind⟩ : Move) ∈
      b.moves start ∧
    ∀ k : Nat, 1 ≤ k → k < n → ∀ m ∈ b.moves start,
      ¬ (m.row = start.row + k * getRowMove d ∧ m.col = start.col + k * getColMove d) := by
  have hn5 : n < checkFuel := by
    have h := (hclear n hn (le_refl _)).1
    have h1 := (hclear 1 (le_refl _) hn).1
    simp only [Nat.cast_one, one_mul] at h1
    show n < 6
    cases d <;> simp only [getRowMove, getColMove] at h h1 <;> omega
  have hscan := _check_fuel_slide b (getRowMove d) (getColMove d) n checkFuel start.row
    start.col hn5 hclear hstop
  have htip : b._check start.row start.col (getRowMove d) (getColMove d) =
      ⟨start.row + n * getRowMove d, start.col + n * getColMove d,
        b.elementAt (start.row + n * getRowMove d) (start.col + n * getColMove d)⟩ := by
    unfold _check
    rw [hscan]
    rfl
  constructor
  · unfold moves
    rw [List.mem_filterMap]
    refine ⟨d, by cases d <;> decide, ?_⟩
    unfold checkMove
    simp only [htip]
    have hne : ¬ (start.row = start.row + n * getRowMove d ∧
        start.col = start.col + n * getColMove d) := by
      cases d <;> simp only [getRowMove, getColMove] <;> omega
    rw [if_neg hne]
  · intro k hk1 hkn m hm hmk
    unfold moves at hm
    rw [List.mem_filterMap] at hm
    obtain ⟨d', _, hd'⟩ := hm
    obtain ⟨tip, hfuel, hcheck⟩ := _check_terminates b start.row start.col d'
    obtain ⟨n', hr, hc⟩ := _check_fuel_ray b _ _ _ _ _ tip hfuel
    have hsame : getRowMove d' = getRowMove d → getColMove d' = getColMove d →
        tip.row = start.row + n * getRowMove d ∧ tip.col = start.col + n * getColMove d := by
      intro e1 e2
      rw [e1, e2, htip] at hcheck
      rw [← hcheck]
      exact ⟨rfl, rfl⟩
    unfold checkMove at hd'
    simp only [hcheck] at hd'
    split_ifs at hd' with hst
    simp only [Option.some.injEq] at hd'
    subst hd'
    simp only at hmk
    obtain ⟨hm1, hm2⟩ := hmk
    rw [hr] at hm1
    rw [hc] at hm2
    rw [hr, hc] at hsame
    cases d <;> cases d' <;> simp only [getRowMove, getColMove] at hm1 hm2 hsame <;>
      first
        | omega
        | exact False.elim (by have h9 := hsame trivial trivial; omega)

/-- C30 witness: the neutron of the opening board towards the east (two empty
squares, then the edge). -/
theorem C30_moves_maximal_slide_witness :
    (⟨2 + (2 : Nat) * getRowMove Direction.EAST, 2 + (2 : Nat) * getColMove Direction.EAST,
        PieceKind.NEUTRON⟩ : Move) ∈ openingBoard.moves ⟨2, 2, PieceKind.NEUTRON⟩ ∧
    ∀ k : Nat, 1 ≤ k → k < 2 → ∀ m ∈ openingBoard.moves ⟨2, 2, PieceKind.NEUTRON⟩,
      ¬ (m.row = 2 + k * getRowMove Direction.EAST ∧
        m.col = 2 + k * getColMove Direction.EAST) :=
  C30_moves_maximal_slide openingBoard ⟨2, 2, PieceKind.NEUTRON⟩ Direction.EAST 2 (by decide)
    (fun k hk1 hk2 => by
      have hk : k = 1 ∨ k = 2 := by omega
      rcases hk with rfl | rfl <;> decide)
    (by decide)

/-- C30 counterexample: on the opening board the neutron can slide east over
two empty squares, yet the square one step east is not among the destinations
returned by `Board::moves`. -/
theorem C30_counterexample :
    openingBoard.elementAt 2 2 = PieceKind.NEUTRON ∧
    openingBoard.elementAt 2 3 = PieceKind.CELL ∧
    openingBoard.elementAt 2 4 = PieceKind.CELL ∧
    ¬ ∃ m ∈ openingBoard.moves ⟨2, 2, PieceKind.NEUTRON⟩, m.row = 2 ∧ m.col = 3 := by
  decide

open Board

/-- Length of the longest prefix of `1, 2, 3, 4` on which `p` holds. -/
theorem takeWhile_range4 (p : Nat → Bool) :
    ((List.range 4).takeWhile fun n => p (n + 1)).length ≤ 4 ∧
    (∀ k : Nat, 1 ≤ k → k ≤ ((List.range 4).takeWhile fun n => p (n + 1)).length → p k = true) ∧
    (((List.range 4).takeWhile fun n => p (n + 1)).length < 4 →
      p (((List.range 4).takeWhile fun n => p (n + 1)).length + 1) = false) := by
  have hr : List.range 4 = [0, 1, 2, 3] := by decide
  rw [hr]
  cases h1 : p 1 <;> cases h2 : p 2 <;> cases h3 : p 3 <;> cases h4 : p 4 <;>
    simp [List.takeWhile, h1, h2, h3, h4] <;>
    (intro k hk1 hk2; first | omega | (interval_cases k <;> assumption))

/-- The value of `checkMove` in terms of the slide length. -/
theorem checkMove_eq (b : Board) (start : Move) (hs : onBoard start) (d : Direction) :
    b.checkMove start d =
      if clearAt b start d 1 then
        some ⟨start.row + slideLength b start d * getRowMove d,
          start.col + slideLength b start d * getColMove d, start.kind⟩
      else none := by
  obtain ⟨hle, hclear, hstop⟩ := takeWhile_range4 (clearAt b start d)
  have hn : slideLength b start d = ((List.range 4).takeWhile fun n => clearAt b start d (n + 1)).length := rfl
  rw [← hn] at hle hclear hstop
  obtain ⟨s1, s2, s3, s4⟩ := hs
  have hc : ∀ k : Nat, 1 ≤ k → k ≤ slideLength b start d →
      (0 ≤ start.row + k * getRowMove d ∧ start.row + k * getRowMove d < 5 ∧
        0 ≤ start.col + k * getColMove d ∧ start.col + k * getColMove d < 5) ∧
      b.elementAt (start.row + k * getRowMove d) (start.col + k * getColMove d) =
        PieceKind.CELL := by
    intro k h1 h2
    have := hclear k h1 h2
    simpa [clearAt] using this
  have hst : ¬ ((0 ≤ start.row + (slideLength b start d + 1 : Nat) * getRowMove d ∧
        start.row + (slideLength b start d + 1 : Nat) * getRowMove d < 5 ∧
        0 ≤ start.col + (slideLength b start d + 1 : Nat) * getColMove d ∧
        start.col + (slideLength b start d + 1 : Nat) * getColMove d < 5) ∧
      b.elementAt (start.row + (slideLength b start d + 1 : Nat) * getRowMove d)
        (start.col + (slideLength b start d + 1 : Nat) * getColMove d) = PieceKind.CELL) := by
    rcases Nat.lt_or_ge (slideLength b start d) 4 with h | h
    · have := hstop h
      intro hh
      simp only [clearAt, Bool.and_eq_false_iff, decide_eq_false_iff_not, beq_eq_false_iff_ne] at this
      rcases this with h1 | h1
      · exact h1 hh.1
      · exact h1 hh.2
    · have h4 : slideLength b start d = 4 := by omega
      rw [h4]
      rintro ⟨hb, _⟩
      cases d <;> simp only [getRowMove, getColMove] at hb <;> omega
  have hfuel := _check_fuel_slide b (getRowMove d) (getColMove d) (slideLength b start d) checkFuel
    start.row start.col (by show _ < 6; omega) hc hst
  have htip : b._check start.row start.col (getRowMove d) (getColMove d) =
      ⟨start.row + slideLength b start d * getRowMove d,
        start.col + slideLength b start d * getColMove d,
        b.elementAt (start.row + slideLength b start d * getRowMove d)
          (start.col + slideLength b start d * getColMove d)⟩ := by
    simp only [_check, hfuel, Option.getD_some]
  unfold checkMove
  simp only [htip]
  by_cases h1 : clearAt b start d 1 = true
  · have hpos : 1 ≤ slideLength b start d := by
      by_contra h0
      have h00 : slideLength b start d = 0 := by omega
      have := hstop (by omega)
      rw [h00] at this
      simp [h1] at this
    rw [if_pos h1, if_neg]
    rintro ⟨e1, e2⟩
    have hb := (hc _ hpos (le_refl _)).1
    cases d <;> simp only [getRowMove, getColMove] at e1 e2 hb <;> omega
  · have h0 : slideLength b start d = 0 := by
      by_contra hne
      exact h1 (hclear 1 (le_refl _) (by omega))
    rw [if_neg h1, h0, if_pos]
    simp

/-- C31: on every classic board and for every in-bounds start square,
`Board::moves` is the list obtained by visiting the directions in the order
N, S, E, W, NE, NW, SE, SW and emitting, for each direction whose adjacent cell
is on the board and empty, the one move whose square is the last empty cell
passed and whose kind is the moving piece's kind; it has at most 8 entries and
never contains the start square. -/
theorem C31_moves_direction_order (b : Board) (start : Move) (hs : onBoard start) :
    b.moves start = moves_spec b start ∧
    (b.moves start).length ≤ 8 ∧
    (∀ m ∈ b.moves start, ¬ (m.row = start.row ∧ m.col = start.col)) ∧
    ∀ d : Direction,
      slideLength b start d ≤ 4 ∧
      (∀ k : Nat, 1 ≤ k → k ≤ slideLength b start d → clearAt b start d k = true) ∧
      clearAt b start d (slideLength b start d + 1) = false := by
  refine ⟨?_, ?_, ?_, ?_⟩
  · unfold moves moves_spec directions
    congr 1
    funext d
    exact checkMove_eq b start hs d
  · unfold moves
    exact le_trans (List.length_filterMap_le _ _) (by decide)
  · intro m hm
    exact (mem_moves b start m hm).2.2.2
  · intro d
    obtain ⟨hle, hclear, hstop⟩ := takeWhile_range4 (clearAt b start d)
    refine ⟨hle, hclear, ?_⟩
    rcases Nat.lt_or_ge (slideLength b start d) 4 with h | h
    · exact hstop h
    · have h4 : slideLength b start d = 4 := by
        have : slideLength b start d ≤ 4 := hle
        omega
      rw [h4]
      obtain ⟨s1, s2, s3, s4⟩ := hs
      simp only [clearAt, Bool.and_eq_false_iff, decide_eq_false_iff_not]
      left
      cases d <;> simp only [getRowMove, getColMove] <;> omega

/-- C31 witness: the neutron of the opening board. -/
theorem C31_moves_direction_order_witness :
    openingBoard.moves ⟨2, 2, PieceKind.NEUTRON⟩ = moves_spec openingBoard ⟨2, 2, PieceKind.NEUTRON⟩ ∧
    (openingBoard.moves ⟨2, 2, PieceKind.NEUTRON⟩).length ≤ 8 ∧
    (∀ m ∈ openingBoard.moves ⟨2, 2, PieceKind.NEUTRON⟩, ¬ (m.row = 2 ∧ m.col = 2)) ∧
    ∀ d : Direction,
      slideLength openingBoard ⟨2, 2, PieceKind.NEUTRON⟩ d ≤ 4 ∧
      (∀ k : Nat, 1 ≤ k → k ≤ slideLength openingBoard ⟨2, 2, PieceKind.NEUTRON⟩ d →
        clearAt openingBoard ⟨2, 2, PieceKind.NEUTRON⟩ d k = true) ∧
      clearAt openingBoard ⟨2, 2, PieceKind.NEUTRON⟩ d
        (slideLength openingBoard ⟨2, 2, PieceKind.NEUTRON⟩ d + 1) = false :=
  C31_moves_direction_order openingBoard ⟨2, 2, PieceKind.NEUTRON⟩ (by decide)

open Board

/-- The loop of `heuristic` adds 1000 per move on row 0 and -5000 per move on
row 4. -/
theorem heuristic_fold_count (l : List Move) : ∀ c : Int,
    l.foldl (fun (count : Int) (neutronMove : Move) =>
        let count1 := if neutronMove.row = 4 then count + -5000 else count
        if neutronMove.row = 0 then count1 + 1000 else count1) c =
      c + 1000 * ((l.countP fun m => decide (m.row = 0) : Nat) : Int) -
        5000 * ((l.countP fun m => decide (m.row = 4) : Nat) : Int) := by
  induction l with
  | nil => intro c; simp
  | cons m rest ih =>
    intro c
    rw [List.foldl_cons, ih]
    by_cases h4 : m.row = 4
    · have h0 : ¬ m.row = 0 := by omega
      simp only [List.countP_cons, h4, h0, decide_True, decide_False, if_true, if_false]
      simp only [h4] at h0
      simp only [h0, decide_False, if_false, Bool.false_eq_true]
      push_cast
      omega
    · by_cases h0 : m.row = 0
      · simp only [List.countP_cons, h0, decide_True, if_true]
        simp only [h0] at h4
        simp only [h4, decide_False, if_false, Bool.false_eq_true]
        push_cast
        omega
      · simp only [List.countP_cons, h4, h0, decide_False, if_false, Bool.false_eq_true]
        push_cast
        omega

/-- Closed form of `heuristic` on a board containing the neutron. -/
theorem heuristic_eq (board : Board) (n : Move) (hf : board.findNeutron = some n) :
    heuristic board = some
      (if n.row = 0 then 32767
       else if n.row = 4 then -32768
       else 1000 * (((board.moves n).countP fun m => decide (m.row = 0) : Nat) : Int) -
         5000 * (((board.moves n).countP fun m => decide (m.row = 4) : Nat) : Int)) := by
  unfold heuristic
  rw [hf]
  simp only
  by_cases h4 : n.row = 4
  · have h0 : ¬ n.row = 0 := by omega
    rw [if_pos h4, if_neg h0, if_pos h4]
  · rw [if_neg h4]
    by_cases h0 : n.row = 0
    · rw [if_pos h0, if_pos h0]
    · rw [if_neg h0, if_neg h0, if_neg h4, heuristic_fold_count]
      simp

/-- The row of a destination returned by `checkMove` lies on the ray of the
direction. -/
theorem checkMove_ray (b : Board) (start : Move) (d : Direction) (m : Move)
    (h : b.checkMove start d = some m) :
    ∃ k : Nat, m.row = start.row + k * getRowMove d ∧ m.col = start.col + k * getColMove d := by
  obtain ⟨tip, ht, he⟩ := _check_terminates b start.row start.col d
  obtain ⟨k, h1, h2⟩ := _check_fuel_ray b _ _ _ _ _ tip ht
  unfold checkMove at h
  simp only [he] at h
  split_ifs at h
  simp only [Option.some.injEq] at h
  subst h
  exact ⟨k, h1, h2⟩

/-- A `filterMap` keeps at most as many elements with a property as there are
arguments whose image can have it. -/
theorem countP_filterMap_le {α β : Type} (f : α → Option β) (p : β → Bool) (q : α → Bool)
    (h : ∀ a b, f a = some b → p b = true → q a = true) :
    ∀ l : List α, (l.filterMap f).countP p ≤ l.countP q := by
  intro l
  induction l with
  | nil => simp
  | cons a rest ih =>
    cases hf : f a with
    | none =>
      rw [List.filterMap_cons_none hf, List.countP_cons]
      omega
    | some b =>
      rw [List.filterMap_cons_some hf, List.countP_cons, List.countP_cons]
      by_cases hp : p b = true
      · have := h a b hf hp
        simp only [hp, this, if_true]
        omega
      · by_cases hq : q a = true
        · simp only [hp, hq, if_true, if_false, Bool.false_eq_true]
          omega
        · simp only [hp, hq, if_false, Bool.false_eq_true]
          omega

/-- From a neutron on rows 1-3 at most 3 slide destinations are on row 0 and at
most 3 on row 4. -/
theorem moves_home_rows (b : Board) (n : Move) (hrow : 1 ≤ n.row ∧ n.row ≤ 3) :
    ((b.moves n).countP fun m => decide (m.row = 0)) ≤ 3 ∧
    ((b.moves n).countP fun m => decide (m.row = 4)) ≤ 3 := by
  constructor
  · have h := countP_filterMap_le (fun d => b.checkMove n d) (fun m => decide (m.row = 0))
      (fun d => decide (getRowMove d = -1)) (by
        intro d m hm hp
        obtain ⟨k, h1, _⟩ := checkMove_ray b n d m hm
        simp only [decide_eq_true_eq] at hp ⊢
        cases d <;> simp only [getRowMove] at h1 ⊢ <;> omega) directions
    exact le_trans h (by decide)
  · have h := countP_filterMap_le (fun d => b.checkMove n d) (fun m => decide (m.row = 4))
      (fun d => decide (getRowMove d = 1)) (by
        intro d m hm hp
        obtain ⟨k, h1, _⟩ := checkMove_ray b n d m hm
        simp only [decide_eq_true_eq] at hp ⊢
        cases d <;> simp only [getRowMove] at h1 ⊢ <;> omega) directions
    exact le_trans h (by decide)

/-- C32: on every classic board containing the neutron, `heuristic` is 32767
when the neutron is on row 0, -32768 when it is on row 4, and otherwise
`1000*a - 5000*b` with `a` the number of destinations of `Board::moves` for the
neutron on row 0 and `b` the number on row 4; `heuristic` takes the board only,
so the value cannot depend on the player to move. -/
theorem C32_heuristic_definition (board : Board) (n : Move)
    (hf : board.findNeutron = some n) :
    heuristic board = some
      (if n.row = 0 then 32767
       else if n.row = 4 then -32768
       else 1000 * (((board.moves n).countP fun m => decide (m.row = 0) : Nat) : Int) -
         5000 * (((board.moves n).countP fun m => decide (m.row = 4) : Nat) : Int)) :=
  heuristic_eq board n hf

/-- C32 witness: the opening board, neutron on the centre square. -/
theorem C32_heuristic_definition_witness :
    heuristic openingBoard = some
      (if (2 : Int) = 0 then 32767
       else if (2 : Int) = 4 then -32768
       else 1000 * (((openingBoard.moves ⟨2, 2, PieceKind.NEUTRON⟩).countP
           fun m => decide (m.row = 0) : Nat) : Int) -
         5000 * (((openingBoard.moves ⟨2, 2, PieceKind.NEUTRON⟩).countP
           fun m => decide (m.row = 4) : Nat) : Int)) :=
  C32_heuristic_definition openingBoard ⟨2, 2, PieceKind.NEUTRON⟩ (by decide)

/-- C39: on every classic board whose neutron is on rows 1-3, at most 3 of the
neutron's slide destinations are on row 0 and at most 3 on row 4, and
`heuristic` lies in `[-15000, 3000]`, hence strictly between the sentinels
-32768 and 32767; and on every board containing the neutron the heuristic, the
score of every leaf, lies strictly between `INT_MIN` and `INT_MAX`. -/
theorem C39_heuristic_bounds (board : Board) (n : Move)
    (hf : board.findNeutron = some n) :
    (1 ≤ n.row ∧ n.row ≤ 3 →
      ((board.moves n).countP fun m => decide (m.row = 0)) ≤ 3 ∧
      ((board.moves n).countP fun m => decide (m.row = 4)) ≤ 3 ∧
      ∃ h, heuristic board = some h ∧ -15000 ≤ h ∧ h ≤ 3000 ∧ -32768 < h ∧ h < 32767) ∧
    ∃ h, heuristic board = some h ∧ INT_MIN < h ∧ h < INT_MAX := by
  have he := heuristic_eq board n hf
  constructor
  · intro hrow
    obtain ⟨ha, hb⟩ := moves_home_rows board n hrow
    refine ⟨ha, hb, _, he, ?_⟩
    rw [if_neg (by omega), if_neg (by omega)]
    omega
  · obtain ⟨h1, h2⟩ := heuristic_range board _ he
    exact ⟨_, he, by show (-2147483648 : Int) < _; omega, by show _ < (2147483647 : Int); omega⟩

/-- C39 witness: the opening board, neutron on row 2. -/
theorem C39_heuristic_bounds_witness :
    ((openingBoard.moves ⟨2, 2, PieceKind.NEUTRON⟩).countP fun m => decide (m.row = 0)) ≤ 3 ∧
    ((openingBoard.moves ⟨2, 2, PieceKind.NEUTRON⟩).countP fun m => decide (m.row = 4)) ≤ 3 ∧
    ∃ h, heuristic openingBoard = some h ∧ -15000 ≤ h ∧ h ≤ 3000 ∧ -32768 < h ∧ h < 32767 :=
  (C39_heuristic_bounds openingBoard ⟨2, 2, PieceKind.NEUTRON⟩ (by decide)).1 (by decide)

open Board

/-- The 25 table indices, column by column. -/
theorem finRange25_columns :
    List.finRange 25 = (List.finRange 5).flatMap fun col =>
      (List.finRange 5).map fun row => (⟨col.val * 5 + row.val, by omega⟩ : Fin 25) := by
  decide

/-- `findPieces` lists the pieces column by column, row by row. -/
theorem findPieces_eq_piecesOf (b : Board) (player : PieceKind) :
    b.findPieces player = piecesOf b player := by
  unfold findPieces piecesOf
  rw [finRange25_columns, List.filterMap_flatMap]
  congr 1
  funext col
  rw [List.filterMap_map]
  congr 1
  funext row
  have hr := row.isLt
  have hc := col.isLt
  have e : b.elementAt (row.val : Int) (col.val : Int) =
      b.table ⟨col.val * 5 + row.val, by omega⟩ := by
    unfold elementAt
    have := tabGet_of_fin b.table ⟨col.val * 5 + row.val, by omega⟩
    simp only at this
    rw [← this]
    congr 1
  simp only [Function.comp, e]
  have e1 : (((col.val * 5 + row.val) % 5 : Nat) : Int) = (row.val : Int) := by omega
  have e2 : (((col.val * 5 + row.val) / 5 : Nat) : Int) = (col.val : Int) := by omega
  rw [e1, e2]

/-- Keeping the first element with a property, if there is one. -/
theorem find_filter_take {α : Type} (p : α → Bool) : ∀ l : List α,
    (l.filter p).take 1 = (l.find? p).toList ∧ l.any p = (l.find? p).isSome := by
  intro l
  induction l with
  | nil => simp
  | cons a rest ih =>
    by_cases h : p a = true
    · simp [List.find?_cons, h]
    · have h' : p a = false := by simpa using h
      simp only [List.find?_cons, h', List.any_cons, Bool.false_or, List.filter_cons,
        Bool.false_eq_true, if_false]
      exact ih

theorem pruneNeutronMoves_eq_surviving (b : Board) (n : Move) (player : PieceKind) :
    pruneNeutronMoves (b.moves n) player = survivingDestinations b n player := by
  unfold pruneNeutronMoves survivingDestinations
  simp only
  have hfun : (fun m : Move => !decide (m.row = if player = PieceKind.BLACK then (4 : Int) else 0)) =
      (fun d : Move => decide (d.row ≠ if player = PieceKind.BLACK then (4 : Int) else 0)) := by
    funext m
    simp
  rw [hfun]
  obtain ⟨h1, h2⟩ := find_filter_take
    (fun m : Move => decide (m.row = if player = PieceKind.BLACK then (0 : Int) else 4))
    ((b.moves n).filter
      (fun d : Move => decide (d.row ≠ if player = PieceKind.BLACK then (4 : Int) else 0)))
  rw [h1, h2]
  cases List.find? _ _ <;> simp

/-- Relocating the neutron to a square of the neutron's kind is what the two
`applyMove` calls of the loop of `allMoves` do. -/
theorem applyMove_eq_relocate (b : Board) (n d : Move) (hk : d.kind = PieceKind.NEUTRON) :
    b.applyMove n d = relocateNeutron b n d := by
  apply ext_table
  intro i
  have hi : 0 ≤ (i.val : Int) ∧ (i.val : Int) < 25 := ⟨by omega, by omega⟩
  have h := tabGet_applyMove b n d (i.val : Int) hi
  rw [tabGet_of_fin, tabGet_of_fin] at h
  rw [h]
  simp only [relocateNeutron, index, hk]
  by_cases h1 : (i.val : Int) = d.col * 5 + d.row
  · by_cases h2 : (i.val : Int) = n.col * 5 + n.row
    · have : ¬ (n.col * 5 + n.row ≠ d.col * 5 + d.row) := by omega
      simp [h1, this]
    · rw [if_neg (fun hh => h2 hh.1)]
      simp only [h1, if_true]
  · by_cases h2 : (i.val : Int) = n.col * 5 + n.row
    · have : n.col * 5 + n.row ≠ d.col * 5 + d.row := by omega
      simp [h1, h2, this]
    · simp [h1, h2]

theorem mem_survivingDestinations (b : Board) (n d : Move) (player : PieceKind)
    (h : d ∈ survivingDestinations b n player) : d ∈ b.moves n := by
  rw [← pruneNeutronMoves_eq_surviving] at h
  exact (mem_pruneNeutronMoves _ _ _ h).1

/-- C34: on every classic board containing the neutron and for every player,
`Board::allMoves(player)` is exactly the list obtained by taking each surviving
neutron destination `d` in order, each of the player's pieces in column-major
board order, and each destination returned by `Board::moves` for that piece on
the board in which the neutron has been relocated to `d`, with one full move
(neutron square, `d`, piece, piece destination) per triple; on that board the
square left by the neutron is empty and the square `d` holds the neutron. -/
theorem C34_allMoves_enumeration (b : Board) (n : Move) (player : PieceKind)
    (hf : b.findNeutron = some n) :
    b.allMoves player = some (allMoves_spec b n player, b) ∧
    ∀ d ∈ survivingDestinations b n player,
      (relocateNeutron b n d).elementAt n.row n.col = PieceKind.CELL ∧
      (relocateNeutron b n d).elementAt d.row d.col = PieceKind.NEUTRON := by
  obtain ⟨hk, hon, he⟩ := findNeutron_some b n hf
  constructor
  · rw [allMoves_eq b player n hf, pruneNeutronMoves_eq_surviving, findPieces_eq_piecesOf]
    unfold allMoves_spec
    congr 2
    apply List.flatMap_congr
    intro d hd
    have hdk : d.kind = PieceKind.NEUTRON := by
      rw [(mem_moves b n d (mem_survivingDestinations b n d player hd)).1, hk]
    rw [applyMove_eq_relocate b n d hdk]
    rfl
  · intro d hd
    obtain ⟨_, hdon, _, hne⟩ := mem_moves b n d (mem_survivingDestinations b n d player hd)
    obtain ⟨a1, a2, a3, a4⟩ := hon
    obtain ⟨b1, b2, b3, b4⟩ := hdon
    have hn25 : 0 ≤ n.col * 5 + n.row ∧ n.col * 5 + n.row < 25 := by omega
    have hd25 : 0 ≤ d.col * 5 + d.row ∧ d.col * 5 + d.row < 25 := by omega
    have hcast1 : (((n.col * 5 + n.row).toNat : Nat) : Int) = n.col * 5 + n.row :=
      Int.toNat_of_nonneg hn25.1
    have hcast2 : (((d.col * 5 + d.row).toNat : Nat) : Int) = d.col * 5 + d.row :=
      Int.toNat_of_nonneg hd25.1
    have hneq : ¬ (n.col * 5 + n.row = d.col * 5 + d.row) := by
      intro e
      exact hne ⟨by omega, by omega⟩
    constructor
    · simp only [elementAt, tabGet, relocateNeutron, hn25, and_self, dite_true, hcast1, hneq,
        if_false, if_true]
    · simp only [elementAt, tabGet, relocateNeutron, hd25, and_self, dite_true, hcast2, if_true]

/-- C34 witness: the opening board, BLACK to move. -/
theorem C34_allMoves_enumeration_witness :
    openingBoard.allMoves PieceKind.BLACK =
      some (allMoves_spec openingBoard ⟨2, 2, PieceKind.NEUTRON⟩ PieceKind.BLACK, openingBoard) :=
  (C34_allMoves_enumeration openingBoard ⟨2, 2, PieceKind.NEUTRON⟩ PieceKind.BLACK
    (by decide)).1

open Board

/-- A budget above the depth is never exhausted: with two such budgets
`maxValue` and `minValue` compute the same result, on every board and for
every player value. -/
theorem minimax_fuel_irrelevant : ∀ (d f1 f2 : Nat), d < f1 → d < f2 →
    ∀ (b : Board) (alpha beta : Int) (player : PieceKind),
      maxValue f1 b (d : Int) alpha beta player = maxValue f2 b (d : Int) alpha beta player ∧
      minValue f1 b (d : Int) alpha beta player = minValue f2 b (d : Int) alpha beta player := by
  intro d
  induction d with
  | zero =>
    intro f1 f2 h1 h2 b alpha beta player
    obtain ⟨g1, rfl⟩ : ∃ g, f1 = g + 1 := ⟨f1 - 1, by omega⟩
    obtain ⟨g2, rfl⟩ : ∃ g, f2 = g + 1 := ⟨f2 - 1, by omega⟩
    constructor
    · unfold maxValue
      simp
    · unfold minValue
      simp
  | succ d ih =>
    intro f1 f2 h1 h2 b alpha beta player
    obtain ⟨g1, rfl⟩ : ∃ g, f1 = g + 1 := ⟨f1 - 1, by omega⟩
    obtain ⟨g2, rfl⟩ : ∃ g, f2 = g + 1 := ⟨f2 - 1, by omega⟩
    have hd : ((d + 1 : Nat) : Int) - 1 = (d : Int) := by push_cast; ring
    have hmin : (fun (b : Board) (a be : Int) =>
        minValue g1 b (((d + 1 : Nat) : Int) - 1) a be (otherPlayer player)) =
        (fun (b : Board) (a be : Int) =>
        minValue g2 b (((d + 1 : Nat) : Int) - 1) a be (otherPlayer player)) := by
      funext b a be
      rw [hd]
      exact (ih g1 g2 (by omega) (by omega) b a be _).2
    have hmax : (fun (b : Board) (a be : Int) =>
        maxValue g1 b (((d + 1 : Nat) : Int) - 1) a be (otherPlayer player)) =
        (fun (b : Board) (a be : Int) =>
        maxValue g2 b (((d + 1 : Nat) : Int) - 1) a be (otherPlayer player)) := by
      funext b a be
      rw [hd]
      exact (ih g1 g2 (by omega) (by omega) b a be _).1
    constructor
    · unfold maxValue
      rw [hmin]
    · unfold minValue
      rw [hmax]

/-- A scan that stops within a budget stops on the same square with a larger
one. -/
theorem _check_fuel_mono (b : Board) (incR incC : Int) :
    ∀ (n : Nat) (row col : Int) (tip : Move), _check_fuel b incR incC n row col = some tip →
      _check_fuel b incR incC (n + 1) row col = some tip := by
  intro n
  induction n with
  | zero => intro row col tip h; simp [_check_fuel] at h
  | succ n ih =>
    intro row col tip h
    unfold _check_fuel at h ⊢
    split_ifs at h ⊢
    · exact h
    · exact ih _ _ _ h

/-- From an in-bounds square the scan of `_check` stops within 5 calls, that
is after at most 4 steps, in each of the 8 directions. -/
theorem _check_fuel_five (b : Board) (row col : Int) (d : Direction)
    (hr : 0 ≤ row ∧ row < 5) (hc : 0 ≤ col ∧ col < 5) :
    ∃ tip, _check_fuel b (getRowMove d) (getColMove d) 5 row col = some tip := by
  have hcases : (getRowMove d = 1 ∨ getRowMove d = -1) ∨
      (getColMove d = 1 ∨ getColMove d = -1) := by
    cases d <;> simp [getRowMove, getColMove]
  rcases hcases with h | h
  · apply _check_fuel_some_row b _ _ h _ _ _ (by decide)
    intro h0 h5
    rcases h with h | h <;> simp [h] at h0 h5 ⊢ <;> omega
  · apply _check_fuel_some_col b _ _ h _ _ _ (by decide)
    intro h0 h5
    rcases h with h | h <;> simp [h] at h0 h5 ⊢ <;> omega

/-- C40: on every classic board containing the neutron, for every depth
`d ≥ 0`, every alpha and beta, and BLACK or WHITE to move, `maxValue` and
`minValue` return within `d + 1` nested calls; each nested call is made with
depth `d - 1` and uses one unit of the budget, and for every board and every
player value a budget larger than `d + 1` changes nothing, so the recursion
never goes below depth 0.  The scan of `Board::_check` stops within 5 calls
(at most 4 steps) from every in-bounds square in each of the 8 directions. -/
theorem C40_search_terminates (b : Board) (depth alpha beta : Int) (player : PieceKind)
    (hn : ∃ i, b.table i = PieceKind.NEUTRON)
    (hp : player = PieceKind.BLACK ∨ player = PieceKind.WHITE) (h0 : 0 ≤ depth) :
    (∃ r, maxValue (depth.toNat + 1) b depth alpha beta player = some r) ∧
    (∃ r, minValue (depth.toNat + 1) b depth alpha beta player = some r) ∧
    (∀ (fuel : Nat) (b' : Board) (alpha' beta' : Int) (player' : PieceKind),
      depth.toNat + 1 ≤ fuel →
      maxValue fuel b' depth alpha' beta' player' =
        maxValue (depth.toNat + 1) b' depth alpha' beta' player' ∧
      minValue fuel b' depth alpha' beta' player' =
        minValue (depth.toNat + 1) b' depth alpha' beta' player') ∧
    (∀ (b' : Board) (row col : Int) (d : Direction),
      0 ≤ row ∧ row < 5 → 0 ≤ col ∧ col < 5 →
      ∃ tip, _check_fuel b' (getRowMove d) (getColMove d) 5 row col = some tip ∧
        b'._check row col (getRowMove d) (getColMove d) = tip) := by
  obtain ⟨⟨r1, h1⟩, ⟨r2, h2⟩⟩ :=
    minimax_total (depth.toNat + 1) b depth alpha beta player hn hp h0 (by omega)
  refine ⟨⟨_, h1⟩, ⟨_, h2⟩, ?_, ?_⟩
  · intro fuel b' alpha' beta' player' hfuel
    have hd : ((depth.toNat : Nat) : Int) = depth := Int.toNat_of_nonneg h0
    have := minimax_fuel_irrelevant depth.toNat fuel (depth.toNat + 1) (by omega) (by omega)
      b' alpha' beta' player'
    rw [hd] at this
    exact this
  · intro b' row col d hr hc
    obtain ⟨tip, ht⟩ := _check_fuel_five b' row col d hr hc
    obtain ⟨tip', ht', he⟩ := _check_terminates b' row col d
    refine ⟨tip, ht, ?_⟩
    have hmono : _check_fuel b' (getRowMove d) (getColMove d) checkFuel row col = some tip := by
      exact _check_fuel_mono b' _ _ 5 row col tip ht
    rw [hmono] at ht'
    cases ht'
    exact he

/-- C40 witness: the opening board, WHITE to move, depth 1 and the full
window. -/
theorem C40_search_terminates_witness :
    ∃ r, minValue ((1 : Int).toNat + 1) openingBoard 1 INT_MIN INT_MAX PieceKind.WHITE = some r :=
  (C40_search_terminates openingBoard 1 INT_MIN INT_MAX PieceKind.WHITE
    ⟨⟨12, by decide⟩, by decide⟩ (Or.inr rfl) (by decide)).2.1

end classic

/-! ## Theorems: RL legal actions, piece conservation and the mirror -/

namespace neutron_rl

namespace GameState

/-- Unfolding of `emptyAt` one step further than `j`, in the form used by the
slide loop. -/
theorem emptyAt_succ (s : GameState) (cell dir : Int) (j : Nat) :
    emptyAt s cell dir (j + 1) = true ↔
      (0 ≤ cell / 5 + (kDirectionDeltas dir).1 + j * (kDirectionDeltas dir).1 ∧
        cell / 5 + (kDirectionDeltas dir).1 + j * (kDirectionDeltas dir).1 < 5 ∧
        0 ≤ cell % 5 + (kDirectionDeltas dir).2 + j * (kDirectionDeltas dir).2 ∧
        cell % 5 + (kDirectionDeltas dir).2 + j * (kDirectionDeltas dir).2 < 5 ∧
        arrGet s.board_ (rowcol_to_cell
          (cell / 5 + (kDirectionDeltas dir).1 + j * (kDirectionDeltas dir).1)
          (cell % 5 + (kDirectionDeltas dir).2 + j * (kDirectionDeltas dir).2)) = Piece.Empty) := by
  have e1 : cell / 5 + ((j + 1 : Nat) : Int) * (kDirectionDeltas dir).1 =
      cell / 5 + (kDirectionDeltas dir).1 + j * (kDirectionDeltas dir).1 := by
    push_cast; ring
  have e2 : cell % 5 + ((j + 1 : Nat) : Int) * (kDirectionDeltas dir).2 =
      cell % 5 + (kDirectionDeltas dir).2 + j * (kDirectionDeltas dir).2 := by
    push_cast; ring
  simp only [emptyAt, e1, e2, get_piece, rowcol_to_cell, kBoardSize, Bool.and_eq_true,
    decide_eq_true_eq, beq_iff_eq]
  tauto

/-- The slide distance computed by the loop is the number of consecutive empty
cells from the origin. -/
theorem max_slide_distance_eq_emptyRun (s : GameState) (cell dir : Int)
    (hc : 0 ≤ cell ∧ cell < 25) (hd : 0 ≤ dir ∧ dir < 8) :
    s.max_slide_distance cell dir = emptyRun s cell dir := by
  obtain ⟨k, hk⟩ := slide_loop_terminates s cell dir hd
  have hm : s.max_slide_distance cell dir = k := by
    simp [max_slide_distance, hk]
  rw [hm]
  unfold max_slide_distance_fuel at hk
  rw [cell_to_rowcol_of_nonneg cell hc.1] at hk
  simp only at hk
  obtain ⟨h0, hA, hB⟩ := slide_loop_spec _ _ _ _ _ _ _ _ hk
  simp only [sub_zero] at hA hB
  obtain ⟨hle, hclear, hstop⟩ := classic.takeWhile_range4 (emptyAt s cell dir)
  unfold emptyRun
  generalize ((List.range 4).takeWhile fun n => emptyAt s cell dir (n + 1)).length = L at *
  have hb := kDirectionDeltas_bound dir
  have hcs := kDirectionDeltas_cases dir hd
  have hk4 : k ≤ 4 := by
    by_contra hgt
    have := hA 4 (by omega) (by omega)
    rcases hcs with h | ⟨_, h⟩ <;> rcases h with h | h <;> simp only [h] at this <;> omega
  obtain ⟨kn, rfl⟩ : ∃ kn : Nat, k = (kn : Int) := ⟨k.toNat, (Int.toNat_of_nonneg h0).symm⟩
  have hkn : kn ≤ 4 := by omega
  rcases Nat.lt_trichotomy kn L with h | h | h
  · exfalso
    have := hclear (kn + 1) (by omega) (by omega)
    rw [emptyAt_succ] at this
    exact hB this
  · rw [h]
  · exfalso
    have h1 := hstop (by omega)
    have h2 := (emptyAt_succ s cell dir L).mpr (hA (L : Int) (by omega) (by omega))
    rw [h1] at h2
    cases h2

/-- Membership in `get_legal_actions`: the action encodes the full positive
slide of the piece to move from its cell in one of the 8 directions. -/
theorem mem_get_legal_actions (s : GameState) (a : Int)
    (hn : s.phase_ = Phase.MoveNeutron → ∃ i, s.board_ i = Piece.Neutron) :
    a ∈ s.get_legal_actions ↔
      ∃ (cell : Fin 25) (dir : Int), (0 ≤ dir ∧ dir < 8) ∧
        0 < s.max_slide_distance cell.val dir ∧
        a = encode_action cell.val dir (s.max_slide_distance cell.val dir) ∧
        (s.phase_ = Phase.MoveNeutron → s.find_neutron = (cell.val : Int)) ∧
        (s.phase_ = Phase.MovePawn →
          s.board_ cell = if s.current_player_ = 1 then Piece.Player1Pawn
            else Piece.Player2Pawn) := by
  unfold get_legal_actions
  by_cases hp : s.phase_ = Phase.MoveNeutron
  · rw [if_pos hp]
    obtain ⟨i, hi, hb⟩ := find_neutron_of_mem s (hn hp)
    simp only [hi]
    rw [mem_slide_actions]
    constructor
    · rintro ⟨dir, hd, hk, he⟩
      exact ⟨i, dir, hd, hk, he, fun _ => rfl, fun h => by rw [hp] at h; cases h⟩
    · rintro ⟨cell, dir, hd, hk, he, h1, _⟩
      have hci : cell = i := by
        have := h1 hp
        apply Fin.ext
        omega
      subst hci
      exact ⟨dir, hd, hk, he⟩
  · rw [if_neg hp]
    have hp' : s.phase_ = Phase.MovePawn := by
      cases hs : s.phase_ with
      | MoveNeutron => exact absurd hs hp
      | MovePawn => rfl
    simp only [List.mem_flatMap]
    constructor
    · rintro ⟨cell, _, hcell⟩
      by_cases hb : s.board_ cell =
          if s.current_player_ = 1 then Piece.Player1Pawn else Piece.Player2Pawn
      · rw [if_pos hb] at hcell
        obtain ⟨dir, hd, hk, he⟩ := (mem_slide_actions s _ a).mp hcell
        exact ⟨cell, dir, hd, hk, he, fun h => absurd h hp, fun _ => hb⟩
      · rw [if_neg hb] at hcell
        simp at hcell
    · rintro ⟨cell, dir, hd, hk, he, _, h2⟩
      refine ⟨cell, List.mem_finRange cell, ?_⟩
      rw [if_pos (h2 hp')]
      exact (mem_slide_actions s _ a).mpr ⟨dir, hd, hk, he⟩

/-- C33: on a state containing the neutron (one neutron cell), for every
action `a` in `[0, 800)` with `decode_action(a) = (cell, dir, dist)`: `a` is in
`get_legal_actions` if and only if the origin cell holds the piece that must
move (the neutron in phase MoveNeutron, a pawn of the current player in phase
MovePawn), `dist` equals the number of consecutive empty cells from the origin
in direction `dir` before the board edge or an occupied cell, and `dist ≥ 1`. -/
theorem C33_legal_actions_characterised (s : GameState) (a : Int)
    (hn : ∃ i, s.board_ i = Piece.Neutron)
    (hone : ∀ i j, s.board_ i = Piece.Neutron → s.board_ j = Piece.Neutron → i = j)
    (ha : 0 ≤ a ∧ a < 800) :
    a ∈ s.get_legal_actions ↔
      s.get_piece (decode_action a).1 = mustMove s ∧
      (decode_action a).2.2 = emptyRun s (decode_action a).1 (decode_action a).2.1 ∧
      1 ≤ (decode_action a).2.2 := by
  rw [mem_get_legal_actions s a (fun _ => hn)]
  obtain ⟨i, hi, hbi⟩ := find_neutron_of_mem s hn
  constructor
  · rintro ⟨cell, dir, hd, hk, he, h1, h2⟩
    have hc : 0 ≤ (cell.val : Int) ∧ (cell.val : Int) < 25 := ⟨by omega, by omega⟩
    have hrun := max_slide_distance_eq_emptyRun s cell.val dir hc hd
    have h4 := (max_slide_distance_pos s cell.val dir hc hd hk).1
    have hdec := decode_encode_action cell.val dir (s.max_slide_distance cell.val dir) hc.1 hd
      ⟨by omega, h4⟩
    rw [← he] at hdec
    rw [hdec]
    refine ⟨?_, hrun, by simp only; omega⟩
    simp only [get_piece, arrGet_of_fin, mustMove]
    cases hp : s.phase_ with
    | MoveNeutron =>
      have := h1 hp
      have hci : cell = i := by apply Fin.ext; omega
      rw [hci]; exact hbi
    | MovePawn => exact h2 hp
  · rintro ⟨hpiece, hrun, hpos⟩
    rw [decode_action_of_nonneg a ha.1] at hpiece hrun hpos
    simp only at hpiece hrun hpos
    have hc : 0 ≤ a / 32 ∧ a / 32 < 25 := by omega
    have hd : 0 ≤ a % 32 / 4 ∧ a % 32 / 4 < 8 := by omega
    have hcast : (((a / 32).toNat : Nat) : Int) = a / 32 := Int.toNat_of_nonneg hc.1
    have hmsd := max_slide_distance_eq_emptyRun s (a / 32) (a % 32 / 4) hc hd
    refine ⟨⟨(a / 32).toNat, by omega⟩, a % 32 / 4, hd, ?_, ?_, ?_, ?_⟩
    · simp only [hcast]; omega
    · simp only [hcast, hmsd, ← hrun, encode_action]; omega
    · intro hp
      have hb : s.board_ ⟨(a / 32).toNat, by omega⟩ = Piece.Neutron := by
        have := arrGet_of_fin s.board_ ⟨(a / 32).toNat, by omega⟩
        simp only [hcast] at this
        rw [← this]
        simpa [get_piece, mustMove, hp] using hpiece
      have := hone _ _ hb hbi
      rw [hi, ← this]
    · intro hp
      have := arrGet_of_fin s.board_ ⟨(a / 32).toNat, by omega⟩
      simp only [hcast] at this
      rw [← this]
      simpa [get_piece, mustMove, hp] using hpiece

/-- C33 witness: the opening state and action 384 (the neutron, one step
north). -/
theorem C33_legal_actions_characterised_witness :
    384 ∈ initial.get_legal_actions ↔
      initial.get_piece (decode_action 384).1 = mustMove initial ∧
      (decode_action 384).2.2 = emptyRun initial (decode_action 384).1 (decode_action 384).2.1 ∧
      1 ≤ (decode_action 384).2.2 :=
  C33_legal_actions_characterised initial 384 ⟨⟨12, by decide⟩, by decide⟩
    (by decide) (by decide)

end GameState

namespace GameState

/-- Every slide distance from a board cell in one of the 8 directions is
between 0 and 4. -/
theorem max_slide_distance_range (s : GameState) (cell dir : Int)
    (hc : 0 ≤ cell ∧ cell < 25) (hd : 0 ≤ dir ∧ dir < 8) :
    0 ≤ s.max_slide_distance cell dir ∧ s.max_slide_distance cell dir ≤ 4 := by
  rw [max_slide_distance_eq_emptyRun s cell dir hc hd]
  have := (classic.takeWhile_range4 (emptyAt s cell dir)).1
  unfold emptyRun
  omega

/-- The actions generated from one cell are strictly increasing and lie in the
block of 32 codes of that cell. -/
theorem slide_actions_sorted (s : GameState) (cell : Int) (hc : 0 ≤ cell ∧ cell < 25) :
    (s.slide_actions cell).Pairwise (fun x y => x < y) ∧
    ∀ a ∈ s.slide_actions cell, cell * 32 ≤ a ∧ a < cell * 32 + 32 := by
  constructor
  · unfold slide_actions
    have hdirs : directionRange.Pairwise (fun x y : Int => x < y ∧ 0 ≤ x ∧ y < 8) := by
      decide
    refine List.Pairwise.filterMap _ ?_ hdirs
    intro d1 d2 hlt x hx y hy
    obtain ⟨h12, h1, h2⟩ := hlt
    have r1 := max_slide_distance_range s cell d1 hc ⟨h1, by omega⟩
    have r2 := max_slide_distance_range s cell d2 hc ⟨by omega, h2⟩
    simp only [Option.mem_def] at hx hy
    split_ifs at hx hy
    simp only [Option.some.injEq] at hx hy
    subst hx hy
    simp only [encode_action]
    omega
  · intro a ha
    obtain ⟨dir, hd, hk, he⟩ := (mem_slide_actions s cell a).mp ha
    have r := max_slide_distance_range s cell dir hc hd
    rw [he]
    simp only [encode_action]
    omega

/-- C35: on every state containing the neutron the list returned by
`get_legal_actions` is strictly increasing and every element lies in
`[0, 800)`; every slide distance computed by `max_slide_distance` from a board
cell in one of the 8 directions is between 0 and 4. -/
theorem C35_legal_actions_sorted (s : GameState) (hn : ∃ i, s.board_ i = Piece.Neutron) :
    s.get_legal_actions.Pairwise (fun x y => x < y) ∧
    (∀ a ∈ s.get_legal_actions, 0 ≤ a ∧ a < 800) ∧
    ∀ cell dir : Int, 0 ≤ cell ∧ cell < 25 → 0 ≤ dir ∧ dir < 8 →
      0 ≤ s.max_slide_distance cell dir ∧ s.max_slide_distance cell dir ≤ 4 := by
  refine ⟨?_, ?_, fun cell dir hc hd => max_slide_distance_range s cell dir hc hd⟩
  · unfold get_legal_actions
    by_cases hp : s.phase_ = Phase.MoveNeutron
    · rw [if_pos hp]
      obtain ⟨i, hi, _⟩ := find_neutron_of_mem s hn
      simp only [hi]
      exact (slide_actions_sorted s i.val ⟨by omega, by omega⟩).1
    · rw [if_neg hp]
      simp only
      generalize (if s.current_player_ = 1 then Piece.Player1Pawn else Piece.Player2Pawn) = my_pawn
      rw [List.pairwise_flatMap]
      constructor
      · intro cell _
        by_cases hb : s.board_ cell = my_pawn
        · rw [if_pos hb]
          exact (slide_actions_sorted s cell.val ⟨by omega, by omega⟩).1
        · rw [if_neg hb]
          exact List.Pairwise.nil
      · refine List.Pairwise.imp ?_ (List.pairwise_lt_finRange 25)
        intro c1 c2 hlt x hx y hy
        by_cases hb1 : s.board_ c1 = my_pawn
        · by_cases hb2 : s.board_ c2 = my_pawn
          · rw [if_pos hb1] at hx
            rw [if_pos hb2] at hy
            have b1 := (slide_actions_sorted s c1.val ⟨by omega, by omega⟩).2 x hx
            have b2 := (slide_actions_sorted s c2.val ⟨by omega, by omega⟩).2 y hy
            have : (c1.val : Int) < (c2.val : Int) := by exact_mod_cast hlt
            omega
          · rw [if_neg hb2] at hy
            cases hy
        · rw [if_neg hb1] at hx
          cases hx
  · intro a ha
    obtain ⟨cell, dir, hd, hk, he, _, _⟩ := (mem_get_legal_actions s a (fun _ => hn)).mp ha
    have hc : 0 ≤ (cell.val : Int) ∧ (cell.val : Int) < 25 := ⟨by omega, by omega⟩
    have r := max_slide_distance_range s cell.val dir hc hd
    rw [he]
    simp only [encode_action]
    omega

/-- C35 witness: the opening state. -/
theorem C35_legal_actions_sorted_witness :
    initial.get_legal_actions.Pairwise (fun x y => x < y) ∧
    (∀ a ∈ initial.get_legal_actions, 0 ≤ a ∧ a < 800) ∧
    ∀ cell dir : Int, 0 ≤ cell ∧ cell < 25 → 0 ≤ dir ∧ dir < 8 →
      0 ≤ initial.max_slide_distance cell dir ∧ initial.max_slide_distance cell dir ≤ 4 :=
  C35_legal_actions_sorted initial ⟨⟨12, by decide⟩, by decide⟩

end GameState

namespace GameState

/-- Counting over the 25 cells is invariant under a permutation of the cells. -/
theorem countP_finRange_perm (σ : Equiv.Perm (Fin 25)) (q : Fin 25 → Bool) :
    (List.finRange 25).countP (fun i => q (σ i)) = (List.finRange 25).countP q := by
  have hperm : ((List.finRange 25).map σ).Perm (List.finRange 25) := by
    refine (List.perm_ext_iff_of_nodup ?_ (List.nodup_finRange 25)).mpr ?_
    · exact (List.nodup_finRange 25).map σ.injective
    · intro x
      simp only [List.mem_map, List.mem_finRange, true_and, iff_true]
      exact ⟨σ.symm x, by simp⟩
  rw [← hperm.countP_eq q, List.countP_map]
  rfl

/-- Effect of a legal action on the board: the contents of the origin cell and
of the (empty) destination cell are exchanged. -/
theorem apply_legal_swap (s : GameState) (a : Int)
    (hn : s.phase_ = Phase.MoveNeutron → ∃ i, s.board_ i = Piece.Neutron)
    (ha : a ∈ s.get_legal_actions) :
    ∃ (s' : GameState) (o d : Fin 25), s.apply_action a = some s' ∧
      (o.val : Int) = action_origin a ∧
      (d.val : Int) = rowcol_to_cell (action_destination a).1 (action_destination a).2 ∧
      o ≠ d ∧ s.board_ o ≠ Piece.Empty ∧ s.board_ d = Piece.Empty ∧
      ∀ j, s'.board_ j = s.board_ (Equiv.swap o d j) := by
  obtain ⟨cell, dir, hd, hk, he, h1, h2⟩ := (mem_get_legal_actions s a hn).mp ha
  have hc : 0 ≤ (cell.val : Int) ∧ (cell.val : Int) < 25 := ⟨by omega, by omega⟩
  obtain ⟨h4, hcells⟩ := max_slide_distance_pos s cell.val dir hc hd hk
  obtain ⟨ho, hdst⟩ := action_of_encode cell.val dir (s.max_slide_distance cell.val dir) hc hd
    ⟨by omega, h4⟩
  rw [← he] at ho hdst
  obtain ⟨b1, b2, b3, b4, hempty⟩ :=
    hcells (s.max_slide_distance cell.val dir) (by omega) (le_refl _)
  have hpiece : s.board_ cell ≠ Piece.Empty := by
    cases hp : s.phase_ with
    | MoveNeutron =>
      obtain ⟨i, hi, hb⟩ := find_neutron_of_mem s (hn hp)
      have hci : cell = i := by
        have := h1 hp
        apply Fin.ext
        omega
      rw [hci, hb]
      decide
    | MovePawn =>
      rw [h2 hp]
      split_ifs <;> decide
  generalize hD : rowcol_to_cell ((cell.val : Int) / 5 + (kDirectionDeltas dir).1 *
      s.max_slide_distance cell.val dir) ((cell.val : Int) % 5 + (kDirectionDeltas dir).2 *
      s.max_slide_distance cell.val dir) = D at hempty
  have hD25 : 0 ≤ D ∧ D < 25 := by
    rw [← hD]
    simp only [rowcol_to_cell, kBoardSize]
    omega
  have hcast : ((D.toNat : Nat) : Int) = D := Int.toNat_of_nonneg hD25.1
  have hdempty : s.board_ ⟨D.toNat, by omega⟩ = Piece.Empty := by
    have := arrGet_of_fin s.board_ ⟨D.toNat, by omega⟩
    simp only [hcast] at this
    rw [← this]
    exact hempty
  have hne : cell ≠ ⟨D.toNat, by omega⟩ := by
    intro e
    rw [← e] at hdempty
    exact hpiece hdempty
  have hdest : rowcol_to_cell (action_destination a).1 (action_destination a).2 = D := by
    rw [hdst]
    exact hD
  rw [apply_action_eq]
  have hnb : ¬ ((action_destination a).1 < 0 ∨ (action_destination a).1 ≥ 5 ∨
      (action_destination a).2 < 0 ∨ (action_destination a).2 ≥ 5) := by
    rw [hdst]; simp only; omega
  rw [if_neg hnb]
  refine ⟨_, cell, ⟨D.toNat, by omega⟩, rfl, ho.symm, hcast.trans hdest.symm, hne, hpiece,
    hdempty, ?_⟩
  intro j
  simp only [hdest, ho, arrSet]
  by_cases hj1 : j = cell
  · subst hj1
    simp only [if_true, Equiv.swap_apply_left]
    exact hdempty.symm
  · have hj1' : ¬ ((j.val : Int) = (cell.val : Int)) := by
      intro e
      exact hj1 (Fin.ext (by omega))
    rw [if_neg hj1']
    by_cases hj2 : j = ⟨D.toNat, by omega⟩
    · subst hj2
      simp only [hcast, if_true, Equiv.swap_apply_right]
      exact arrGet_of_fin s.board_ cell
    · have hj2' : ¬ ((j.val : Int) = D) := by
        intro e
        apply hj2
        apply Fin.ext
        simp only
        omega
      rw [if_neg hj2', Equiv.swap_apply_of_ne_of_ne hj1 hj2]

/-- A legal action keeps the number of cells holding each piece value. -/
theorem apply_legal_count (s s' : GameState) (a : Int)
    (hn : s.phase_ = Phase.MoveNeutron → ∃ i, s.board_ i = Piece.Neutron)
    (ha : a ∈ s.get_legal_actions) (hs : s.apply_action a = some s') (piece : Piece) :
    countPiece s' piece = countPiece s piece := by
  obtain ⟨s1, o, d, h1, _, _, _, _, _, hswap⟩ := apply_legal_swap s a hn ha
  rw [hs] at h1
  cases h1
  unfold countPiece
  have := countP_finRange_perm (Equiv.swap o d) (fun i => decide (s.board_ i = piece))
  rw [← this]
  congr 1
  funext j
  rw [hswap j]

/-- Every state reachable from the initial state by legal actions has one
neutron and five pawns per player. -/
theorem reachable_counts (t : GameState) (h : Reachable t) :
    countPiece t Piece.Neutron = 1 ∧ countPiece t Piece.Player1Pawn = 5 ∧
    countPiece t Piece.Player2Pawn = 5 := by
  induction h with
  | initial => decide
  | step s s' a _ ha hs ih =>
    have hn : ∃ i, s.board_ i = Piece.Neutron := by
      have hpos : 0 < countPiece s Piece.Neutron := by omega
      unfold countPiece at hpos
      obtain ⟨i, _, hi⟩ := List.countP_pos_iff.mp hpos
      exact ⟨i, by simpa using hi⟩
    rw [apply_legal_count s s' a (fun _ => hn) ha hs, apply_legal_count s s' a (fun _ => hn) ha hs,
      apply_legal_count s s' a (fun _ => hn) ha hs]
    exact ih

/-- C36: for every state (containing the neutron when the neutron is to
move) and every action `a` returned by `get_legal_actions`, `apply_action(a)`
returns a state with the same number of Neutron cells, of Player1Pawn cells
and of Player2Pawn cells, whose board differs from the original one in exactly
two cells, the origin and the destination of `a`; and every state reachable
from the initial state by legal actions has exactly one neutron and five pawns
per player. -/
theorem C36_piece_conservation (s : GameState) (a : Int)
    (hn : s.phase_ = Phase.MoveNeutron → ∃ i, s.board_ i = Piece.Neutron)
    (ha : a ∈ s.get_legal_actions) :
    (∃ s', s.apply_action a = some s' ∧
      countPiece s' Piece.Neutron = countPiece s Piece.Neutron ∧
      countPiece s' Piece.Player1Pawn = countPiece s Piece.Player1Pawn ∧
      countPiece s' Piece.Player2Pawn = countPiece s Piece.Player2Pawn ∧
      action_origin a ≠ rowcol_to_cell (action_destination a).1 (action_destination a).2 ∧
      ∀ j : Fin 25, s'.board_ j ≠ s.board_ j ↔
        ((j.val : Int) = action_origin a ∨
          (j.val : Int) = rowcol_to_cell (action_destination a).1 (action_destination a).2)) ∧
    ∀ t, Reachable t →
      countPiece t Piece.Neutron = 1 ∧ countPiece t Piece.Player1Pawn = 5 ∧
      countPiece t Piece.Player2Pawn = 5 := by
  refine ⟨?_, reachable_counts⟩
  obtain ⟨s', o, d, hs, ho, hd, hne, hpiece, hempty, hswap⟩ := apply_legal_swap s a hn ha
  refine ⟨s', hs, apply_legal_count s s' a hn ha hs _, apply_legal_count s s' a hn ha hs _,
    apply_legal_count s s' a hn ha hs _, ?_, ?_⟩
  · rw [← ho, ← hd]
    intro e
    exact hne (Fin.ext (by omega))
  · intro j
    rw [hswap j, ← ho, ← hd]
    by_cases hj1 : j = o
    · subst hj1
      rw [Equiv.swap_apply_left, hempty]
      exact ⟨fun _ => Or.inl rfl, fun _ h => hpiece h.symm⟩
    · by_cases hj2 : j = d
      · subst hj2
        rw [Equiv.swap_apply_right, hempty]
        exact ⟨fun _ => Or.inr rfl, fun _ h => hpiece h⟩
      · rw [Equiv.swap_apply_of_ne_of_ne hj1 hj2]
        constructor
        · intro h
          exact absurd rfl h
        · rintro (h | h)
          · exact absurd (Fin.ext (by omega)) hj1
          · exact absurd (Fin.ext (by omega)) hj2

/-- C36 witness: the opening state and action 384 (the neutron, one step
north). -/
theorem C36_piece_conservation_witness :
    ∃ s', initial.apply_action 384 = some s' ∧
      countPiece s' Piece.Neutron = countPiece initial Piece.Neutron ∧
      countPiece s' Piece.Player1Pawn = countPiece initial Piece.Player1Pawn ∧
      countPiece s' Piece.Player2Pawn = countPiece initial Piece.Player2Pawn ∧
      action_origin 384 ≠ rowcol_to_cell (action_destination 384).1 (action_destination 384).2 ∧
      ∀ j : Fin 25, s'.board_ j ≠ initial.board_ j ↔
        ((j.val : Int) = action_origin 384 ∨
          (j.val : Int) =
            rowcol_to_cell (action_destination 384).1 (action_destination 384).2) :=
  (C36_piece_conservation initial 384 (fun _ => ⟨⟨12, by decide⟩, by decide⟩) (by decide)).1

end GameState

namespace GameState

theorem swap_pawn_eq_empty (x : Piece) : swap_pawn x = Piece.Empty ↔ x = Piece.Empty := by
  unfold swap_pawn
  split_ifs with h1 h2
  · simp [h1]
  · simp [h2]
  · exact Iff.rfl

theorem swap_pawn_swap_pawn (x : Piece) : swap_pawn (swap_pawn x) = x := by
  unfold swap_pawn
  split_ifs <;> simp_all

/-- Mirroring twice gives the state back. -/
theorem mirror_mirror (s : GameState) : mirror (mirror s) = s := by
  cases s with
  | mk board player phase =>
    simp only [mirror, GameState.mk.injEq, and_true]
    constructor
    · funext i
      rw [swap_pawn_swap_pawn]
      congr 1
      apply Fin.ext
      simp only
      have := i.isLt
      omega
    · ring

theorem flip_flip_action (a : Int) (ha : 0 ≤ a ∧ a < 800) :
    flip_action (flip_action a) = a := by
  have he : a = encode_action (a / 32) (a % 32 / 4) (a % 32 % 4 + 1) := by
    unfold encode_action; omega
  have hc : 0 ≤ a / 32 ∧ a / 32 < 25 := by omega
  have hd : 0 ≤ a % 32 / 4 ∧ a % 32 / 4 < 8 := by omega
  have hk : 1 ≤ a % 32 % 4 + 1 ∧ a % 32 % 4 + 1 ≤ 4 := by omega
  obtain ⟨hf0, hf8, hff⟩ := kDirectionFlip_range (a % 32 / 4) hd
  have hfc : 0 ≤ (4 - a / 32 / 5) * 5 + a / 32 % 5 := by omega
  have hfa : flip_action a =
      encode_action ((4 - a / 32 / 5) * 5 + a / 32 % 5) (kDirectionFlip (a % 32 / 4))
        (a % 32 % 4 + 1) := by
    conv_lhs => rw [he]
    exact flip_action_encode _ _ _ hc.1 hd hk
  rw [hfa, flip_action_encode _ _ _ hfc ⟨hf0, hf8⟩ hk, hff]
  unfold encode_action
  omega

theorem kDirectionDeltas_flip (dir : Int) (hd : 0 ≤ dir ∧ dir < 8) :
    kDirectionDeltas (kDirectionFlip dir) =
      (-(kDirectionDeltas dir).1, (kDirectionDeltas dir).2) := by
  obtain ⟨h0, h8⟩ := hd
  interval_cases dir <;> rfl

/-- The cells met along a direction from a cell of the mirrored state are the
mirror images of the cells met along the flipped direction. -/
theorem emptyAt_mirror (s : GameState) (cell dir : Int) (k : Nat) (hd : 0 ≤ dir ∧ dir < 8) :
    emptyAt (mirror s) ((4 - cell / 5) * 5 + cell % 5) (kDirectionFlip dir) k =
      emptyAt s cell dir k := by
  have e1 : ((4 - cell / 5) * 5 + cell % 5) / 5 = 4 - cell / 5 := by omega
  have e2 : ((4 - cell / 5) * 5 + cell % 5) % 5 = cell % 5 := by omega
  simp only [emptyAt, e1, e2, kDirectionDeltas_flip dir hd]
  generalize hR : (k : Int) * (kDirectionDeltas dir).1 = R
  generalize hC : (k : Int) * (kDirectionDeltas dir).2 = C
  have hneg : (k : Int) * -(kDirectionDeltas dir).1 = -R := by rw [← hR]; ring
  rw [hneg]
  by_cases hb : 0 ≤ cell / 5 + R ∧ cell / 5 + R < 5 ∧ 0 ≤ cell % 5 + C ∧ cell % 5 + C < 5
  · have hb' : 0 ≤ 4 - cell / 5 + -R ∧ 4 - cell / 5 + -R < 5 ∧ 0 ≤ cell % 5 + C ∧
        cell % 5 + C < 5 := by omega
    simp only [hb, hb', and_self, decide_True, Bool.true_and]
    generalize hx : (4 - cell / 5 + -R) * 5 + (cell % 5 + C) = x
    have hx25 : 0 ≤ x ∧ x < 25 := by omega
    have hm := get_piece_mirror s x.toNat (by omega)
    have hcast : ((x.toNat : Nat) : Int) = x := Int.toNat_of_nonneg hx25.1
    have hidx : (((4 - x.toNat / 5) * 5 + x.toNat % 5 : Nat) : Int) =
        (cell / 5 + R) * 5 + (cell % 5 + C) := by omega
    rw [hcast, hidx] at hm
    rw [hm]
    by_cases he : s.get_piece ((cell / 5 + R) * 5 + (cell % 5 + C)) = Piece.Empty
    · simp [he, (swap_pawn_eq_empty _).mpr]
    · have : ¬ swap_pawn (s.get_piece ((cell / 5 + R) * 5 + (cell % 5 + C))) = Piece.Empty :=
        fun h => he ((swap_pawn_eq_empty _).mp h)
      simp [he, this]
  · have hb' : ¬ (0 ≤ 4 - cell / 5 + -R ∧ 4 - cell / 5 + -R < 5 ∧ 0 ≤ cell % 5 + C ∧
        cell % 5 + C < 5) := by omega
    simp only [hb, hb', decide_False, Bool.false_and]

/-- Slide distances are preserved by the mirror. -/
theorem max_slide_distance_mirror (s : GameState) (cell dir : Int)
    (hc : 0 ≤ cell ∧ cell < 25) (hd : 0 ≤ dir ∧ dir < 8) :
    (mirror s).max_slide_distance ((4 - cell / 5) * 5 + cell % 5) (kDirectionFlip dir) =
      s.max_slide_distance cell dir := by
  obtain ⟨hf0, hf8, _⟩ := kDirectionFlip_range dir hd
  rw [max_slide_distance_eq_emptyRun _ _ _ (by omega) ⟨hf0, hf8⟩,
    max_slide_distance_eq_emptyRun s cell dir hc hd]
  unfold emptyRun
  have : (fun n => emptyAt (mirror s) ((4 - cell / 5) * 5 + cell % 5) (kDirectionFlip dir)
      (n + 1)) = (fun n => emptyAt s cell dir (n + 1)) := by
    funext n
    exact emptyAt_mirror s cell dir (n + 1) hd
  rw [this]

theorem board_mirror (s : GameState) (i : Fin 25) :
    (mirror s).board_ ⟨(4 - i.val / 5) * 5 + i.val % 5, by omega⟩ = swap_pawn (s.board_ i) := by
  simp only [mirror]
  congr 2
  apply Fin.ext
  simp only
  have := i.isLt
  omega

/-- The flipped image of a legal action is legal in the mirrored state. -/
theorem flip_legal_of_legal (s : GameState)
    (hp : s.current_player_ = 1 ∨ s.current_player_ = 2)
    (hn : ∃ i, s.board_ i = Piece.Neutron)
    (hone : ∀ i j, s.board_ i = Piece.Neutron → s.board_ j = Piece.Neutron → i = j)
    (a : Int) (ha : a ∈ s.get_legal_actions) :
    flip_action a ∈ (mirror s).get_legal_actions := by
  obtain ⟨cell, dir, hd, hk, he, h1, h2⟩ := (mem_get_legal_actions s a (fun _ => hn)).mp ha
  have hc : 0 ≤ (cell.val : Int) ∧ (cell.val : Int) < 25 := ⟨by omega, by omega⟩
  have h4 := (max_slide_distance_pos s cell.val dir hc hd hk).1
  have hmn : ∃ i, (mirror s).board_ i = Piece.Neutron := by
    obtain ⟨i, hi⟩ := hn
    exact ⟨_, by rw [board_mirror s i, hi]; rfl⟩
  rw [mem_get_legal_actions (mirror s) _ (fun _ => hmn)]
  obtain ⟨hf0, hf8, _⟩ := kDirectionFlip_range dir hd
  have hcell : ((((4 - cell.val / 5) * 5 + cell.val % 5 : Nat)) : Int) =
      (4 - (cell.val : Int) / 5) * 5 + (cell.val : Int) % 5 := by omega
  have hmsd := max_slide_distance_mirror s cell.val dir hc hd
  refine ⟨⟨(4 - cell.val / 5) * 5 + cell.val % 5, by omega⟩, kDirectionFlip dir, ⟨hf0, hf8⟩,
    ?_, ?_, ?_, ?_⟩
  · simp only [hcell, hmsd]; exact hk
  · simp only [hcell, hmsd]
    rw [he]
    exact flip_action_encode _ _ _ hc.1 hd ⟨by omega, h4⟩
  · intro hph
    have hph' : s.phase_ = Phase.MoveNeutron := hph
    obtain ⟨i, hi, hb⟩ := find_neutron_of_mem (mirror s) hmn
    rw [hi]
    obtain ⟨j, hj, hbj⟩ := find_neutron_of_mem s hn
    have hcj : cell = j := by
      have := h1 hph'
      apply Fin.ext
      omega
    have hb2 : (mirror s).board_ ⟨(4 - cell.val / 5) * 5 + cell.val % 5, by omega⟩ =
        Piece.Neutron := by
      rw [board_mirror s cell, hcj, hbj]; rfl
    have hb3 : s.board_ ⟨(4 - i.val / 5) * 5 + i.val % 5, by omega⟩ = Piece.Neutron := by
      have : (mirror s).board_ i =
          swap_pawn (s.board_ ⟨(4 - i.val / 5) * 5 + i.val % 5, by omega⟩) := rfl
      rw [this] at hb
      exact (swap_pawn_eq_neutron _).mp hb
    have hij := hone _ _ hb3 hbj
    have hv : (4 - i.val / 5) * 5 + i.val % 5 = cell.val := by
      rw [hcj]
      exact congrArg Fin.val hij
    have := i.isLt
    simp only
    omega
  · intro hph
    have hph' : s.phase_ = Phase.MovePawn := hph
    rw [board_mirror s cell, h2 hph']
    have hpm : (mirror s).current_player_ = 3 - s.current_player_ := rfl
    rw [hpm]
    rcases hp with h | h <;> rw [h] <;> decide

/-- C37: for a state `s` containing the neutron (one neutron cell) with player
to move 1 or 2, and `mirror(s)` the state with rows reversed, the pawns of the
two players exchanged, the other player to move and the same phase: the legal
actions of `mirror(s)` are exactly the images under `flip_action` of the legal
actions of `s`; and for every legal action `a` of `s`, the entry `a` of a
flipped policy is the entry `flip_action(a)` of the policy, which is the prior
of a legal action of `mirror(s)`. -/
theorem C37_flip_action_mirrors_legal_actions (s : GameState)
    (hp : s.current_player_ = 1 ∨ s.current_player_ = 2)
    (hn : ∃ i, s.board_ i = Piece.Neutron)
    (hone : ∀ i j, s.board_ i = Piece.Neutron → s.board_ j = Piece.Neutron → i = j) :
    (∀ x : Int, x ∈ (mirror s).get_legal_actions ↔
      ∃ a ∈ s.get_legal_actions, x = flip_action a) ∧
    ∀ a ∈ s.get_legal_actions, flip_action a ∈ (mirror s).get_legal_actions ∧
      ∀ (V : Type) (zero : V) (policy : List V),
        (flip_policy zero policy)[a.toNat]? =
          some (policy.getD (flip_action a).toNat zero) := by
  have hmn : ∃ i, (mirror s).board_ i = Piece.Neutron := by
    obtain ⟨i, hi⟩ := hn
    exact ⟨_, by rw [board_mirror s i, hi]; rfl⟩
  have hmone : ∀ i j, (mirror s).board_ i = Piece.Neutron →
      (mirror s).board_ j = Piece.Neutron → i = j := by
    intro i j hi hj
    have hi' : s.board_ ⟨(4 - i.val / 5) * 5 + i.val % 5, by omega⟩ = Piece.Neutron :=
      (swap_pawn_eq_neutron _).mp hi
    have hj' : s.board_ ⟨(4 - j.val / 5) * 5 + j.val % 5, by omega⟩ = Piece.Neutron :=
      (swap_pawn_eq_neutron _).mp hj
    have hv : (4 - i.val / 5) * 5 + i.val % 5 = (4 - j.val / 5) * 5 + j.val % 5 :=
      congrArg Fin.val (hone _ _ hi' hj')
    apply Fin.ext
    have := i.isLt
    have := j.isLt
    omega
  have hmp : (mirror s).current_player_ = 1 ∨ (mirror s).current_player_ = 2 := by
    have hpm : (mirror s).current_player_ = 3 - s.current_player_ := rfl
    rw [hpm]
    rcases hp with h | h <;> rw [h] <;> decide
  have hrange : ∀ (t : GameState), (∃ i, t.board_ i = Piece.Neutron) →
      ∀ x ∈ t.get_legal_actions, 0 ≤ x ∧ x < 800 := by
    intro t ht x hx
    obtain ⟨cell, dir, hd, hk, he, _, _⟩ := (mem_get_legal_actions t x (fun _ => ht)).mp hx
    have hc : 0 ≤ (cell.val : Int) ∧ (cell.val : Int) < 25 := ⟨by omega, by omega⟩
    have r := max_slide_distance_range t cell.val dir hc hd
    rw [he]
    simp only [encode_action]
    omega
  constructor
  · intro x
    constructor
    · intro hx
      have h1 := flip_legal_of_legal (mirror s) hmp hmn hmone x hx
      rw [mirror_mirror] at h1
      exact ⟨flip_action x, h1, (flip_flip_action x (hrange _ hmn x hx)).symm⟩
    · rintro ⟨a, ha, rfl⟩
      exact flip_legal_of_legal s hp hn hone a ha
  · intro a ha
    refine ⟨flip_legal_of_legal s hp hn hone a ha, ?_⟩
    intro V zero policy
    obtain ⟨h0, h800⟩ := hrange s hn a ha
    have hcast : ((a.toNat : Nat) : Int) = a := Int.toNat_of_nonneg h0
    have := (flip_policy_spec zero policy).2 a.toNat (by omega)
    rw [hcast] at this
    exact this

/-- C37 witness: the opening state, player 1 to move, and action 400 (cell
12, direction 4, distance 1) of the mirrored state. -/
theorem C37_flip_action_mirrors_legal_actions_witness :
    400 ∈ (mirror initial).get_legal_actions ↔
      ∃ a ∈ initial.get_legal_actions, 400 = flip_action a :=
  (C37_flip_action_mirrors_legal_actions initial (Or.inl rfl) ⟨⟨12, by decide⟩, by decide⟩
    (by decide)).1 400

end GameState

/-! ### The tree search under finite arithmetic -/

open MCTSNode MCTS GameState

end neutron_rl

/-! ## Theorems: the two move generators under the board conversion -/

namespace rl_worker

open classic classic.Board neutron_rl neutron_rl.GameState

/-- Closed form of `to_rl_board`: the transposed table, piece by piece. -/
theorem to_rl_board_apply (js_board : Fin 25 → Nat) (i : Fin 25) :
    to_rl_board js_board i =
      to_rl_piece (to_int8 (js_board ⟨(i.val % 5) * 5 + i.val / 5, by omega⟩)) := by
  have hr : List.range 5 = [0, 1, 2, 3, 4] := by decide
  unfold to_rl_board
  rw [hr]
  simp only [List.foldl_cons, List.foldl_nil, arrSet, tabGet]
  fin_cases i <;> simp

/-- A byte in `{1, 2, 3, 4}` is converted to the empty RL piece exactly when
it is the classic value CELL. -/
theorem to_rl_piece_empty (v : Nat) (hv : 1 ≤ v ∧ v ≤ 4) :
    to_rl_piece (to_int8 v) = Piece.Empty ↔ v = PieceKind.CELL := by
  obtain ⟨h1, h4⟩ := hv
  interval_cases v <;> decide

/-- The square `(row, col)` of the classic board is empty exactly when the cell
`row * 5 + col` of the converted board is. -/
theorem empty_iff_cell (b : Board) (s : GameState) (hb : s.board_ = to_rl_board b.table)
    (hcells : ∀ i, 1 ≤ b.table i ∧ b.table i ≤ 4) (row col : Int)
    (hr : 0 ≤ row ∧ row < 5) (hc : 0 ≤ col ∧ col < 5) :
    s.get_piece (row * 5 + col) = Piece.Empty ↔ b.elementAt row col = PieceKind.CELL := by
  have h25 : 0 ≤ row * 5 + col ∧ row * 5 + col < 25 := by omega
  have h25' : 0 ≤ col * 5 + row ∧ col * 5 + row < 25 := by omega
  have hcast : (((row * 5 + col).toNat : Nat) : Int) = row * 5 + col :=
    Int.toNat_of_nonneg h25.1
  have hcast' : (((col * 5 + row).toNat : Nat) : Int) = col * 5 + row :=
    Int.toNat_of_nonneg h25'.1
  have e1 : s.get_piece (row * 5 + col) = s.board_ ⟨(row * 5 + col).toNat, by omega⟩ := by
    have := arrGet_of_fin s.board_ ⟨(row * 5 + col).toNat, by omega⟩
    simp only [hcast] at this
    exact this
  have e2 : b.elementAt row col = b.table ⟨(col * 5 + row).toNat, by omega⟩ := by
    have := tabGet_of_fin b.table ⟨(col * 5 + row).toNat, by omega⟩
    simp only [hcast'] at this
    exact this
  rw [e1, e2, hb, to_rl_board_apply]
  have hidx : (⟨((row * 5 + col).toNat % 5) * 5 + (row * 5 + col).toNat / 5, by omega⟩ : Fin 25) =
      ⟨(col * 5 + row).toNat, by omega⟩ := by
    apply Fin.ext
    simp only
    omega
  rw [hidx]
  exact to_rl_piece_empty _ (hcells _)

/-- The classic and the RL emptiness tests along a direction agree. -/
theorem clearAt_eq_emptyAt (b : Board) (s : GameState) (hb : s.board_ = to_rl_board b.table)
    (hcells : ∀ i, 1 ≤ b.table i ∧ b.table i ≤ 4) (start : Move) (hs : onBoard start)
    (d : Direction) (dir : Int)
    (hdir : kDirectionDeltas dir = (getRowMove d, getColMove d)) (k : Nat) :
    clearAt b start d k = emptyAt s (start.row * 5 + start.col) dir k := by
  obtain ⟨s1, s2, s3, s4⟩ := hs
  have e1 : (start.row * 5 + start.col) / 5 = start.row := by omega
  have e2 : (start.row * 5 + start.col) % 5 = start.col := by omega
  simp only [clearAt, emptyAt, e1, e2, hdir]
  by_cases hon : 0 ≤ start.row + k * getRowMove d ∧ start.row + k * getRowMove d < 5 ∧
      0 ≤ start.col + k * getColMove d ∧ start.col + k * getColMove d < 5
  · have h := empty_iff_cell b s hb hcells _ _ ⟨hon.1, hon.2.1⟩ ⟨hon.2.2.1, hon.2.2.2⟩
    simp only [hon, and_self, decide_True, Bool.true_and]
    by_cases he : b.elementAt (start.row + k * getRowMove d) (start.col + k * getColMove d) =
        PieceKind.CELL
    · simp [he, h.mpr he]
    · have : ¬ s.get_piece ((start.row + k * getRowMove d) * 5 +
          (start.col + k * getColMove d)) = Piece.Empty := fun hh => he (h.mp hh)
      simp [he, this]
  · simp only [hon, decide_False, Bool.false_and]

/-- Each classic direction has an RL direction with the same deltas, and
conversely. -/
theorem direction_correspondence :
    (∀ d : Direction, ∃ dir : Int, (0 ≤ dir ∧ dir < 8) ∧
      kDirectionDeltas dir = (getRowMove d, getColMove d)) ∧
    (∀ dir : Int, 0 ≤ dir ∧ dir < 8 → ∃ d : Direction,
      kDirectionDeltas dir = (getRowMove d, getColMove d)) := by
  constructor
  · intro d
    cases d
    · exact ⟨0, by decide, rfl⟩
    · exact ⟨4, by decide, rfl⟩
    · exact ⟨2, by decide, rfl⟩
    · exact ⟨6, by decide, rfl⟩
    · exact ⟨1, by decide, rfl⟩
    · exact ⟨7, by decide, rfl⟩
    · exact ⟨3, by decide, rfl⟩
    · exact ⟨5, by decide, rfl⟩
  · rintro dir ⟨h0, h8⟩
    interval_cases dir
    · exact ⟨Direction.NORTH, rfl⟩
    · exact ⟨Direction.NORTHEAST, rfl⟩
    · exact ⟨Direction.EAST, rfl⟩
    · exact ⟨Direction.SOUTHEAST, rfl⟩
    · exact ⟨Direction.SOUTH, rfl⟩
    · exact ⟨Direction.SOUTHWEST, rfl⟩
    · exact ⟨Direction.WEST, rfl⟩
    · exact ⟨Direction.NORTHWEST, rfl⟩

/-- Along corresponding directions the classic slide length is the RL slide
distance on the converted board. -/
theorem slideLength_eq_max_slide_distance (b : Board) (s : GameState)
    (hb : s.board_ = to_rl_board b.table) (hcells : ∀ i, 1 ≤ b.table i ∧ b.table i ≤ 4)
    (start : Move) (hs : onBoard start) (d : Direction) (dir : Int) (hd : 0 ≤ dir ∧ dir < 8)
    (hdir : kDirectionDeltas dir = (getRowMove d, getColMove d)) :
    s.max_slide_distance (start.row * 5 + start.col) dir = (slideLength b start d : Int) := by
  have hc : 0 ≤ start.row * 5 + start.col ∧ start.row * 5 + start.col < 25 := by
    obtain ⟨s1, s2, s3, s4⟩ := hs
    omega
  rw [max_slide_distance_eq_emptyRun s _ dir hc hd]
  unfold emptyRun slideLength
  have : (fun n => emptyAt s (start.row * 5 + start.col) dir (n + 1)) =
      (fun n => clearAt b start d (n + 1)) := by
    funext n
    exact (clearAt_eq_emptyAt b s hb hcells start hs d dir hdir (n + 1)).symm
  rw [this]

/-- Destinations of `Board::moves` in terms of the slide length. -/
theorem mem_moves_iff (b : Board) (start : Move) (hs : onBoard start) (x y : Int) :
    (∃ m ∈ b.moves start, m.row = x ∧ m.col = y) ↔
      ∃ d : Direction, 1 ≤ slideLength b start d ∧
        x = start.row + slideLength b start d * getRowMove d ∧
        y = start.col + slideLength b start d * getColMove d := by
  have hpos : ∀ d : Direction, clearAt b start d 1 = true ↔ 1 ≤ slideLength b start d := by
    intro d
    obtain ⟨_, hclear, hstop⟩ := takeWhile_range4 (clearAt b start d)
    constructor
    · intro h1
      by_contra h0
      have h00 : slideLength b start d = 0 := by omega
      have h2 := hstop (by show slideLength b start d < 4; omega)
      have h3 : clearAt b start d (slideLength b start d + 1) = false := h2
      rw [h00] at h3
      rw [h1] at h3
      cases h3
    · intro h1
      exact hclear 1 (le_refl _) h1
  unfold moves
  constructor
  · rintro ⟨m, hm, rfl, rfl⟩
    rw [List.mem_filterMap] at hm
    obtain ⟨d, _, hd⟩ := hm
    rw [checkMove_eq b start hs d] at hd
    by_cases h1 : clearAt b start d 1 = true
    · rw [if_pos h1] at hd
      simp only [Option.some.injEq] at hd
      subst hd
      exact ⟨d, (hpos d).mp h1, rfl, rfl⟩
    · rw [if_neg h1] at hd
      cases hd
  · rintro ⟨d, h1, rfl, rfl⟩
    refine ⟨⟨start.row + slideLength b start d * getRowMove d,
      start.col + slideLength b start d * getColMove d, start.kind⟩, ?_, rfl, rfl⟩
    rw [List.mem_filterMap]
    refine ⟨d, by cases d <;> decide, ?_⟩
    rw [checkMove_eq b start hs d, if_pos ((hpos d).mpr h1)]

/-- C38: for every classic board whose cells are all in `{1, 2, 3, 4}` and
every in-bounds square (row `r`, column `c`, stored at index `c*5 + r`), the
destination squares returned by `Board::moves` are exactly the squares
`(r + dr*k, c + dc*k)` obtained, over the 8 RL directions, from
`k = max_slide_distance(r*5 + c, dir) > 0` on a state whose board is
`to_rl_board(board)`; and `to_rl_board` writes at `r*5 + c` the converted
piece of index `c*5 + r`, with 4 mapped to 0, 1 to 2, 2 to 1 and 3 to 3. -/
theorem C38_generators_agree (b : Board) (start : Move) (s : GameState)
    (hcells : ∀ i, 1 ≤ b.table i ∧ b.table i ≤ 4) (hs : onBoard start)
    (hb : s.board_ = to_rl_board b.table) :
    (∀ x y : Int, (∃ m ∈ b.moves start, m.row = x ∧ m.col = y) ↔
      ∃ dir : Int, (0 ≤ dir ∧ dir < 8) ∧
        0 < s.max_slide_distance (start.row * 5 + start.col) dir ∧
        x = start.row + (kDirectionDeltas dir).1 *
          s.max_slide_distance (start.row * 5 + start.col) dir ∧
        y = start.col + (kDirectionDeltas dir).2 *
          s.max_slide_distance (start.row * 5 + start.col) dir) ∧
    (∀ r c : Fin 5, s.board_ ⟨r.val * 5 + c.val, by omega⟩ =
      to_rl_piece (b.table ⟨c.val * 5 + r.val, by omega⟩)) ∧
    to_rl_piece 4 = 0 ∧ to_rl_piece 1 = 2 ∧ to_rl_piece 2 = 1 ∧ to_rl_piece 3 = 3 := by
  refine ⟨?_, ?_, rfl, rfl, rfl, rfl⟩
  · intro x y
    rw [mem_moves_iff b start hs x y]
    constructor
    · rintro ⟨d, h1, hx, hy⟩
      obtain ⟨dir, hd, hdir⟩ := direction_correspondence.1 d
      have hm := slideLength_eq_max_slide_distance b s hb hcells start hs d dir hd hdir
      refine ⟨dir, hd, ?_, ?_, ?_⟩
      · rw [hm]; omega
      · rw [hm, hdir, hx]; ring
      · rw [hm, hdir, hy]; ring
    · rintro ⟨dir, hd, h1, hx, hy⟩
      obtain ⟨d, hdir⟩ := direction_correspondence.2 dir hd
      have hm := slideLength_eq_max_slide_distance b s hb hcells start hs d dir hd hdir
      rw [hm] at h1 hx hy
      rw [hdir] at hx hy
      refine ⟨d, by omega, ?_, ?_⟩
      · rw [hx]; ring
      · rw [hy]; ring
  · intro r c
    rw [hb, to_rl_board_apply]
    have hr := r.isLt
    have hc := c.isLt
    have hidx : (⟨((r.val * 5 + c.val) % 5) * 5 + (r.val * 5 + c.val) / 5, by omega⟩ : Fin 25) =
        ⟨c.val * 5 + r.val, by omega⟩ := by
      apply Fin.ext
      simp only
      omega
    rw [hidx]
    have hv := hcells ⟨c.val * 5 + r.val, by omega⟩
    congr 1
    unfold to_int8
    have : b.table ⟨c.val * 5 + r.val, by omega⟩ % 256 = b.table ⟨c.val * 5 + r.val, by omega⟩ := by
      omega
    rw [this, if_pos (by omega)]

/-- C38 witness: the neutron of the opening board and the square one step
north of it, on the converted opening board. -/
theorem C38_generators_agree_witness :
    (∃ m ∈ openingBoard.moves ⟨2, 2, PieceKind.NEUTRON⟩, m.row = 1 ∧ m.col = 2) ↔
      ∃ dir : Int, (0 ≤ dir ∧ dir < 8) ∧
        0 < (GameState.mk (to_rl_board openingBoard.table) 1
          Phase.MoveNeutron).max_slide_distance (2 * 5 + 2) dir ∧
        1 = 2 + (kDirectionDeltas dir).1 * (GameState.mk (to_rl_board openingBoard.table) 1
          Phase.MoveNeutron).max_slide_distance (2 * 5 + 2) dir ∧
        2 = 2 + (kDirectionDeltas dir).2 * (GameState.mk (to_rl_board openingBoard.table) 1
          Phase.MoveNeutron).max_slide_distance (2 * 5 + 2) dir :=
  (C38_generators_agree openingBoard ⟨2, 2, PieceKind.NEUTRON⟩
    (GameState.mk (to_rl_board openingBoard.table) 1 Phase.MoveNeutron)
    (by decide) (by decide) rfl).1 1 2

end rl_worker
